import Mathlib

/-!
# The SVG path-data interpreter of `juce_SVGParser.cpp`

A shallow embedding of `SVGState::parsePathString` and of the scanner functions it
calls (`parseNextNumber`, `parseCoord`, `parseCoords`, `parseCoordsOrSkip`,
`getCoordLength`), followed by theorems about them.

* A character cursor (`String::CharPointerType`) is the list of the characters that
  remain before the terminating zero; reading at the end gives the zero character.
* `float` arithmetic is a parameter (`FloatOps`): the theorems hold for every
  interpretation of the arithmetic operations, of `operator==` and of the text to
  number conversions; no algebraic law is assumed of them.
-/

namespace Juce

/-! ## Arithmetic -/

/-- Modelled from the spec: the `float` type with the operations the parser uses, and the
text conversions `String::getFloatValue` and `String::getIntValue` of the core library,
none of which is part of the parser's source file. `eq` is `operator==` on `float`;
`lit m e` is the constant written `m / 10^e` in the source (`96.0f`, `25.4f`, ...). -/
structure FloatOps where
  F : Type
  zero : F
  add : F → F → F
  sub : F → F → F
  mul : F → F → F
  div : F → F → F
  eq : F → F → Bool
  lit : Nat → Nat → F
  getFloatValue : List Char → F
  getIntValue : List Char → Int
  degreesToRadians : F → F

/-- The class `Point<float>`. -/
structure Point (N : FloatOps) where
  x : N.F
  y : N.F

namespace Point

variable {N : FloatOps}

/-- The default constructor `Point()`, the origin. -/
def origin : Point N := ⟨N.zero, N.zero⟩

/-- The `operator+` of `Point` (also `operator+=`). -/
def add (a b : Point N) : Point N := ⟨N.add a.x b.x, N.add a.y b.y⟩

/-- The `operator-` of `Point`. -/
def sub (a b : Point N) : Point N := ⟨N.sub a.x b.x, N.sub a.y b.y⟩

/-- The `operator==` of `Point`: both coordinates compare equal. -/
def eq (a b : Point N) : Bool := N.eq a.x b.x && N.eq a.y b.y

/-- The `operator!=` of `Point`. -/
def ne (a b : Point N) : Bool := !(N.eq a.x b.x) || !(N.eq a.y b.y)

end Point

/-! ## Characters and cursors -/

/-- The character under a cursor (`*s`): the zero character at the end of the text. -/
def cur (s : List Char) : Char := s.headD (Char.ofNat 0)

/-- The character at offset `i` from a cursor (`s[i]`). -/
def charAt (s : List Char) (i : Nat) : Char := s.getD i (Char.ofNat 0)

/-- Modelled from the spec: `CharPointer_UTF8::isWhitespace` of the core library, a space
or one of the control characters 9 to 13. -/
def isWhitespace (c : Char) : Bool := c == ' ' || (9 ≤ c.toNat && c.toNat ≤ 13)

/-- Modelled from the spec: `isDigit` of the core library, a decimal digit. -/
def isDigit (c : Char) : Bool := 48 ≤ c.toNat && c.toNat ≤ 57

/-- Modelled from the spec: `isLetter` of the core library, here a letter of the basic
Latin alphabet. -/
def isLetter (c : Char) : Bool :=
  (65 ≤ c.toNat && c.toNat ≤ 90) || (97 ≤ c.toNat && c.toNat ≤ 122)

/-- The cursor method `findEndOfWhitespace`. -/
def findEndOfWhitespace (s : List Char) : List Char := s.dropWhile isWhitespace

/-- A character skipped between numbers: `s.isWhitespace() || *s == ','`. -/
def isSeparator (c : Char) : Bool := isWhitespace c || c == ','

/-- The loop `while (s.isWhitespace() || *s == ',') ++s;`. -/
def skipSeparators (s : List Char) : List Char := s.dropWhile isSeparator

/-- The loop `while (s.isDigit()) ++s;`. -/
def skipDigits (s : List Char) : List Char := s.dropWhile isDigit

/-- The letters `CharPointer_ASCII ("MmLlHhVvCcSsQqTtAaZz")`. -/
def commandLetters : List Char :=
  ['M', 'm', 'L', 'l', 'H', 'h', 'V', 'v', 'C', 'c', 'S', 's', 'Q', 'q', 'T', 't',
   'A', 'a', 'Z', 'z']

/-! ## The number scanner -/

namespace SVGState

/-- The static function `isStartOfNumber`. -/
def isStartOfNumber (c : Char) : Bool := isDigit c || c == '-' || c == '+'

/-- The cursor after the optional sign (or first digit) of a number. -/
def scanSign (s : List Char) : List Char :=
  if isStartOfNumber (cur s) then s.tail else s

/-- The cursor after the optional fraction of a number. -/
def scanFraction (s : List Char) : List Char :=
  if cur s = '.' then skipDigits s.tail else s

/-- The cursor after the optional exponent of a number. -/
def scanExponent (s : List Char) : List Char :=
  if (cur s = 'e' ∨ cur s = 'E') ∧ isStartOfNumber (charAt s 1) = true then
    skipDigits (s.drop 2)
  else s

/-- The cursor after the optional unit letters of a number. -/
def scanUnits (allowUnits : Bool) (s : List Char) : List Char :=
  if allowUnits then s.dropWhile isLetter else s

/-- The position `s` of `parseNextNumber` where the comparison `s == start` is made,
as a function of `start`. -/
def scanNumber (allowUnits : Bool) (start : List Char) : List Char :=
  scanUnits allowUnits (scanExponent (scanFraction (skipDigits (scanSign start))))

/-- The static function `parseNextNumber`: the value written to `value` (`none` when the
function returns false and leaves `value` alone) and the new position of `text`. -/
def parseNextNumber (text : List Char) (allowUnits : Bool) :
    Option (List Char) × List Char :=
  let start := skipSeparators text
  let s := scanNumber allowUnits start
  if s.length = start.length then (none, s)
  else (some (start.take (start.length - s.length)), skipSeparators s)

end SVGState

/-- The parser object: the members of `SVGState` that the coordinate functions and the
style lookup read. -/
structure SVGState (N : FloatOps) where
  width : N.F
  height : N.F
  viewBoxW : N.F
  viewBoxH : N.F
  cssStyleText : List Char

namespace SVGState

variable {N : FloatOps}

/-- The method `getCoordLength (const String&, float)`. -/
def getCoordLength (N : FloatOps) (s : List Char) (sizeForProportions : N.F) : N.F :=
  let n := N.getFloatValue s
  let len := s.length
  if 2 < len then
    let dpi := N.lit 96 0
    let n1 := charAt s (len - 2)
    let n2 := charAt s (len - 1)
    if n1 = 'i' ∧ n2 = 'n' then N.mul n dpi
    else if n1 = 'm' ∧ n2 = 'm' then N.mul n (N.div dpi (N.lit 254 1))
    else if n1 = 'c' ∧ n2 = 'm' then N.mul n (N.div dpi (N.lit 254 2))
    else if n1 = 'p' ∧ n2 = 'c' then N.mul n (N.lit 15 0)
    else if n2 = '%' then N.mul n (N.mul (N.lit 1 2) sizeForProportions)
    else n
  else n

/-- The method `parseCoord`: the result, the number written to `value`, and the new
cursor. -/
def parseCoord (self : SVGState N) (s : List Char) (allowUnits isX : Bool) :
    Bool × N.F × List Char :=
  match parseNextNumber s allowUnits with
  | (none, s') => (false, N.zero, s')
  | (some number, s') =>
      (true, getCoordLength N number (if isX then self.viewBoxW else self.viewBoxH), s')

/-- The method `parseCoords`: the second coordinate is read only when the first was. -/
def parseCoords (self : SVGState N) (s : List Char) (p : Point N) (allowUnits : Bool) :
    Bool × Point N × List Char :=
  match self.parseCoord s allowUnits true with
  | (false, vx, s') => (false, ⟨vx, p.y⟩, s')
  | (true, vx, s') =>
      match self.parseCoord s' allowUnits false with
      | (ok, vy, s'') => (ok, ⟨vx, vy⟩, s'')

/-- The method `parseCoordsOrSkip`: after a failed read one character is skipped, unless
the cursor is at the end. -/
def parseCoordsOrSkip (self : SVGState N) (s : List Char) (p : Point N)
    (allowUnits : Bool) : Bool × Point N × List Char :=
  match self.parseCoords s p allowUnits with
  | (true, p', s') => (true, p', s')
  | (false, p', s') => (false, p', s'.tail)

end SVGState

/-! ## Paths -/

/-- One element of a path, with the points it was given. `arcTo` stands for the elements
appended by one call of `addCentredArc`, recorded by the end points, angle, flags and radii
that determine the call. -/
inductive PathElement (N : FloatOps) where
  | moveTo (p : Point N)
  | lineTo (p : Point N)
  | quadraticTo (control target : Point N)
  | cubicTo (control1 control2 target : Point N)
  | arcTo (source target : Point N) (angle : N.F) (largeArc sweep : Bool) (radii : Point N)
  | close

/-- Modelled from the spec: the class `Path` of the graphics module, which is not part of
the parser's source file: an ordered sequence of segments tagged move, line, quadratic,
cubic, arc or close. -/
abbrev Path (N : FloatOps) := List (PathElement N)

namespace Path

variable {N : FloatOps}

/-- Whether the last element of the path is a close. -/
def endsWithClose : Path N → Bool
  | [] => false
  | [PathElement.close] => true
  | [_] => false
  | _ :: e :: rest => endsWithClose (e :: rest)

/-- Modelled from the spec: a drawing call on a path with no element first starts a
subpath at the origin. -/
def ensureStarted (path : Path N) : Path N :=
  match path with
  | [] => [PathElement.moveTo Point.origin]
  | _ => path

/-- Modelled from the spec: `Path::startNewSubPath`. -/
def startNewSubPath (path : Path N) (p : Point N) : Path N :=
  path ++ [PathElement.moveTo p]

/-- Modelled from the spec: `Path::lineTo`. -/
def lineTo (path : Path N) (p : Point N) : Path N :=
  ensureStarted path ++ [PathElement.lineTo p]

/-- Modelled from the spec: `Path::quadraticTo`. -/
def quadraticTo (path : Path N) (c t : Point N) : Path N :=
  ensureStarted path ++ [PathElement.quadraticTo c t]

/-- Modelled from the spec: `Path::cubicTo`. -/
def cubicTo (path : Path N) (c1 c2 t : Point N) : Path N :=
  ensureStarted path ++ [PathElement.cubicTo c1 c2 t]

/-- Modelled from the spec: `Path::addCentredArc` applied to the result of
`endpointToCentreParameters` for the given end points, angle, flags and radii. -/
def addCentredArc (path : Path N) (source target : Point N) (angle : N.F)
    (largeArc sweep : Bool) (radii : Point N) : Path N :=
  ensureStarted path ++ [PathElement.arcTo source target angle largeArc sweep radii]

/-- Modelled from the spec: `Path::closeSubPath`. A subpath is closed or it is not: the
call marks the current subpath closed, and changes nothing when the path has no element or
its current subpath is closed already. -/
def closeSubPath (path : Path N) : Path N :=
  if path.isEmpty || endsWithClose path then path else path ++ [PathElement.close]

/-- The point where the last subpath of the path starts: the point of its last move. -/
def lastMove : Path N → Option (Point N)
  | [] => none
  | PathElement.moveTo p :: rest =>
      match lastMove rest with
      | some q => some q
      | none => some p
  | _ :: rest => lastMove rest

/-- The end point of the last element of a path, when it has one. -/
def lastTarget : Path N → Option (Point N)
  | [] => none
  | [PathElement.moveTo p] => some p
  | [PathElement.lineTo p] => some p
  | [PathElement.quadraticTo _ t] => some t
  | [PathElement.cubicTo _ _ t] => some t
  | [PathElement.arcTo _ t _ _ _ _] => some t
  | [PathElement.close] => none
  | _ :: e :: rest => lastTarget (e :: rest)

/-- Modelled from the spec: `Path::getCurrentPosition`: the end point of the last element,
the start of the subpath when the last element is a close, the origin for a path with no
element. -/
def getCurrentPosition (path : Path N) : Point N :=
  if endsWithClose path = true then (lastMove path).getD Point.origin
  else (lastTarget path).getD Point.origin

end Path

/-! ## The path-data interpreter -/

/-- The local variables of `parsePathString` together with the path it appends to.
`overrun` records that the cursor was incremented while it stood at the end of the text,
after which nothing is known of the run. -/
structure PathParse (N : FloatOps) where
  d : List Char
  path : Path N
  subpathStart : Point N
  last : Point N
  last2 : Point N
  p1 : Point N
  p2 : Point N
  p3 : Point N
  currentCommand : Char
  previousCommand : Char
  isRelative : Bool
  carryOn : Bool
  overrun : Bool

namespace SVGState

variable {N : FloatOps}

/-- The head of the loop body: a command letter under the cursor is consumed and becomes
the current command; any other character leaves the current command as it is. -/
def readCommand (st : PathParse N) : PathParse N :=
  if cur st.d ∈ commandLetters then
    { st with currentCommand := cur st.d, d := st.d.tail,
              isRelative := decide (97 ≤ (cur st.d).toNat) }
  else st

/-- The cases `M`, `m`, `L`, `l`. -/
def caseMoveLine (self : SVGState N) (st : PathParse N) : PathParse N :=
  match self.parseCoordsOrSkip st.d st.p1 false with
  | (true, p, d') =>
      let p1 := if st.isRelative then p.add st.last else p
      if st.currentCommand = 'M' ∨ st.currentCommand = 'm' then
        { st with d := d', p1 := p1, subpathStart := p1,
                  path := st.path.startNewSubPath p1, currentCommand := 'l',
                  last2 := st.last, last := p1 }
      else
        { st with d := d', p1 := p1, path := st.path.lineTo p1,
                  last2 := st.last, last := p1 }
  | (false, p, d') => { st with d := d', p1 := p }

/-- The increment `++d` of the cases `H`, `h`, `V`, `v` after a failed read, which is not
guarded by a test for the end of the text. -/
def advance (st : PathParse N) (d' : List Char) : PathParse N :=
  match d' with
  | [] => { st with d := [], overrun := true }
  | _ :: t => { st with d := t }

/-- The cases `H`, `h`. -/
def caseHorizontal (self : SVGState N) (st : PathParse N) : PathParse N :=
  match self.parseCoord st.d false true with
  | (true, v, d') =>
      let x := if st.isRelative then N.add v st.last.x else v
      { st with d := d', p1 := ⟨x, st.p1.y⟩, path := st.path.lineTo ⟨x, st.last.y⟩,
                last2 := ⟨st.last.x, st.last2.y⟩, last := ⟨x, st.last.y⟩ }
  | (false, v, d') => advance { st with p1 := ⟨v, st.p1.y⟩ } d'

/-- The cases `V`, `v`. -/
def caseVertical (self : SVGState N) (st : PathParse N) : PathParse N :=
  match self.parseCoord st.d false false with
  | (true, v, d') =>
      let y := if st.isRelative then N.add v st.last.y else v
      { st with d := d', p1 := ⟨st.p1.x, y⟩, path := st.path.lineTo ⟨st.last.x, y⟩,
                last2 := ⟨st.last2.x, st.last.y⟩, last := ⟨st.last.x, y⟩ }
  | (false, v, d') => advance { st with p1 := ⟨st.p1.x, v⟩ } d'

/-- The cases `C`, `c`. -/
def caseCubic (self : SVGState N) (st : PathParse N) : PathParse N :=
  match self.parseCoordsOrSkip st.d st.p1 false with
  | (false, a, d1) => { st with d := d1, p1 := a }
  | (true, a, d1) =>
    match self.parseCoordsOrSkip d1 st.p2 false with
    | (false, b, d2) => { st with d := d2, p1 := a, p2 := b }
    | (true, b, d2) =>
      match self.parseCoordsOrSkip d2 st.p3 false with
      | (false, c, d3) => { st with d := d3, p1 := a, p2 := b, p3 := c }
      | (true, c, d3) =>
          let p1 := if st.isRelative then a.add st.last else a
          let p2 := if st.isRelative then b.add st.last else b
          let p3 := if st.isRelative then c.add st.last else c
          { st with d := d3, p1 := p1, p2 := p2, p3 := p3,
                    path := st.path.cubicTo p1 p2 p3, last2 := p2, last := p3 }

/-- The cases `S`, `s`. -/
def caseSmoothCubic (self : SVGState N) (st : PathParse N) : PathParse N :=
  match self.parseCoordsOrSkip st.d st.p1 false with
  | (false, a, d1) => { st with d := d1, p1 := a }
  | (true, a, d1) =>
    match self.parseCoordsOrSkip d1 st.p3 false with
    | (false, c, d2) => { st with d := d2, p1 := a, p3 := c }
    | (true, c, d2) =>
        let p1 := if st.isRelative then a.add st.last else a
        let p3 := if st.isRelative then c.add st.last else c
        let p2 := st.last.add (st.last.sub st.last2)
        { st with d := d2, p1 := p1, p2 := p2, p3 := p3,
                  path := st.path.cubicTo p2 p1 p3, last2 := p1, last := p3 }

/-- The cases `Q`, `q`. -/
def caseQuadratic (self : SVGState N) (st : PathParse N) : PathParse N :=
  match self.parseCoordsOrSkip st.d st.p1 false with
  | (false, a, d1) => { st with d := d1, p1 := a }
  | (true, a, d1) =>
    match self.parseCoordsOrSkip d1 st.p2 false with
    | (false, b, d2) => { st with d := d2, p1 := a, p2 := b }
    | (true, b, d2) =>
        let p1 := if st.isRelative then a.add st.last else a
        let p2 := if st.isRelative then b.add st.last else b
        { st with d := d2, p1 := p1, p2 := p2,
                  path := st.path.quadraticTo p1 p2, last2 := p1, last := p2 }

/-- The cases `T`, `t`. -/
def caseSmoothQuadratic (self : SVGState N) (st : PathParse N) : PathParse N :=
  match self.parseCoordsOrSkip st.d st.p1 false with
  | (false, a, d1) => { st with d := d1, p1 := a }
  | (true, a, d1) =>
      let p1 := if st.isRelative then a.add st.last else a
      let p2 := if st.previousCommand ∈ ['Q', 'q', 'T', 't'] then
                  st.last.add (st.last.sub st.last2)
                else p1
      { st with d := d1, p1 := p1, p2 := p2,
                path := st.path.quadraticTo p2 p1, last2 := p2, last := p1 }

/-- The cases `A`, `a`. -/
def caseArc (self : SVGState N) (st : PathParse N) : PathParse N :=
  match self.parseCoordsOrSkip st.d st.p1 false with
  | (false, a, d1) => { st with d := d1, p1 := a }
  | (true, a, d1) =>
    match parseNextNumber d1 false with
    | (none, d2) => { st with d := d2, p1 := a }
    | (some num1, d2) =>
      let angle := N.degreesToRadians (N.getFloatValue num1)
      match parseNextNumber d2 false with
      | (none, d3) => { st with d := d3, p1 := a }
      | (some num2, d3) =>
        let largeArc := decide (N.getIntValue num2 ≠ 0)
        match parseNextNumber d3 false with
        | (none, d4) => { st with d := d4, p1 := a }
        | (some num3, d4) =>
          let sweep := decide (N.getIntValue num3 ≠ 0)
          match self.parseCoordsOrSkip d4 st.p2 false with
          | (false, b, d5) => { st with d := d5, p1 := a, p2 := b }
          | (true, b, d5) =>
              let p2 := if st.isRelative then b.add st.last else b
              let path :=
                if st.last.ne p2 then
                  (st.path.addCentredArc st.last p2 angle largeArc sweep a).lineTo p2
                else st.path
              { st with d := d5, p1 := a, p2 := p2, path := path,
                        last2 := st.last, last := p2 }

/-- The cases `Z`, `z`. -/
def caseClose (st : PathParse N) : PathParse N :=
  { st with path := st.path.closeSubPath, last := st.subpathStart,
            last2 := st.subpathStart, d := findEndOfWhitespace st.d,
            currentCommand := 'M' }

/-- The `switch (currentCommand)` of the loop body. -/
def dispatch (self : SVGState N) (st : PathParse N) : PathParse N :=
  let c := st.currentCommand
  if c = 'M' ∨ c = 'm' ∨ c = 'L' ∨ c = 'l' then self.caseMoveLine st
  else if c = 'H' ∨ c = 'h' then self.caseHorizontal st
  else if c = 'V' ∨ c = 'v' then self.caseVertical st
  else if c = 'C' ∨ c = 'c' then self.caseCubic st
  else if c = 'S' ∨ c = 's' then self.caseSmoothCubic st
  else if c = 'Q' ∨ c = 'q' then self.caseQuadratic st
  else if c = 'T' ∨ c = 't' then self.caseSmoothQuadratic st
  else if c = 'A' ∨ c = 'a' then self.caseArc st
  else if c = 'Z' ∨ c = 'z' then caseClose st
  else { st with carryOn := false }

/-- One pass through the body of the `while` loop, up to the statement
`previousCommand = currentCommand`, which is reached only when `carryOn` still holds. -/
def iteration (self : SVGState N) (st : PathParse N) : PathParse N :=
  let st' := self.dispatch (readCommand st)
  if st'.carryOn then { st' with previousCommand := st'.currentCommand } else st'

/-- The loop `while (! d.isEmpty())`, for at most `fuel` passes. The loop is left when the
cursor is at the end, after the `break`, and when the cursor has overrun the text. -/
def loop (self : SVGState N) : Nat → PathParse N → PathParse N
  | 0, st => st
  | fuel + 1, st =>
      if st.d.isEmpty || !st.carryOn || st.overrun then st
      else loop self fuel (self.iteration st)

/-- The variables of `parsePathString` before the loop. -/
def start (path : Path N) (pathString : List Char) : PathParse N :=
  { d := findEndOfWhitespace pathString, path := path,
    subpathStart := Point.origin, last := Point.origin, last2 := Point.origin,
    p1 := Point.origin, p2 := Point.origin, p3 := Point.origin,
    currentCommand := Char.ofNat 0, previousCommand := Char.ofNat 0,
    isRelative := true, carryOn := true, overrun := false }

/-- The variables of `parsePathString` when the loop is left. Every pass that does not
leave the loop consumes a character, so that as many passes as the text has characters
are enough. -/
def run (self : SVGState N) (path : Path N) (pathString : List Char) : PathParse N :=
  let st := start path pathString
  loop self st.d.length st

/-- The statement after the loop: a path that ends where its subpath started is closed. -/
def closeIfBackAtStart (st : PathParse N) : Path N :=
  if st.path.getCurrentPosition.eq st.subpathStart then st.path.closeSubPath else st.path

/-- The method `parsePathString`: the path after the call. -/
def parsePathString (self : SVGState N) (path : Path N) (pathString : List Char) : Path N :=
  closeIfBackAtStart (self.run path pathString)

end SVGState

end Juce

namespace Juce

/-! ## Well-formed path data -/

/-- A number as path data writes it: an optional sign, digits, an optional fraction (a
point and digits) and an optional exponent (`e` or `E`, a sign or digit, digits). -/
structure NumberText where
  sign : List Char
  whole : List Char
  fraction : List Char
  exponent : List Char
  deriving DecidableEq

namespace NumberText

/-- The characters of a number. -/
def chars (n : NumberText) : List Char := n.sign ++ n.whole ++ n.fraction ++ n.exponent

/-- The sign is absent or one of `-` and `+`. -/
def signOk (n : NumberText) : Bool := n.sign == [] || n.sign == ['-'] || n.sign == ['+']

/-- The fraction is absent or a point followed by digits. -/
def fractionOk (n : NumberText) : Bool :=
  match n.fraction with
  | [] => true
  | c :: f => c == '.' && f.all isDigit

/-- The exponent is absent or `e`/`E`, an optional sign, and at least one digit. -/
def exponentOk (n : NumberText) : Bool :=
  match n.exponent with
  | [] => true
  | [_] => false
  | e :: h :: t =>
      (e == 'e' || e == 'E') && SVGState.isStartOfNumber h && t.all isDigit
        && (isDigit h || !t.isEmpty)

/-- A well-formed number: there is at least one digit before the fraction. -/
def wellFormed (n : NumberText) : Bool :=
  n.signOk && !n.whole.isEmpty && n.whole.all isDigit && n.fractionOk && n.exponentOk

end NumberText

/-- The character under the cursor cannot continue a number that ends before it: it is no
digit, point or exponent letter. -/
def endsNumber (rest : List Char) : Bool :=
  !(isDigit (cur rest) || cur rest == '.' || cur rest == 'e' || cur rest == 'E')

/-- A coordinate pair as path data writes it: two numbers with separators (white space or
commas) before, between and after them. -/
structure PairText where
  pre : List Char
  x : NumberText
  mid : List Char
  y : NumberText
  post : List Char

namespace PairText

/-- The characters of a coordinate pair. -/
def chars (p : PairText) : List Char :=
  p.pre ++ (p.x.chars ++ (p.mid ++ (p.y.chars ++ p.post)))

/-- A well-formed pair: two well-formed numbers with at least one separator between. -/
def wellFormed (p : PairText) : Bool :=
  p.pre.all isSeparator && p.x.wellFormed && !p.mid.isEmpty && p.mid.all isSeparator
    && p.y.wellFormed && p.post.all isSeparator

/-- The point a pair denotes: the values of its two numbers. -/
def value (N : FloatOps) (p : PairText) : Point N :=
  ⟨N.getFloatValue p.x.chars, N.getFloatValue p.y.chars⟩

end PairText

/-- A character that occurs in a number written without units. -/
def numberChar (c : Char) : Bool :=
  isDigit c || c == '-' || c == '+' || c == '.' || c == 'e' || c == 'E'

end Juce

namespace Juce

/-- The letters of the move and line commands. -/
def moveLineLetters : List Char := ['M', 'm', 'L', 'l']

/-- A move or line command as path data writes it: a coordinate pair, after a command
letter or, for a pair that repeats the command before it, after no letter. -/
structure Segment where
  letter : Option Char
  pair : PairText

namespace Segment

/-- The characters of a command. -/
def chars (c : Segment) : List Char :=
  match c.letter with
  | some l => l :: c.pair.chars
  | none => c.pair.chars

/-- A well-formed command: the letter is one of `M`, `m`, `L`, `l` and the pair is well
formed; a pair without a letter is set off by at least one separator. -/
def wellFormed (c : Segment) : Bool :=
  c.pair.wellFormed &&
    match c.letter with
    | some l => decide (l ∈ moveLineLetters)
    | none => !c.pair.pre.isEmpty

end Segment

/-- The characters of a list of commands. -/
def render : List Segment → List Char
  | [] => []
  | c :: cs => c.chars ++ render cs

/-- What the move and line commands act on: the path, the start of its subpath, the
current point, and the command and mode that a pair without a letter takes. -/
structure Pen (N : FloatOps) where
  path : Path N
  subpathStart : Point N
  last : Point N
  command : Char
  isRelative : Bool

/-- The pen of an interpreter state. -/
def PathParse.pen {N : FloatOps} (st : PathParse N) : Pen N :=
  ⟨st.path, st.subpathStart, st.last, st.currentCommand, st.isRelative⟩

namespace Segment

/-- The effect of a move or line command: a lowercase letter adds the pair to the current
point; a move starts a subpath and makes `l` the command of the pairs that follow it. -/
def draw (N : FloatOps) (c : Segment) (pen : Pen N) : Pen N :=
  let command := c.letter.getD pen.command
  let isRelative :=
    match c.letter with
    | some l => decide (97 ≤ l.toNat)
    | none => pen.isRelative
  let p := if isRelative then (c.pair.value N).add pen.last else c.pair.value N
  if command = 'M' ∨ command = 'm' then
    ⟨pen.path.startNewSubPath p, p, p, 'l', isRelative⟩
  else ⟨pen.path.lineTo p, pen.subpathStart, p, command, isRelative⟩

end Segment

/-- The effect of a list of move and line commands. -/
def drawAll (N : FloatOps) : List Segment → Pen N → Pen N
  | [], pen => pen
  | c :: cs, pen => drawAll N cs (c.draw N pen)

end Juce

namespace Juce

/-- The pen before the first command of a path text. -/
def Pen.initial {N : FloatOps} (path : Path N) : Pen N :=
  ⟨path, Point.origin, Point.origin, Char.ofNat 0, true⟩

/-- The statement after the loop, on a pen. -/
def Pen.finish {N : FloatOps} (pen : Pen N) : Path N :=
  if pen.path.getCurrentPosition.eq pen.subpathStart then pen.path.closeSubPath
  else pen.path

end Juce

namespace Juce

namespace SVGState

variable {N : FloatOps}

/-- The cursor of `st'` is not behind that of `st`, and it is ahead of it when `st` had a
character left, unless the cursor has overrun the text. -/
def Advances (st st' : PathParse N) : Prop :=
  st'.d.length ≤ st.d.length
    ∧ (st.d ≠ [] → st'.d.length < st.d.length ∨ st'.overrun = true)

/-- The current command at the head of the loop body is never `Z` or `z`. -/
def Tidy (st : PathParse N) : Prop := st.currentCommand ≠ 'Z' ∧ st.currentCommand ≠ 'z'

/-- The pass made progress: the cursor moved forwards, or the loop is left. -/
def Progress (st st' : PathParse N) : Prop :=
  st'.d.length < st.d.length ∨ st'.overrun = true ∨ st'.carryOn = false

end SVGState

end Juce

namespace Juce

/-! ## Texts of move and line commands, and the path they describe -/

/-- A move or line command written with its letter. -/
structure Command where
  letter : Char
  pair : PairText

namespace Command

/-- A well-formed command: one of the letters `M`, `m`, `L`, `l` and a well-formed pair. -/
def wellFormed (c : Command) : Bool :=
  decide (c.letter ∈ moveLineLetters) && c.pair.wellFormed

/-- A command with its letter, as a command whose letter is optional. -/
def toSegment (c : Command) : Segment := ⟨some c.letter, c.pair⟩

/-- The point of a command when the current point is `current`: the pair itself for an
uppercase letter, the pair added to the current point for a lowercase letter. -/
def point (N : FloatOps) (c : Command) (current : Point N) : Point N :=
  if c.letter = 'm' ∨ c.letter = 'l' then (c.pair.value N).add current else c.pair.value N

/-- The path element of a command: a move for `M` and `m`, a line for `L` and `l`. -/
def element (N : FloatOps) (c : Command) (current : Point N) : PathElement N :=
  if c.letter = 'M' ∨ c.letter = 'm' then PathElement.moveTo (c.point N current)
  else PathElement.lineTo (c.point N current)

end Command

/-- The characters of a list of commands. -/
def commandsText : List Command → List Char
  | [] => []
  | c :: cs => c.letter :: (c.pair.chars ++ commandsText cs)

/-- The elements that a list of commands describes, one for each command in order,
starting from the current point `current`. -/
def expectedElements (N : FloatOps) : Point N → List Command → Path N
  | _, [] => []
  | current, c :: cs => c.element N current :: expectedElements N (c.point N current) cs

/-- The current point after a list of commands that starts from the point `current`. -/
def finalPoint (N : FloatOps) : Point N → List Command → Point N
  | current, [] => current
  | current, c :: cs => finalPoint N (c.point N current) cs

/-- The start of the last subpath after a list of commands, the point of its last move;
`start` when the list has no move. -/
def finalStart (N : FloatOps) : Point N → Point N → List Command → Point N
  | start, _, [] => start
  | start, current, c :: cs =>
      finalStart N (if c.letter = 'M' ∨ c.letter = 'm' then c.point N current else start)
        (c.point N current) cs

/-- The commands of a polyline: a move to the first pair and a line to each of the
others, all absolute. -/
def polyline (p0 : PairText) (ps : List PairText) : List Command :=
  ⟨'M', p0⟩ :: ps.map (fun p => ⟨'L', p⟩)

/-- The characters of coordinate pairs that follow one another without command letters. -/
def pairsText : List PairText → List Char
  | [] => []
  | p :: ps => p.chars ++ pairsText ps

/-- The characters of coordinate pairs that each follow the command letter `l`. -/
def linesText (l : Char) : List PairText → List Char
  | [] => []
  | p :: ps => l :: (p.chars ++ linesText l ps)

/-- Two pairs are made of the same two numbers; their separators may differ. -/
def sameNumbers (p q : PairText) : Bool := decide (p.x = q.x) && decide (p.y = q.y)

/-- A pair written without a command letter and the same pair written after a letter:
both are well formed, of the same numbers, and the first is set off by a separator. -/
def implicitExplicit (pq : PairText × PairText) : Bool :=
  pq.1.wellFormed && !pq.1.pre.isEmpty && pq.2.wellFormed && sameNumbers pq.1 pq.2

/-- The reflection of the point `c` through the point `centre`, as the interpreter computes
it: `centre + (centre - c)`. -/
def Point.reflect {N : FloatOps} (centre c : Point N) : Point N :=
  centre.add (centre.sub c)

/-- The operands of an arc command as path data writes them: the pair of radii, the angle,
the two flags and the end point, each set off from the next by at least one separator. -/
structure ArcText where
  radii : PairText
  angle : NumberText
  sep1 : List Char
  largeArc : NumberText
  sep2 : List Char
  sweep : NumberText
  target : PairText

namespace ArcText

/-- The characters of the operands of an arc. -/
def chars (a : ArcText) : List Char :=
  a.radii.chars ++ (a.angle.chars ++ (a.sep1 ++ (a.largeArc.chars ++ (a.sep2
    ++ (a.sweep.chars ++ a.target.chars)))))

/-- Well-formed operands of an arc: seven well-formed numbers with separators between. -/
def wellFormed (a : ArcText) : Bool :=
  a.radii.wellFormed && !a.radii.post.isEmpty && a.angle.wellFormed
    && !a.sep1.isEmpty && a.sep1.all isSeparator && a.largeArc.wellFormed
    && !a.sep2.isEmpty && a.sep2.all isSeparator && a.sweep.wellFormed
    && a.target.wellFormed && !a.target.pre.isEmpty

end ArcText

/-- The letters of the commands that take operands: all the command letters but `Z` and
`z`. -/
def operandLetters : List Char :=
  ['M', 'm', 'L', 'l', 'H', 'h', 'V', 'v', 'C', 'c', 'S', 's', 'Q', 'q', 'T', 't', 'A', 'a']

/-- The text under the cursor begins something that `parseNextNumber` takes for a number:
a sign or digit, a point, an exponent letter before a sign or digit, or, when units are
allowed, a letter. -/
def startsNumber (allowUnits : Bool) (s : List Char) : Bool :=
  SVGState.isStartOfNumber (cur s) || cur s == '.'
    || ((cur s == 'e' || cur s == 'E') && SVGState.isStartOfNumber (charAt s 1))
    || (allowUnits && isLetter (cur s))

/-- The exponent of a token: absent, or `e` or `E`, then a sign or digit, then digits. -/
def NumberText.exponentForm (n : NumberText) : Bool :=
  match n.exponent with
  | [] => true
  | [_] => false
  | e :: h :: t => (e == 'e' || e == 'E') && SVGState.isStartOfNumber h && t.all isDigit

/-- The form of a token of `parseNextNumber`: an optional sign, digits, an optional point
with digits, an optional exponent, and then letters, which only occur when units are
allowed. A run of digits may be empty. -/
def numberForm (allowUnits : Bool) (n : NumberText) (units : List Char) : Bool :=
  n.signOk && n.whole.all isDigit && n.fractionOk && n.exponentForm
    && units.all isLetter && (allowUnits || units.isEmpty)

/-- The path ends in a drawn point that the pen records, in a subpath whose start the pen
records. -/
def Pen.Ok {N : FloatOps} (pen : Pen N) : Prop :=
  pen.path ≠ [] ∧ pen.path.endsWithClose = false
    ∧ pen.path.lastTarget = some pen.last ∧ pen.path.lastMove = some pen.subpathStart

end Juce

namespace Juce

/-! ## An exact interpretation of the arithmetic, for evaluating examples -/

/-- The value of a run of decimal digits. -/
def digitsValue (s : List Char) : Nat := s.foldl (fun a c => 10 * a + (c.toNat - 48)) 0

/-- Modelled from the spec: `String::getFloatValue`, read exactly: white space, a sign,
digits, a fraction and an exponent; what follows is ignored and a text without digits
is 0. -/
def exactValue (s : List Char) : ℚ :=
  let s0 := findEndOfWhitespace s
  let s1 := if cur s0 = '-' ∨ cur s0 = '+' then s0.tail else s0
  let whole := s1.takeWhile isDigit
  let s2 := s1.dropWhile isDigit
  let fraction := if cur s2 = '.' then s2.tail.takeWhile isDigit else []
  let s3 := if cur s2 = '.' then s2.tail.dropWhile isDigit else s2
  let m : ℚ := (digitsValue (whole ++ fraction) : ℚ) / (10 ^ fraction.length : ℚ)
  let s4 := if cur s3 = 'e' ∨ cur s3 = 'E' then s3.tail else []
  let s5 := if cur s4 = '-' ∨ cur s4 = '+' then s4.tail else s4
  let e := digitsValue (s5.takeWhile isDigit)
  let v := if cur s4 = '-' then m / (10 ^ e : ℚ) else m * (10 ^ e : ℚ)
  if cur s0 = '-' then -v else v

/-- Modelled from the spec: `String::getIntValue`: white space, a sign and digits. -/
def exactInt (s : List Char) : Int :=
  let s0 := findEndOfWhitespace s
  let s1 := if cur s0 = '-' ∨ cur s0 = '+' then s0.tail else s0
  let v : Int := (digitsValue (s1.takeWhile isDigit) : Int)
  if cur s0 = '-' then -v else v

/-- Arithmetic without rounding, on rational numbers. It agrees with `float` arithmetic
wherever that is exact, as on the sums and differences of small whole numbers. The
conversion of degrees to radians takes 355/113 for the circle constant. -/
abbrev exactOps : FloatOps where
  F := ℚ
  zero := 0
  add := fun a b => a + b
  sub := fun a b => a - b
  mul := fun a b => a * b
  div := fun a b => a / b
  eq := fun a b => decide (a = b)
  lit := fun m e => (m : ℚ) / (10 ^ e : ℚ)
  getFloatValue := exactValue
  getIntValue := exactInt
  degreesToRadians := fun a => a * (355 / 113) / 180

/-- A parser with the member values that the constructor of `SVGState` sets. -/
def exampleState : SVGState exactOps := ⟨512, 512, 0, 0, []⟩

/-- The text of a whole number written with digits only. -/
def wholeNumber (digits : String) : NumberText := ⟨[], digits.toList, [], []⟩

/-- The pair `x,y` of two whole numbers, followed by the characters `post`. -/
def commaPair (x y post : String) : PairText :=
  ⟨[], wholeNumber x, [','], wholeNumber y, post.toList⟩

end Juce

namespace Juce

/-! ## Strings

The methods of `String` and `CharacterFunctions` that the style lookup calls. A `String`
is the list of its characters; an index that the source holds in an `int` and tests for
`< 0` is an `Option Nat`, with `none` for -1. -/

/-- Modelled from the spec: `CharacterFunctions::toUpperCase` of the core library, on the
letters of the basic Latin alphabet. -/
def toUpperCase (c : Char) : Char := c.toUpper

/-- Modelled from the spec: whether `CharacterFunctions::compareIgnoreCaseUpTo (s1, s2,
maxChars)` of the core library is 0: the first `maxChars` characters of the two texts are
the same up to case, the comparison ending early at the end of both texts. -/
def compareIgnoreCaseUpTo : List Char → List Char → Nat → Bool
  | _, _, 0 => true
  | s1, s2, n + 1 =>
    if toUpperCase (cur s1) ≠ toUpperCase (cur s2) then false
    else if cur s1 = Char.ofNat 0 then true
    else compareIgnoreCaseUpTo s1.tail s2.tail n

/-- Modelled from the spec: `CharacterFunctions::find (textToSearch, charToLookFor)` of the
core library: the cursor at the first occurrence of the character, or at the end. -/
def find (textToSearch : List Char) (charToLookFor : Char) : List Char :=
  textToSearch.dropWhile (fun c => c != charToLookFor)

/-- The search of `String::indexOf` from a cursor whose index is `index`. -/
def indexOfFrom : List Char → List Char → Nat → Option Nat
  | [], _, _ => none
  | c :: t, textToLookFor, index =>
    if textToLookFor.isPrefixOf (c :: t) then some index
    else indexOfFrom t textToLookFor (index + 1)

/-- Modelled from the spec: `String::indexOf (startIndex, textToLookFor)` of the core
library: the index of the first occurrence at or after `startIndex`, and -1 when there is
none or the text to look for is empty. -/
def indexOf (s : List Char) (startIndex : Nat) (textToLookFor : List Char) : Option Nat :=
  if textToLookFor.isEmpty then none
  else indexOfFrom (s.drop startIndex) textToLookFor startIndex

/-- The search of `String::indexOfChar` from a cursor whose index is `index`. -/
def indexOfCharFrom : List Char → Char → Nat → Option Nat
  | [], _, _ => none
  | c :: t, character, index =>
    if c = character then some index else indexOfCharFrom t character (index + 1)

/-- Modelled from the spec: `String::indexOfChar (startIndex, character)` of the core
library. -/
def indexOfChar (s : List Char) (startIndex : Nat) (character : Char) : Option Nat :=
  indexOfCharFrom (s.drop startIndex) character startIndex

/-- Modelled from the spec: `String::substring (start, end)` of the core library. -/
def substring (s : List Char) (start end_ : Nat) : List Char := (s.take end_).drop start

/-- Modelled from the spec: `String::trim` of the core library: the text without the white
space at its two ends. -/
def trim (s : List Char) : List Char :=
  ((s.dropWhile isWhitespace).reverse.dropWhile isWhitespace).reverse

/-- Modelled from the spec: the constructor `String (start, end)` of the core library: the
characters from the cursor `start` up to the cursor `end`, which lies later in the same
text. -/
def textBetween (start end_ : List Char) : List Char :=
  start.take (start.length - end_.length)

/-! ## XML elements -/

/-- Modelled from the spec: the class `XmlElement` of the core library, as the parser sees
an element: its tag name (no namespace prefix is in use), its attributes in order, its
child elements, and the text that `getAllSubText` returns for it. -/
inductive XmlElement where
  | mk (tagName : List Char) (attributes : List (List Char × List Char))
      (children : List XmlElement) (allSubText : List Char)

namespace XmlElement

/-- Modelled from the spec: `XmlElement::getTagNameWithoutNamespace`. -/
def getTagNameWithoutNamespace : XmlElement → List Char
  | mk tagName _ _ _ => tagName

/-- The attributes of an element, in order. -/
def attributes : XmlElement → List (List Char × List Char)
  | mk _ attributes _ _ => attributes

/-- The child elements that `forEachXmlChildElement` goes through, in order. -/
def children : XmlElement → List XmlElement
  | mk _ _ children _ => children

/-- Modelled from the spec: `XmlElement::getAllSubText`. -/
def getAllSubText : XmlElement → List Char
  | mk _ _ _ allSubText => allSubText

/-- Modelled from the spec: `XmlElement::hasAttribute`. -/
def hasAttribute (xml : XmlElement) (attributeName : List Char) : Bool :=
  xml.attributes.any (fun a => a.1 == attributeName)

/-- Modelled from the spec: `XmlElement::getStringAttribute (name, defaultReturnValue)`:
the value of the first attribute of that name, or the default. -/
def getStringAttribute (xml : XmlElement) (attributeName defaultReturnValue : List Char) :
    List Char :=
  match xml.attributes.find? (fun a => a.1 == attributeName) with
  | some a => a.2
  | none => defaultReturnValue

/-- Modelled from the spec: `XmlElement::getChildByName`: the first child with the tag. -/
def getChildByName (xml : XmlElement) (tagName : List Char) : Option XmlElement :=
  xml.children.find? (fun e => e.getTagNameWithoutNamespace == tagName)

end XmlElement

/-- The struct `XmlPath`: an element and the chain of its `parent` pointers, as the list of
the elements above it, nearest first (empty for a null `parent`). -/
structure XmlPath where
  xml : XmlElement
  parents : List XmlElement

namespace XmlPath

/-- The method `getChild` of `XmlPath`. -/
def getChild (self : XmlPath) (e : XmlElement) : XmlPath := ⟨e, self.xml :: self.parents⟩

/-- The member `parent` of `XmlPath`, `none` for a null pointer. -/
def parent (self : XmlPath) : Option XmlPath :=
  match self.parents with
  | [] => none
  | p :: ps => some ⟨p, ps⟩

end XmlPath

namespace SVGState

variable {N : FloatOps}

/-! ## The style lookup -/

/-- The static function `isIdentifierChar`. -/
def isIdentifierChar (c : Char) : Bool := isLetter c || c == '-'

/-- The loop of `getAttributeFromStyleList`, started with `i` at the given index. Each
pass that goes on raises `i`, so `fuel` bounds the passes. -/
def styleListLoop (list attributeName defaultValue : List Char) : Nat → Nat → List Char
  | 0, _ => defaultValue
  | fuel + 1, i =>
    match indexOf list i attributeName with
    | none => defaultValue
    | some i =>
      if (i = 0 ∨ (0 < i ∧ isIdentifierChar (charAt list (i - 1)) = false))
          ∧ isIdentifierChar (charAt list (i + attributeName.length)) = false then
        match indexOfChar list i ':' with
        | none => defaultValue
        | some i =>
          let end_ := (indexOfChar list i ';').getD 0x7ffff
          trim (substring list (i + 1) end_)
      else styleListLoop list attributeName defaultValue fuel (i + 1)

/-- The static function `getAttributeFromStyleList`. -/
def getAttributeFromStyleList (list attributeName defaultValue : List Char) : List Char :=
  styleListLoop list attributeName defaultValue (list.length + 1) 0

/-- The static function `findStyleItem`: the cursor it returns. -/
def findStyleItem : List Char → List Char → List Char
  | [], _ => []
  | c :: source, name =>
    if c = '.' ∧ compareIgnoreCaseUpTo source name name.length = true then
      let endOfName := findEndOfWhitespace (source.drop name.length)
      if cur endOfName = '{' then endOfName
      else if cur endOfName = ',' then find endOfName '{'
      else findStyleItem source name
    else findStyleItem source name

/-- The test that `findStyleItem` makes at the text after a point: the text starts with
the class name, up to the case of its letters, and what follows the name is white space
(possibly none) and then an opening brace or a comma. -/
def selectorAt (name source : List Char) : Bool :=
  compareIgnoreCaseUpTo source name name.length
    && (cur (findEndOfWhitespace (source.drop name.length)) == '{'
      || cur (findEndOfWhitespace (source.drop name.length)) == ',')

/-- No point in the text `pre`, which is followed by `rest`, starts a selector of the
class. -/
def noSelectorBefore (name : List Char) : List Char → List Char → Bool
  | [], _ => true
  | c :: pre, rest =>
    !(c == '.' && selectorAt name (pre ++ rest)) && noSelectorBefore name pre rest

/-- The loop over the blocks of the style text in `getStyleAttribute`, started with the
cursor `i`: the value that is returned from inside the loop, or `none` when the loop is
left by `break`. Each pass that goes on moves `i` forwards, so `fuel` bounds the passes. -/
def classLoop (xml : XmlElement) (attributeName defaultValue : List Char) :
    Nat → List Char → Option (List Char)
  | 0, _ => none
  | fuel + 1, i =>
    let openBrace := findStyleItem i (xml.getStringAttribute "class".toList [])
    if openBrace.isEmpty then none
    else
      let closeBrace := find openBrace '}'
      if closeBrace.isEmpty then none
      else
        let value := getAttributeFromStyleList (textBetween openBrace.tail closeBrace)
          attributeName defaultValue
        if !value.isEmpty then some value
        else classLoop xml attributeName defaultValue fuel closeBrace.tail

/-- The part of `getStyleAttribute` that looks at the element itself: the value returned
from it, or `none` when control reaches the test of `xml.parent`. -/
def ownStyleAttribute (self : SVGState N) (xml : XmlElement)
    (attributeName defaultValue : List Char) : Option (List Char) :=
  if xml.hasAttribute attributeName then
    some (xml.getStringAttribute attributeName defaultValue)
  else
    let styleAtt := xml.getStringAttribute "style".toList []
    if !styleAtt.isEmpty then
      let value := getAttributeFromStyleList styleAtt attributeName []
      if !value.isEmpty then some value else none
    else if xml.hasAttribute "class".toList then
      classLoop xml attributeName defaultValue (self.cssStyleText.length + 1)
        self.cssStyleText
    else none

/-- The method `getStyleAttribute` on an element and the elements above it. -/
def getStyleAttributeFrom (self : SVGState N) (attributeName defaultValue : List Char) :
    XmlElement → List XmlElement → List Char
  | xml, [] => (self.ownStyleAttribute xml attributeName defaultValue).getD defaultValue
  | xml, p :: ps =>
    match self.ownStyleAttribute xml attributeName defaultValue with
    | some value => value
    | none => getStyleAttributeFrom self attributeName defaultValue p ps

/-- The method `getStyleAttribute`. -/
def getStyleAttribute (self : SVGState N) (xml : XmlPath)
    (attributeName defaultValue : List Char) : List Char :=
  self.getStyleAttributeFrom attributeName defaultValue xml.xml xml.parents

end SVGState

end Juce

namespace Juce

/-! ## Elements and parser states for examples -/

/-- An element written with string literals. -/
def element (tagName : String) (attributes : List (String × String))
    (children : List XmlElement) (allSubText : String) : XmlElement :=
  XmlElement.mk tagName.toList (attributes.map (fun a => (a.1.toList, a.2.toList)))
    children allSubText.toList

/-- A parser as its constructor leaves it, but with the given style text. -/
def styleState (cssStyleText : String) : SVGState exactOps :=
  ⟨512, 512, 0, 0, cssStyleText.toList⟩

end Juce

namespace Juce

/-! ## The walk over the document

The methods that hand the elements of the document to the parser change one member of the
parser, `cssStyleText`, and make copies of the parser for some subtrees. They are written
here as functions from the parser before a call to the parser after it, and they list the
calls of `parseSubElement` that occur: the element of each call with the parser it is
called on, which is the parser whose `getStyleAttribute` resolves the styles of the
element. The drawables that the methods build are left out. -/

/-- A call of `parseSubElement`: the parser it is called on and its argument. -/
structure Visit (N : FloatOps) where
  state : SVGState N
  xml : XmlPath

namespace SVGState

variable {N : FloatOps}

/-- The result of the method `parsePathElement`: whether the tag is that of a shape. -/
def parsePathElement (tag : List Char) : Bool :=
  tag == "path".toList || tag == "rect".toList || tag == "circle".toList
    || tag == "ellipse".toList || tag == "line".toList || tag == "polyline".toList
    || tag == "polygon".toList || tag == "use".toList

/-- The method `parseCSSStyle`. -/
def parseCSSStyle (self : SVGState N) (xml : XmlElement) : SVGState N :=
  { self with cssStyleText := xml.getAllSubText ++ "\n".toList ++ self.cssStyleText }

/-- The method `parseDefs`. -/
def parseDefs (self : SVGState N) (xml : XmlElement) : SVGState N :=
  match xml.getChildByName "style".toList with
  | some style => self.parseCSSStyle style
  | none => self

/-- The method `parseGroupElement`, given as `sub` what `parseSubElements (xml, ...)` does
on a parser: with a `transform` attribute the children are parsed by a copy of the parser,
and the parser itself stays as it is. -/
def parseGroupElement (self : SVGState N) (xml : XmlElement)
    (sub : SVGState N → List (Visit N) × SVGState N) : List (Visit N) × SVGState N :=
  if xml.hasAttribute "transform".toList then
    let newState := self
    ((sub newState).1, self)
  else sub self

/-- The method `parseSVGElement`, given as `sub` what `parseSubElements (xml, ...)` does on
a parser: the children are parsed by a copy of the parser. The sizes and the transform
that the method sets in the copy play no part in the style lookup and are left as they
are. -/
def parseSVGElement (self : SVGState N)
    (sub : SVGState N → List (Visit N) × SVGState N) : List (Visit N) × SVGState N :=
  let newState := self
  ((sub newState).1, self)

mutual

/-- The method `parseSubElement` on the element `xml` below the elements `parents`. -/
def parseSubElement (self : SVGState N) (parents : List XmlElement) :
    XmlElement → List (Visit N) × SVGState N
  | XmlElement.mk tag attributes children text =>
    let xml := XmlElement.mk tag attributes children text
    let here : Visit N := ⟨self, ⟨xml, parents⟩⟩
    if parsePathElement tag then ([here], self)
    else if tag = "g".toList then
      let r := self.parseGroupElement xml
        (fun s => parseSubElements s (xml :: parents) children)
      (here :: r.1, r.2)
    else if tag = "svg".toList then
      let r := self.parseSVGElement (fun s => parseSubElements s (xml :: parents) children)
      (here :: r.1, r.2)
    else if tag = "text".toList then ([here], self)
    else if tag = "switch".toList then
      let r := parseSwitch self (xml :: parents) children
      (here :: r.1, r.2)
    else if tag = "a".toList then
      let r := self.parseGroupElement xml
        (fun s => parseSubElements s (xml :: parents) children)
      (here :: r.1, r.2)
    else if tag = "style".toList then ([here], self.parseCSSStyle xml)
    else if tag = "defs".toList then ([here], self.parseDefs xml)
    else ([here], self)

/-- The method `parseSubElements` on the children of an element, of which `parents` is the
path. -/
def parseSubElements (self : SVGState N) (parents : List XmlElement) :
    List XmlElement → List (Visit N) × SVGState N
  | [] => ([], self)
  | e :: es =>
    let r1 := parseSubElement self parents e
    let r2 := parseSubElements r1.2 parents es
    (r1.1 ++ r2.1, r2.2)

/-- The method `parseSwitch` on the children of the `switch` element, of which `parents`
is the path: the first child with the tag `g` is parsed as a group. -/
def parseSwitch (self : SVGState N) (parents : List XmlElement) :
    List XmlElement → List (Visit N) × SVGState N
  | [] => ([], self)
  | XmlElement.mk tag attributes children text :: es =>
    if tag = "g".toList then
      self.parseGroupElement (XmlElement.mk tag attributes children text)
        (fun s => parseSubElements s
          (XmlElement.mk tag attributes children text :: parents) children)
    else parseSwitch self parents es

end

/-- The constructor of `SVGState`: the member values it sets. -/
def initial (N : FloatOps) : SVGState N :=
  ⟨N.lit 512 0, N.lit 512 0, N.lit 0 0, N.lit 0 0, []⟩

end SVGState

/-- The function `Drawable::createFromSVG`: the calls of `parseSubElement` for a document,
in order; none when the document is no `svg` element. -/
def createFromSVG (N : FloatOps) (svgDocument : XmlElement) : List (Visit N) :=
  if svgDocument.getTagNameWithoutNamespace = "svg".toList then
    ((SVGState.initial N).parseSVGElement
      (fun s => SVGState.parseSubElements s [svgDocument] svgDocument.children)).1
  else []

namespace Visit

variable {N : FloatOps}

/-- The tag of the element of a call. -/
def tag (v : Visit N) : List Char := v.xml.xml.getTagNameWithoutNamespace

/-- The value that `getStyleAttribute` gives for the element of a call, on the parser of
the call. -/
def style (v : Visit N) (attributeName defaultValue : List Char) : List Char :=
  v.state.getStyleAttribute v.xml attributeName defaultValue

end Visit

end Juce

namespace Juce

/-! ## Comparisons and the maths library -/

/-- Modelled from the spec: the comparisons of `float` and `double` values, the unary
minus, the functions of the maths library that the parser calls (`std::cos`, `std::sin`,
`std::tan`, `acos`, `std::sqrt`, `juce_hypot`, `fmod`) and the constant `double_Pi`. No law
is assumed of them here. -/
structure MathOps (N : FloatOps) where
  neg : N.F → N.F
  lt : N.F → N.F → Bool
  le : N.F → N.F → Bool
  cos : N.F → N.F
  sin : N.F → N.F
  tan : N.F → N.F
  acos : N.F → N.F
  sqrt : N.F → N.F
  hypot : N.F → N.F → N.F
  fmod : N.F → N.F → N.F
  pi : N.F

namespace MathOps

variable {N : FloatOps}

/-- Modelled from the spec: `jmax` of the core library, `a < b ? b : a`. -/
def jmax (M : MathOps N) (a b : N.F) : N.F := if M.lt a b then b else a

/-- Modelled from the spec: `jmin` of the core library, `b < a ? b : a`. -/
def jmin (M : MathOps N) (a b : N.F) : N.F := if M.lt b a then b else a

/-- Modelled from the spec: `jlimit (lowerLimit, upperLimit, valueToConstrain)` of the core
library. -/
def jlimit (M : MathOps N) (lowerLimit upperLimit valueToConstrain : N.F) : N.F :=
  if M.lt valueToConstrain lowerLimit then lowerLimit
  else if M.lt upperLimit valueToConstrain then upperLimit
  else valueToConstrain

end MathOps

/-! ## Exact arithmetic on an ordered field -/

/-- Modelled from the spec: the functions that are no field operations, for arithmetic on
an ordered field `R`: those of the maths library, the constant `double_Pi`, and the
conversions of text to numbers, all of which the source takes from libraries. They are
parameters: no law is assumed of them. -/
structure Functions (R : Type) where
  cos : R → R
  sin : R → R
  tan : R → R
  acos : R → R
  sqrt : R → R
  hypot : R → R → R
  fmod : R → R → R
  pi : R
  getFloatValue : List Char → R
  getIntValue : List Char → Int

/-- Modelled from the spec: the arithmetic of `float` and `double`, which the source takes
from the language, idealised as arithmetic on an ordered field: the operations are the
field operations, without rounding, overflow, infinities or NaN. What is proved over it is
a fact about the formulas of the code on real numbers. It is a fact about the rounded
operations as well where they are exact or where the conclusion does not depend on the
rounding; where it does, the rounded arithmetic is `binaryOps`. -/
abbrev fieldOps (R : Type) [LinearOrderedField R] (fns : Functions R) : FloatOps where
  F := R
  zero := 0
  add := fun a b => a + b
  sub := fun a b => a - b
  mul := fun a b => a * b
  div := fun a b => a / b
  eq := fun a b => decide (a = b)
  lit := fun m e => (m : R) / (10 ^ e : R)
  getFloatValue := fns.getFloatValue
  getIntValue := fns.getIntValue
  degreesToRadians := fun a => (fns.pi / 180) * a

/-- Modelled from the spec: the comparisons and the unary minus of `float` and `double`
idealised as those of an ordered field, with the functions of the maths library and the
circle constant given by `fns`. No law is assumed of those functions: a law that a proof
needs, as that the square root squares to its argument, is a hypothesis of the theorem. -/
abbrev fieldMath (R : Type) [LinearOrderedField R] (fns : Functions R) :
    MathOps (fieldOps R fns) where
  neg := fun a => -a
  lt := fun a b => decide (a < b)
  le := fun a b => decide (a ≤ b)
  cos := fns.cos
  sin := fns.sin
  tan := fns.tan
  acos := fns.acos
  sqrt := fns.sqrt
  hypot := fns.hypot
  fmod := fns.fmod
  pi := fns.pi

/-- The square root of a rational number, exact on the squares of rational numbers. -/
def exactSqrt (q : ℚ) : ℚ := (Nat.sqrt q.num.toNat : ℚ) / (Nat.sqrt q.den : ℚ)

/-- The remainder of `fmod` on rational numbers: the quotient is truncated towards 0. -/
def exactFmod (x m : ℚ) : ℚ :=
  if 0 ≤ x / m then x - m * (⌊x / m⌋ : ℚ) else x - m * (⌈x / m⌉ : ℚ)

/-- Functions on the rational numbers for evaluating examples, in place of those of the
maths library, which they only approximate: the circle constant is 355/113, the square
root is exact on squares, cosine and sine are the polynomials `1 - x^2/2` and `x - x^3/6`,
exact at 0, and the arc cosine is the line through its values at -1, 0 and 1. -/
def exactFunctions : Functions ℚ where
  cos := fun x => 1 - x * x / 2
  sin := fun x => x - x * x * x / 6
  tan := fun x => (x - x * x * x / 6) / (1 - x * x / 2)
  acos := fun x => (355 / 226) * (1 - (if x < -1 then -1 else if 1 < x then 1 else x))
  sqrt := exactSqrt
  hypot := fun a b => exactSqrt (a * a + b * b)
  fmod := exactFmod
  pi := 355 / 113
  getFloatValue := exactValue
  getIntValue := exactInt

end Juce

namespace Juce

/-! ## Inherited attributes -/

namespace SVGState

variable {N : FloatOps}

/-- The method `getInheritedAttribute` on an element and the elements above it. -/
def getInheritedAttributeFrom (attributeName : List Char) :
    XmlElement → List XmlElement → List Char
  | xml, [] =>
    if xml.hasAttribute attributeName then xml.getStringAttribute attributeName [] else []
  | xml, p :: ps =>
    if xml.hasAttribute attributeName then xml.getStringAttribute attributeName []
    else getInheritedAttributeFrom attributeName p ps

/-- The method `getInheritedAttribute`. -/
def getInheritedAttribute (_self : SVGState N) (xml : XmlPath) (attributeName : List Char) :
    List Char :=
  getInheritedAttributeFrom attributeName xml.xml xml.parents

end SVGState

/-- The attributes of an element other than `style` and `class`, in order. -/
def XmlElement.otherAttributes (xml : XmlElement) : List (List Char × List Char) :=
  xml.attributes.filter (fun a => a.1 != "style".toList && a.1 != "class".toList)

/-- Two paths differ at most in the `style` and `class` attributes of their elements:
element by element, from the element itself up to the root, the other attributes are the
same. -/
def XmlPath.sameButStyle (a b : XmlPath) : Prop :=
  (a.xml :: a.parents).map XmlElement.otherAttributes
    = (b.xml :: b.parents).map XmlElement.otherAttributes

/-! ## Affine transforms -/

/-- Modelled from the spec: the class `AffineTransform` of the graphics library, the map
of `(x, y)` to `(mat00 x + mat01 y + mat02, mat10 x + mat11 y + mat12)`. -/
structure AffineTransform (N : FloatOps) where
  mat00 : N.F
  mat01 : N.F
  mat02 : N.F
  mat10 : N.F
  mat11 : N.F
  mat12 : N.F

namespace AffineTransform

variable {N : FloatOps}

/-- Modelled from the spec: the default constructor of `AffineTransform`, the identity. -/
def identity : AffineTransform N :=
  ⟨N.lit 1 0, N.zero, N.zero, N.zero, N.lit 1 0, N.zero⟩

/-- Modelled from the spec: `AffineTransform::followedBy`: this transform, then the
other. -/
def followedBy (self other : AffineTransform N) : AffineTransform N :=
  ⟨N.add (N.mul other.mat00 self.mat00) (N.mul other.mat01 self.mat10),
   N.add (N.mul other.mat00 self.mat01) (N.mul other.mat01 self.mat11),
   N.add (N.add (N.mul other.mat00 self.mat02) (N.mul other.mat01 self.mat12)) other.mat02,
   N.add (N.mul other.mat10 self.mat00) (N.mul other.mat11 self.mat10),
   N.add (N.mul other.mat10 self.mat01) (N.mul other.mat11 self.mat11),
   N.add (N.add (N.mul other.mat10 self.mat02) (N.mul other.mat11 self.mat12)) other.mat12⟩

/-- Modelled from the spec: `AffineTransform::translation`. -/
def translation (deltaX deltaY : N.F) : AffineTransform N :=
  ⟨N.lit 1 0, N.zero, deltaX, N.zero, N.lit 1 0, deltaY⟩

/-- Modelled from the spec: `AffineTransform::scale`. -/
def scale (factorX factorY : N.F) : AffineTransform N :=
  ⟨factorX, N.zero, N.zero, N.zero, factorY, N.zero⟩

/-- Modelled from the spec: `AffineTransform::rotation` about a pivot. -/
def rotation (M : MathOps N) (rad pivotX pivotY : N.F) : AffineTransform N :=
  let cosRad := M.cos rad
  let sinRad := M.sin rad
  ⟨cosRad, M.neg sinRad,
   N.add (N.add (N.mul (M.neg cosRad) pivotX) (N.mul sinRad pivotY)) pivotX,
   sinRad, cosRad,
   N.add (N.add (N.mul (M.neg sinRad) pivotX) (N.mul (M.neg cosRad) pivotY)) pivotY⟩

/-- Modelled from the spec: `AffineTransform::shear`. -/
def shear (shearX shearY : N.F) : AffineTransform N :=
  ⟨N.lit 1 0, shearX, N.zero, shearY, N.lit 1 0, N.zero⟩

/-- Modelled from the spec: `AffineTransform::withAbsoluteTranslation`. -/
def withAbsoluteTranslation (self : AffineTransform N) (tx ty : N.F) : AffineTransform N :=
  ⟨self.mat00, self.mat01, tx, self.mat10, self.mat11, ty⟩

end AffineTransform

/-- Modelled from the spec: `Point::transformedBy`. -/
def Point.transformedBy {N : FloatOps} (p : Point N) (t : AffineTransform N) : Point N :=
  ⟨N.add (N.add (N.mul p.x t.mat00) (N.mul p.y t.mat01)) t.mat02,
   N.add (N.add (N.mul p.x t.mat10) (N.mul p.y t.mat11)) t.mat12⟩

/-! ## More of the string classes -/

/-- Modelled from the spec: `String::fromFirstOccurrenceOf (sub, false, false)` of the core
library: the text after the first occurrence, empty when there is none. -/
def fromFirstOccurrenceOf (s sub : List Char) : List Char :=
  match indexOf s 0 sub with
  | none => []
  | some i => s.drop (i + sub.length)

/-- Modelled from the spec: `String::upToFirstOccurrenceOf (sub, false, false)` of the core
library: the text before the first occurrence, all of it when there is none. -/
def upToFirstOccurrenceOf (s sub : List Char) : List Char :=
  match indexOf s 0 sub with
  | none => s
  | some i => substring s 0 i

/-- Modelled from the spec: `String::trimStart` of the core library. -/
def trimStart (s : List Char) : List Char := s.dropWhile isWhitespace

/-- Modelled from the spec: `String::startsWithIgnoreCase` of the core library. -/
def startsWithIgnoreCase (s other : List Char) : Bool :=
  compareIgnoreCaseUpTo s other other.length

/-- The tokens of a non-empty text: it is cut at every break character. -/
def splitTokens (breakCharacters : List Char) : List Char → List (List Char)
  | [] => [[]]
  | c :: t =>
    if c ∈ breakCharacters then [] :: splitTokens breakCharacters t
    else
      match splitTokens breakCharacters t with
      | [] => [[c]]
      | token :: tokens => (c :: token) :: tokens

/-- Modelled from the spec: `StringArray::addTokens (text, breakCharacters, "")` of the
core library on an empty array: an empty text gives no token. -/
def addTokens (text breakCharacters : List Char) : List (List Char) :=
  if text.isEmpty then [] else splitTokens breakCharacters text

/-- Modelled from the spec: `StringArray::removeEmptyStrings (true)` of the core library:
the strings that are empty or white space only are removed. -/
def removeEmptyStrings (strings : List (List Char)) : List (List Char) :=
  strings.filter (fun s => !s.all isWhitespace)

/-! ## The transform list -/

namespace SVGState

variable {N : FloatOps}

/-- One pass of the loop of `parseTransform`: the transform `trans` that it reads from the
start of the text `t`. -/
def tokenTransform (M : MathOps N) (t : List Char) : AffineTransform N :=
  let tokens := removeEmptyStrings
    (addTokens (upToFirstOccurrenceOf (fromFirstOccurrenceOf t "(".toList) ")".toList)
      ", ".toList)
  let numbers : Nat → N.F := fun i => N.getFloatValue (tokens.getD i [])
  if startsWithIgnoreCase t "matrix".toList then
    ⟨numbers 0, numbers 2, numbers 4, numbers 1, numbers 3, numbers 5⟩
  else if startsWithIgnoreCase t "translate".toList then
    AffineTransform.translation (numbers 0) (numbers 1)
  else if startsWithIgnoreCase t "scale".toList then
    AffineTransform.scale (numbers 0) (numbers (if 1 < tokens.length then 1 else 0))
  else if startsWithIgnoreCase t "rotate".toList then
    AffineTransform.rotation M (N.degreesToRadians (numbers 0)) (numbers 1) (numbers 2)
  else if startsWithIgnoreCase t "skewX".toList then
    AffineTransform.shear (M.tan (N.degreesToRadians (numbers 0))) N.zero
  else if startsWithIgnoreCase t "skewY".toList then
    AffineTransform.shear N.zero (M.tan (N.degreesToRadians (numbers 0)))
  else AffineTransform.identity

/-- The loop of `parseTransform`. Each pass shortens the text, so `fuel` bounds the
passes. -/
def parseTransformLoop (M : MathOps N) :
    Nat → List Char → AffineTransform N → AffineTransform N
  | 0, _, result => result
  | fuel + 1, t, result =>
    if t.isEmpty then result
    else
      parseTransformLoop M fuel (trimStart (fromFirstOccurrenceOf t ")".toList))
        ((tokenTransform M t).followedBy result)

/-- The static function `parseTransform`. -/
def parseTransform (M : MathOps N) (t : List Char) : AffineTransform N :=
  parseTransformLoop M t.length t AffineTransform.identity

end SVGState

end Juce

namespace Juce

namespace SVGState

variable {N : FloatOps}

/-! ## Polygons and polylines -/

/-- The loop `while (parseCoords (points, p, true))` of `parsePolygon`, with the values of
`last` and of the path after it. Each pass consumes text, so `fuel` bounds the passes. -/
def polygonLoop (self : SVGState N) :
    Nat → List Char → Point N → Point N → Path N → Point N × Path N
  | 0, _, _, last, path => (last, path)
  | fuel + 1, points, p, last, path =>
    match self.parseCoords points p true with
    | (false, _, _) => (last, path)
    | (true, p', points') => polygonLoop self fuel points' p' p' (Path.lineTo path p')

/-- The method `parsePolygon`. -/
def parsePolygon (self : SVGState N) (xml : XmlPath) (isPolyline : Bool) (path : Path N) :
    Path N :=
  let pointsAtt := xml.xml.getStringAttribute "points".toList []
  match self.parseCoords pointsAtt Point.origin true with
  | (false, _, _) => path
  | (true, p, points) =>
    let first := p
    let r := polygonLoop self points.length points p Point.origin
      (Path.startNewSubPath path first)
    if !isPolyline || first.eq r.1 then Path.closeSubPath r.2 else r.2

/-! ## The arc solver -/

end SVGState

/-- The values that `endpointToCentreParameters` writes to its reference parameters. -/
structure CentreParameters (N : FloatOps) where
  rx : N.F
  ry : N.F
  centreX : N.F
  centreY : N.F
  startAngle : N.F
  deltaAngle : N.F

namespace SVGState

variable {N : FloatOps}

/-- The value of `deltaAngle` before the final `fmod`, from the arc cosine `a` and the
cross product `cross` of the two vectors. -/
def sweepAngle (M : MathOps N) (sweep : Bool) (a cross : N.F) : N.F :=
  let deltaAngle := if M.lt cross (N.lit 0 0) then M.neg a else a
  if sweep then
    if M.lt deltaAngle (N.lit 0 0) then N.add deltaAngle (N.mul M.pi (N.lit 2 0))
    else deltaAngle
  else
    if M.lt (N.lit 0 0) deltaAngle then N.sub deltaAngle (N.mul M.pi (N.lit 2 0))
    else deltaAngle

/-- The static function `endpointToCentreParameters`, with `rx` and `ry` as they are on
entry. -/
def endpointToCentreParameters (M : MathOps N) (x1 y1 x2 y2 angle : N.F)
    (largeArc sweep : Bool) (rx ry : N.F) : CentreParameters N :=
  let midX := N.mul (N.sub x1 x2) (N.lit 5 1)
  let midY := N.mul (N.sub y1 y2) (N.lit 5 1)
  let cosAngle := M.cos angle
  let sinAngle := M.sin angle
  let xp := N.add (N.mul cosAngle midX) (N.mul sinAngle midY)
  let yp := N.sub (N.mul cosAngle midY) (N.mul sinAngle midX)
  let xp2 := N.mul xp xp
  let yp2 := N.mul yp yp
  let rx2 := N.mul rx rx
  let ry2 := N.mul ry ry
  let s := N.add (N.div xp2 rx2) (N.div yp2 ry2)
  let small := M.le s (N.lit 1 0)
  let c0 := M.sqrt (M.jmax (N.lit 0 0)
    (N.div (N.sub (N.sub (N.mul rx2 ry2) (N.mul rx2 yp2)) (N.mul ry2 xp2))
      (N.add (N.mul rx2 yp2) (N.mul ry2 xp2))))
  let c := if small then (if largeArc == sweep then M.neg c0 else c0) else N.lit 0 0
  let s2 := M.sqrt s
  let rx' := if small then rx else N.mul rx s2
  let ry' := if small then ry else N.mul ry s2
  let cpx := N.mul (N.div (N.mul rx' yp) ry') c
  let cpy := N.mul (N.div (N.mul (M.neg ry') xp) rx') c
  let centreX := N.sub (N.add (N.mul (N.add x1 x2) (N.lit 5 1)) (N.mul cosAngle cpx))
    (N.mul sinAngle cpy)
  let centreY := N.add (N.add (N.mul (N.add y1 y2) (N.lit 5 1)) (N.mul sinAngle cpx))
    (N.mul cosAngle cpy)
  let ux := N.div (N.sub xp cpx) rx'
  let uy := N.div (N.sub yp cpy) ry'
  let vx := N.div (N.sub (M.neg xp) cpx) rx'
  let vy := N.div (N.sub (M.neg yp) cpy) ry'
  let length := M.hypot ux uy
  let startAngle0 := M.acos (M.jlimit (M.neg (N.lit 1 0)) (N.lit 1 0) (N.div ux length))
  let startAngle1 := if M.lt uy (N.lit 0 0) then M.neg startAngle0 else startAngle0
  let startAngle := N.add startAngle1 (N.mul M.pi (N.lit 5 1))
  let a := M.acos (M.jlimit (M.neg (N.lit 1 0)) (N.lit 1 0)
    (N.div (N.add (N.mul ux vx) (N.mul uy vy)) (N.mul length (M.hypot vx vy))))
  let cross := N.sub (N.mul ux vy) (N.mul uy vx)
  let deltaAngle := M.fmod (sweepAngle M sweep a cross) (N.mul M.pi (N.lit 2 0))
  ⟨rx', ry', centreX, centreY, startAngle, deltaAngle⟩

end SVGState

end Juce

namespace Juce

/-! ## The chord of an arc in the frame of its ellipse -/

end Juce

namespace Juce

/-! ## Transform lists as texts -/

/-- A token of a transform list as the text writes it: a name, arguments in brackets, and
the white space that follows. -/
structure TransformText where
  name : List Char
  args : List Char
  space : List Char

namespace TransformText

/-- The characters of a token. -/
def chars (t : TransformText) : List Char := t.name ++ '(' :: (t.args ++ ')' :: t.space)

/-- A well-formed token: the name is made of letters, the arguments hold no closing
bracket, and white space follows. -/
def wellFormed (t : TransformText) : Bool :=
  t.name.all isLetter && t.args.all (fun c => c != ')') && t.space.all isWhitespace

/-- The transform that a token denotes: what `parseTransform` reads from the token when it
stands alone. -/
def transform {N : FloatOps} (M : MathOps N) (t : TransformText) : AffineTransform N :=
  SVGState.tokenTransform M (t.name ++ '(' :: (t.args ++ [')']))

end TransformText

/-- The text of a list of tokens. -/
def transformListText : List TransformText → List Char
  | [] => []
  | t :: l => t.chars ++ transformListText l

/-- The key words that `parseTransform` knows. -/
def transformNames : List (List Char) :=
  ["matrix".toList, "translate".toList, "scale".toList, "rotate".toList, "skewX".toList,
   "skewY".toList]

end Juce

namespace Juce

/-- The transforms of a list of tokens put in front of `result` one after the other, as
the loop of `parseTransform` does with `trans.followedBy (result)`. -/
def composeTokens {N : FloatOps} (M : MathOps N) (l : List TransformText)
    (result : AffineTransform N) : AffineTransform N :=
  l.foldl (fun r t => (t.transform M).followedBy r) result

end Juce

namespace Juce

/-! ## Colours, gradients and fills -/

/-- Modelled from the spec: the class `Colour` of the graphics library with the constant
`Colours::black` and the method `withMultipliedAlpha`; and the method `parseColour` of the
parser, which reads a colour for an element from its style attributes and is taken as it
comes: its arguments are the style text of the parser, the element, the attribute name and
the default colour. -/
structure ColourOps (N : FloatOps) where
  Colour : Type
  black : Colour
  withMultipliedAlpha : Colour → N.F → Colour
  parseColour : List Char → XmlPath → List Char → Colour → Colour

/-- Modelled from the spec: the class `ColourGradient` of the graphics library: its colour
stops in the order in which they were added, each with its position, the flag `isRadial`
and the two points. -/
structure ColourGradient (N : FloatOps) (C : ColourOps N) where
  colours : List (N.F × C.Colour)
  isRadial : Bool
  point1 : Point N
  point2 : Point N

namespace ColourGradient

variable {N : FloatOps} {C : ColourOps N}

/-- Modelled from the spec: the default constructor of `ColourGradient`: no stops. -/
def empty : ColourGradient N C := ⟨[], false, Point.origin, Point.origin⟩

/-- Modelled from the spec: `ColourGradient::addColour`: the stop is added after the stops
there are; the stops stay in the order of insertion and are not sorted. -/
def addColour (g : ColourGradient N C) (proportionAlongGradient : N.F)
    (colour : C.Colour) : ColourGradient N C :=
  { g with colours := g.colours ++ [(proportionAlongGradient, colour)] }

/-- Modelled from the spec: `ColourGradient::getNumColours`. -/
def getNumColours (g : ColourGradient N C) : Nat := g.colours.length

/-- Modelled from the spec: `ColourGradient::getColourPosition`. -/
def getColourPosition (g : ColourGradient N C) (index : Nat) : N.F :=
  (g.colours.getD index (N.zero, C.black)).1

/-- Modelled from the spec: `ColourGradient::getColour`. -/
def getColour (g : ColourGradient N C) (index : Nat) : C.Colour :=
  (g.colours.getD index (N.zero, C.black)).2

/-- Modelled from the spec: `ColourGradient::multiplyOpacity`: the alpha of every stop is
multiplied. -/
def multiplyOpacity (g : ColourGradient N C) (multiplier : N.F) : ColourGradient N C :=
  { g with colours := g.colours.map (fun c => (c.1, C.withMultipliedAlpha c.2 multiplier)) }

end ColourGradient

/-- Modelled from the spec: the class `FillType` of the graphics library: a solid colour,
or a gradient with a transform. -/
inductive FillType (N : FloatOps) (C : ColourOps N) where
  | colour (c : C.Colour)
  | gradient (g : ColourGradient N C) (transform : AffineTransform N)

/-- Modelled from the spec: the class `Rectangle<float>`, here the bounds of a path. -/
structure Rectangle (N : FloatOps) where
  x : N.F
  y : N.F
  w : N.F
  h : N.F

/-- Modelled from the spec: `Point::getDotProduct`. -/
def Point.getDotProduct {N : FloatOps} (a b : Point N) : N.F :=
  N.add (N.mul a.x b.x) (N.mul a.y b.y)

/-- Modelled from the spec: `String::equalsIgnoreCase` of the core library. -/
def equalsIgnoreCase (a b : List Char) : Bool := a.map toUpperCase == b.map toUpperCase

/-- Modelled from the spec: `XmlElement::compareAttribute (name, value)` of the core
library: the element has the attribute and its value is the given one. -/
def XmlElement.compareAttribute (xml : XmlElement) (attributeName value : List Char) : Bool :=
  match xml.attributes.find? (fun a => a.1 == attributeName) with
  | some a => a.2 == value
  | none => false

/-! ## The lookup of an element by its id -/

mutual

/-- The loop of `applyOperationToChildWithID` over the children of an element of which
`parents` is the path: the element to which the operation is applied, or `none` when the
result is false. -/
def findInChildren (id : List Char) (parents : List XmlElement) :
    List XmlElement → Option XmlPath
  | [] => none
  | e :: es =>
    match findAtChild id parents e with
    | some p => some p
    | none => findInChildren id parents es

/-- One pass of that loop, for the child `e`: the child itself when it has the id, or else
the result of the lookup among its own children. -/
def findAtChild (id : List Char) (parents : List XmlElement) : XmlElement → Option XmlPath
  | XmlElement.mk tag attributes children text =>
    if (XmlElement.mk tag attributes children text).compareAttribute "id".toList id then
      some ⟨XmlElement.mk tag attributes children text, parents⟩
    else findInChildren id (XmlElement.mk tag attributes children text :: parents) children

end

/-- The method `applyOperationToChildWithID` of `XmlPath`: the element to which the
operation is applied, or `none` when the result is false. -/
def XmlPath.applyOperationToChildWithID (self : XmlPath) (id : List Char) : Option XmlPath :=
  findInChildren id (self.xml :: self.parents) self.xml.children

namespace SVGState

variable {N : FloatOps}

/-! ## The gradient of a fill

The members `topLevelXml` and `transform` of the parser are passed to the methods below
as arguments, and the path of `getGradientFillType` is given by its bounds. -/

/-- The body of the loop of `addGradientStopsIn` for the `stop` element `e`. -/
def addGradientStop (self : SVGState N) (M : MathOps N) (C : ColourOps N)
    (cg : ColourGradient N C) (fillXml : XmlPath) (e : XmlElement) : ColourGradient N C :=
  let col := C.parseColour self.cssStyleText (fillXml.getChild e) "stop-color".toList C.black
  let opacity := self.getStyleAttribute (fillXml.getChild e) "stop-opacity".toList "1".toList
  let col := C.withMultipliedAlpha col
    (M.jlimit (N.lit 0 0) (N.lit 1 0) (N.getFloatValue opacity))
  let offset :=
    if e.hasAttribute "offset".toList then
      N.getFloatValue (e.getStringAttribute "offset".toList [])
    else N.lit 0 0
  let offset :=
    if (e.getStringAttribute "offset".toList []).contains '%' then N.mul offset (N.lit 1 2)
    else offset
  cg.addColour (M.jlimit (N.lit 0 0) (N.lit 1 0) offset) col

/-- The method `addGradientStopsIn`. -/
def addGradientStopsIn (self : SVGState N) (M : MathOps N) (C : ColourOps N)
    (cg : ColourGradient N C) (fillXml : XmlPath) : ColourGradient N C :=
  (fillXml.xml.children.filter
      (fun e => e.getTagNameWithoutNamespace == "stop".toList)).foldl
    (fun g e => self.addGradientStop M C g fillXml e) cg

/-- The start of `getGradientFillType`: the gradient with the stops that are collected
from the element that `xlink:href` names and from the element itself. -/
def collectStops (self : SVGState N) (M : MathOps N) (C : ColourOps N)
    (topLevelXml fillXml : XmlPath) : ColourGradient N C :=
  let link := fillXml.xml.getStringAttribute "xlink:href".toList []
  let gradient : ColourGradient N C :=
    if cur link = '#' then
      match topLevelXml.applyOperationToChildWithID (link.drop 1) with
      | some xml => self.addGradientStopsIn M C ColourGradient.empty xml
      | none => ColourGradient.empty
    else ColourGradient.empty
  self.addGradientStopsIn M C gradient fillXml

/-- The next part of `getGradientFillType`: stops at the two ends are added. -/
def padStops (M : MathOps N) (C : ColourOps N) (gradient : ColourGradient N C) :
    ColourGradient N C :=
  let numColours := gradient.getNumColours
  if numColours ≠ 0 then
    let g1 :=
      if M.lt (N.lit 0 0) (gradient.getColourPosition 0) then
        gradient.addColour (N.lit 0 0) (gradient.getColour 0)
      else gradient
    if M.lt (g1.getColourPosition (numColours - 1)) (N.lit 1 0) then
      g1.addColour (N.lit 1 0) (g1.getColour (numColours - 1))
    else g1
  else
    (gradient.addColour (N.lit 0 0) C.black).addColour (N.lit 1 0) C.black

/-- The gradient of `getGradientFillType` when its stops are complete, at the `jassert`:
the stops collected, the stops at the ends, and the opacity. -/
def resolveStops (self : SVGState N) (M : MathOps N) (C : ColourOps N)
    (topLevelXml fillXml : XmlPath) (opacity : N.F) : ColourGradient N C :=
  let gradient := padStops M C (self.collectStops M C topLevelXml fillXml)
  if M.lt opacity (N.lit 1 0) then gradient.multiplyOpacity opacity else gradient

end SVGState

end Juce

namespace Juce

/-- Modelled from the spec: the `operator*` of `Point` with a number. -/
def Point.scaled {N : FloatOps} (p : Point N) (factor : N.F) : Point N :=
  ⟨N.mul p.x factor, N.mul p.y factor⟩

namespace SVGState

variable {N : FloatOps}

/-- The value of `userSpace` in `getGradientFillType`. -/
def gradientUserSpace (fillXml : XmlPath) : Bool :=
  equalsIgnoreCase (fillXml.xml.getStringAttribute "gradientUnits".toList [])
    "userSpaceOnUse".toList

/-- The values of `dx`, `dy`, `gradientWidth` and `gradientHeight` in
`getGradientFillType`, as a rectangle. -/
def gradientFrame (self : SVGState N) (fillXml : XmlPath) (pathBounds : Rectangle N) :
    Rectangle N :=
  if gradientUserSpace fillXml then ⟨N.lit 0 0, N.lit 0 0, self.viewBoxW, self.viewBoxH⟩
  else pathBounds

/-- A point of a gradient from the attributes `xName` and `yName` with their defaults, as
`getGradientFillType` computes `point1` and `point2`. -/
def gradientPoint (self : SVGState N) (fillXml : XmlPath) (pathBounds : Rectangle N)
    (xName xDefault yName yDefault : List Char) : Point N :=
  let frame := self.gradientFrame fillXml pathBounds
  if gradientUserSpace fillXml then
    ⟨N.add frame.x (getCoordLength N (fillXml.xml.getStringAttribute xName xDefault) frame.w),
     N.add frame.y (getCoordLength N (fillXml.xml.getStringAttribute yName yDefault) frame.h)⟩
  else
    ⟨N.add frame.x (N.mul frame.w
        (getCoordLength N (fillXml.xml.getStringAttribute xName xDefault) (N.lit 1 0))),
     N.add frame.y (N.mul frame.h
        (getCoordLength N (fillXml.xml.getStringAttribute yName yDefault) (N.lit 1 0)))⟩

/-- The value of `radius` in `getGradientFillType`. -/
def gradientRadius (self : SVGState N) (fillXml : XmlPath) (pathBounds : Rectangle N) : N.F :=
  getCoordLength N (fillXml.xml.getStringAttribute "r".toList "50%".toList)
    (self.gradientFrame fillXml pathBounds).w

/-- The end of `getGradientFillType` for a linear gradient with the points `point1` and
`point2`, which differ. -/
def linearGradientFill (M : MathOps N) (C : ColourOps N) (transform : AffineTransform N)
    (fillXml : XmlPath) (gradient : ColourGradient N C) (point1 point2 : Point N) :
    FillType N C :=
  let gradientTransform :=
    (parseTransform M (fillXml.xml.getStringAttribute "gradientTransform".toList [])).followedBy
      transform
  let perpendicular :=
    (Point.mk (N.sub point2.y point1.y) (N.sub point1.x point2.x)).transformedBy
      (gradientTransform.withAbsoluteTranslation (N.lit 0 0) (N.lit 0 0))
  let newGradPoint1 := point1.transformedBy gradientTransform
  let newGradPoint2 := point2.transformedBy gradientTransform
  let scale := N.div (perpendicular.getDotProduct (newGradPoint2.sub newGradPoint1))
    (perpendicular.getDotProduct perpendicular)
  FillType.gradient
    { gradient with
      isRadial := false
      point1 := newGradPoint1
      point2 := newGradPoint2.sub (perpendicular.scaled scale) }
    AffineTransform.identity

/-- The method `getGradientFillType`. -/
def getGradientFillType (self : SVGState N) (M : MathOps N) (C : ColourOps N)
    (topLevelXml : XmlPath) (transform : AffineTransform N) (fillXml : XmlPath)
    (pathBounds : Rectangle N) (opacity : N.F) : FillType N C :=
  let gradient := self.resolveStops M C topLevelXml fillXml opacity
  if fillXml.xml.getTagNameWithoutNamespace == "radialGradient".toList then
    let point1 := self.gradientPoint fillXml pathBounds "cx".toList "50%".toList
      "cy".toList "50%".toList
    let radius := self.gradientRadius fillXml pathBounds
    FillType.gradient
      { gradient with
        isRadial := true
        point1 := point1
        point2 := point1.add ⟨radius, N.lit 0 0⟩ }
      ((parseTransform M
        (fillXml.xml.getStringAttribute "gradientTransform".toList [])).followedBy transform)
  else
    let point1 := self.gradientPoint fillXml pathBounds "x1".toList "0%".toList
      "y1".toList "0%".toList
    let point2 := self.gradientPoint fillXml pathBounds "x2".toList "100%".toList
      "y2".toList "0%".toList
    if point1.eq point2 then
      FillType.colour (gradient.getColour (gradient.getNumColours - 1))
    else linearGradientFill M C transform fillXml gradient point1 point2

end SVGState

/-- Colours for examples: a colour is the text it was read from, with the factors by which
its alpha was multiplied; `parseColour` takes the text of the attribute of the element
itself. -/
def textColours (N : FloatOps) : ColourOps N where
  Colour := List Char × List N.F
  black := ("black".toList, [])
  withMultipliedAlpha := fun c a => (c.1, c.2 ++ [a])
  parseColour := fun _ xml attributeName defaultColour =>
    if xml.xml.hasAttribute attributeName then
      (xml.xml.getStringAttribute attributeName [], [])
    else defaultColour

end Juce

namespace Juce

/-- The colour of a stop after the step `if (opacity < 1.0f) gradient.multiplyOpacity
(opacity)` of `getGradientFillType`. -/
def ColourOps.atOpacity {N : FloatOps} (C : ColourOps N) (M : MathOps N) (opacity : N.F)
    (c : C.Colour) : C.Colour :=
  if M.lt opacity (N.lit 1 0) then C.withMultipliedAlpha c opacity else c

/-- A parser as its constructor leaves it, for exact arithmetic on the rational numbers
with the functions for examples. -/
def fieldState : SVGState (fieldOps ℚ exactFunctions) := ⟨512, 512, 0, 0, []⟩

/-- A document without elements, for examples that look nothing up. -/
def emptyDocument : XmlPath := ⟨element "svg" [] [] "", []⟩

end Juce

namespace Juce

/-! ## The elements below an element, in document order -/

mutual

/-- The elements below the elements of a list of children of which `parents` is the path,
in document order: each child, then what is below it, then the next child. -/
def descendantsOfChildren (parents : List XmlElement) : List XmlElement → List XmlPath
  | [] => []
  | e :: es => descendantsOfChild parents e ++ descendantsOfChildren parents es

/-- The child `e` and the elements below it, in document order. -/
def descendantsOfChild (parents : List XmlElement) : XmlElement → List XmlPath
  | XmlElement.mk tag attributes children text =>
    ⟨XmlElement.mk tag attributes children text, parents⟩
      :: descendantsOfChildren (XmlElement.mk tag attributes children text :: parents) children

end

/-- The proper descendants of an element in depth-first document order, each as the path
that leads to it. -/
def XmlPath.descendants (self : XmlPath) : List XmlPath :=
  descendantsOfChildren (self.xml :: self.parents) self.xml.children

end Juce

namespace Juce

namespace SVGState

variable {N : FloatOps}

/-- The value of `gradientTransform` in `getGradientFillType`: the transform of the
attribute `gradientTransform`, followed by the transform of the parser. -/
def gradientTransform (M : MathOps N) (transform : AffineTransform N) (fillXml : XmlPath) :
    AffineTransform N :=
  (parseTransform M (fillXml.xml.getStringAttribute "gradientTransform".toList [])).followedBy
    transform

end SVGState

end Juce

namespace Juce

namespace SVGState

variable {N : FloatOps}

/-! ## The dash lengths of a stroke

`parseDashArray` is given as the list that it passes to `setDashLengths`, or `none` when it
returns without setting dash lengths. -/

/-- The loop of `parseDashArray` that reads the lengths, for at most `fuel` passes: the
lengths read so far are `dashLengths`. Each pass that goes on has read a number, so it has
consumed a character. -/
def dashValues (self : SVGState N) : Nat → List Char → List N.F → List N.F
  | 0, _, dashLengths => dashLengths
  | fuel + 1, t, dashLengths =>
    let read := self.parseCoord t true true
    if read.1 = true then
      let t2 := findEndOfWhitespace read.2.2
      dashValues self fuel (if cur t2 = ',' then t2.tail else t2) (dashLengths ++ [read.2.1])
    else dashLengths

/-- The statements of the loop over the indices for an entry `dashes[i] <= 0` of a list of
more than one entry: the entry becomes `nonZeroLength`, and the entry at `i ^ 1` is
reduced by it when there is such an entry and it is larger. -/
def fixDash (M : MathOps N) (dashes : List N.F) (i : Nat) : List N.F :=
  let nonZeroLength := N.lit 1 3
  let dashes := dashes.set i nonZeroLength
  let pairedIndex := i ^^^ 1
  if pairedIndex < dashes.length
      ∧ M.lt nonZeroLength (dashes.getD pairedIndex N.zero) = true then
    dashes.set pairedIndex (N.sub (dashes.getD pairedIndex N.zero) nonZeroLength)
  else dashes

/-- The loop `for (int i = 0; i < dashLengths.size(); ++i)` of `parseDashArray` from the
index `i` with `n` indices to go: the list at the end of the loop, or `none` at the
`return` for a list of a single entry. -/
def dashLoop (M : MathOps N) : Nat → Nat → List N.F → Option (List N.F)
  | 0, _, dashes => some dashes
  | n + 1, i, dashes =>
    if M.le (dashes.getD i N.zero) N.zero = true then
      if dashes.length = 1 then none
      else dashLoop M n (i + 1) (fixDash M dashes i)
    else dashLoop M n (i + 1) dashes

/-- The lengths that `parseDashArray` reads from the text, before they are corrected. As
many passes as the text has characters, and one more, are enough. -/
def dashLengthsRead (self : SVGState N) (dashList : List Char) : List N.F :=
  self.dashValues (dashList.length + 1) dashList []

/-- The method `parseDashArray`: the lengths passed to `setDashLengths`, if any. -/
def parseDashArray (self : SVGState N) (M : MathOps N) (dashList : List Char) :
    Option (List N.F) :=
  if equalsIgnoreCase dashList "null".toList || equalsIgnoreCase dashList "none".toList then
    none
  else
    let dashLengths := self.dashLengthsRead dashList
    if 0 < dashLengths.length then dashLoop M dashLengths.length 0 dashLengths
    else none

end SVGState

/-- The dash length at index `i` as the claim on `parseDashArray` describes it, for the
lengths `parsed` read from the text: 0.001 for an entry that is zero or negative; an entry
above 0.001 whose paired entry, at index `i xor 1`, is zero or negative is reduced by
0.001; any other entry is kept. -/
def expectedDash {R : Type} [LinearOrderedField R] (parsed : List R) (i : Nat) : R :=
  if parsed.getD i 0 ≤ 0 then 1 / 1000
  else if (i ^^^ 1) < parsed.length ∧ parsed.getD (i ^^^ 1) 0 ≤ 0
      ∧ 1 / 1000 < parsed.getD i 0 then
    parsed.getD i 0 - 1 / 1000
  else parsed.getD i 0

/-- The entry at index `j` when the loop of `parseDashArray` over the indices has dealt
with the indices below `k`. -/
def dashAfter {R : Type} [LinearOrderedField R] (parsed : List R) (k j : Nat) : R :=
  if j < k ∧ parsed.getD j 0 ≤ 0 then 1 / 1000
  else if (j ^^^ 1) < k ∧ (j ^^^ 1) < parsed.length ∧ parsed.getD (j ^^^ 1) 0 ≤ 0
      ∧ 1 / 1000 < parsed.getD j 0 then
    parsed.getD j 0 - 1 / 1000
  else parsed.getD j 0

end Juce

namespace Juce

/-! ## Binary floating-point arithmetic

The arithmetic of `float` and `double` on finite numbers, as IEEE 754 defines it: every
operation gives the exact result rounded to the nearest number with `p` significant binary
digits, the one with an even last digit when two are equally near; `p` is 24 for `float`
and 53 for `double`. The numbers are given as rational numbers. The exponent is not
bounded, so that the model agrees with the machine while no result overflows or
underflows; it has no infinities and no NaN (a quotient by 0 and the square root of a
negative number are 0 here), and it does not tell -0 from 0. -/

/-- The number of binary digits of a natural number, of which there are at most `fuel`. -/
def binaryDigits : Nat → Nat → Nat
  | 0, _ => 0
  | fuel + 1, n => if n = 0 then 0 else binaryDigits fuel (n / 2) + 1

/-- The position of the leading binary digit of a natural number above 0. -/
def floorLog2 (n : Nat) : Nat := binaryDigits n n - 1

/-- The rational number `q` rounded to `p` significant binary digits, to the nearest such
number and to the one with an even last digit in a tie. -/
def roundBinary (p : Nat) (q : ℚ) : ℚ :=
  if q = 0 then 0
  else
    let n := q.num.natAbs
    let d := q.den
    let e0 : Int := (floorLog2 n : Int) - (floorLog2 d : Int) - (p : Int)
    let e : Int := if 2 ^ p * (d * 2 ^ e0.toNat) ≤ n * 2 ^ (-e0).toNat then e0 + 1 else e0
    let num := n * 2 ^ (-e).toNat
    let den := d * 2 ^ e.toNat
    let m := num / den
    let r := num % den
    let m1 := if den < 2 * r ∨ (2 * r = den ∧ m % 2 = 1) then m + 1 else m
    let v : ℚ := ((m1 * 2 ^ e.toNat : Nat) : ℚ) / ((2 ^ (-e).toNat : Nat) : ℚ)
    if q < 0 then -v else v

/-- The whole part of the square root of `x`, found digit by digit from the binary digit
at position `k - 1` down, with `r` the digits found so far. -/
def sqrtDigits : Nat → Nat → Nat → Nat
  | 0, _, r => r
  | k + 1, x, r =>
    if (r + 2 ^ k) * (r + 2 ^ k) ≤ x then sqrtDigits k x (r + 2 ^ k) else sqrtDigits k x r

/-- The whole part of the square root of a natural number. -/
def floorSqrt (x : Nat) : Nat := sqrtDigits (floorLog2 x / 2 + 1) x 0

/-- The square root of the rational number `q` rounded to `p` significant binary digits,
as `roundBinary` rounds: the whole part of the root of `q` scaled by a power of 4 has more
than `p` digits, and the rest of the root only matters in a tie. -/
def sqrtBinary (p : Nat) (q : ℚ) : ℚ :=
  if q ≤ 0 then 0
  else
    let n := q.num.natAbs
    let d := q.den
    let l : Int := (floorLog2 n : Int) - (floorLog2 d : Int)
    let k : Int := (p : Int) + 1 - l / 2
    let num := n * 4 ^ k.toNat
    let den := d * 4 ^ (-k).toNat
    let x := num / den
    let s := floorSqrt x
    let exact := decide (num % den = 0 ∧ s * s = x)
    let shift := floorLog2 s + 1 - p
    let m := s / 2 ^ shift
    let r := s % 2 ^ shift
    let half := 2 ^ (shift - 1)
    let m1 := if half < r ∨ (r = half ∧ (exact = false ∨ m % 2 = 1)) then m + 1 else m
    ((m1 * 2 ^ shift * 2 ^ (-k).toNat : Nat) : ℚ) / ((2 ^ k.toNat : Nat) : ℚ)

/-- The circle constant to 39 decimal places, which is enough to round it to 53 binary
digits. -/
def piDecimal : ℚ := 3141592653589793238462643383279502884197 / 10 ^ 39

/-- Modelled from the spec: the arithmetic of `float` (`p = 24`) and `double` (`p = 53`),
which the source takes from the language, as the arithmetic of binary floating-point
numbers of `p` significant digits on finite numbers: each operation is the exact one,
rounded. A decimal constant and a decimal text give the
nearest number; `getFloatValue` does so for every text that is a number of the format
itself, such as a whole number of few digits. -/
abbrev binaryOps (p : Nat) : FloatOps where
  F := ℚ
  zero := 0
  add := fun a b => roundBinary p (a + b)
  sub := fun a b => roundBinary p (a - b)
  mul := fun a b => roundBinary p (a * b)
  div := fun a b => roundBinary p (a / b)
  eq := fun a b => decide (a = b)
  lit := fun m e => roundBinary p ((m : ℚ) / (10 ^ e : ℚ))
  getFloatValue := fun s => roundBinary p (exactValue s)
  getIntValue := exactInt
  degreesToRadians := fun a => roundBinary p (a * roundBinary p (roundBinary p piDecimal / 180))

/-- Modelled from the spec: the comparisons and the maths library for binary
floating-point numbers. The
comparisons, the unary minus and `fmod` are exact, as they are on the machine, and the
square root is the exact one rounded. The other functions are stand-ins that have the
values of the library at the arguments where these are exact, `cos 0 = 1`, `sin 0 = 0`,
`tan 0 = 0` and `acos 1 = 0`, and rounded values of the functions of `exactFunctions`
elsewhere. -/
abbrev binaryMath (p : Nat) : MathOps (binaryOps p) where
  neg := fun a => -a
  lt := fun a b => decide (a < b)
  le := fun a b => decide (a ≤ b)
  cos := fun x => roundBinary p (exactFunctions.cos x)
  sin := fun x => roundBinary p (exactFunctions.sin x)
  tan := fun x => roundBinary p (exactFunctions.tan x)
  acos := fun x => roundBinary p (exactFunctions.acos x)
  sqrt := sqrtBinary p
  hypot := fun a b => sqrtBinary p (a * a + b * b)
  fmod := exactFmod
  pi := roundBinary p piDecimal

end Juce

namespace Juce

namespace SVGState

variable {N : FloatOps}

end SVGState

end Juce

namespace Juce

/-! ## The scanner on well-formed numbers -/

theorem dropWhile_append_all (p : Char → Bool) (l r : List Char)
    (h : l.all p = true) : (l ++ r).dropWhile p = r.dropWhile p := by
  induction l with
  | nil => rfl
  | cons a l ih =>
    simp only [List.all_cons, Bool.and_eq_true] at h
    simp [List.dropWhile, h.1, ih h.2]

theorem dropWhile_cur_false (p : Char → Bool) (r : List Char)
    (h : p (cur r) = false) : r.dropWhile p = r := by
  cases r with
  | nil => rfl
  | cons a r => simp [cur] at h; simp [List.dropWhile, h]

theorem skipDigits_append (ds rest : List Char) (h : ds.all isDigit = true)
    (hr : isDigit (cur rest) = false) : skipDigits (ds ++ rest) = rest := by
  unfold skipDigits
  rw [dropWhile_append_all _ _ _ h, dropWhile_cur_false _ _ hr]

theorem cur_append_cons (a : Char) (l r : List Char) : cur ((a :: l) ++ r) = a := rfl

theorem cur_cons (a : Char) (l : List Char) : cur (a :: l) = a := rfl

theorem cur_nil_append (r : List Char) : cur ([] ++ r) = cur r := rfl

theorem endsNumber_digit {rest : List Char} (h : endsNumber rest = true) :
    isDigit (cur rest) = false := by
  simp only [endsNumber, Bool.not_eq_true', Bool.or_eq_false_iff] at h
  exact h.1.1.1

theorem endsNumber_point {rest : List Char} (h : endsNumber rest = true) :
    cur rest ≠ '.' := by
  simp only [endsNumber, Bool.not_eq_true', Bool.or_eq_false_iff, beq_eq_false_iff_ne] at h
  exact h.1.1.2

theorem endsNumber_exponent {rest : List Char} (h : endsNumber rest = true) :
    cur rest ≠ 'e' ∧ cur rest ≠ 'E' := by
  simp only [endsNumber, Bool.not_eq_true', Bool.or_eq_false_iff, beq_eq_false_iff_ne] at h
  exact ⟨h.1.2, h.2⟩

namespace SVGState

theorem scanSign_whole (n : NumberText) (tl : List Char)
    (hs : n.signOk = true) (hne : n.whole.isEmpty = false)
    (hw : n.whole.all isDigit = true) (htl : isDigit (cur tl) = false) :
    skipDigits (scanSign (n.sign ++ n.whole ++ tl)) = tl := by
  simp only [NumberText.signOk, Bool.or_eq_true, beq_iff_eq] at hs
  rcases hs with (hs | hs) | hs
  · rw [hs]
    cases hwh : n.whole with
    | nil => simp [hwh] at hne
    | cons a w =>
      rw [hwh] at hw
      simp only [List.all_cons, Bool.and_eq_true] at hw
      have h1 : isStartOfNumber a = true := by simp [isStartOfNumber, hw.1]
      simp only [scanSign, List.nil_append, List.cons_append, cur, List.headD_cons, h1,
        if_true, List.tail_cons]
      exact skipDigits_append w tl hw.2 htl
  · rw [hs]
    have h1 : isStartOfNumber '-' = true := by decide
    simp only [scanSign, List.cons_append, List.nil_append, cur, List.headD_cons, h1,
      if_true, List.tail_cons]
    exact skipDigits_append _ tl hw htl
  · rw [hs]
    have h1 : isStartOfNumber '+' = true := by decide
    simp only [scanSign, List.cons_append, List.nil_append, cur, List.headD_cons, h1,
      if_true, List.tail_cons]
    exact skipDigits_append _ tl hw htl

theorem scanFraction_append (n : NumberText) (tl : List Char)
    (hf : n.fractionOk = true) (htl : isDigit (cur tl) = false) (hp : cur tl ≠ '.') :
    scanFraction (n.fraction ++ tl) = tl := by
  unfold NumberText.fractionOk at hf
  cases hfr : n.fraction with
  | nil => simp [scanFraction, hp]
  | cons c f =>
    rw [hfr] at hf
    simp only [Bool.and_eq_true, beq_iff_eq] at hf
    simp only [scanFraction, List.cons_append, cur, List.headD_cons, hf.1, if_true,
      List.tail_cons]
    exact skipDigits_append f tl hf.2 htl

theorem scanExponent_append (n : NumberText) (rest : List Char)
    (he : n.exponentOk = true) (hr : endsNumber rest = true) :
    scanExponent (n.exponent ++ rest) = rest := by
  unfold NumberText.exponentOk at he
  cases hex : n.exponent with
  | nil =>
    have := endsNumber_exponent hr
    simp [scanExponent, this.1, this.2]
  | cons e t =>
    cases t with
    | nil => rw [hex] at he; simp at he
    | cons h t =>
      rw [hex] at he
      simp only [Bool.and_eq_true, Bool.or_eq_true, beq_iff_eq] at he
      obtain ⟨⟨⟨he1, he2⟩, he3⟩, _⟩ := he
      have hc : cur (e :: h :: t ++ rest) = e := rfl
      have hc1 : charAt (e :: h :: t ++ rest) 1 = h := rfl
      simp only [scanExponent, hc, hc1, he1, he2, and_self, if_true]
      exact skipDigits_append t rest he3 (endsNumber_digit hr)

theorem exponent_head (n : NumberText) (rest : List Char)
    (he : n.exponentOk = true) (hr : endsNumber rest = true) :
    isDigit (cur (n.exponent ++ rest)) = false ∧ cur (n.exponent ++ rest) ≠ '.' := by
  unfold NumberText.exponentOk at he
  cases hex : n.exponent with
  | nil => exact ⟨endsNumber_digit hr, endsNumber_point hr⟩
  | cons e t =>
    cases t with
    | nil => rw [hex] at he; simp at he
    | cons h t =>
      rw [hex] at he
      simp only [Bool.and_eq_true, Bool.or_eq_true, beq_iff_eq] at he
      obtain ⟨⟨⟨he1, _⟩, _⟩, _⟩ := he
      have hc : cur (e :: h :: t ++ rest) = e := rfl
      rw [hc]
      rcases he1 with h1 | h1 <;> subst h1 <;> exact ⟨by decide, by decide⟩

theorem fraction_head (n : NumberText) (tl : List Char)
    (hf : n.fractionOk = true) (htl : isDigit (cur tl) = false) :
    isDigit (cur (n.fraction ++ tl)) = false := by
  unfold NumberText.fractionOk at hf
  cases hfr : n.fraction with
  | nil => exact htl
  | cons c f =>
    rw [hfr] at hf
    simp only [Bool.and_eq_true, beq_iff_eq] at hf
    have hc : cur (c :: f ++ tl) = c := rfl
    rw [hc, hf.1]; decide

/-- On a well-formed number the scan stops exactly at its end. -/
theorem scanNumber_wellFormed (n : NumberText) (rest : List Char)
    (hn : n.wellFormed = true) (hr : endsNumber rest = true) :
    scanNumber false (n.chars ++ rest) = rest := by
  simp only [NumberText.wellFormed, Bool.and_eq_true, Bool.not_eq_true'] at hn
  obtain ⟨⟨⟨⟨hs, hne⟩, hw⟩, hf⟩, he⟩ := hn
  have hx := exponent_head n rest he hr
  have hfh := fraction_head n (n.exponent ++ rest) hf hx.1
  have e1 : n.chars ++ rest = n.sign ++ n.whole ++ (n.fraction ++ (n.exponent ++ rest)) := by
    simp [NumberText.chars, List.append_assoc]
  rw [e1]
  simp only [scanNumber, scanUnits]
  rw [scanSign_whole n _ hs hne hw hfh, scanFraction_append n _ hf hx.1 hx.2,
    scanExponent_append n rest he hr]
  simp

theorem all_numberChar_of_digits (l : List Char) (h : l.all isDigit = true) :
    l.all numberChar = true := by
  rw [List.all_eq_true] at h ⊢
  intro c hc
  simp [numberChar, h c hc]

theorem wellFormed_all_numberChar (n : NumberText) (hn : n.wellFormed = true) :
    n.chars.all numberChar = true := by
  simp only [NumberText.wellFormed, Bool.and_eq_true, Bool.not_eq_true'] at hn
  obtain ⟨⟨⟨⟨hs, _⟩, hw⟩, hf⟩, he⟩ := hn
  simp only [NumberText.chars, List.all_append, Bool.and_eq_true]
  refine ⟨⟨⟨?_, all_numberChar_of_digits _ hw⟩, ?_⟩, ?_⟩
  · simp only [NumberText.signOk, Bool.or_eq_true, beq_iff_eq] at hs
    rcases hs with (hs | hs) | hs <;> rw [hs] <;> decide
  · unfold NumberText.fractionOk at hf
    cases hfr : n.fraction with
    | nil => rfl
    | cons c f =>
      rw [hfr] at hf
      simp only [Bool.and_eq_true, beq_iff_eq] at hf
      simp only [List.all_cons, Bool.and_eq_true]
      exact ⟨by rw [hf.1]; decide, all_numberChar_of_digits _ hf.2⟩
  · unfold NumberText.exponentOk at he
    cases hex : n.exponent with
    | nil => rfl
    | cons e t =>
      cases t with
      | nil => rw [hex] at he; simp at he
      | cons h t =>
        rw [hex] at he
        simp only [Bool.and_eq_true, Bool.or_eq_true, beq_iff_eq] at he
        obtain ⟨⟨⟨he1, he2⟩, he3⟩, _⟩ := he
        simp only [List.all_cons, Bool.and_eq_true]
        refine ⟨?_, ?_, all_numberChar_of_digits _ he3⟩
        · rcases he1 with h1 | h1 <;> rw [h1] <;> decide
        · simp only [isStartOfNumber, Bool.or_eq_true, beq_iff_eq] at he2
          simp only [numberChar, Bool.or_eq_true, beq_iff_eq]
          tauto

theorem wellFormed_chars_ne_nil (n : NumberText) (hn : n.wellFormed = true) :
    n.chars ≠ [] := by
  simp only [NumberText.wellFormed, Bool.and_eq_true, Bool.not_eq_true'] at hn
  obtain ⟨⟨⟨⟨_, hne⟩, _⟩, _⟩, _⟩ := hn
  intro h
  simp only [NumberText.chars, List.append_eq_nil] at h
  rw [h.1.1.2] at hne
  simp at hne

theorem charAt_mem (s : List Char) (i : Nat) (h : i < s.length) : charAt s i ∈ s := by
  unfold charAt
  rw [List.getD_eq_getElem _ _ h]
  exact List.getElem_mem _

theorem numberChar_not_unit (c : Char) (h : numberChar c = true) :
    c ≠ 'n' ∧ c ≠ 'm' ∧ c ≠ 'c' ∧ c ≠ '%' := by
  refine ⟨?_, ?_, ?_, ?_⟩ <;> intro hc <;> subst hc <;> revert h <;> decide

/-- A number written without units is its own length: no unit factor applies. -/
theorem getCoordLength_wellFormed (N : FloatOps) (n : NumberText) (size : N.F)
    (hn : n.wellFormed = true) :
    getCoordLength N n.chars size = N.getFloatValue n.chars := by
  unfold getCoordLength
  by_cases hl : 2 < n.chars.length
  · have hm : charAt n.chars (n.chars.length - 1) ∈ n.chars := charAt_mem _ _ (by omega)
    have hall := wellFormed_all_numberChar n hn
    rw [List.all_eq_true] at hall
    obtain ⟨h1, h2, h3, h4⟩ := numberChar_not_unit _ (hall _ hm)
    simp [hl, h1, h2, h3, h4]
  · simp [hl]

theorem wellFormed_cur (n : NumberText) (rest : List Char) (hn : n.wellFormed = true) :
    isStartOfNumber (cur (n.chars ++ rest)) = true := by
  simp only [NumberText.wellFormed, Bool.and_eq_true, Bool.not_eq_true'] at hn
  obtain ⟨⟨⟨⟨hs, hne⟩, hw⟩, _⟩, _⟩ := hn
  simp only [NumberText.signOk, Bool.or_eq_true, beq_iff_eq] at hs
  cases hwh : n.whole with
  | nil => simp [hwh] at hne
  | cons a w =>
    rw [hwh] at hw
    simp only [List.all_cons, Bool.and_eq_true] at hw
    rcases hs with (hs | hs) | hs
    · simp [NumberText.chars, hs, hwh, cur, isStartOfNumber, hw.1]
    · simp [NumberText.chars, hs, cur, isStartOfNumber]
    · simp [NumberText.chars, hs, cur, isStartOfNumber]

theorem startOfNumber_not_separator (c : Char) (h : isStartOfNumber c = true) :
    isSeparator c = false := by
  simp only [isStartOfNumber, Bool.or_eq_true, beq_iff_eq] at h
  rcases h with (h | h) | h
  · simp only [isDigit, Bool.and_eq_true, decide_eq_true_eq] at h
    have h9 : c ≠ ' ' := by intro hc; subst hc; revert h; decide
    have h8 : c ≠ ',' := by intro hc; subst hc; revert h; decide
    simp only [isSeparator, isWhitespace, Bool.or_eq_false_iff, beq_eq_false_iff_ne,
      Bool.and_eq_false_iff, decide_eq_false_iff_not]
    exact ⟨⟨h9, by omega⟩, h8⟩
  · subst h; decide
  · subst h; decide

/-- Reading a well-formed number: the separators before it are skipped, the number is
returned and the cursor is put after the separators that follow it. -/
theorem parseNextNumber_wellFormed (pre : List Char) (n : NumberText) (rest : List Char)
    (hpre : pre.all isSeparator = true) (hn : n.wellFormed = true)
    (hr : endsNumber rest = true) :
    parseNextNumber (pre ++ (n.chars ++ rest)) false
      = (some n.chars, skipSeparators rest) := by
  have hsk : skipSeparators (pre ++ (n.chars ++ rest)) = n.chars ++ rest := by
    unfold skipSeparators
    rw [dropWhile_append_all _ _ _ hpre]
    exact dropWhile_cur_false _ _
      (startOfNumber_not_separator _ (wellFormed_cur n rest hn))
  have hne := wellFormed_chars_ne_nil n hn
  have hlen : 0 < n.chars.length := List.length_pos.mpr hne
  unfold parseNextNumber
  simp only [hsk, scanNumber_wellFormed n rest hn hr, List.length_append]
  have h1 : ¬ (rest.length = n.chars.length + rest.length) := by omega
  simp [h1]

theorem separator_endsNumber (c : Char) (l : List Char) (h : isSeparator c = true) :
    endsNumber (c :: l) = true := by
  have hd : isDigit c = false := by
    cases hd : isDigit c with
    | false => rfl
    | true =>
      have := startOfNumber_not_separator c (by simp [isStartOfNumber, hd])
      rw [h] at this; cases this
  have h1 : c ≠ '.' := by intro hc; subst hc; revert h; decide
  have h2 : c ≠ 'e' := by intro hc; subst hc; revert h; decide
  have h3 : c ≠ 'E' := by intro hc; subst hc; revert h; decide
  simp [endsNumber, cur, hd, h1, h2, h3]

theorem endsNumber_separators_append (l rest : List Char) (hl : l.all isSeparator = true)
    (hr : endsNumber rest = true) : endsNumber (l ++ rest) = true := by
  cases l with
  | nil => exact hr
  | cons a l =>
    simp only [List.all_cons, Bool.and_eq_true] at hl
    exact separator_endsNumber a _ hl.1

theorem skipSeparators_append (l rest : List Char) (hl : l.all isSeparator = true) :
    skipSeparators (l ++ rest) = skipSeparators rest :=
  dropWhile_append_all _ _ _ hl

theorem skipSeparators_number (n : NumberText) (rest : List Char)
    (hn : n.wellFormed = true) : skipSeparators (n.chars ++ rest) = n.chars ++ rest :=
  dropWhile_cur_false _ _ (startOfNumber_not_separator _ (wellFormed_cur n rest hn))

variable {N : FloatOps}

/-- Reading one well-formed coordinate. -/
theorem parseCoord_wellFormed (self : SVGState N) (pre : List Char) (n : NumberText)
    (rest : List Char) (isX : Bool) (hpre : pre.all isSeparator = true)
    (hn : n.wellFormed = true) (hr : endsNumber rest = true) :
    self.parseCoord (pre ++ (n.chars ++ rest)) false isX
      = (true, N.getFloatValue n.chars, skipSeparators rest) := by
  unfold parseCoord
  rw [parseNextNumber_wellFormed pre n rest hpre hn hr]
  simp only [getCoordLength_wellFormed N n _ hn]

/-- Reading a well-formed coordinate pair: both numbers are read, the point is the value of
the pair, and the cursor is put after the separators that follow the pair. -/
theorem parseCoordsOrSkip_pair (self : SVGState N) (p : PairText) (rest : List Char)
    (q : Point N) (hp : p.wellFormed = true) (hr : endsNumber (p.post ++ rest) = true) :
    self.parseCoordsOrSkip (p.chars ++ rest) q false
      = (true, p.value N, skipSeparators rest) := by
  simp only [PairText.wellFormed, Bool.and_eq_true, Bool.not_eq_true'] at hp
  obtain ⟨⟨⟨⟨⟨hpre, hx⟩, hmne⟩, hmid⟩, hy⟩, hpost⟩ := hp
  have e1 : p.chars ++ rest
      = p.pre ++ (p.x.chars ++ (p.mid ++ (p.y.chars ++ (p.post ++ rest)))) := by
    simp [PairText.chars, List.append_assoc]
  have hm : endsNumber (p.mid ++ (p.y.chars ++ (p.post ++ rest))) = true := by
    cases hmm : p.mid with
    | nil => simp [hmm] at hmne
    | cons a l =>
      rw [hmm] at hmid
      simp only [List.all_cons, Bool.and_eq_true] at hmid
      exact separator_endsNumber a _ hmid.1
  have hx1 := parseCoord_wellFormed self p.pre p.x _ true hpre hx hm
  have hsk : skipSeparators (p.mid ++ (p.y.chars ++ (p.post ++ rest)))
      = [] ++ (p.y.chars ++ (p.post ++ rest)) := by
    rw [skipSeparators_append _ _ hmid, skipSeparators_number _ _ hy]; rfl
  have hy1 := parseCoord_wellFormed self [] p.y (p.post ++ rest) false rfl hy hr
  unfold parseCoordsOrSkip parseCoords
  rw [e1, hx1]
  simp only [hsk, hy1, skipSeparators_append _ _ hpost, PairText.value]

theorem parseCoordsOrSkip_wellFormed (self : SVGState N) (p : PairText) (rest : List Char)
    (q : Point N) (hp : p.wellFormed = true) (hr : endsNumber rest = true) :
    self.parseCoordsOrSkip (p.chars ++ rest) q false
      = (true, p.value N, skipSeparators rest) := by
  have hpost : p.post.all isSeparator = true := by
    simp only [PairText.wellFormed, Bool.and_eq_true] at hp
    exact hp.2
  exact parseCoordsOrSkip_pair self p rest q hp (endsNumber_separators_append _ _ hpost hr)

end SVGState

end Juce

namespace Juce

/-! ## Every pass of the loop consumes input -/

theorem dropWhile_length_le (p : Char → Bool) (s : List Char) :
    (s.dropWhile p).length ≤ s.length := by
  induction s with
  | nil => simp
  | cons a s ih =>
    simp only [List.dropWhile]
    split
    · simp only [List.length_cons]; omega
    · simp

namespace SVGState

theorem scanNumber_length_le (allowUnits : Bool) (s : List Char) :
    (scanNumber allowUnits s).length ≤ s.length := by
  have h1 : (scanSign s).length ≤ s.length := by
    unfold scanSign; split
    · simp
    · exact Nat.le_refl _
  have h2 : (skipDigits (scanSign s)).length ≤ (scanSign s).length :=
    dropWhile_length_le _ _
  have h3 : ∀ t : List Char, (scanFraction t).length ≤ t.length := by
    intro t; unfold scanFraction; split
    · exact Nat.le_trans (dropWhile_length_le _ _) (by simp)
    · exact Nat.le_refl _
  have h4 : ∀ t : List Char, (scanExponent t).length ≤ t.length := by
    intro t; unfold scanExponent; split
    · exact Nat.le_trans (dropWhile_length_le _ _) (by simp)
    · exact Nat.le_refl _
  have h5 : ∀ t : List Char, (scanUnits allowUnits t).length ≤ t.length := by
    intro t; unfold scanUnits; split
    · exact dropWhile_length_le _ _
    · exact Nat.le_refl _
  unfold scanNumber
  have a := h3 (skipDigits (scanSign s))
  have b := h4 (scanFraction (skipDigits (scanSign s)))
  have c := h5 (scanExponent (scanFraction (skipDigits (scanSign s))))
  omega

/-- The cursor never moves backwards in `parseNextNumber`, and a successful read consumes
at least one character. -/
theorem parseNextNumber_length (s : List Char) (allowUnits : Bool) :
    (parseNextNumber s allowUnits).2.length ≤ s.length
      ∧ ((parseNextNumber s allowUnits).1.isSome = true →
          (parseNextNumber s allowUnits).2.length < s.length) := by
  have h1 : (skipSeparators s).length ≤ s.length := dropWhile_length_le _ _
  have h2 := scanNumber_length_le allowUnits (skipSeparators s)
  have h3 : (skipSeparators (scanNumber allowUnits (skipSeparators s))).length
      ≤ (scanNumber allowUnits (skipSeparators s)).length := dropWhile_length_le _ _
  unfold parseNextNumber
  by_cases h : (scanNumber allowUnits (skipSeparators s)).length = (skipSeparators s).length
  · simp only [h, if_true]
    exact ⟨by omega, by simp⟩
  · simp only [h, if_false]
    exact ⟨by omega, fun _ => by omega⟩

variable {N : FloatOps}

theorem parseCoord_length (self : SVGState N) (s : List Char) (allowUnits isX : Bool) :
    (self.parseCoord s allowUnits isX).2.2.length ≤ s.length
      ∧ ((self.parseCoord s allowUnits isX).1 = true →
          (self.parseCoord s allowUnits isX).2.2.length < s.length) := by
  have h := parseNextNumber_length s allowUnits
  unfold parseCoord
  rcases hp : parseNextNumber s allowUnits with ⟨v, s'⟩
  rw [hp] at h
  cases v with
  | none => exact ⟨h.1, by simp⟩
  | some num => exact ⟨h.1, fun _ => h.2 rfl⟩

theorem parseCoords_length (self : SVGState N) (s : List Char) (p : Point N)
    (allowUnits : Bool) :
    (self.parseCoords s p allowUnits).2.2.length ≤ s.length
      ∧ ((self.parseCoords s p allowUnits).1 = true →
          (self.parseCoords s p allowUnits).2.2.length < s.length) := by
  have h := parseCoord_length self s allowUnits true
  unfold parseCoords
  rcases hp : self.parseCoord s allowUnits true with ⟨ok, vx, s'⟩
  rw [hp] at h
  cases ok with
  | false => exact ⟨h.1, by simp⟩
  | true =>
    have h' := parseCoord_length self s' allowUnits false
    rcases hq : self.parseCoord s' allowUnits false with ⟨ok2, vy, s''⟩
    rw [hq] at h'
    have := h.2 rfl
    simp only [hq] at h' this ⊢
    exact ⟨by omega, fun _ => by omega⟩

/-- The cursor never moves backwards in `parseCoordsOrSkip`, and it moves forwards
whenever there is a character left. -/
theorem parseCoordsOrSkip_length (self : SVGState N) (s : List Char) (p : Point N)
    (allowUnits : Bool) :
    (self.parseCoordsOrSkip s p allowUnits).2.2.length ≤ s.length
      ∧ (s ≠ [] → (self.parseCoordsOrSkip s p allowUnits).2.2.length < s.length) := by
  have h := parseCoords_length self s p allowUnits
  unfold parseCoordsOrSkip
  rcases hp : self.parseCoords s p allowUnits with ⟨ok, p', s'⟩
  rw [hp] at h
  have hs : s ≠ [] → 0 < s.length := fun hne => List.length_pos.mpr hne
  cases ok with
  | true =>
    have := h.2 rfl
    simp only at h this ⊢
    exact ⟨h.1, fun _ => this⟩
  | false =>
    simp only [List.length_tail] at h ⊢
    exact ⟨by omega, fun hne => by have := hs hne; omega⟩

theorem caseMoveLine_advances (self : SVGState N) (st : PathParse N) :
    Advances st (self.caseMoveLine st) := by
  have h1 := parseCoordsOrSkip_length self st.d st.p1 false
  unfold caseMoveLine
  rcases hp1 : self.parseCoordsOrSkip st.d st.p1 false with ⟨ok1, a, d1⟩
  rw [hp1] at h1
  cases ok1
  · exact ⟨h1.1, fun hne => Or.inl (h1.2 hne)⟩
  · simp only
    split <;> exact ⟨h1.1, fun hne => Or.inl (h1.2 hne)⟩

theorem advance_advances (st0 st : PathParse N) (d' : List Char)
    (h : d'.length ≤ st0.d.length) : Advances st0 (advance st d') := by
  unfold advance
  cases d' with
  | nil => exact ⟨by simp, fun _ => Or.inr rfl⟩
  | cons a t =>
    simp only [List.length_cons] at h
    exact ⟨by simp only; omega, fun _ => Or.inl (by simp only; omega)⟩

theorem caseHorizontal_advances (self : SVGState N) (st : PathParse N) :
    Advances st (self.caseHorizontal st) := by
  have h1 := parseCoord_length self st.d false true
  unfold caseHorizontal
  rcases hp1 : self.parseCoord st.d false true with ⟨ok1, v, d1⟩
  rw [hp1] at h1
  cases ok1
  · exact advance_advances st _ d1 h1.1
  · exact ⟨h1.1, fun _ => Or.inl (h1.2 rfl)⟩

theorem caseVertical_advances (self : SVGState N) (st : PathParse N) :
    Advances st (self.caseVertical st) := by
  have h1 := parseCoord_length self st.d false false
  unfold caseVertical
  rcases hp1 : self.parseCoord st.d false false with ⟨ok1, v, d1⟩
  rw [hp1] at h1
  cases ok1
  · exact advance_advances st _ d1 h1.1
  · exact ⟨h1.1, fun _ => Or.inl (h1.2 rfl)⟩

theorem caseCubic_advances (self : SVGState N) (st : PathParse N) :
    Advances st (self.caseCubic st) := by
  have h1 := parseCoordsOrSkip_length self st.d st.p1 false
  unfold caseCubic
  rcases hp1 : self.parseCoordsOrSkip st.d st.p1 false with ⟨ok1, a, d1⟩
  rw [hp1] at h1
  cases ok1
  · exact ⟨h1.1, fun hne => Or.inl (h1.2 hne)⟩
  · have h2 := (parseCoordsOrSkip_length self d1 st.p2 false).1
    rcases hp2 : self.parseCoordsOrSkip d1 st.p2 false with ⟨ok2, b, d2⟩
    rw [hp2] at h2
    simp only [hp2]
    simp only at h1 h2
    cases ok2
    · exact ⟨by simp only; omega, fun hne => Or.inl (by have := h1.2 hne; simp only; omega)⟩
    · have h3 := (parseCoordsOrSkip_length self d2 st.p3 false).1
      rcases hp3 : self.parseCoordsOrSkip d2 st.p3 false with ⟨ok3, c, d3⟩
      rw [hp3] at h3
      simp only [hp3]
      simp only at h3
      cases ok3 <;>
        exact ⟨by simp only; omega,
          fun hne => Or.inl (by have := h1.2 hne; simp only; omega)⟩

theorem caseSmoothCubic_advances (self : SVGState N) (st : PathParse N) :
    Advances st (self.caseSmoothCubic st) := by
  have h1 := parseCoordsOrSkip_length self st.d st.p1 false
  unfold caseSmoothCubic
  rcases hp1 : self.parseCoordsOrSkip st.d st.p1 false with ⟨ok1, a, d1⟩
  rw [hp1] at h1
  cases ok1
  · exact ⟨h1.1, fun hne => Or.inl (h1.2 hne)⟩
  · have h2 := (parseCoordsOrSkip_length self d1 st.p3 false).1
    rcases hp2 : self.parseCoordsOrSkip d1 st.p3 false with ⟨ok2, b, d2⟩
    rw [hp2] at h2
    simp only [hp2]
    simp only at h1 h2
    cases ok2 <;>
      exact ⟨by simp only; omega,
        fun hne => Or.inl (by have := h1.2 hne; simp only; omega)⟩

theorem caseQuadratic_advances (self : SVGState N) (st : PathParse N) :
    Advances st (self.caseQuadratic st) := by
  have h1 := parseCoordsOrSkip_length self st.d st.p1 false
  unfold caseQuadratic
  rcases hp1 : self.parseCoordsOrSkip st.d st.p1 false with ⟨ok1, a, d1⟩
  rw [hp1] at h1
  cases ok1
  · exact ⟨h1.1, fun hne => Or.inl (h1.2 hne)⟩
  · have h2 := (parseCoordsOrSkip_length self d1 st.p2 false).1
    rcases hp2 : self.parseCoordsOrSkip d1 st.p2 false with ⟨ok2, b, d2⟩
    rw [hp2] at h2
    simp only [hp2]
    simp only at h1 h2
    cases ok2 <;>
      exact ⟨by simp only; omega,
        fun hne => Or.inl (by have := h1.2 hne; simp only; omega)⟩

theorem caseSmoothQuadratic_advances (self : SVGState N) (st : PathParse N) :
    Advances st (self.caseSmoothQuadratic st) := by
  have h1 := parseCoordsOrSkip_length self st.d st.p1 false
  unfold caseSmoothQuadratic
  rcases hp1 : self.parseCoordsOrSkip st.d st.p1 false with ⟨ok1, a, d1⟩
  rw [hp1] at h1
  cases ok1 <;> exact ⟨h1.1, fun hne => Or.inl (h1.2 hne)⟩

theorem caseArc_advances (self : SVGState N) (st : PathParse N) :
    Advances st (self.caseArc st) := by
  have h1 := parseCoordsOrSkip_length self st.d st.p1 false
  unfold caseArc
  rcases hp1 : self.parseCoordsOrSkip st.d st.p1 false with ⟨ok1, a, d1⟩
  rw [hp1] at h1
  cases ok1
  · exact ⟨h1.1, fun hne => Or.inl (h1.2 hne)⟩
  · have h2 := (parseNextNumber_length d1 false).1
    rcases hp2 : parseNextNumber d1 false with ⟨n1, d2⟩
    rw [hp2] at h2
    simp only [hp2]
    simp only at h1 h2
    cases n1
    · exact ⟨by simp only; omega, fun hne => Or.inl (by have := h1.2 hne; simp only; omega)⟩
    · have h3 := (parseNextNumber_length d2 false).1
      rcases hp3 : parseNextNumber d2 false with ⟨n2, d3⟩
      rw [hp3] at h3
      simp only [hp3]
      simp only at h3
      cases n2
      · exact ⟨by simp only; omega,
          fun hne => Or.inl (by have := h1.2 hne; simp only; omega)⟩
      · have h4 := (parseNextNumber_length d3 false).1
        rcases hp4 : parseNextNumber d3 false with ⟨n3, d4⟩
        rw [hp4] at h4
        simp only [hp4]
        simp only at h4
        cases n3
        · exact ⟨by simp only; omega,
            fun hne => Or.inl (by have := h1.2 hne; simp only; omega)⟩
        · have h5 := (parseCoordsOrSkip_length self d4 st.p2 false).1
          rcases hp5 : self.parseCoordsOrSkip d4 st.p2 false with ⟨ok5, b, d5⟩
          rw [hp5] at h5
          simp only [hp5]
          simp only at h5
          cases ok5 <;>
            exact ⟨by simp only; omega,
              fun hne => Or.inl (by have := h1.2 hne; simp only; omega)⟩

theorem caseClose_length (st : PathParse N) : (caseClose st).d.length ≤ st.d.length :=
  dropWhile_length_le _ _

/-- The switch never moves the cursor backwards. -/
theorem dispatch_length_le (self : SVGState N) (st : PathParse N) :
    (self.dispatch st).d.length ≤ st.d.length := by
  unfold dispatch
  simp only
  split
  · exact (caseMoveLine_advances self st).1
  split
  · exact (caseHorizontal_advances self st).1
  split
  · exact (caseVertical_advances self st).1
  split
  · exact (caseCubic_advances self st).1
  split
  · exact (caseSmoothCubic_advances self st).1
  split
  · exact (caseQuadratic_advances self st).1
  split
  · exact (caseSmoothQuadratic_advances self st).1
  split
  · exact (caseArc_advances self st).1
  split
  · exact caseClose_length st
  · exact Nat.le_refl _

theorem progress_of_advances {st st' : PathParse N} (h : Advances st st')
    (hne : st.d ≠ []) : Progress st st' := by
  rcases h.2 hne with h1 | h1
  · exact Or.inl h1
  · exact Or.inr (Or.inl h1)

theorem dispatch_progress (self : SVGState N) (st : PathParse N) (ht : Tidy st)
    (hne : st.d ≠ []) : Progress st (self.dispatch st) := by
  unfold dispatch
  simp only
  split
  · exact progress_of_advances (caseMoveLine_advances self st) hne
  split
  · exact progress_of_advances (caseHorizontal_advances self st) hne
  split
  · exact progress_of_advances (caseVertical_advances self st) hne
  split
  · exact progress_of_advances (caseCubic_advances self st) hne
  split
  · exact progress_of_advances (caseSmoothCubic_advances self st) hne
  split
  · exact progress_of_advances (caseQuadratic_advances self st) hne
  split
  · exact progress_of_advances (caseSmoothQuadratic_advances self st) hne
  split
  · exact progress_of_advances (caseArc_advances self st) hne
  split
  · rename_i h
    rcases h with h | h
    · exact absurd h ht.1
    · exact absurd h ht.2
  · exact Or.inr (Or.inr rfl)

theorem caseMoveLine_command (self : SVGState N) (st : PathParse N) :
    (self.caseMoveLine st).currentCommand = st.currentCommand
      ∨ (self.caseMoveLine st).currentCommand = 'l' := by
  unfold caseMoveLine
  split
  · simp only
    split
    · exact Or.inr rfl
    · exact Or.inl rfl
  · exact Or.inl rfl

theorem advance_command (st : PathParse N) (d' : List Char) :
    (advance st d').currentCommand = st.currentCommand := by
  unfold advance; split <;> rfl

theorem caseHorizontal_command (self : SVGState N) (st : PathParse N) :
    (self.caseHorizontal st).currentCommand = st.currentCommand := by
  unfold caseHorizontal
  split
  · rfl
  · rw [advance_command]

theorem caseVertical_command (self : SVGState N) (st : PathParse N) :
    (self.caseVertical st).currentCommand = st.currentCommand := by
  unfold caseVertical
  split
  · rfl
  · rw [advance_command]

theorem caseCubic_command (self : SVGState N) (st : PathParse N) :
    (self.caseCubic st).currentCommand = st.currentCommand := by
  unfold caseCubic
  split
  · rfl
  · split
    · rfl
    · split <;> rfl

theorem caseSmoothCubic_command (self : SVGState N) (st : PathParse N) :
    (self.caseSmoothCubic st).currentCommand = st.currentCommand := by
  unfold caseSmoothCubic
  split
  · rfl
  · split <;> rfl

theorem caseQuadratic_command (self : SVGState N) (st : PathParse N) :
    (self.caseQuadratic st).currentCommand = st.currentCommand := by
  unfold caseQuadratic
  split
  · rfl
  · split <;> rfl

theorem caseSmoothQuadratic_command (self : SVGState N) (st : PathParse N) :
    (self.caseSmoothQuadratic st).currentCommand = st.currentCommand := by
  unfold caseSmoothQuadratic
  split <;> rfl

theorem caseArc_command (self : SVGState N) (st : PathParse N) :
    (self.caseArc st).currentCommand = st.currentCommand := by
  unfold caseArc
  split
  · rfl
  · split
    · rfl
    · split
      · rfl
      · split
        · rfl
        · split <;> rfl

/-- After the switch the current command is never `Z` or `z`. -/
theorem dispatch_tidy (self : SVGState N) (st : PathParse N) : Tidy (self.dispatch st) := by
  unfold dispatch Tidy
  simp only
  split
  · rename_i h
    rcases caseMoveLine_command self st with h1 | h1 <;> rw [h1]
    · rcases h with h | h | h | h <;> rw [h] <;> exact ⟨by decide, by decide⟩
    · exact ⟨by decide, by decide⟩
  split
  · rename_i h
    rw [caseHorizontal_command]
    rcases h with h | h <;> rw [h] <;> exact ⟨by decide, by decide⟩
  split
  · rename_i h
    rw [caseVertical_command]
    rcases h with h | h <;> rw [h] <;> exact ⟨by decide, by decide⟩
  split
  · rename_i h
    rw [caseCubic_command]
    rcases h with h | h <;> rw [h] <;> exact ⟨by decide, by decide⟩
  split
  · rename_i h
    rw [caseSmoothCubic_command]
    rcases h with h | h <;> rw [h] <;> exact ⟨by decide, by decide⟩
  split
  · rename_i h
    rw [caseQuadratic_command]
    rcases h with h | h <;> rw [h] <;> exact ⟨by decide, by decide⟩
  split
  · rename_i h
    rw [caseSmoothQuadratic_command]
    rcases h with h | h <;> rw [h] <;> exact ⟨by decide, by decide⟩
  split
  · rename_i h
    rw [caseArc_command]
    rcases h with h | h <;> rw [h] <;> exact ⟨by decide, by decide⟩
  split
  · exact ⟨by simp [caseClose], by simp [caseClose]⟩
  · rename_i h
    simp only [not_or] at h
    exact ⟨h.1, h.2⟩

theorem iteration_tidy (self : SVGState N) (st : PathParse N) :
    Tidy (self.iteration st) := by
  have h := dispatch_tidy self (readCommand st)
  unfold iteration
  simp only
  split
  · exact h
  · exact h

theorem readCommand_tidy_of_not_letter (st : PathParse N)
    (h : cur st.d ∉ commandLetters) : readCommand st = st := by
  unfold readCommand; simp [h]

/-- A pass of the loop that starts with a character left moves the cursor forwards or
leaves the loop. -/
theorem iteration_progress (self : SVGState N) (st : PathParse N) (ht : Tidy st)
    (hne : st.d ≠ []) : Progress st (self.iteration st) := by
  have key : Progress st (self.dispatch (readCommand st)) := by
    by_cases hc : cur st.d ∈ commandLetters
    · have hle := dispatch_length_le self (readCommand st)
      have hd : (readCommand st).d = st.d.tail := by unfold readCommand; simp [hc]
      rw [hd, List.length_tail] at hle
      have : 0 < st.d.length := List.length_pos.mpr hne
      exact Or.inl (by omega)
    · rw [readCommand_tidy_of_not_letter st hc]
      exact dispatch_progress self st ht hne
  unfold iteration
  simp only
  split
  · exact key
  · exact key

theorem loop_succ (self : SVGState N) (n : Nat) (st : PathParse N) :
    loop self (n + 1) st
      = if (st.d.isEmpty || !st.carryOn || st.overrun) = true then st
        else loop self n (self.iteration st) := rfl

theorem loop_stop (self : SVGState N) (fuel : Nat) (st : PathParse N)
    (h : (st.d.isEmpty || !st.carryOn || st.overrun) = true) : loop self fuel st = st := by
  cases fuel with
  | zero => rfl
  | succ n => simp only [loop, h, if_true]

/-- The result of the loop does not depend on the number of passes allowed, once that is
at least the number of characters left. -/
theorem loop_fuel (self : SVGState N) :
    ∀ (n : Nat) (st : PathParse N), Tidy st → st.d.length ≤ n →
      ∀ m, st.d.length ≤ m → loop self n st = loop self m st := by
  intro n
  induction n with
  | zero =>
    intro st _ hn m _
    have hd : st.d = [] := List.length_eq_zero.mp (Nat.le_zero.mp hn)
    rw [loop_stop self 0 st (by simp [hd]), loop_stop self m st (by simp [hd])]
  | succ n ih =>
    intro st ht hn m hm
    by_cases hs : (st.d.isEmpty || !st.carryOn || st.overrun) = true
    · rw [loop_stop self _ st hs, loop_stop self m st hs]
    · have hne : st.d ≠ [] := by
        intro hd; apply hs; simp [hd]
      cases m with
      | zero =>
        exact absurd (List.length_eq_zero.mp (Nat.le_zero.mp hm)) hne
      | succ m =>
        rw [loop_succ self n st, loop_succ self m st]
        simp only [hs, if_false]
        rcases iteration_progress self st ht hne with hp | hp | hp
        · exact ih _ (iteration_tidy self st) (by omega) m (by omega)
        · rw [loop_stop self n _ (by simp [hp]), loop_stop self m _ (by simp [hp])]
        · rw [loop_stop self n _ (by simp [hp]), loop_stop self m _ (by simp [hp])]

/-- One pass of the loop can be split off without changing the passes allowed. -/
theorem loop_unroll (self : SVGState N) (fuel : Nat) (st : PathParse N) (ht : Tidy st)
    (hne : st.d ≠ []) (hc : st.carryOn = true) (ho : st.overrun = false)
    (hf : st.d.length ≤ fuel) : loop self fuel st = loop self fuel (self.iteration st) := by
  have hpos : 0 < st.d.length := List.length_pos.mpr hne
  obtain ⟨n, rfl⟩ : ∃ n, fuel = n + 1 := ⟨fuel - 1, by omega⟩
  have hs : (st.d.isEmpty || !st.carryOn || st.overrun) = false := by
    simp [hc, ho, hne]
  rw [loop_succ self n st, hs]
  simp only [Bool.false_eq_true, if_false]
  rcases iteration_progress self st ht hne with hp | hp | hp
  · exact loop_fuel self n _ (iteration_tidy self st) (by omega) (n + 1) (by omega)
  · rw [loop_stop self n _ (by simp [hp]), loop_stop self (n + 1) _ (by simp [hp])]
  · rw [loop_stop self n _ (by simp [hp]), loop_stop self (n + 1) _ (by simp [hp])]

end SVGState

end Juce

namespace Juce

namespace SVGState

variable {N : FloatOps}

/-! ## Runs of move and line commands -/

theorem moveLine_letter_facts (l : Char) (h : l ∈ moveLineLetters) :
    l ∈ commandLetters ∧ isSeparator l = false ∧ endsNumber [l] = true := by
  simp only [moveLineLetters, List.mem_cons, List.mem_singleton, List.not_mem_nil,
    or_false] at h
  rcases h with h | h | h | h <;> subst h <;> exact ⟨by decide, by decide, by decide⟩

theorem startOfNumber_not_letter (c : Char) (h : isStartOfNumber c = true) :
    c ∉ commandLetters := by
  intro hc
  simp only [commandLetters, List.mem_cons, List.mem_singleton, List.not_mem_nil,
    or_false] at hc
  revert h
  rcases hc with h | h | h | h | h | h | h | h | h | h | h | h | h | h | h | h | h | h | h | h
    <;> subst h <;> decide

/-- The move and line case on a well-formed pair, for a current command among `M`, `m`,
`L`, `l`. -/
theorem dispatch_moveLine (self : SVGState N) (p : PairText) (tail : List Char)
    (st : PathParse N) (hp : p.wellFormed = true) (ht : endsNumber tail = true)
    (hd : st.d = p.chars ++ tail) (hc : st.currentCommand ∈ moveLineLetters) :
    self.dispatch st =
      (let q := if st.isRelative then (p.value N).add st.last else p.value N
       if st.currentCommand = 'M' ∨ st.currentCommand = 'm' then
         { st with d := skipSeparators tail, p1 := q, subpathStart := q,
                   path := st.path.startNewSubPath q, currentCommand := 'l',
                   last2 := st.last, last := q }
       else
         { st with d := skipSeparators tail, p1 := q, path := st.path.lineTo q,
                   last2 := st.last, last := q }) := by
  have hc' : st.currentCommand = 'M' ∨ st.currentCommand = 'm' ∨ st.currentCommand = 'L'
      ∨ st.currentCommand = 'l' := by
    simpa [moveLineLetters] using hc
  unfold dispatch
  simp only [hc', if_true]
  unfold caseMoveLine
  rw [hd, parseCoordsOrSkip_wellFormed self p tail st.p1 hp ht]

theorem readCommand_letter (st : PathParse N) (l : Char) (t : List Char)
    (hd : st.d = l :: t) (hl : l ∈ commandLetters) :
    readCommand st
      = { st with currentCommand := l, d := t, isRelative := decide (97 ≤ l.toNat) } := by
  unfold readCommand
  simp [hd, cur, hl]

theorem pair_without_pre (p : PairText) (hp : p.wellFormed = true) :
    ({ p with pre := [] } : PairText).wellFormed = true
      ∧ ∀ tail, skipSeparators (p.chars ++ tail)
          = ({ p with pre := [] } : PairText).chars ++ tail := by
  simp only [PairText.wellFormed, Bool.and_eq_true, Bool.not_eq_true'] at hp ⊢
  obtain ⟨⟨⟨⟨⟨hpre, hx⟩, hmne⟩, hmid⟩, hy⟩, hpost⟩ := hp
  refine ⟨⟨⟨⟨⟨⟨rfl, hx⟩, hmne⟩, hmid⟩, hy⟩, hpost⟩, ?_⟩
  intro tail
  simp only [PairText.chars, List.append_assoc, List.nil_append]
  rw [skipSeparators_append _ _ hpre, skipSeparators_number _ _ hx]

theorem pair_cur (p : PairText) (tail : List Char) (hp : p.wellFormed = true)
    (hpre : p.pre = []) : isStartOfNumber (cur (p.chars ++ tail)) = true := by
  simp only [PairText.wellFormed, Bool.and_eq_true, Bool.not_eq_true'] at hp
  obtain ⟨⟨⟨⟨⟨_, hx⟩, _⟩, _⟩, _⟩, _⟩ := hp
  simp only [PairText.chars, hpre, List.nil_append, List.append_assoc]
  exact wellFormed_cur p.x _ hx

/-- One pass of the loop over a well-formed move or line command. -/
theorem iteration_segment (self : SVGState N) (c : Segment) (tail : List Char)
    (st : PathParse N) (hc : c.wellFormed = true) (ht : endsNumber tail = true)
    (hd : st.d = skipSeparators (c.chars ++ tail))
    (hcmd : c.letter = none → st.currentCommand ∈ moveLineLetters)
    (hcarry : st.carryOn = true) :
    st.d ≠ [] ∧ (self.iteration st).d = skipSeparators tail
      ∧ (self.iteration st).pen = c.draw N st.pen
      ∧ (self.iteration st).carryOn = true
      ∧ (self.iteration st).overrun = st.overrun
      ∧ (self.iteration st).currentCommand ∈ moveLineLetters := by
  simp only [Segment.wellFormed, Bool.and_eq_true] at hc
  obtain ⟨hp, hl⟩ := hc
  cases hlet : c.letter with
  | some l =>
    rw [hlet] at hl
    simp only [decide_eq_true_eq] at hl
    obtain ⟨hl1, hl2, _⟩ := moveLine_letter_facts l hl
    have hd' : st.d = l :: (c.pair.chars ++ tail) := by
      rw [hd]
      simp only [Segment.chars, hlet, List.cons_append]
      exact dropWhile_cur_false _ _ hl2
    refine ⟨by rw [hd']; exact List.cons_ne_nil _ _, ?_⟩
    have hr := readCommand_letter st l _ hd' hl1
    have hdis := dispatch_moveLine self c.pair tail (readCommand st) hp ht
      (by rw [hr]) (by rw [hr]; exact hl)
    unfold iteration
    simp only [hdis]
    rw [hr]
    simp only [Segment.draw, hlet, Option.getD_some, PathParse.pen]
    simp only [moveLineLetters, List.mem_cons, List.mem_singleton, List.not_mem_nil,
      or_false] at hl
    by_cases hM : l = 'M' ∨ l = 'm'
    · simp only [hM, if_true, hcarry]
      and_intros <;> trivial
    · simp only [hM, if_false, hcarry, if_true]
      simp only [not_or] at hM
      and_intros <;> first | trivial | rfl | (simp [moveLineLetters]; tauto)
  | none =>
    have hcmd' := hcmd hlet
    obtain ⟨hp', hsk⟩ := pair_without_pre c.pair hp
    have hd' : st.d = ({ c.pair with pre := [] } : PairText).chars ++ tail := by
      rw [hd]; simp only [Segment.chars, hlet]; exact hsk tail
    have hnl : cur st.d ∉ commandLetters := by
      rw [hd']
      exact startOfNumber_not_letter _ (pair_cur _ tail hp' rfl)
    have hne : st.d ≠ [] := by
      intro h0
      have h1 := pair_cur _ tail hp' rfl
      rw [← hd', h0] at h1
      revert h1; decide
    refine ⟨hne, ?_⟩
    have hr := readCommand_tidy_of_not_letter st hnl
    have hdis := dispatch_moveLine self _ tail st hp' ht hd' hcmd'
    unfold iteration
    rw [hr]
    simp only [hdis]
    simp only [Segment.draw, hlet, Option.getD_none, PathParse.pen, PairText.value]
    simp only [moveLineLetters, List.mem_cons, List.mem_singleton, List.not_mem_nil,
      or_false] at hcmd'
    by_cases hM : st.currentCommand = 'M' ∨ st.currentCommand = 'm'
    · simp only [hM, if_true, hcarry]
      and_intros <;> trivial
    · simp only [hM, if_false, hcarry, if_true]
      simp only [not_or] at hM
      and_intros <;> first | trivial | rfl | (simp [moveLineLetters]; tauto)

theorem iteration_length_le (self : SVGState N) (st : PathParse N) :
    (self.iteration st).d.length ≤ st.d.length := by
  have h1 := dispatch_length_le self (readCommand st)
  have h2 : (readCommand st).d.length ≤ st.d.length := by
    unfold readCommand
    split
    · simp
    · exact Nat.le_refl _
  have h3 : (self.iteration st).d = (self.dispatch (readCommand st)).d := by
    unfold iteration
    simp only
    split <;> rfl
  rw [h3]; omega

theorem endsNumber_cons (a : Char) (l l' : List Char) :
    endsNumber (a :: l) = endsNumber (a :: l') := rfl

theorem endsNumber_render (cs : List Segment) (more : List Char)
    (hcs : ∀ c ∈ cs, c.wellFormed = true) (hm : endsNumber more = true) :
    endsNumber (render cs ++ more) = true := by
  cases cs with
  | nil => exact hm
  | cons c cs =>
    have hc := hcs c (List.mem_cons_self _ _)
    simp only [Segment.wellFormed, Bool.and_eq_true] at hc
    obtain ⟨hp, hl⟩ := hc
    cases hlet : c.letter with
    | some l =>
      rw [hlet] at hl
      simp only [decide_eq_true_eq] at hl
      simp only [render, Segment.chars, hlet, List.cons_append]
      rw [endsNumber_cons l _ []]
      exact (moveLine_letter_facts l hl).2.2
    | none =>
      rw [hlet] at hl
      simp only [PairText.wellFormed, Bool.and_eq_true, Bool.not_eq_true'] at hp
      obtain ⟨⟨⟨⟨⟨hpre, _⟩, _⟩, _⟩, _⟩, _⟩ := hp
      simp only [render, Segment.chars, hlet, PairText.chars, List.append_assoc]
      cases hpp : c.pair.pre with
      | nil => simp [hpp] at hl
      | cons a t =>
        rw [hpp] at hpre
        simp only [List.all_cons, Bool.and_eq_true] at hpre
        exact separator_endsNumber a _ hpre.1

/-- The loop over a run of well-formed move and line commands: the passes consume the
commands one by one and act on the pen as `drawAll` says. -/
theorem loop_segments (self : SVGState N) (fuel : Nat) :
    ∀ (cs : List Segment) (more : List Char) (st : PathParse N),
      (∀ c ∈ cs, c.wellFormed = true) → endsNumber more = true →
      st.d = skipSeparators (render cs ++ more) →
      (∀ c tl, cs = c :: tl → c.letter = none → st.currentCommand ∈ moveLineLetters) →
      st.carryOn = true → st.overrun = false → Tidy st → st.d.length ≤ fuel →
      ∃ st', loop self fuel st = loop self fuel st' ∧ st'.d = skipSeparators more
        ∧ st'.pen = drawAll N cs st.pen ∧ st'.carryOn = true ∧ st'.overrun = false
        ∧ Tidy st' ∧ st'.d.length ≤ fuel := by
  intro cs
  induction cs with
  | nil =>
    intro more st _ _ hd _ hc ho ht hf
    exact ⟨st, rfl, by simpa [render] using hd, rfl, hc, ho, ht, hf⟩
  | cons c cs ih =>
    intro more st hcs hm hd hcmd hc ho ht hf
    have hcw := hcs c (List.mem_cons_self _ _)
    have hcs' : ∀ c' ∈ cs, c'.wellFormed = true :=
      fun c' h' => hcs c' (List.mem_cons_of_mem _ h')
    have htail := endsNumber_render cs more hcs' hm
    have hd' : st.d = skipSeparators (c.chars ++ (render cs ++ more)) := by
      rw [hd]; simp [render, List.append_assoc]
    obtain ⟨hne, h1, h2, h3, h4, h5⟩ :=
      iteration_segment self c (render cs ++ more) st hcw htail hd' (hcmd c cs rfl) hc
    have hlen := iteration_length_le self st
    obtain ⟨st', e1, e2, e3, e4, e5, e6, e7⟩ :=
      ih more (self.iteration st) hcs' hm h1 (fun _ _ _ _ => h5) h3 (by rw [h4, ho])
        (iteration_tidy self st) (by omega)
    refine ⟨st', ?_, e2, ?_, e4, e5, e6, e7⟩
    · rw [loop_unroll self fuel st ht hne hc ho hf, e1]
    · rw [e3, h2]; rfl

end SVGState

end Juce

namespace Juce

namespace SVGState

variable {N : FloatOps}

/-! ## Whole texts of move and line commands -/

theorem whitespace_all_separator (l : List Char) (h : l.all isWhitespace = true) :
    l.all isSeparator = true := by
  rw [List.all_eq_true] at h ⊢
  intro c hc
  simp [isSeparator, h c hc]

theorem endsNumber_separators (l : List Char) (h : l.all isSeparator = true) :
    endsNumber l = true := by
  have := endsNumber_separators_append l [] h (by decide)
  simpa using this

theorem skipSeparators_all (l : List Char) (h : l.all isSeparator = true) :
    skipSeparators l = [] := by
  have := skipSeparators_append l [] h
  simpa [skipSeparators] using this

theorem render_lettered_cur (c : Segment) (cs : List Segment) (more : List Char) (l : Char)
    (hl : c.letter = some l) : render (c :: cs) ++ more = l :: (c.pair.chars ++ (render cs ++ more)) := by
  simp [render, Segment.chars, hl, List.append_assoc]

/-- The loop on a text that starts with well-formed move and line commands, the first with
its letter: the passes over these commands leave the cursor at what follows them, and
the pen as the commands draw it. -/
theorem run_segments (self : SVGState N) (path : Path N)
    (lead more : List Char) (c : Segment) (cs : List Segment)
    (hlead : lead.all isWhitespace = true) (hmore : endsNumber more = true)
    (hcs : ∀ c' ∈ c :: cs, c'.wellFormed = true) (hfirst : c.letter.isSome = true) :
    ∃ (st' : PathParse N) (fuel : Nat),
      self.run path (lead ++ (render (c :: cs) ++ more)) = loop self fuel st'
        ∧ st'.d = skipSeparators more
        ∧ st'.pen = drawAll N (c :: cs) (Pen.initial path)
        ∧ st'.carryOn = true ∧ st'.overrun = false ∧ Tidy st' ∧ st'.d.length ≤ fuel := by
  obtain ⟨l, hl⟩ := Option.isSome_iff_exists.mp hfirst
  have hcw := hcs c (List.mem_cons_self _ _)
  simp only [Segment.wellFormed, Bool.and_eq_true, hl, decide_eq_true_eq] at hcw
  obtain ⟨_, hl2, _⟩ := moveLine_letter_facts l hcw.2
  have hw : isWhitespace l = false := by
    simp only [isSeparator, Bool.or_eq_false_iff] at hl2
    exact hl2.1
  have hcur : cur (render (c :: cs) ++ more) = l := by
    rw [render_lettered_cur c cs more l hl]; rfl
  have hd0 : (start path (lead ++ (render (c :: cs) ++ more))).d
      = skipSeparators (render (c :: cs) ++ more) := by
    simp only [start, findEndOfWhitespace]
    rw [dropWhile_append_all _ _ _ hlead, dropWhile_cur_false _ _ (by rw [hcur]; exact hw)]
    unfold skipSeparators
    rw [dropWhile_cur_false _ _ (by rw [hcur]; exact hl2)]
  obtain ⟨st', e1, e2, e3, e4, e5, e6, e7⟩ :=
    loop_segments self (start path (lead ++ (render (c :: cs) ++ more))).d.length
      (c :: cs) more (start path (lead ++ (render (c :: cs) ++ more))) hcs hmore hd0
      (fun c' tl h hn => by
        simp only [List.cons.injEq] at h
        rw [← h.1, hl] at hn; cases hn)
      rfl rfl ⟨by simp [start], by simp [start]⟩ (Nat.le_refl _)
  exact ⟨st', _, e1, e2, e3, e4, e5, e6, e7⟩

/-- A text of well-formed move and line commands that starts with a command letter: the
path after `parsePathString` is the path drawn by the commands, closed when it ends where
its subpath started. -/
theorem parsePathString_segments (self : SVGState N) (path : Path N)
    (lead trail : List Char) (c : Segment) (cs : List Segment)
    (hlead : lead.all isWhitespace = true) (htrail : trail.all isSeparator = true)
    (hcs : ∀ c' ∈ c :: cs, c'.wellFormed = true) (hfirst : c.letter.isSome = true) :
    self.parsePathString path (lead ++ (render (c :: cs) ++ trail))
      = (drawAll N (c :: cs) (Pen.initial path)).finish := by
  obtain ⟨st', fuel, e1, e2, e3, _, _, _, _⟩ :=
    run_segments self path lead trail c cs hlead (endsNumber_separators trail htrail)
      hcs hfirst
  have hstop : loop self fuel st' = st' :=
    loop_stop self _ st' (by rw [e2, skipSeparators_all trail htrail]; rfl)
  unfold parsePathString
  rw [e1, hstop]
  have hp : st'.path = (drawAll N (c :: cs) (Pen.initial path)).path := by
    rw [← e3]; rfl
  have hs : st'.subpathStart = (drawAll N (c :: cs) (Pen.initial path)).subpathStart := by
    rw [← e3]; rfl
  unfold closeIfBackAtStart Pen.finish
  rw [hp, hs]

end SVGState

end Juce

namespace Juce

/-! ## Paths that grow by one element -/

namespace Path

variable {N : FloatOps}

theorem endsWithClose_append_singleton (l : Path N) (e : PathElement N) :
    endsWithClose (l ++ [e]) = endsWithClose [e] := by
  induction l with
  | nil => rfl
  | cons a l ih =>
    cases l with
    | nil => cases a <;> cases e <;> rfl
    | cons b l => simpa [endsWithClose] using ih

theorem lastTarget_append_singleton (l : Path N) (e : PathElement N) :
    lastTarget (l ++ [e]) = lastTarget [e] := by
  induction l with
  | nil => rfl
  | cons a l ih =>
    cases l with
    | nil => cases a <;> cases e <;> rfl
    | cons b l => simpa [lastTarget] using ih

theorem lastMove_append_move (l : Path N) (p : Point N) :
    lastMove (l ++ [PathElement.moveTo p]) = some p := by
  induction l with
  | nil => rfl
  | cons a l ih => cases a <;> simp [lastMove, ih]

theorem lastMove_append_line (l : Path N) (p : Point N) :
    lastMove (l ++ [PathElement.lineTo p]) = lastMove l := by
  induction l with
  | nil => rfl
  | cons a l ih => cases a <;> simp [lastMove, ih]

theorem lastMove_append_close (l : Path N) :
    lastMove (l ++ [PathElement.close]) = lastMove l := by
  induction l with
  | nil => rfl
  | cons a l ih => cases a <;> simp [lastMove, ih]

theorem ensureStarted_of_ne_nil (l : Path N) (h : l ≠ []) : ensureStarted l = l := by
  cases l with
  | nil => exact absurd rfl h
  | cons a l => rfl

theorem closeSubPath_open (l : Path N) (h : l ≠ []) (hc : endsWithClose l = false) :
    closeSubPath l = l ++ [PathElement.close] := by
  cases l with
  | nil => exact absurd rfl h
  | cons a l => simp [closeSubPath, hc]

theorem closeSubPath_closed (l : Path N) (hc : endsWithClose l = true) :
    closeSubPath l = l := by
  simp [closeSubPath, hc]

end Path

end Juce

namespace Juce

namespace SVGState

variable {N : FloatOps}

/-! ## The path drawn by move and line commands -/

theorem render_map_toSegment (cs : List Command) :
    render (cs.map Command.toSegment) = commandsText cs := by
  induction cs with
  | nil => rfl
  | cons c cs ih => simp [render, commandsText, Command.toSegment, Segment.chars, ih]

theorem toSegment_wellFormed (c : Command) (h : c.wellFormed = true) :
    c.toSegment.wellFormed = true := by
  simp only [Command.wellFormed, Bool.and_eq_true] at h
  simp only [Segment.wellFormed, Command.toSegment, Bool.and_eq_true]
  exact ⟨h.2, h.1⟩

theorem command_relative (c : Command) (h : c.wellFormed = true) :
    decide (97 ≤ c.letter.toNat) = decide (c.letter = 'm' ∨ c.letter = 'l') := by
  simp only [Command.wellFormed, Bool.and_eq_true, decide_eq_true_eq, moveLineLetters,
    List.mem_cons, List.mem_singleton, List.not_mem_nil, or_false] at h
  rcases h.1 with h1 | h1 | h1 | h1 <;> rw [h1] <;> decide

/-- The effect of one command on the pen: its element is appended to the path. -/
theorem draw_command (c : Command) (pen : Pen N) (hc : c.wellFormed = true)
    (h : pen.Ok ∨ c.letter = 'M' ∨ c.letter = 'm') :
    (c.toSegment.draw N pen).Ok
      ∧ (c.toSegment.draw N pen).path = pen.path ++ [c.element N pen.last]
      ∧ (c.toSegment.draw N pen).last = c.point N pen.last
      ∧ (c.toSegment.draw N pen).subpathStart
          = (if c.letter = 'M' ∨ c.letter = 'm' then c.point N pen.last
             else pen.subpathStart) := by
  have hrel := command_relative c hc
  by_cases hM : c.letter = 'M' ∨ c.letter = 'm'
  · simp only [Segment.draw, Command.toSegment, Option.getD_some, hM, if_true, hrel,
      Command.element, Command.point, Pen.Ok, Path.startNewSubPath, decide_eq_true_eq]
    refine ⟨⟨by simp, ?_, ?_, ?_⟩, trivial, trivial, trivial⟩
    · rw [Path.endsWithClose_append_singleton]; rfl
    · rw [Path.lastTarget_append_singleton]; rfl
    · rw [Path.lastMove_append_move]
  · have hok : pen.Ok := by
      rcases h with h | h
      · exact h
      · exact absurd h hM
    obtain ⟨h1, h2, h3, h4⟩ := hok
    simp only [Segment.draw, Command.toSegment, Option.getD_some, hM, if_false, hrel,
      Command.element, Command.point, Pen.Ok, Path.lineTo, decide_eq_true_eq,
      Path.ensureStarted_of_ne_nil _ h1]
    refine ⟨⟨by simp, ?_, ?_, ?_⟩, trivial, trivial, trivial⟩
    · rw [Path.endsWithClose_append_singleton]; rfl
    · rw [Path.lastTarget_append_singleton]; rfl
    · rw [Path.lastMove_append_line]; exact h4

/-- The effect of a list of commands on a pen whose path ends in a drawn point: their
elements are appended to the path in order. -/
theorem drawAll_commands :
    ∀ (cs : List Command) (pen : Pen N), (∀ c ∈ cs, c.wellFormed = true) → pen.Ok →
      (drawAll N (cs.map Command.toSegment) pen).Ok
        ∧ (drawAll N (cs.map Command.toSegment) pen).path
            = pen.path ++ expectedElements N pen.last cs
        ∧ (drawAll N (cs.map Command.toSegment) pen).last = finalPoint N pen.last cs
        ∧ (drawAll N (cs.map Command.toSegment) pen).subpathStart
            = finalStart N pen.subpathStart pen.last cs := by
  intro cs
  induction cs with
  | nil =>
    intro pen _ hok
    exact ⟨hok, by simp [drawAll, expectedElements], rfl, rfl⟩
  | cons c cs ih =>
    intro pen hcs hok
    obtain ⟨h1, h2, h3, h3'⟩ :=
      draw_command c pen (hcs c (List.mem_cons_self _ _)) (Or.inl hok)
    obtain ⟨h4, h5, h6, h7⟩ := ih (c.toSegment.draw N pen)
      (fun c' h' => hcs c' (List.mem_cons_of_mem _ h')) h1
    refine ⟨h4, ?_, ?_, ?_⟩
    · simp only [List.map_cons, drawAll]
      rw [h5, h2, h3]
      simp [expectedElements]
    · simp only [List.map_cons, drawAll]
      rw [h6, h3]; rfl
    · simp only [List.map_cons, drawAll]
      rw [h7, h3, h3']; rfl

/-- The statement after the loop, for a path that ends in a drawn point: a close is
appended exactly when that point compares equal to the start of the subpath. -/
theorem finish_ok (pen : Pen N) (hok : pen.Ok) :
    pen.finish = pen.path ++ (if pen.last.eq pen.subpathStart then [PathElement.close] else []) := by
  obtain ⟨h1, h2, h3, _⟩ := hok
  have hcur : pen.path.getCurrentPosition = pen.last := by
    simp [Path.getCurrentPosition, h2, h3]
  unfold Pen.finish
  rw [hcur]
  split
  · exact Path.closeSubPath_open _ h1 h2
  · simp

/-- The pen after a list of well-formed commands that starts with a move, drawn on the
path without elements. -/
theorem drawAll_from_initial (c : Command) (cs : List Command)
    (hwf : ∀ c' ∈ c :: cs, c'.wellFormed = true) (hfirst : c.letter = 'M' ∨ c.letter = 'm') :
    (drawAll N ((c :: cs).map Command.toSegment) (Pen.initial [])).Ok
      ∧ (drawAll N ((c :: cs).map Command.toSegment) (Pen.initial [])).path
          = expectedElements N Point.origin (c :: cs)
      ∧ (drawAll N ((c :: cs).map Command.toSegment) (Pen.initial [])).last
          = finalPoint N Point.origin (c :: cs)
      ∧ (drawAll N ((c :: cs).map Command.toSegment) (Pen.initial [])).subpathStart
          = finalStart N Point.origin Point.origin (c :: cs) := by
  obtain ⟨h1, h2, h3, h3'⟩ := draw_command c (Pen.initial ([] : Path N))
    (hwf c (List.mem_cons_self _ _)) (Or.inr hfirst)
  obtain ⟨h4, h5, h6, h7⟩ := drawAll_commands cs (c.toSegment.draw N (Pen.initial []))
    (fun c' h' => hwf c' (List.mem_cons_of_mem _ h')) h1
  refine ⟨h4, ?_, ?_, ?_⟩
  · simp only [List.map_cons, drawAll]
    rw [h5, h2, h3]
    simp [expectedElements, Pen.initial]
  · simp only [List.map_cons, drawAll]
    rw [h6, h3]; rfl
  · simp only [List.map_cons, drawAll]
    rw [h7, h3, h3']; rfl

theorem segments_wellFormed (cs : List Command) (hwf : ∀ c' ∈ cs, c'.wellFormed = true) :
    ∀ s ∈ cs.map Command.toSegment, s.wellFormed = true := by
  intro s hs
  obtain ⟨c', hc', rfl⟩ := List.mem_map.mp hs
  exact toSegment_wellFormed c' (hwf c' hc')

/-- The path of a text of well-formed move and line commands that starts with a move: the
elements of the commands, and a close when the last point compares equal to the start of
the last subpath. -/
theorem parsePathString_commands (self : SVGState N) (lead trail : List Char)
    (c : Command) (cs : List Command)
    (hlead : lead.all isWhitespace = true) (htrail : trail.all isSeparator = true)
    (hwf : ∀ c' ∈ c :: cs, c'.wellFormed = true) (hfirst : c.letter = 'M' ∨ c.letter = 'm') :
    (expectedElements N Point.origin (c :: cs)).endsWithClose = false
      ∧ self.parsePathString [] (lead ++ (commandsText (c :: cs) ++ trail))
        = expectedElements N Point.origin (c :: cs)
          ++ (if (finalPoint N Point.origin (c :: cs)).eq
                (finalStart N Point.origin Point.origin (c :: cs))
              then [PathElement.close] else []) := by
  have hparse := parsePathString_segments self [] lead trail c.toSegment
    (cs.map Command.toSegment) hlead htrail (segments_wellFormed (c :: cs) hwf) rfl
  have hr := render_map_toSegment (c :: cs)
  simp only [List.map_cons] at hr
  rw [hr] at hparse
  obtain ⟨hok, hpath, hlast, hstart⟩ := drawAll_from_initial (N := N) c cs hwf hfirst
  simp only [List.map_cons] at hok hpath hlast hstart
  rw [hparse, finish_ok _ hok, hpath, hlast, hstart]
  obtain ⟨_, k2, _, _⟩ := hok
  rw [hpath] at k2
  exact ⟨k2, rfl⟩

end SVGState

end Juce

namespace Juce

namespace SVGState

variable {N : FloatOps}

/-! ## The close command -/

theorem dispatch_close (self : SVGState N) (st : PathParse N)
    (hz : st.currentCommand = 'Z' ∨ st.currentCommand = 'z') :
    self.dispatch st = caseClose st := by
  unfold dispatch
  rcases hz with h | h <;> simp [h]

/-- One pass of the loop at a `Z` or `z`: the subpath is closed, the current point and the
point before it become the start of the subpath, the white space after the letter is
skipped and `M` becomes the current command. -/
theorem iteration_close (self : SVGState N) (st : PathParse N) (z : Char) (t : List Char)
    (hd : st.d = z :: t) (hz : z = 'Z' ∨ z = 'z') (hc : st.carryOn = true) :
    self.iteration st
      = { st with path := st.path.closeSubPath, last := st.subpathStart,
                  last2 := st.subpathStart, d := findEndOfWhitespace t,
                  currentCommand := 'M', previousCommand := 'M',
                  isRelative := decide (97 ≤ z.toNat) } := by
  have hl : z ∈ commandLetters := by rcases hz with h | h <;> subst h <;> decide
  have hr := readCommand_letter st z t hd hl
  unfold iteration
  rw [hr, dispatch_close self _ hz]
  simp [caseClose, hc]

theorem findEndOfWhitespace_all (l : List Char) (h : l.all isWhitespace = true) :
    findEndOfWhitespace l = [] := by
  have := dropWhile_append_all isWhitespace l [] h
  simpa [findEndOfWhitespace] using this

/-- After a close the path is back at the start of its subpath, and the statement after
the loop leaves it as it is. -/
theorem finish_after_close (pen : Pen N) (hok : pen.Ok) (st : PathParse N)
    (hp : st.path = pen.path.closeSubPath) (hs : st.subpathStart = pen.subpathStart) :
    closeIfBackAtStart st = pen.path ++ [PathElement.close] := by
  obtain ⟨h1, h2, _, h4⟩ := hok
  have hcl := Path.closeSubPath_open _ h1 h2
  have he : (pen.path ++ [PathElement.close]).endsWithClose = true := by
    rw [Path.endsWithClose_append_singleton]; rfl
  unfold closeIfBackAtStart
  rw [hp, hs, hcl]
  split
  · exact Path.closeSubPath_closed _ he
  · rfl

theorem closeIfBackAtStart_congr (a b : PathParse N) (hp : a.path = b.path)
    (hs : a.subpathStart = b.subpathStart) : closeIfBackAtStart a = closeIfBackAtStart b := by
  unfold closeIfBackAtStart; rw [hp, hs]

theorem expectedElements_polyline_tail (ps : List PairText) (current : Point N) :
    expectedElements N current (ps.map (fun p => (⟨'L', p⟩ : Command)))
      = ps.map (fun p => PathElement.lineTo (p.value N)) := by
  induction ps generalizing current with
  | nil => rfl
  | cons p ps ih =>
    simp only [List.map_cons, expectedElements]
    rw [ih]
    simp [Command.element, Command.point]

theorem expectedElements_polyline (p0 : PairText) (ps : List PairText) :
    expectedElements N Point.origin (polyline p0 ps)
      = PathElement.moveTo (p0.value N) :: ps.map (fun p => PathElement.lineTo (p.value N)) := by
  simp only [polyline, expectedElements]
  rw [expectedElements_polyline_tail]
  simp [Command.element, Command.point]

theorem polyline_wellFormed (p0 : PairText) (ps : List PairText)
    (hp0 : p0.wellFormed = true) (hps : ∀ p ∈ ps, p.wellFormed = true) :
    ∀ c' ∈ polyline p0 ps, c'.wellFormed = true := by
  intro c' hc'
  simp only [polyline, List.mem_cons, List.mem_map] at hc'
  rcases hc' with h | ⟨p, hp, h⟩
  · subst h
    simp only [Command.wellFormed, Bool.and_eq_true, decide_eq_true_eq]
    exact ⟨by decide, hp0⟩
  · subst h
    simp only [Command.wellFormed, Bool.and_eq_true, decide_eq_true_eq]
    exact ⟨by decide, hps p hp⟩

end SVGState

end Juce

namespace Juce

namespace SVGState

variable {N : FloatOps}

/-! ## Pairs that repeat the command before them -/

theorem render_implicit (ps : List PairText) :
    render (ps.map (fun p => (⟨none, p⟩ : Segment))) = pairsText ps := by
  induction ps with
  | nil => rfl
  | cons p ps ih => simp [render, pairsText, Segment.chars, ih]

theorem render_explicit (l : Char) (ps : List PairText) :
    render (ps.map (fun p => (⟨some l, p⟩ : Segment))) = linesText l ps := by
  induction ps with
  | nil => rfl
  | cons p ps ih => simp [render, linesText, Segment.chars, ih]

theorem sameNumbers_value (p q : PairText) (h : sameNumbers p q = true) :
    p.value N = q.value N := by
  simp only [sameNumbers, Bool.and_eq_true, decide_eq_true_eq] at h
  simp [PairText.value, h.1, h.2]

/-- Pairs without a letter, read while a line command is current, draw what the same
pairs draw when each is written after the letter of that line command. -/
theorem drawAll_implicit_explicit (l : Char) (hl : l = 'L' ∨ l = 'l') :
    ∀ (pqs : List (PairText × PairText)) (penA penB : Pen N),
      (∀ pq ∈ pqs, implicitExplicit pq = true) →
      penA.path = penB.path → penA.subpathStart = penB.subpathStart →
      penA.last = penB.last → penA.isRelative = decide (97 ≤ l.toNat) →
      penA.command ≠ 'M' → penA.command ≠ 'm' →
      (drawAll N ((pqs.map Prod.fst).map (fun p => (⟨none, p⟩ : Segment))) penA).path
          = (drawAll N ((pqs.map Prod.snd).map (fun p => (⟨some l, p⟩ : Segment))) penB).path
        ∧ (drawAll N ((pqs.map Prod.fst).map (fun p => (⟨none, p⟩ : Segment))) penA).subpathStart
          = (drawAll N ((pqs.map Prod.snd).map
              (fun p => (⟨some l, p⟩ : Segment))) penB).subpathStart := by
  intro pqs
  induction pqs with
  | nil => intro penA penB _ h1 h2 _ _ _ _; exact ⟨h1, h2⟩
  | cons pq pqs ih =>
    intro penA penB hall h1 h2 h3 h4 h5 h6
    have hpq := hall pq (List.mem_cons_self _ _)
    simp only [implicitExplicit, Bool.and_eq_true] at hpq
    have hv : pq.1.value N = pq.2.value N := sameNumbers_value _ _ hpq.2
    have hlM : ¬ (l = 'M' ∨ l = 'm') := by
      rcases hl with h | h <;> subst h <;> decide
    simp only [List.map_cons, drawAll]
    apply ih _ _ (fun pq' h' => hall pq' (List.mem_cons_of_mem _ h'))
    · simp [Segment.draw, h5, h6, hlM, h1, h3, h4, hv]
    · simp [Segment.draw, h5, h6, hlM, h2]
    · simp [Segment.draw, h5, h6, hlM, h3, h4, hv]
    · simp [Segment.draw, h5, h6, h4]
    · simp [Segment.draw, h5, h6]
    · simp [Segment.draw, h5, h6]

end SVGState

end Juce

namespace Juce

namespace SVGState

variable {N : FloatOps}

/-! ## The smooth quadratic command -/

theorem dispatch_smoothQuadratic (self : SVGState N) (st : PathParse N)
    (ht : st.currentCommand = 'T' ∨ st.currentCommand = 't') :
    self.dispatch st = self.caseSmoothQuadratic st := by
  unfold dispatch
  rcases ht with h | h <;> simp [h]

/-- The case `T`, `t` on a well-formed pair. -/
theorem caseSmoothQuadratic_wellFormed (self : SVGState N) (st : PathParse N)
    (p : PairText) (tail : List Char) (hd : st.d = p.chars ++ tail)
    (hp : p.wellFormed = true) (htail : endsNumber tail = true) :
    self.caseSmoothQuadratic st
      = { st with
          d := skipSeparators tail,
          p1 := (if st.isRelative then (p.value N).add st.last else p.value N),
          p2 := (if st.previousCommand ∈ ['Q', 'q', 'T', 't'] then
                   st.last.add (st.last.sub st.last2)
                 else (if st.isRelative then (p.value N).add st.last else p.value N)),
          path := st.path.quadraticTo
            (if st.previousCommand ∈ ['Q', 'q', 'T', 't'] then
               st.last.add (st.last.sub st.last2)
             else (if st.isRelative then (p.value N).add st.last else p.value N))
            (if st.isRelative then (p.value N).add st.last else p.value N),
          last2 := (if st.previousCommand ∈ ['Q', 'q', 'T', 't'] then
                      st.last.add (st.last.sub st.last2)
                    else (if st.isRelative then (p.value N).add st.last else p.value N)),
          last := (if st.isRelative then (p.value N).add st.last else p.value N) } := by
  unfold caseSmoothQuadratic
  rw [hd, parseCoordsOrSkip_wellFormed self p tail st.p1 hp htail]

end SVGState

end Juce

namespace Juce

namespace SVGState

variable {N : FloatOps}

/-! ## A pair after a close -/

theorem separator_not_letter (c : Char) (h : isSeparator c = true) :
    c ∉ commandLetters := by
  intro hc
  simp only [commandLetters, List.mem_cons, List.mem_singleton, List.not_mem_nil,
    or_false] at hc
  revert h
  rcases hc with h | h | h | h | h | h | h | h | h | h | h | h | h | h | h | h | h | h | h | h
    <;> subst h <;> decide

theorem pair_cur_not_letter (p : PairText) (tail : List Char) (hp : p.wellFormed = true) :
    cur (p.chars ++ tail) ∉ commandLetters := by
  cases hpre : p.pre with
  | nil => exact startOfNumber_not_letter _ (pair_cur p tail hp hpre)
  | cons a l =>
    simp only [PairText.wellFormed, Bool.and_eq_true, Bool.not_eq_true'] at hp
    obtain ⟨⟨⟨⟨⟨h1, _⟩, _⟩, _⟩, _⟩, _⟩ := hp
    rw [hpre] at h1
    simp only [List.all_cons, Bool.and_eq_true] at h1
    simp only [PairText.chars, hpre, List.cons_append, cur, List.headD_cons]
    exact separator_not_letter a h1.1

theorem dropWhile_all_sublist (q r : Char → Bool) (l : List Char)
    (h : l.all r = true) : (l.dropWhile q).all r = true := by
  induction l with
  | nil => rfl
  | cons a l ih =>
    simp only [List.all_cons, Bool.and_eq_true] at h
    simp only [List.dropWhile]
    split
    · exact ih h.2
    · simp [h.1, h.2]

theorem dropWhile_append_stop (q : Char → Bool) (l r : List Char)
    (h : q (cur r) = false) : (l ++ r).dropWhile q = l.dropWhile q ++ r := by
  induction l with
  | nil => simpa using dropWhile_cur_false q r h
  | cons a l ih =>
    simp only [List.cons_append, List.dropWhile]
    split
    · exact ih
    · rfl

/-- The white space that `Z` skips before a pair leaves a well-formed pair of the same
value under the cursor. -/
theorem findEndOfWhitespace_pair (ws : List Char) (p : PairText) (tail : List Char)
    (hws : ws.all isWhitespace = true) (hp : p.wellFormed = true) :
    ∃ p' : PairText, p'.wellFormed = true ∧ p'.value N = p.value N
      ∧ findEndOfWhitespace (ws ++ (p.chars ++ tail)) = p'.chars ++ tail := by
  refine ⟨{ p with pre := p.pre.dropWhile isWhitespace }, ?_, rfl, ?_⟩
  · simp only [PairText.wellFormed, Bool.and_eq_true, Bool.not_eq_true'] at hp ⊢
    obtain ⟨⟨⟨⟨⟨h1, h2⟩, h3⟩, h4⟩, h5⟩, h6⟩ := hp
    exact ⟨⟨⟨⟨⟨dropWhile_all_sublist _ _ _ h1, h2⟩, h3⟩, h4⟩, h5⟩, h6⟩
  · have hx : p.x.wellFormed = true := by
      simp only [PairText.wellFormed, Bool.and_eq_true] at hp
      exact hp.1.1.1.1.2
    have hcur : isWhitespace (cur (p.x.chars ++ (p.mid ++ (p.y.chars ++ p.post)) ++ tail))
        = false := by
      have h := startOfNumber_not_separator _
        (wellFormed_cur p.x ((p.mid ++ (p.y.chars ++ p.post)) ++ tail) hx)
      simp only [isSeparator, Bool.or_eq_false_iff] at h
      rw [List.append_assoc]
      exact h.1
    unfold findEndOfWhitespace
    rw [dropWhile_append_all _ _ _ hws]
    simp only [PairText.chars]
    rw [List.append_assoc p.pre, dropWhile_append_stop _ _ _ hcur]
    simp [List.append_assoc]

theorem iteration_unfold (self : SVGState N) (st : PathParse N) :
    self.iteration st
      = (if (self.dispatch (readCommand st)).carryOn then
           { self.dispatch (readCommand st) with
             previousCommand := (self.dispatch (readCommand st)).currentCommand }
         else self.dispatch (readCommand st)) := rfl

/-- One pass of the loop at a well-formed pair without a letter while `M` is the current
command: a subpath is started at the pair. -/
theorem iteration_move_pair (self : SVGState N) (st : PathParse N) (p : PairText)
    (tail : List Char) (hd : st.d = p.chars ++ tail) (hp : p.wellFormed = true)
    (htail : endsNumber tail = true) (hcmd : st.currentCommand = 'M') :
    (self.iteration st).path
        = st.path.startNewSubPath
            (if st.isRelative then (p.value N).add st.last else p.value N)
      ∧ (self.iteration st).subpathStart
        = (if st.isRelative then (p.value N).add st.last else p.value N) := by
  have hnl : cur st.d ∉ commandLetters := by
    rw [hd]; exact pair_cur_not_letter p tail hp
  have hr := readCommand_tidy_of_not_letter _ hnl
  have hdis := dispatch_moveLine self p tail st hp htail hd (by rw [hcmd]; decide)
  rw [iteration_unfold, hr, hdis]
  simp only [hcmd, true_or, if_true]
  split <;> exact ⟨rfl, rfl⟩

end SVGState

end Juce

namespace Juce

namespace SVGState

variable {N : FloatOps}

/-! ## The arc command -/

theorem dispatch_arc (self : SVGState N) (st : PathParse N)
    (ha : st.currentCommand = 'A' ∨ st.currentCommand = 'a') :
    self.dispatch st = self.caseArc st := by
  unfold dispatch
  rcases ha with h | h <;> simp [h]

theorem endsNumber_nonempty_separators (l rest : List Char) (hne : l.isEmpty = false)
    (hl : l.all isSeparator = true) : endsNumber (l ++ rest) = true := by
  cases l with
  | nil => simp at hne
  | cons a l =>
    simp only [List.all_cons, Bool.and_eq_true] at hl
    exact separator_endsNumber a _ hl.1

theorem parseNextNumber_bare (n : NumberText) (rest : List Char)
    (hn : n.wellFormed = true) (hr : endsNumber rest = true) :
    parseNextNumber (n.chars ++ rest) false = (some n.chars, skipSeparators rest) :=
  parseNextNumber_wellFormed [] n rest rfl hn hr

/-- The case `A`, `a` on well-formed operands: the arc and the line to its end point are
appended unless the end point compares equal to the current point. -/
theorem caseArc_wellFormed (self : SVGState N) (st : PathParse N) (a : ArcText)
    (tail : List Char) (hd : st.d = a.chars ++ tail) (ha : a.wellFormed = true)
    (htail : endsNumber tail = true) :
    self.caseArc st
      = { st with
          d := skipSeparators tail,
          p1 := a.radii.value N,
          p2 := (if st.isRelative then (a.target.value N).add st.last else a.target.value N),
          path :=
            (if st.last.ne (if st.isRelative then (a.target.value N).add st.last
                            else a.target.value N) then
               (st.path.addCentredArc st.last
                  (if st.isRelative then (a.target.value N).add st.last else a.target.value N)
                  (N.degreesToRadians (N.getFloatValue a.angle.chars))
                  (decide (N.getIntValue a.largeArc.chars ≠ 0))
                  (decide (N.getIntValue a.sweep.chars ≠ 0)) (a.radii.value N)).lineTo
                 (if st.isRelative then (a.target.value N).add st.last else a.target.value N)
             else st.path),
          last2 := st.last,
          last := (if st.isRelative then (a.target.value N).add st.last
                   else a.target.value N) } := by
  simp only [ArcText.wellFormed, Bool.and_eq_true, Bool.not_eq_true'] at ha
  obtain ⟨⟨⟨⟨⟨⟨⟨⟨⟨⟨hr, hrp⟩, hang⟩, hs1n⟩, hs1⟩, hlg⟩, hs2n⟩, hs2⟩, hsw⟩, htg⟩, htp⟩ := ha
  have hrpost : a.radii.post.all isSeparator = true := by
    simp only [PairText.wellFormed, Bool.and_eq_true] at hr
    exact hr.2
  have htpre : a.target.pre.all isSeparator = true := by
    simp only [PairText.wellFormed, Bool.and_eq_true] at htg
    exact htg.1.1.1.1.1
  obtain ⟨htg', hskt⟩ := pair_without_pre a.target htg
  have e0 : a.chars ++ tail = a.radii.chars ++ (a.angle.chars ++ (a.sep1
      ++ (a.largeArc.chars ++ (a.sep2 ++ (a.sweep.chars ++ (a.target.chars ++ tail)))))) := by
    simp [ArcText.chars, List.append_assoc]
  have h1 := parseCoordsOrSkip_pair self a.radii
    (a.angle.chars ++ (a.sep1 ++ (a.largeArc.chars ++ (a.sep2 ++ (a.sweep.chars
      ++ (a.target.chars ++ tail)))))) st.p1 hr
    (endsNumber_nonempty_separators _ _ hrp hrpost)
  rw [skipSeparators_number _ _ hang] at h1
  have h2 := parseNextNumber_bare a.angle
    (a.sep1 ++ (a.largeArc.chars ++ (a.sep2 ++ (a.sweep.chars ++ (a.target.chars ++ tail)))))
    hang (endsNumber_nonempty_separators _ _ hs1n hs1)
  rw [skipSeparators_append _ _ hs1, skipSeparators_number _ _ hlg] at h2
  have h3 := parseNextNumber_bare a.largeArc
    (a.sep2 ++ (a.sweep.chars ++ (a.target.chars ++ tail)))
    hlg (endsNumber_nonempty_separators _ _ hs2n hs2)
  rw [skipSeparators_append _ _ hs2, skipSeparators_number _ _ hsw] at h3
  have h4 := parseNextNumber_bare a.sweep (a.target.chars ++ tail) hsw
    (by
      have := endsNumber_nonempty_separators a.target.pre
        (a.target.x.chars ++ (a.target.mid ++ (a.target.y.chars ++ a.target.post)) ++ tail)
        htp htpre
      simpa [PairText.chars, List.append_assoc] using this)
  rw [hskt tail] at h4
  have h5 := parseCoordsOrSkip_wellFormed self _ tail st.p2 htg' htail
  unfold caseArc
  rw [hd, e0, h1]
  simp only [h2, h3, h4, h5]
  rfl

theorem point_ne_eq_not_eq (a b : Point N) : a.ne b = !(a.eq b) := by
  simp only [Point.ne, Point.eq]
  cases N.eq a.x b.x <;> cases N.eq a.y b.y <;> rfl

end SVGState

end Juce

namespace Juce

namespace SVGState

variable {N : FloatOps}

/-! ## Characters that are no operand -/

/-- While no command letter has been read, the switch takes its default case. -/
theorem dispatch_unknown (self : SVGState N) (st : PathParse N)
    (h : st.currentCommand ∉ commandLetters) :
    self.dispatch st = { st with carryOn := false } := by
  simp only [commandLetters, List.mem_cons, List.mem_singleton, List.not_mem_nil,
    or_false, not_or] at h
  unfold dispatch
  simp [h]

/-- A read that begins, after separators, at a character that cannot occur in a number
fails and leaves the cursor at that character. -/
theorem parseNextNumber_fail (seps : List Char) (c : Char) (rest : List Char)
    (hseps : seps.all isSeparator = true) (hc : numberChar c = false)
    (hcs : isSeparator c = false) :
    parseNextNumber (seps ++ c :: rest) false = (none, c :: rest) := by
  simp only [numberChar, Bool.or_eq_false_iff, beq_eq_false_iff_ne] at hc
  obtain ⟨⟨⟨⟨⟨h1, h2⟩, h3⟩, h4⟩, h5⟩, h6⟩ := hc
  have hsk : skipSeparators (seps ++ c :: rest) = c :: rest := by
    unfold skipSeparators
    rw [dropWhile_append_all _ _ _ hseps]
    exact dropWhile_cur_false _ _ hcs
  have hstart : isStartOfNumber c = false := by
    simp [isStartOfNumber, h1, h2, h3]
  have hscan : scanNumber false (c :: rest) = c :: rest := by
    simp [scanNumber, scanUnits, scanExponent, scanFraction, scanSign, skipDigits, cur,
      hstart, h1, h4, h5, h6, List.dropWhile]
  unfold parseNextNumber
  simp [hsk, hscan]

theorem parseCoord_fail (self : SVGState N) (seps : List Char) (c : Char)
    (rest : List Char) (isX : Bool) (hseps : seps.all isSeparator = true)
    (hc : numberChar c = false) (hcs : isSeparator c = false) :
    self.parseCoord (seps ++ c :: rest) false isX = (false, N.zero, c :: rest) := by
  unfold parseCoord
  rw [parseNextNumber_fail seps c rest hseps hc hcs]

/-- A pair whose first number is malformed: the read fails, and the separators before the
offending character and that character are skipped. -/
theorem parseCoordsOrSkip_fail (self : SVGState N) (seps : List Char) (c : Char)
    (rest : List Char) (p : Point N) (hseps : seps.all isSeparator = true)
    (hc : numberChar c = false) (hcs : isSeparator c = false) :
    self.parseCoordsOrSkip (seps ++ c :: rest) p false = (false, ⟨N.zero, p.y⟩, rest) := by
  unfold parseCoordsOrSkip parseCoords
  rw [parseCoord_fail self seps c rest true hseps hc hcs]
  rfl

/-- The switch at a malformed first operand, for a current command that takes operands:
nothing is appended to the path and the cursor is put after the offending character. -/
theorem dispatch_fail (self : SVGState N) (st : PathParse N) (seps : List Char) (c : Char)
    (rest : List Char) (hd : st.d = seps ++ c :: rest)
    (hseps : seps.all isSeparator = true) (hc : numberChar c = false)
    (hcs : isSeparator c = false) (hcmd : st.currentCommand ∈ operandLetters) :
    (self.dispatch st).path = st.path ∧ (self.dispatch st).d = rest
      ∧ (self.dispatch st).carryOn = st.carryOn
      ∧ (self.dispatch st).overrun = st.overrun
      ∧ (self.dispatch st).currentCommand = st.currentCommand := by
  have hp := parseCoordsOrSkip_fail self seps c rest st.p1 hseps hc hcs
  have hx := parseCoord_fail self seps c rest true hseps hc hcs
  have hy := parseCoord_fail self seps c rest false hseps hc hcs
  simp only [operandLetters, List.mem_cons, List.mem_singleton, List.not_mem_nil,
    or_false] at hcmd
  unfold dispatch
  rcases hcmd with h | h | h | h | h | h | h | h | h | h | h | h | h | h | h | h | h | h
  all_goals
    simp only [h, true_or, or_true, if_true, Char.reduceEq, or_self, if_false]
    first
      | (unfold caseMoveLine; rw [hd, hp]; exact ⟨rfl, rfl, rfl, rfl, h⟩)
      | (unfold caseHorizontal; rw [hd, hx]; exact ⟨rfl, rfl, rfl, rfl, h⟩)
      | (unfold caseVertical; rw [hd, hy]; exact ⟨rfl, rfl, rfl, rfl, h⟩)
      | (unfold caseCubic; rw [hd, hp]; exact ⟨rfl, rfl, rfl, rfl, h⟩)
      | (unfold caseSmoothCubic; rw [hd, hp]; exact ⟨rfl, rfl, rfl, rfl, h⟩)
      | (unfold caseQuadratic; rw [hd, hp]; exact ⟨rfl, rfl, rfl, rfl, h⟩)
      | (unfold caseSmoothQuadratic; rw [hd, hp]; exact ⟨rfl, rfl, rfl, rfl, h⟩)
      | (unfold caseArc; rw [hd, hp]; exact ⟨rfl, rfl, rfl, rfl, h⟩)

/-- A pass that ends with the `break` is the last one. -/
theorem loop_break (self : SVGState N) (n : Nat) (st : PathParse N) (hne : st.d ≠ [])
    (hc : st.carryOn = true) (ho : st.overrun = false)
    (hstop : (self.iteration st).carryOn = false) :
    loop self (n + 1) st = self.iteration st := by
  rw [loop_succ]
  have hs : (st.d.isEmpty || !st.carryOn || st.overrun) = false := by
    simp [hc, ho, hne]
  rw [hs]
  simp only [Bool.false_eq_true, if_false]
  exact loop_stop self n _ (by simp [hstop])

end SVGState

end Juce

namespace Juce

namespace SVGState

/-! ## The number scanner on arbitrary text -/

theorem scanSign_suffix (s : List Char) : scanSign s <:+ s := by
  unfold scanSign; split
  · exact List.tail_suffix s
  · exact List.suffix_refl s

theorem skipDigits_suffix (s : List Char) : skipDigits s <:+ s :=
  List.dropWhile_suffix _

theorem scanFraction_suffix (s : List Char) : scanFraction s <:+ s := by
  unfold scanFraction; split
  · exact (skipDigits_suffix _).trans (List.tail_suffix s)
  · exact List.suffix_refl s

theorem scanExponent_suffix (s : List Char) : scanExponent s <:+ s := by
  unfold scanExponent; split
  · exact (skipDigits_suffix _).trans (List.drop_suffix 2 s)
  · exact List.suffix_refl s

theorem scanUnits_suffix (allowUnits : Bool) (s : List Char) :
    scanUnits allowUnits s <:+ s := by
  unfold scanUnits; split
  · exact List.dropWhile_suffix _
  · exact List.suffix_refl s

/-- The scan of a number only moves the cursor forwards. -/
theorem scanNumber_suffix (allowUnits : Bool) (s : List Char) :
    scanNumber allowUnits s <:+ s := by
  unfold scanNumber
  exact (scanUnits_suffix _ _).trans ((scanExponent_suffix _).trans
    ((scanFraction_suffix _).trans ((skipDigits_suffix _).trans (scanSign_suffix s))))

/-- When `parseNextNumber` fails the cursor is where the skip of the leading separators
left it. -/
theorem parseNextNumber_none (text : List Char) (allowUnits : Bool)
    (h : (parseNextNumber text allowUnits).1 = none) :
    (parseNextNumber text allowUnits).2 = skipSeparators text := by
  unfold parseNextNumber at h ⊢
  by_cases hl : (scanNumber allowUnits (skipSeparators text)).length
      = (skipSeparators text).length
  · simp only [hl, if_true]
    exact (scanNumber_suffix allowUnits _).eq_of_length hl
  · simp [hl] at h

theorem cur_not_nil_of_startOfNumber (s : List Char) (h : isStartOfNumber (cur s) = true) :
    s ≠ [] := by
  intro h0; rw [h0] at h; revert h; decide

/-- The scan of a number consumes a character exactly when the text begins with something
that is taken for a number. -/
theorem scanNumber_length_lt_iff (allowUnits : Bool) (s : List Char) :
    (scanNumber allowUnits s).length < s.length ↔ startsNumber allowUnits s = true := by
  have l1 := (scanSign_suffix s).length_le
  have l2 := (skipDigits_suffix (scanSign s)).length_le
  have l3 := (scanFraction_suffix (skipDigits (scanSign s))).length_le
  have l4 := (scanExponent_suffix (scanFraction (skipDigits (scanSign s)))).length_le
  have l5 := (scanUnits_suffix allowUnits
    (scanExponent (scanFraction (skipDigits (scanSign s))))).length_le
  by_cases ha : isStartOfNumber (cur s) = true
  · have hne := cur_not_nil_of_startOfNumber s ha
    have hpos : 0 < s.length := List.length_pos.mpr hne
    have h1 : (scanSign s).length = s.length - 1 := by
      simp [scanSign, ha]
    constructor
    · intro _; simp [startsNumber, ha]
    · intro _; unfold scanNumber; omega
  · have ha' : isStartOfNumber (cur s) = false := by simpa using ha
    have hdig : isDigit (cur s) = false := by
      simp only [isStartOfNumber, Bool.or_eq_false_iff] at ha'
      exact ha'.1.1
    have e1 : scanSign s = s := by simp [scanSign, ha']
    have e2 : skipDigits s = s := dropWhile_cur_false _ _ hdig
    rw [e1] at l2 l3 l4 l5
    rw [e2] at l3 l4 l5
    by_cases hb : cur s = '.'
    · have hne : s ≠ [] := by
        intro h0; rw [h0] at hb; revert hb; decide
      have hpos : 0 < s.length := List.length_pos.mpr hne
      have h3 : (scanFraction s).length < s.length := by
        have := (skipDigits_suffix s.tail).length_le
        simp only [scanFraction, hb, if_true, List.length_tail] at this ⊢
        omega
      constructor
      · intro _; simp [startsNumber, hb]
      · intro _; unfold scanNumber; rw [e1, e2]; omega
    · have e3 : scanFraction s = s := by simp [scanFraction, hb]
      rw [e3] at l4 l5
      by_cases hc : (cur s = 'e' ∨ cur s = 'E') ∧ isStartOfNumber (charAt s 1) = true
      · have h2 : 2 ≤ s.length := by
          match s, hc with
          | [], hc => exact absurd hc.2 (by decide)
          | [_], hc => exact absurd hc.2 (by simp [charAt, isStartOfNumber, isDigit])
          | _ :: _ :: _, _ => simp
        have h4 : (scanExponent s).length < s.length := by
          have := (skipDigits_suffix (s.drop 2)).length_le
          simp only [scanExponent, hc, and_self, if_true, List.length_drop] at this ⊢
          omega
        constructor
        · intro _
          rcases hc.1 with h | h <;> simp [startsNumber, h, hc.2]
        · intro _; unfold scanNumber; rw [e1, e2, e3]; omega
      · have e4 : scanExponent s = s := by simp [scanExponent, hc]
        rw [e4] at l5
        have hc' : ((cur s == 'e' || cur s == 'E') && isStartOfNumber (charAt s 1)) = false := by
          simp only [not_and, Bool.not_eq_true] at hc
          cases hx : isStartOfNumber (charAt s 1) with
          | false => simp
          | true =>
            have : ¬ (cur s = 'e' ∨ cur s = 'E') := fun h => by
              have := hc h; rw [hx] at this; cases this
            simp only [not_or] at this
            simp [this.1, this.2]
        by_cases hd : allowUnits = true ∧ isLetter (cur s) = true
        · have hne : s ≠ [] := by
            intro h0; rw [h0] at hd; exact absurd hd.2 (by decide)
          have h5 : (scanUnits allowUnits s).length < s.length := by
            cases s with
            | nil => exact absurd rfl hne
            | cons a t =>
              have hla : isLetter a = true := hd.2
              have := dropWhile_length_le isLetter t
              simp only [scanUnits, hd.1, if_true, List.dropWhile, hla, List.length_cons]
              omega
          constructor
          · intro _; simp [startsNumber, hd.1, hd.2]
          · intro _; unfold scanNumber; rw [e1, e2, e3, e4]; exact h5
        · have e5 : scanUnits allowUnits s = s := by
            unfold scanUnits
            split
            · rename_i hau
              have : isLetter (cur s) = false := by
                simp only [not_and, Bool.not_eq_true] at hd
                exact hd hau
              exact dropWhile_cur_false _ _ this
            · rfl
          have hd' : (allowUnits && isLetter (cur s)) = false := by
            simp only [not_and, Bool.not_eq_true] at hd
            cases allowUnits with
            | false => rfl
            | true => simp [hd rfl]
          constructor
          · intro h
            unfold scanNumber at h
            rw [e1, e2, e3, e4, e5] at h
            exact absurd h (Nat.lt_irrefl _)
          · intro h
            simp [startsNumber, ha', hb, hc', hd'] at h

end SVGState

end Juce

namespace Juce

namespace SVGState

/-! ## The token of a successful read -/

theorem takeWhile_all (p : Char → Bool) (s : List Char) : (s.takeWhile p).all p = true := by
  induction s with
  | nil => rfl
  | cons a s ih =>
    simp only [List.takeWhile]
    split
    · rename_i h; simp [h, ih]
    · rfl

theorem skipDigits_split (s : List Char) : s = s.takeWhile isDigit ++ skipDigits s :=
  (List.takeWhile_append_dropWhile isDigit s).symm

/-- The sign and the digits that the scan passes first. -/
theorem scanSign_split (s : List Char) :
    ∃ sg ds : List Char, (sg = [] ∨ sg = ['-'] ∨ sg = ['+']) ∧ ds.all isDigit = true
      ∧ s = sg ++ (ds ++ skipDigits (scanSign s)) := by
  by_cases h : isStartOfNumber (cur s) = true
  · cases s with
    | nil => exact absurd h (by decide)
    | cons c t =>
      have hs : scanSign (c :: t) = t := by simp [scanSign, h]
      rw [hs]
      have hc : isStartOfNumber c = true := h
      simp only [isStartOfNumber, Bool.or_eq_true, beq_iff_eq] at hc
      rcases hc with (hc | hc) | hc
      · refine ⟨[], c :: t.takeWhile isDigit, Or.inl rfl, ?_, ?_⟩
        · simp [hc, takeWhile_all]
        · simp only [List.nil_append, List.cons_append]
          rw [← skipDigits_split t]
      · exact ⟨['-'], t.takeWhile isDigit, Or.inr (Or.inl rfl), takeWhile_all _ _,
          by rw [← skipDigits_split t, hc]; rfl⟩
      · exact ⟨['+'], t.takeWhile isDigit, Or.inr (Or.inr rfl), takeWhile_all _ _,
          by rw [← skipDigits_split t, hc]; rfl⟩
  · have hs : scanSign s = s := by simp [scanSign, h]
    rw [hs]
    exact ⟨[], s.takeWhile isDigit, Or.inl rfl, takeWhile_all _ _,
      by simpa using skipDigits_split s⟩

/-- The fraction that the scan passes. -/
theorem scanFraction_split (s : List Char) :
    ∃ fr : List Char, (fr = [] ∨ ∃ f, fr = '.' :: f ∧ f.all isDigit = true)
      ∧ s = fr ++ scanFraction s := by
  by_cases h : cur s = '.'
  · cases s with
    | nil => exact absurd h (by decide)
    | cons c t =>
      have hc : c = '.' := h
      refine ⟨'.' :: t.takeWhile isDigit, Or.inr ⟨_, rfl, takeWhile_all _ _⟩, ?_⟩
      simp only [scanFraction, h, if_true, List.tail_cons, List.cons_append]
      rw [← skipDigits_split t, hc]
  · exact ⟨[], Or.inl rfl, by simp [scanFraction, h]⟩

/-- The exponent that the scan passes. -/
theorem scanExponent_split (s : List Char) :
    ∃ ex : List Char,
      (ex = [] ∨ ∃ e h d, ex = e :: h :: d ∧ (e = 'e' ∨ e = 'E')
        ∧ isStartOfNumber h = true ∧ d.all isDigit = true)
      ∧ s = ex ++ scanExponent s := by
  by_cases h : (cur s = 'e' ∨ cur s = 'E') ∧ isStartOfNumber (charAt s 1) = true
  · match s, h with
    | [], h => exact absurd h.2 (by decide)
    | [_], h => exact absurd h.2 (by simp [charAt, isStartOfNumber, isDigit])
    | e :: c :: t, h =>
      refine ⟨e :: c :: t.takeWhile isDigit,
        Or.inr ⟨e, c, _, rfl, h.1, h.2, takeWhile_all _ _⟩, ?_⟩
      simp only [scanExponent, h, and_self, if_true, List.drop_succ_cons, List.drop_zero,
        List.cons_append]
      rw [← skipDigits_split t]
  · exact ⟨[], Or.inl rfl, by simp [scanExponent, h]⟩

/-- The unit letters that the scan passes. -/
theorem scanUnits_split (allowUnits : Bool) (s : List Char) :
    ∃ un : List Char, un.all isLetter = true ∧ (allowUnits = true ∨ un = [])
      ∧ s = un ++ scanUnits allowUnits s := by
  cases allowUnits with
  | true =>
    exact ⟨s.takeWhile isLetter, takeWhile_all _ _, Or.inl rfl,
      (List.takeWhile_append_dropWhile isLetter s).symm⟩
  | false => exact ⟨[], rfl, Or.inr rfl, rfl⟩

/-- What the scan passes has the form of a token. -/
theorem scanNumber_split (allowUnits : Bool) (s : List Char) :
    ∃ (n : NumberText) (units : List Char), numberForm allowUnits n units = true
      ∧ s = (n.chars ++ units) ++ scanNumber allowUnits s := by
  obtain ⟨sg, ds, hsg, hds, e1⟩ := scanSign_split s
  obtain ⟨fr, hfr, e2⟩ := scanFraction_split (skipDigits (scanSign s))
  obtain ⟨ex, hex, e3⟩ := scanExponent_split (scanFraction (skipDigits (scanSign s)))
  obtain ⟨un, hun, hau, e4⟩ := scanUnits_split allowUnits
    (scanExponent (scanFraction (skipDigits (scanSign s))))
  refine ⟨⟨sg, ds, fr, ex⟩, un, ?_, ?_⟩
  · simp only [numberForm, NumberText.signOk, NumberText.fractionOk,
      NumberText.exponentForm, Bool.and_eq_true, Bool.or_eq_true, beq_iff_eq,
      List.isEmpty_iff]
    refine ⟨⟨⟨⟨⟨?_, hds⟩, ?_⟩, ?_⟩, hun⟩, hau⟩
    · rcases hsg with h | h | h
      · exact Or.inl (Or.inl h)
      · exact Or.inl (Or.inr h)
      · exact Or.inr h
    · rcases hfr with h | ⟨f, h, hf⟩
      · rw [h]
      · rw [h]; simp [hf]
    · rcases hex with h | ⟨e, c, d, h, he, hc, hd⟩
      · rw [h]
      · rw [h]; simp only [Bool.and_eq_true, Bool.or_eq_true, beq_iff_eq]
        exact ⟨⟨he, hc⟩, hd⟩
  · simp only [NumberText.chars, scanNumber, List.append_assoc]
    rw [← e4, ← e3, ← e2]
    exact e1

end SVGState

end Juce

namespace Juce

namespace SVGState

/-! ## No longer prefix has the form of a token -/

theorem letter_not_digit (c : Char) (h : isLetter c = true) : isDigit c = false := by
  simp only [isLetter, Bool.or_eq_true, Bool.and_eq_true, decide_eq_true_eq] at h
  cases hd : isDigit c with
  | false => rfl
  | true =>
    simp only [isDigit, Bool.and_eq_true, decide_eq_true_eq] at hd
    omega

theorem letter_not_startOfNumber (c : Char) (h : isLetter c = true) :
    isStartOfNumber c = false := by
  have h1 : c ≠ '-' := fun he => by rw [he] at h; revert h; decide
  have h2 : c ≠ '+' := fun he => by rw [he] at h; revert h; decide
  simp [isStartOfNumber, letter_not_digit c h, h1, h2]

theorem letter_not_point (c : Char) (h : isLetter c = true) : c ≠ '.' :=
  fun he => by rw [he] at h; revert h; decide

theorem letter_not_separator (c : Char) (h : isLetter c = true) : isSeparator c = false := by
  have h1 : c ≠ ',' := fun he => by rw [he] at h; revert h; decide
  have h2 : c ≠ ' ' := fun he => by rw [he] at h; revert h; decide
  simp only [isLetter, Bool.or_eq_true, Bool.and_eq_true, decide_eq_true_eq] at h
  have h3 : (decide (9 ≤ c.toNat) && decide (c.toNat ≤ 13)) = false := by
    cases hd : (decide (9 ≤ c.toNat) && decide (c.toNat ≤ 13)) with
    | false => rfl
    | true =>
      simp only [Bool.and_eq_true, decide_eq_true_eq] at hd
      omega
  simp [isSeparator, isWhitespace, h1, h2, h3]

theorem digit_not_separator (c : Char) (h : isDigit c = true) : isSeparator c = false :=
  startOfNumber_not_separator c (by simp [isStartOfNumber, h])

theorem suffix_of_eq {r rest : List Char} (h : r = rest) : r <:+ rest := by
  rw [h]

/-- The scan of the sign and the digits of a prefix that has the form of a token stops
where the sign and digits of the prefix end, or later. -/
theorem scanSign_longest (sg ds m rest : List Char)
    (hsg : sg = [] ∨ sg = ['-'] ∨ sg = ['+']) (hds : ds.all isDigit = true)
    (hm : m ≠ [] → (isDigit (cur m) = false ∧ isStartOfNumber (cur m) = false)) :
    skipDigits (scanSign (sg ++ (ds ++ (m ++ rest)))) <:+ rest
      ∨ skipDigits (scanSign (sg ++ (ds ++ (m ++ rest)))) = m ++ rest := by
  have key : ∀ ds : List Char, ds.all isDigit = true →
      (skipDigits (ds ++ (m ++ rest)) <:+ rest ∨ skipDigits (ds ++ (m ++ rest)) = m ++ rest) := by
    intro ds hds
    unfold skipDigits
    rw [dropWhile_append_all _ _ _ hds]
    cases m with
    | nil => left; exact List.dropWhile_suffix _
    | cons a m => right; exact dropWhile_cur_false _ _ (hm (List.cons_ne_nil a m)).1
  rcases hsg with h | h | h
  · rw [h, List.nil_append]
    cases ds with
    | nil =>
      rw [List.nil_append]
      cases m with
      | nil =>
        left; rw [List.nil_append]
        exact (skipDigits_suffix _).trans (scanSign_suffix rest)
      | cons a m =>
        right
        have hm2 := hm (List.cons_ne_nil a m)
        have e1 : scanSign ((a :: m) ++ rest) = (a :: m) ++ rest := by
          have : isStartOfNumber (cur ((a :: m) ++ rest)) = false := hm2.2
          simp only [scanSign, this]; rfl
        rw [e1]
        exact dropWhile_cur_false _ _ hm2.1
    | cons d ds =>
      have hd : isDigit d = true ∧ ds.all isDigit = true := by
        simpa using hds
      have e1 : scanSign ((d :: ds) ++ (m ++ rest)) = ds ++ (m ++ rest) := by
        have : isStartOfNumber (cur ((d :: ds) ++ (m ++ rest))) = true := by
          simp [cur, isStartOfNumber, hd.1]
        simp only [scanSign, this]; rfl
      rw [e1]
      exact key ds hd.2
  · rw [h]
    have e1 : scanSign (['-'] ++ (ds ++ (m ++ rest))) = ds ++ (m ++ rest) := rfl
    rw [e1]; exact key ds hds
  · rw [h]
    have e1 : scanSign (['+'] ++ (ds ++ (m ++ rest))) = ds ++ (m ++ rest) := rfl
    rw [e1]; exact key ds hds

/-- The scan of the fraction stops where the fraction of the prefix ends, or later. -/
theorem scanFraction_longest (fr m rest : List Char)
    (hfr : fr = [] ∨ ∃ f, fr = '.' :: f ∧ f.all isDigit = true)
    (hm : m ≠ [] → (isDigit (cur m) = false ∧ cur m ≠ '.')) :
    scanFraction (fr ++ (m ++ rest)) <:+ rest
      ∨ scanFraction (fr ++ (m ++ rest)) = m ++ rest := by
  rcases hfr with h | ⟨f, h, hf⟩
  · rw [h, List.nil_append]
    cases m with
    | nil => left; rw [List.nil_append]; exact scanFraction_suffix rest
    | cons a m =>
      right
      have : cur ((a :: m) ++ rest) ≠ '.' := (hm (List.cons_ne_nil a m)).2
      simp only [scanFraction, this, if_false]
  · rw [h]
    have e1 : scanFraction (('.' :: f) ++ (m ++ rest)) = skipDigits (f ++ (m ++ rest)) := rfl
    rw [e1]
    unfold skipDigits
    rw [dropWhile_append_all _ _ _ hf]
    cases m with
    | nil => left; exact List.dropWhile_suffix _
    | cons a m => right; exact dropWhile_cur_false _ _ (hm (List.cons_ne_nil a m)).1

/-- The scan of the exponent stops where the exponent of the prefix ends, or later. -/
theorem scanExponent_longest (ex un rest : List Char)
    (hex : ex = [] ∨ ∃ e h d, ex = e :: h :: d ∧ (e = 'e' ∨ e = 'E')
        ∧ isStartOfNumber h = true ∧ d.all isDigit = true)
    (hun : un.all isLetter = true) :
    scanExponent (ex ++ (un ++ rest)) <:+ rest
      ∨ scanExponent (ex ++ (un ++ rest)) = un ++ rest := by
  rcases hex with h | ⟨e, c, d, h, he, hc, hd⟩
  · rw [h, List.nil_append]
    match un, hun with
    | [], _ => left; exact scanExponent_suffix rest
    | [u], _ =>
      by_cases hcond : (cur ([u] ++ rest) = 'e' ∨ cur ([u] ++ rest) = 'E')
          ∧ isStartOfNumber (charAt ([u] ++ rest) 1) = true
      · left
        have e1 : scanExponent ([u] ++ rest) = skipDigits (([u] ++ rest).drop 2) := by
          simp only [scanExponent, hcond, and_self, if_true]
        rw [e1]
        exact (skipDigits_suffix _).trans (by
          show List.drop 1 rest <:+ rest
          exact List.drop_suffix 1 rest)
      · right; simp only [scanExponent, hcond, if_false]
    | u :: v :: un, hun =>
      right
      have hv : isLetter v = true := by
        simp only [List.all_cons, Bool.and_eq_true] at hun
        exact hun.2.1
      have hcond : ¬ ((cur ((u :: v :: un) ++ rest) = 'e' ∨ cur ((u :: v :: un) ++ rest) = 'E')
          ∧ isStartOfNumber (charAt ((u :: v :: un) ++ rest) 1) = true) := by
        intro hh
        have h1 : charAt ((u :: v :: un) ++ rest) 1 = v := rfl
        rw [h1, letter_not_startOfNumber v hv] at hh
        exact absurd hh.2 (by decide)
      simp only [scanExponent, hcond, if_false]
  · rw [h]
    have hcond : (cur ((e :: c :: d) ++ (un ++ rest)) = 'e'
          ∨ cur ((e :: c :: d) ++ (un ++ rest)) = 'E')
          ∧ isStartOfNumber (charAt ((e :: c :: d) ++ (un ++ rest)) 1) = true := ⟨he, hc⟩
    have e1 : scanExponent ((e :: c :: d) ++ (un ++ rest)) = skipDigits (d ++ (un ++ rest)) := by
      simp only [scanExponent, hcond, and_self, if_true]; rfl
    rw [e1]
    unfold skipDigits
    rw [dropWhile_append_all _ _ _ hd]
    cases un with
    | nil => left; exact List.dropWhile_suffix _
    | cons u un =>
      right
      have hu : isLetter u = true := by
        simp only [List.all_cons, Bool.and_eq_true] at hun
        exact hun.1
      exact dropWhile_cur_false _ _ (letter_not_digit u hu)

/-- The scan of the unit letters stops where the prefix ends, or later. -/
theorem scanUnits_longest (allowUnits : Bool) (un rest : List Char)
    (hun : un.all isLetter = true) (hau : allowUnits = true ∨ un = []) :
    scanUnits allowUnits (un ++ rest) <:+ rest := by
  cases allowUnits with
  | true =>
    simp only [scanUnits, if_true]
    rw [dropWhile_append_all _ _ _ hun]
    exact List.dropWhile_suffix _
  | false =>
    rcases hau with h | h
    · cases h
    · rw [h]; exact List.suffix_refl _

end SVGState

end Juce

namespace Juce

namespace SVGState

/-- The parts of a text that has the form of a token. -/
theorem numberForm_parts (allowUnits : Bool) (n : NumberText) (units : List Char)
    (h : numberForm allowUnits n units = true) :
    (n.sign = [] ∨ n.sign = ['-'] ∨ n.sign = ['+']) ∧ n.whole.all isDigit = true
      ∧ (n.fraction = [] ∨ ∃ f, n.fraction = '.' :: f ∧ f.all isDigit = true)
      ∧ (n.exponent = [] ∨ ∃ e c d, n.exponent = e :: c :: d ∧ (e = 'e' ∨ e = 'E')
          ∧ isStartOfNumber c = true ∧ d.all isDigit = true)
      ∧ units.all isLetter = true ∧ (allowUnits = true ∨ units = []) := by
  simp only [numberForm, NumberText.signOk, Bool.and_eq_true, Bool.or_eq_true, beq_iff_eq,
    List.isEmpty_iff] at h
  obtain ⟨⟨⟨⟨⟨hs, hw⟩, hf⟩, he⟩, hu⟩, ha⟩ := h
  refine ⟨?_, hw, ?_, ?_, hu, ha⟩
  · rcases hs with (hs | hs) | hs
    · exact Or.inl hs
    · exact Or.inr (Or.inl hs)
    · exact Or.inr (Or.inr hs)
  · unfold NumberText.fractionOk at hf
    cases hfr : n.fraction with
    | nil => exact Or.inl rfl
    | cons c f =>
      rw [hfr] at hf
      simp only [Bool.and_eq_true, beq_iff_eq] at hf
      exact Or.inr ⟨f, by rw [hf.1], hf.2⟩
  · unfold NumberText.exponentForm at he
    match hex : n.exponent with
    | [] => exact Or.inl rfl
    | [_] => rw [hex] at he; cases he
    | e :: c :: d =>
      rw [hex] at he
      simp only [Bool.and_eq_true, Bool.or_eq_true, beq_iff_eq] at he
      exact Or.inr ⟨e, c, d, rfl, he.1.1, he.1.2, he.2⟩

/-- The scan of a number passes every prefix of the text that has the form of a token. -/
theorem scanNumber_longest (allowUnits : Bool) (n : NumberText) (units rest : List Char)
    (h : numberForm allowUnits n units = true) :
    scanNumber allowUnits ((n.chars ++ units) ++ rest) <:+ rest := by
  obtain ⟨hs, hw, hf, he, hu, ha⟩ := numberForm_parts allowUnits n units h
  have hunit : ∀ a l, units = a :: l → isLetter a = true := by
    intro a l hl
    rw [hl] at hu
    simp only [List.all_cons, Bool.and_eq_true] at hu
    exact hu.1
  -- the character after the exponent, and after the fraction
  have hexp : ∀ m : List Char, m = n.exponent ++ units → m ≠ [] →
      (isDigit (cur m) = false ∧ isStartOfNumber (cur m) = false ∧ cur m ≠ '.') := by
    intro m hm hne
    rcases he with he | ⟨e, c, d, he, hee, _, _⟩
    · rw [he, List.nil_append] at hm
      cases hu2 : units with
      | nil => rw [hu2] at hm; exact absurd hm hne
      | cons a l =>
        have hl := hunit a l hu2
        rw [hm, hu2]
        exact ⟨letter_not_digit a hl, letter_not_startOfNumber a hl, letter_not_point a hl⟩
    · rw [he] at hm
      rw [hm]
      have hc : cur ((e :: c :: d) ++ units) = e := rfl
      rw [hc]
      rcases hee with hee | hee <;> rw [hee] <;> decide
  have hfrac : ∀ m : List Char, m = n.fraction ++ (n.exponent ++ units) → m ≠ [] →
      (isDigit (cur m) = false ∧ isStartOfNumber (cur m) = false) := by
    intro m hm hne
    rcases hf with hf | ⟨f, hf, _⟩
    · rw [hf, List.nil_append] at hm
      exact ⟨(hexp m hm hne).1, (hexp m hm hne).2.1⟩
    · rw [hm, hf]
      exact ⟨rfl, rfl⟩
  have e0 : (n.chars ++ units) ++ rest
      = n.sign ++ (n.whole ++ ((n.fraction ++ (n.exponent ++ units)) ++ rest)) := by
    simp only [NumberText.chars, List.append_assoc]
  unfold scanNumber
  rw [e0]
  have past : ∀ r : List Char, r <:+ rest →
      scanUnits allowUnits (scanExponent (scanFraction r)) <:+ rest := fun r hr =>
    (scanUnits_suffix _ _).trans ((scanExponent_suffix _).trans
      ((scanFraction_suffix _).trans hr))
  rcases scanSign_longest n.sign n.whole (n.fraction ++ (n.exponent ++ units)) rest hs hw
      (hfrac _ rfl) with h1 | h1
  · exact past _ h1
  · rw [h1, List.append_assoc]
    rcases scanFraction_longest n.fraction (n.exponent ++ units) rest hf
        (fun hne => ⟨(hexp _ rfl hne).1, (hexp _ rfl hne).2.2⟩) with h2 | h2
    · exact (scanUnits_suffix _ _).trans ((scanExponent_suffix _).trans h2)
    · rw [h2, List.append_assoc]
      rcases scanExponent_longest n.exponent units rest he hu with h3 | h3
      · exact (scanUnits_suffix _ _).trans h3
      · rw [h3]
        exact scanUnits_longest allowUnits units rest hu ha

/-- A text that has the form of a token has no white space and no comma. -/
theorem numberForm_no_separator (allowUnits : Bool) (n : NumberText) (units : List Char)
    (h : numberForm allowUnits n units = true) :
    ∀ c ∈ n.chars ++ units, isSeparator c = false := by
  obtain ⟨hs, hw, hf, he, hu, _⟩ := numberForm_parts allowUnits n units h
  intro c hc
  simp only [NumberText.chars, List.mem_append] at hc
  rcases hc with (((hc | hc) | hc) | hc) | hc
  · rcases hs with hs | hs | hs <;> rw [hs] at hc
    · cases hc
    · rw [List.mem_singleton] at hc; rw [hc]; decide
    · rw [List.mem_singleton] at hc; rw [hc]; decide
  · exact digit_not_separator c (List.all_eq_true.mp hw c hc)
  · rcases hf with hf | ⟨f, hf, hfd⟩ <;> rw [hf] at hc
    · cases hc
    · rcases List.mem_cons.mp hc with hc | hc
      · rw [hc]; decide
      · exact digit_not_separator c (List.all_eq_true.mp hfd c hc)
  · rcases he with he | ⟨e, x, d, he, hee, hx, hd⟩ <;> rw [he] at hc
    · cases hc
    · rcases List.mem_cons.mp hc with hc | hc
      · rw [hc]; rcases hee with hee | hee <;> rw [hee] <;> decide
      · rcases List.mem_cons.mp hc with hc | hc
        · rw [hc]; exact startOfNumber_not_separator x hx
        · exact digit_not_separator c (List.all_eq_true.mp hd c hc)
  · exact letter_not_separator c (List.all_eq_true.mp hu c hc)

end SVGState

end Juce

namespace Juce

namespace SVGState

/-! ## The last two characters of a literal -/

theorem charAt_append_first (m : List Char) (a b : Char) :
    charAt (m ++ [a, b]) m.length = a := by
  induction m with
  | nil => rfl
  | cons x m ih => exact ih

theorem charAt_append_second (m : List Char) (a b : Char) :
    charAt (m ++ [a, b]) (m.length + 1) = b := by
  induction m with
  | nil => rfl
  | cons x m ih => exact ih

/-- The method `getCoordLength` on a literal of three characters or more, by its last two
characters. -/
theorem getCoordLength_last_two (N : FloatOps) (m : List Char) (a b : Char) (size : N.F)
    (hm : m ≠ []) :
    getCoordLength N (m ++ [a, b]) size
      = if a = 'i' ∧ b = 'n' then N.mul (N.getFloatValue (m ++ [a, b])) (N.lit 96 0)
        else if a = 'm' ∧ b = 'm' then
          N.mul (N.getFloatValue (m ++ [a, b])) (N.div (N.lit 96 0) (N.lit 254 1))
        else if a = 'c' ∧ b = 'm' then
          N.mul (N.getFloatValue (m ++ [a, b])) (N.div (N.lit 96 0) (N.lit 254 2))
        else if a = 'p' ∧ b = 'c' then N.mul (N.getFloatValue (m ++ [a, b])) (N.lit 15 0)
        else if b = '%' then
          N.mul (N.getFloatValue (m ++ [a, b])) (N.mul (N.lit 1 2) size)
        else N.getFloatValue (m ++ [a, b]) := by
  have hpos : 0 < m.length := List.length_pos.mpr hm
  have hlen : (m ++ [a, b]).length = m.length + 2 := by simp
  have h2 : 2 < (m ++ [a, b]).length := by omega
  have e1 : (m ++ [a, b]).length - 2 = m.length := by omega
  have e2 : (m ++ [a, b]).length - 1 = m.length + 1 := by omega
  unfold getCoordLength
  simp only [h2, if_true, e1, e2, charAt_append_first, charAt_append_second]

/-- The method `getCoordLength` on a literal of at most two characters: the number the
literal starts with. -/
theorem getCoordLength_short (N : FloatOps) (s : List Char) (size : N.F)
    (hs : s.length ≤ 2) : getCoordLength N s size = N.getFloatValue s := by
  have h2 : ¬ 2 < s.length := by omega
  unfold getCoordLength
  simp only [h2, if_false]

end SVGState

end Juce

namespace Juce

namespace SVGState

variable {N : FloatOps}

/-! ## The loops of the style lookup end before their fuel does -/

theorem find_suffix (s : List Char) (c : Char) : find s c <:+ s :=
  List.dropWhile_suffix _

theorem findEndOfWhitespace_suffix (s : List Char) : findEndOfWhitespace s <:+ s :=
  List.dropWhile_suffix _

/-- The cursor that `findStyleItem` returns lies in the text it was given. -/
theorem findStyleItem_suffix (source name : List Char) :
    findStyleItem source name <:+ source := by
  induction source with
  | nil => exact List.suffix_refl _
  | cons c source ih =>
    have hstep : findStyleItem source name <:+ c :: source :=
      ih.trans (List.suffix_cons c source)
    have hend : findEndOfWhitespace (source.drop name.length) <:+ c :: source :=
      (findEndOfWhitespace_suffix _).trans
        ((List.drop_suffix _ source).trans (List.suffix_cons c source))
    unfold findStyleItem
    split
    · simp only []
      split
      · exact hend
      · split
        · exact (find_suffix _ _).trans hend
        · exact hstep
    · exact hstep

/-- More fuel than the length of the remaining style text does not change the loop over
its blocks. -/
theorem classLoop_fuel (xml : XmlElement) (attributeName defaultValue : List Char) :
    ∀ (fuel : Nat) (i : List Char), i.length + 1 ≤ fuel →
      classLoop xml attributeName defaultValue fuel i
        = classLoop xml attributeName defaultValue (i.length + 1) i := by
  intro fuel
  induction fuel using Nat.strong_induction_on with
  | _ fuel ih =>
    intro i hi
    cases fuel with
    | zero => omega
    | succ fuel =>
      unfold classLoop
      simp only []
      split
      · rfl
      · split
        · rfl
        · split
          · rfl
          · rename_i hopen hclose _
            have h1 := (findStyleItem_suffix i
              (xml.getStringAttribute "class".toList [])).length_le
            have h2 := (find_suffix (findStyleItem i
              (xml.getStringAttribute "class".toList [])) '}').length_le
            have h3 : 0 < (find (findStyleItem i
                (xml.getStringAttribute "class".toList [])) '}').length := by
              cases hc : find (findStyleItem i
                  (xml.getStringAttribute "class".toList [])) '}' with
              | nil => rw [hc] at hclose; exact absurd rfl hclose
              | cons a l => simp
            have h4 : (find (findStyleItem i
                (xml.getStringAttribute "class".toList [])) '}').tail.length + 1
                ≤ i.length := by
              rw [List.length_tail]; omega
            rw [ih fuel (Nat.lt_succ_self _) _ (by omega)]
            rw [ih i.length (by omega) _ h4]

theorem indexOfFrom_bounds (needle : List Char) :
    ∀ (s : List Char) (index j : Nat), indexOfFrom s needle index = some j →
      index ≤ j ∧ j < index + s.length := by
  intro s
  induction s with
  | nil => intro index j h; simp [indexOfFrom] at h
  | cons c t ih =>
    intro index j h
    unfold indexOfFrom at h
    split at h
    · simp only [Option.some.injEq] at h
      simp only [List.length_cons]
      omega
    · have := ih (index + 1) j h
      simp only [List.length_cons]
      omega

/-- An index that `indexOf` returns is at or after the start index and inside the text. -/
theorem indexOf_bounds (s : List Char) (startIndex : Nat) (needle : List Char) (j : Nat)
    (h : indexOf s startIndex needle = some j) : startIndex ≤ j ∧ j < s.length := by
  unfold indexOf at h
  split at h
  · cases h
  · rename_i hne
    have hb := indexOfFrom_bounds needle _ _ _ h
    have hl : (s.drop startIndex).length = s.length - startIndex := List.length_drop _ _
    rw [hl] at hb
    omega

theorem styleListLoop_none (list attributeName defaultValue : List Char) (fuel i : Nat)
    (h : indexOf list i attributeName = none) :
    styleListLoop list attributeName defaultValue fuel i = defaultValue := by
  cases fuel with
  | zero => rfl
  | succ f => unfold styleListLoop; rw [h]

/-- Two amounts of fuel that both cover the indices that are left give the same result
in the loop of `getAttributeFromStyleList`: the loop ends before its fuel does. -/
theorem styleListLoop_fuel (list attributeName defaultValue : List Char) :
    ∀ (fuel1 fuel2 i : Nat), list.length + 1 ≤ fuel1 + i → list.length + 1 ≤ fuel2 + i →
      styleListLoop list attributeName defaultValue fuel1 i
        = styleListLoop list attributeName defaultValue fuel2 i := by
  intro fuel1
  induction fuel1 with
  | zero =>
    intro fuel2 i h1 _
    cases hidx : indexOf list i attributeName with
    | none => rw [styleListLoop_none _ _ _ _ _ hidx, styleListLoop_none _ _ _ _ _ hidx]
    | some j =>
      have hb := indexOf_bounds list i attributeName j hidx
      omega
  | succ fuel1 ih =>
    intro fuel2 i h1 h2
    cases hidx : indexOf list i attributeName with
    | none => rw [styleListLoop_none _ _ _ _ _ hidx, styleListLoop_none _ _ _ _ _ hidx]
    | some j =>
      have hb := indexOf_bounds list i attributeName j hidx
      cases fuel2 with
      | zero => omega
      | succ fuel2 =>
        unfold styleListLoop
        rw [hidx]
        simp only []
        split
        · rfl
        · exact ih fuel2 (j + 1) (by omega) (by omega)

end SVGState

end Juce

namespace Juce

namespace SVGState

variable {N : FloatOps}

/-! ## The block of a class in the style text -/

/-- Text in which no point starts a selector of the class holds no block for it:
`findStyleItem` passes it. -/
theorem findStyleItem_append_no_selector (name rest : List Char) :
    ∀ pre : List Char, noSelectorBefore name pre rest = true →
      findStyleItem (pre ++ rest) name = findStyleItem rest name := by
  intro pre
  induction pre with
  | nil => intro _; rfl
  | cons a pre ih =>
    intro h
    simp only [noSelectorBefore, Bool.and_eq_true, Bool.not_eq_true', Bool.and_eq_false_iff,
      beq_eq_false_iff_ne] at h
    have hrec := ih h.2
    show findStyleItem (a :: (pre ++ rest)) name = _
    rw [findStyleItem]
    split
    · rename_i hc
      have hsel : selectorAt name (pre ++ rest) = false := by
        rcases h.1 with h1 | h1
        · exact absurd hc.1 h1
        · exact h1
      simp only [selectorAt, hc.2, Bool.true_and, Bool.or_eq_false_iff,
        beq_eq_false_iff_ne] at hsel
      simp only [hsel.1, hsel.2, if_false]
      exact hrec
    · exact hrec

/-- A name that is the class name up to case compares equal to it. -/
theorem compareIgnoreCaseUpTo_same (rest : List Char) :
    ∀ (sel cls : List Char), sel.length = cls.length →
      sel.map toUpperCase = cls.map toUpperCase →
      compareIgnoreCaseUpTo (sel ++ rest) cls cls.length = true := by
  intro sel
  induction sel with
  | nil =>
    intro cls hlen _
    cases cls with
    | nil => rfl
    | cons b cls => simp at hlen
  | cons a sel ih =>
    intro cls hlen hup
    cases cls with
    | nil => simp at hlen
    | cons b cls =>
      simp only [List.map_cons, List.cons.injEq] at hup
      simp only [List.length_cons, Nat.add_right_cancel_iff] at hlen
      show compareIgnoreCaseUpTo (a :: (sel ++ rest)) (b :: cls) (cls.length + 1) = true
      unfold compareIgnoreCaseUpTo
      have hc : toUpperCase (cur (a :: (sel ++ rest))) = toUpperCase (cur (b :: cls)) := hup.1
      simp only [hc, ne_eq, not_true_eq_false, if_false, List.tail_cons]
      split
      · rfl
      · exact ih cls hlen hup.2

/-- At a point that is followed by the class name, up to case, by white space and by an
opening brace, `findStyleItem` returns the cursor at the brace; so it does when a comma
and a text without an opening brace stand before the brace. -/
theorem findStyleItem_block (sel cls ws gap rest : List Char)
    (hlen : sel.length = cls.length)
    (hup : sel.map toUpperCase = cls.map toUpperCase) (hws : ws.all isWhitespace = true)
    (hgap : gap = [] ∨ (cur gap = ',' ∧ ∀ c ∈ gap, c ≠ '{')) :
    findStyleItem ('.' :: (sel ++ (ws ++ (gap ++ '{' :: rest)))) cls = '{' :: rest := by
  have hcmp := compareIgnoreCaseUpTo_same (ws ++ (gap ++ '{' :: rest)) sel cls hlen hup
  have hdrop : (sel ++ (ws ++ (gap ++ '{' :: rest))).drop cls.length
      = ws ++ (gap ++ '{' :: rest) := by
    rw [← hlen]; exact List.drop_left _ _
  rw [findStyleItem]
  simp only [hcmp, and_self, if_true, hdrop]
  rcases hgap with hg | hg
  · have hend : findEndOfWhitespace (ws ++ (gap ++ '{' :: rest)) = '{' :: rest := by
      rw [hg]
      unfold findEndOfWhitespace
      rw [dropWhile_append_all _ _ _ hws]
      exact dropWhile_cur_false _ _ (show isWhitespace '{' = false by decide)
    simp only [hend]
    rfl
  · cases gap with
    | nil => exact absurd hg.1 (by decide)
    | cons g gap =>
      have hgc : g = ',' := hg.1
      have hend : findEndOfWhitespace (ws ++ ((g :: gap) ++ '{' :: rest))
          = (g :: gap) ++ '{' :: rest := by
        unfold findEndOfWhitespace
        rw [dropWhile_append_all _ _ _ hws]
        exact dropWhile_cur_false _ _
          (show isWhitespace g = false by rw [hgc]; decide)
      have hcur : cur ((g :: gap) ++ '{' :: rest) = ',' := hgc
      have hfind : find ((g :: gap) ++ '{' :: rest) '{' = '{' :: rest := by
        have hall : (g :: gap).all (fun c => c != '{') = true := by
          rw [List.all_eq_true]
          intro c hc
          simpa using hg.2 c hc
        unfold find
        rw [dropWhile_append_all _ _ _ hall]
        simp [List.dropWhile]
      simp only [hend, hcur, hfind, show ((',' : Char) = '{') = False by decide, if_false,
        if_true]

/-- The closing brace of a block whose body has none. -/
theorem find_closing (body post : List Char) (hbody : ∀ c ∈ body, c ≠ '}') :
    find ('{' :: (body ++ '}' :: post)) '}' = '}' :: post := by
  have hall : ('{' :: body).all (fun c => c != '}') = true := by
    rw [List.all_eq_true]
    intro c hc
    rcases List.mem_cons.mp hc with h | h
    · rw [h]; decide
    · simpa using hbody c h
  have e : '{' :: (body ++ '}' :: post) = ('{' :: body) ++ ('}' :: post) := rfl
  unfold find
  rw [e, dropWhile_append_all _ _ _ hall]
  simp [List.dropWhile]

theorem textBetween_body (body post : List Char) :
    textBetween (body ++ post) post = body := by
  unfold textBetween
  have : (body ++ post).length - post.length = body.length := by
    rw [List.length_append]; omega
  rw [this]
  exact List.take_left _ _

/-- The loop over the blocks returns the value that the first block of the class gives
when it gives one. -/
theorem classLoop_first_block (xml : XmlElement) (attributeName defaultValue : List Char)
    (fuel : Nat) (pre sel ws gap body post : List Char)
    (hpre : noSelectorBefore (xml.getStringAttribute "class".toList []) pre
      ('.' :: (sel ++ (ws ++ (gap ++ '{' :: (body ++ '}' :: post))))) = true)
    (hlen : sel.length = (xml.getStringAttribute "class".toList []).length)
    (hup : sel.map toUpperCase
      = (xml.getStringAttribute "class".toList []).map toUpperCase)
    (hws : ws.all isWhitespace = true)
    (hgap : gap = [] ∨ (cur gap = ',' ∧ ∀ c ∈ gap, c ≠ '{'))
    (hbody : ∀ c ∈ body, c ≠ '}')
    (hval : getAttributeFromStyleList body attributeName defaultValue ≠ []) :
    classLoop xml attributeName defaultValue (fuel + 1)
        (pre ++ '.' :: (sel ++ (ws ++ (gap ++ '{' :: (body ++ '}' :: post)))))
      = some (getAttributeFromStyleList body attributeName defaultValue) := by
  have hopen : findStyleItem
      (pre ++ '.' :: (sel ++ (ws ++ (gap ++ '{' :: (body ++ '}' :: post)))))
      (xml.getStringAttribute "class".toList []) = '{' :: (body ++ '}' :: post) := by
    rw [findStyleItem_append_no_selector _ _ _ hpre]
    exact findStyleItem_block sel _ ws gap _ hlen hup hws hgap
  have hclose := find_closing body post hbody
  have htext : textBetween (body ++ '}' :: post) ('}' :: post) = body :=
    textBetween_body body ('}' :: post)
  have hne : (getAttributeFromStyleList body attributeName defaultValue).isEmpty = false := by
    cases hv : getAttributeFromStyleList body attributeName defaultValue with
    | nil => exact absurd hv hval
    | cons a l => rfl
  unfold classLoop
  simp only [hopen, hclose, List.tail_cons, htext, hne, List.isEmpty_cons, Bool.not_false,
    if_true, Bool.false_eq_true, if_false]

/-- A point that is followed by a text as long as the class name and then by a character
that is neither white space, an opening brace nor a comma starts no block. -/
theorem findStyleItem_longer_name (sel cls rest : List Char) (x : Char)
    (hlen : sel.length = cls.length) (hx : isWhitespace x = false) (hb : x ≠ '{')
    (hc : x ≠ ',') :
    findStyleItem ('.' :: (sel ++ x :: rest)) cls = findStyleItem (sel ++ x :: rest) cls := by
  have hdrop : (sel ++ x :: rest).drop cls.length = x :: rest := by
    rw [← hlen]; exact List.drop_left _ _
  have hend : findEndOfWhitespace (x :: rest) = x :: rest :=
    dropWhile_cur_false _ _ hx
  have hcur : cur (x :: rest) = x := rfl
  rw [findStyleItem]
  split
  · simp only [hdrop, hend, hcur, hb, hc, if_false]
  · rfl

end SVGState

end Juce

namespace Juce

namespace SVGState

variable {N : FloatOps}

/-! ## The style text along the walk -/

/-- The call of `parseSubElement` on a `style` element puts the text of the element in
front of the style text. -/
theorem parseSubElement_style (self : SVGState N) (parents : List XmlElement)
    (xml : XmlElement) (h : xml.getTagNameWithoutNamespace = "style".toList) :
    parseSubElement self parents xml
      = ([⟨self, ⟨xml, parents⟩⟩], self.parseCSSStyle xml) := by
  cases xml with
  | mk tag attributes children text =>
    have ht : tag = "style".toList := h
    subst ht
    rw [parseSubElement]
    simp only [show parsePathElement "style".toList = false by decide,
      show ("style".toList = "g".toList) = False by decide,
      show ("style".toList = "svg".toList) = False by decide,
      show ("style".toList = "text".toList) = False by decide,
      show ("style".toList = "switch".toList) = False by decide,
      show ("style".toList = "a".toList) = False by decide,
      Bool.false_eq_true, if_false, if_true]

/-- The call of `parseSubElement` on a group with a `transform` attribute leaves the
parser as it was. -/
theorem parseSubElement_group_transform (self : SVGState N) (parents : List XmlElement)
    (xml : XmlElement) (h : xml.getTagNameWithoutNamespace = "g".toList)
    (ht : xml.hasAttribute "transform".toList = true) :
    (parseSubElement self parents xml).2 = self := by
  cases xml with
  | mk tag attributes children text =>
    have htag : tag = "g".toList := h
    subst htag
    rw [parseSubElement]
    simp only [show parsePathElement "g".toList = false by decide,
      Bool.false_eq_true, if_false, if_true, parseGroupElement, ht]

/-- The call of `parseSubElement` on a nested `svg` element leaves the parser as it
was. -/
theorem parseSubElement_svg (self : SVGState N) (parents : List XmlElement)
    (xml : XmlElement) (h : xml.getTagNameWithoutNamespace = "svg".toList) :
    (parseSubElement self parents xml).2 = self := by
  cases xml with
  | mk tag attributes children text =>
    have htag : tag = "svg".toList := h
    subst htag
    rw [parseSubElement]
    simp only [show parsePathElement "svg".toList = false by decide,
      show ("svg".toList = "g".toList) = False by decide,
      Bool.false_eq_true, if_false, if_true, parseSVGElement]

/-- The calls for the first children of an element do not depend on the children that
follow, and those are parsed by the parser as the first ones leave it. -/
theorem parseSubElements_append (parents : List XmlElement) (post : List XmlElement) :
    ∀ (pre : List XmlElement) (self : SVGState N),
      parseSubElements self parents (pre ++ post)
        = ((parseSubElements self parents pre).1
            ++ (parseSubElements (parseSubElements self parents pre).2 parents post).1,
          (parseSubElements (parseSubElements self parents pre).2 parents post).2) := by
  intro pre
  induction pre with
  | nil =>
    intro self
    simp only [List.nil_append, parseSubElements]
  | cons e pre ih =>
    intro self
    rw [List.cons_append, parseSubElements, ih]
    conv => rhs; rw [parseSubElements]
    simp only [List.append_assoc]

end SVGState

end Juce

namespace Juce

namespace SVGState

variable {N : FloatOps}

/-! ## Inherited attributes read one attribute of each element -/

theorem find_filter_of_imp {α : Type} (p q : α → Bool) (h : ∀ a, p a = true → q a = true) :
    ∀ l : List α, (l.filter q).find? p = l.find? p := by
  intro l
  induction l with
  | nil => rfl
  | cons a l ih =>
    by_cases hq : q a = true
    · simp only [List.filter_cons, hq, if_true, List.find?_cons]
      rw [ih]
    · have hp : p a = false := by
        cases hpa : p a with
        | false => rfl
        | true => exact absurd (h a hpa) hq
      simp only [List.filter_cons, hq, List.find?_cons, hp]
      exact ih

theorem any_filter_of_imp {α : Type} (p q : α → Bool) (h : ∀ a, p a = true → q a = true) :
    ∀ l : List α, (l.filter q).any p = l.any p := by
  intro l
  induction l with
  | nil => rfl
  | cons a l ih =>
    by_cases hq : q a = true
    · simp only [List.filter_cons, hq, if_true, List.any_cons]
      rw [ih]
    · have hp : p a = false := by
        cases hpa : p a with
        | false => rfl
        | true => exact absurd (h a hpa) hq
      simp only [List.filter_cons, hq, List.any_cons, hp, Bool.false_or]
      exact ih

theorem named_is_other (attributeName : List Char) (h1 : attributeName ≠ "style".toList)
    (h2 : attributeName ≠ "class".toList) (a : List Char × List Char)
    (ha : (a.1 == attributeName) = true) :
    (a.1 != "style".toList && a.1 != "class".toList) = true := by
  have : a.1 = attributeName := by simpa using ha
  rw [this]
  simp only [Bool.and_eq_true, bne_iff_ne, ne_eq]
  exact ⟨h1, h2⟩

/-- An attribute other than `style` and `class` is read from the other attributes. -/
theorem hasAttribute_otherAttributes (x y : XmlElement) (attributeName : List Char)
    (h1 : attributeName ≠ "style".toList) (h2 : attributeName ≠ "class".toList)
    (h : x.otherAttributes = y.otherAttributes) :
    x.hasAttribute attributeName = y.hasAttribute attributeName := by
  unfold XmlElement.hasAttribute
  rw [← any_filter_of_imp _ _ (named_is_other attributeName h1 h2) x.attributes,
    ← any_filter_of_imp _ _ (named_is_other attributeName h1 h2) y.attributes]
  have : List.filter (fun a => a.1 != "style".toList && a.1 != "class".toList) x.attributes
      = List.filter (fun a => a.1 != "style".toList && a.1 != "class".toList) y.attributes := h
  rw [this]

theorem getStringAttribute_otherAttributes (x y : XmlElement)
    (attributeName defaultValue : List Char)
    (h1 : attributeName ≠ "style".toList) (h2 : attributeName ≠ "class".toList)
    (h : x.otherAttributes = y.otherAttributes) :
    x.getStringAttribute attributeName defaultValue
      = y.getStringAttribute attributeName defaultValue := by
  unfold XmlElement.getStringAttribute
  rw [← find_filter_of_imp _ _ (named_is_other attributeName h1 h2) x.attributes,
    ← find_filter_of_imp _ _ (named_is_other attributeName h1 h2) y.attributes]
  have : List.filter (fun a => a.1 != "style".toList && a.1 != "class".toList) x.attributes
      = List.filter (fun a => a.1 != "style".toList && a.1 != "class".toList) y.attributes := h
  rw [this]

theorem getInheritedAttributeFrom_otherAttributes (attributeName : List Char)
    (h1 : attributeName ≠ "style".toList) (h2 : attributeName ≠ "class".toList) :
    ∀ (ps qs : List XmlElement) (x y : XmlElement),
      (x :: ps).map XmlElement.otherAttributes = (y :: qs).map XmlElement.otherAttributes →
      getInheritedAttributeFrom attributeName x ps
        = getInheritedAttributeFrom attributeName y qs := by
  intro ps
  induction ps with
  | nil =>
    intro qs x y h
    cases qs with
    | nil =>
      simp only [List.map_cons, List.map_nil, List.cons.injEq, and_true] at h
      simp only [getInheritedAttributeFrom,
        hasAttribute_otherAttributes x y attributeName h1 h2 h,
        getStringAttribute_otherAttributes x y attributeName [] h1 h2 h]
    | cons q qs => simp at h
  | cons p ps ih =>
    intro qs x y h
    cases qs with
    | nil => simp at h
    | cons q qs =>
      have hxy : x.otherAttributes = y.otherAttributes := by
        simp only [List.map_cons, List.cons.injEq] at h
        exact h.1
      have hrest : (p :: ps).map XmlElement.otherAttributes
          = (q :: qs).map XmlElement.otherAttributes := by
        simp only [List.map_cons, List.cons.injEq] at h
        simp only [List.map_cons, List.cons.injEq]
        exact h.2
      simp only [getInheritedAttributeFrom,
        hasAttribute_otherAttributes x y attributeName h1 h2 hxy,
        getStringAttribute_otherAttributes x y attributeName [] h1 h2 hxy,
        ih qs p q hrest]

end SVGState

end Juce

namespace Juce

namespace SVGState

/-! ## The arc solver in exact arithmetic -/

section Field

variable {R : Type} [LinearOrderedField R] (fns : Functions R)

theorem fieldOps_lit (m e : Nat) : (fieldOps R fns).lit m e = (m : R) / (10 ^ e : R) := rfl

theorem fieldOps_lit_zero : (fieldOps R fns).lit 0 0 = (0 : R) := by
  rw [fieldOps_lit]; norm_num

theorem fieldOps_lit_one : (fieldOps R fns).lit 1 0 = (1 : R) := by
  rw [fieldOps_lit]; norm_num

theorem fieldOps_lit_two : (fieldOps R fns).lit 2 0 = (2 : R) := by
  rw [fieldOps_lit]; norm_num

theorem fieldOps_lit_half : (fieldOps R fns).lit 5 1 = (1 / 2 : R) := by
  rw [fieldOps_lit]; norm_num

/-- The value that `jlimit` gives between -1 and 1 lies between them. -/
theorem jlimit_unit (v : R) :
    -1 ≤ (fieldMath R fns).jlimit (-1 : R) (1 : R) v
      ∧ (fieldMath R fns).jlimit (-1 : R) (1 : R) v ≤ 1 := by
  unfold MathOps.jlimit
  simp only [decide_eq_true_eq]
  split_ifs with h1 h2
  · constructor <;> norm_num
  · constructor <;> norm_num
  · exact ⟨not_lt.mp h1, not_lt.mp h2⟩

/-- The angle before the final `fmod` is turned the way of the sweep flag and is less than
a full turn. -/
theorem sweepAngle_range (sweep : Bool) (a cross : R) (hpi : 0 < fns.pi)
    (ha : 0 ≤ a ∧ a ≤ fns.pi) :
    (sweep = true → 0 ≤ sweepAngle (fieldMath R fns) sweep a cross
        ∧ sweepAngle (fieldMath R fns) sweep a cross < 2 * fns.pi)
      ∧ (sweep = false → -(2 * fns.pi) < sweepAngle (fieldMath R fns) sweep a cross
        ∧ sweepAngle (fieldMath R fns) sweep a cross ≤ 0) := by
  obtain ⟨ha0, ha1⟩ := ha
  unfold sweepAngle
  simp only [Nat.cast_zero, Nat.cast_ofNat, pow_zero, div_one, decide_eq_true_eq]
  constructor
  · intro hs
    subst hs
    simp only [if_true]
    split_ifs <;> constructor <;> linarith
  · intro hs
    subst hs
    simp only [Bool.false_eq_true, if_false]
    split_ifs <;> constructor <;> linarith

end Field

/-- The arc cosine for examples has its values between 0 and the circle constant. -/
theorem exactFunctions_acos_range (v : ℚ) :
    0 ≤ exactFunctions.acos v ∧ exactFunctions.acos v ≤ exactFunctions.pi := by
  show 0 ≤ (355 / 226 : ℚ) * (1 - (if v < -1 then -1 else if 1 < v then 1 else v))
    ∧ (355 / 226 : ℚ) * (1 - (if v < -1 then -1 else if 1 < v then 1 else v)) ≤ 355 / 113
  split_ifs with h1 h2
  · constructor <;> norm_num
  · constructor <;> norm_num
  · have := not_lt.mp h1
    have := not_lt.mp h2
    constructor <;> linarith

/-- The remainder for examples leaves a value of smaller magnitude than the divisor as it
is. -/
theorem exactFunctions_fmod_small (x m : ℚ) (hm : 0 < m) (h1 : -m < x) (h2 : x < m) :
    exactFunctions.fmod x m = x := by
  show exactFmod x m = x
  unfold exactFmod
  have hlt : x / m < 1 := by rw [div_lt_one hm]; exact h2
  have hgt : -1 < x / m := by
    rw [lt_div_iff₀ hm]; linarith
  split_ifs with h
  · have : ⌊x / m⌋ = 0 := Int.floor_eq_zero_iff.mpr ⟨h, hlt⟩
    rw [this]; simp
  · have : ⌈x / m⌉ = 0 := Int.ceil_eq_zero_iff.mpr ⟨hgt, le_of_lt (not_le.mp h)⟩
    rw [this]; simp

end SVGState

end Juce

namespace Juce

namespace SVGState

section Field

variable {R : Type} [LinearOrderedField R] (fns : Functions R)

/-- The final `fmod` leaves the angle of `sweepAngle` as it is, so the range of that angle
is the range of `deltaAngle`. -/
theorem fmod_sweepAngle_range (sweep : Bool) (arg cross : R) (hpi : 0 < fns.pi)
    (hacos : ∀ v : R, -1 ≤ v → v ≤ 1 → 0 ≤ fns.acos v ∧ fns.acos v ≤ fns.pi)
    (hfmod : ∀ x m : R, 0 < m → -m < x → x < m → fns.fmod x m = x) :
    (sweep = true →
        0 ≤ fns.fmod (sweepAngle (fieldMath R fns) sweep
            (fns.acos ((fieldMath R fns).jlimit (-1 : R) (1 : R) arg)) cross) (fns.pi * 2)
        ∧ fns.fmod (sweepAngle (fieldMath R fns) sweep
            (fns.acos ((fieldMath R fns).jlimit (-1 : R) (1 : R) arg)) cross) (fns.pi * 2)
          < 2 * fns.pi)
      ∧ (sweep = false →
        -(2 * fns.pi) < fns.fmod (sweepAngle (fieldMath R fns) sweep
            (fns.acos ((fieldMath R fns).jlimit (-1 : R) (1 : R) arg)) cross) (fns.pi * 2)
        ∧ fns.fmod (sweepAngle (fieldMath R fns) sweep
            (fns.acos ((fieldMath R fns).jlimit (-1 : R) (1 : R) arg)) cross) (fns.pi * 2)
          ≤ 0) := by
  have hj := jlimit_unit fns arg
  have ha := hacos _ hj.1 hj.2
  have hr := sweepAngle_range fns sweep _ cross hpi ha
  have hm : (0 : R) < fns.pi * 2 := by linarith
  constructor
  · intro hs
    have h := hr.1 hs
    rw [hfmod _ _ hm (by linarith) (by linarith)]
    exact h
  · intro hs
    have h := hr.2 hs
    rw [hfmod _ _ hm (by linarith) (by linarith)]
    exact h

end Field

end SVGState

end Juce

namespace Juce

namespace SVGState

section Field

variable {R : Type} [LinearOrderedField R] (fns : Functions R)

end Field

end SVGState

end Juce

namespace Juce

namespace SVGState

variable {N : FloatOps}

/-! ## The first occurrence of a character -/

theorem indexOfFrom_char (c : Char) (r : List Char) :
    ∀ (pre : List Char) (i : Nat), (∀ x ∈ pre, x ≠ c) →
      indexOfFrom (pre ++ c :: r) [c] i = some (i + pre.length) := by
  intro pre
  induction pre with
  | nil =>
    intro i _
    simp [indexOfFrom, List.isPrefixOf]
  | cons a pre ih =>
    intro i h
    have ha : a ≠ c := h a (List.mem_cons_self a pre)
    have hne : (c == a) = false := by
      simp only [beq_eq_false_iff_ne, ne_eq]
      exact fun e => ha e.symm
    show indexOfFrom (a :: (pre ++ c :: r)) [c] i = _
    rw [indexOfFrom]
    simp only [List.isPrefixOf, hne, Bool.false_and, Bool.false_eq_true, if_false]
    rw [ih (i + 1) (fun x hx => h x (List.mem_cons_of_mem a hx))]
    simp only [List.length_cons, Option.some.injEq]
    omega

theorem indexOfFrom_char_none (c : Char) :
    ∀ (s : List Char) (i : Nat), (∀ x ∈ s, x ≠ c) → indexOfFrom s [c] i = none := by
  intro s
  induction s with
  | nil => intro i _; rfl
  | cons a s ih =>
    intro i h
    have ha : a ≠ c := h a (List.mem_cons_self a s)
    have hne : (c == a) = false := by
      simp only [beq_eq_false_iff_ne, ne_eq]
      exact fun e => ha e.symm
    rw [indexOfFrom]
    simp only [List.isPrefixOf, hne, Bool.false_and, Bool.false_eq_true, if_false]
    exact ih (i + 1) (fun x hx => h x (List.mem_cons_of_mem a hx))

/-- The text after the first occurrence of a character. -/
theorem fromFirstOccurrenceOf_char (c : Char) (pre r : List Char) (h : ∀ x ∈ pre, x ≠ c) :
    fromFirstOccurrenceOf (pre ++ c :: r) [c] = r := by
  unfold fromFirstOccurrenceOf indexOf
  simp only [List.isEmpty_cons, Bool.false_eq_true, if_false, List.drop_zero,
    indexOfFrom_char c r pre 0 h, Nat.zero_add, List.length_singleton]
  have : pre ++ c :: r = (pre ++ [c]) ++ r := by simp
  rw [this]
  exact List.drop_left' (by simp)

theorem fromFirstOccurrenceOf_char_none (c : Char) (s : List Char) (h : ∀ x ∈ s, x ≠ c) :
    fromFirstOccurrenceOf s [c] = [] := by
  unfold fromFirstOccurrenceOf indexOf
  simp only [List.isEmpty_cons, Bool.false_eq_true, if_false, List.drop_zero,
    indexOfFrom_char_none c s 0 h]

/-- The text before the first occurrence of a character. -/
theorem upToFirstOccurrenceOf_char (c : Char) (pre r : List Char) (h : ∀ x ∈ pre, x ≠ c) :
    upToFirstOccurrenceOf (pre ++ c :: r) [c] = pre := by
  unfold upToFirstOccurrenceOf indexOf substring
  simp only [List.isEmpty_cons, Bool.false_eq_true, if_false, List.drop_zero,
    indexOfFrom_char c r pre 0 h, Nat.zero_add]
  exact List.take_left' rfl

/-- What `fromFirstOccurrenceOf` returns is shorter than a non-empty text. -/
theorem fromFirstOccurrenceOf_length_lt (s sub : List Char) (h : s ≠ []) :
    (fromFirstOccurrenceOf s sub).length < s.length := by
  have hpos : 0 < s.length := List.length_pos.mpr h
  unfold fromFirstOccurrenceOf
  cases hi : indexOf s 0 sub with
  | none => exact hpos
  | some i =>
    have hb := indexOf_bounds s 0 sub i hi
    have hsub : sub ≠ [] := by
      intro h0
      rw [h0] at hi
      simp [indexOf] at hi
    have : 0 < sub.length := List.length_pos.mpr hsub
    simp only [List.length_drop]
    omega

/-! ## The key word of a token -/

/-- The comparison with a key word looks at nothing after the opening bracket. -/
theorem compareIgnoreCaseUpTo_bracket (r1 r2 : List Char) :
    ∀ (name k : List Char) (n : Nat), n ≤ k.length → (∀ c ∈ k, toUpperCase c ≠ '(') →
      compareIgnoreCaseUpTo (name ++ '(' :: r1) k n
        = compareIgnoreCaseUpTo (name ++ '(' :: r2) k n := by
  intro name
  induction name with
  | nil =>
    intro k n hn hk
    cases n with
    | zero => rfl
    | succ n =>
      cases k with
      | nil => simp at hn
      | cons b k =>
        have hb : toUpperCase b ≠ '(' := hk b (List.mem_cons_self b k)
        have h1 : toUpperCase (cur ('(' :: r1)) ≠ toUpperCase (cur (b :: k)) :=
          fun e => hb e.symm
        have h2 : toUpperCase (cur ('(' :: r2)) ≠ toUpperCase (cur (b :: k)) :=
          fun e => hb e.symm
        show compareIgnoreCaseUpTo ('(' :: r1) (b :: k) (n + 1)
          = compareIgnoreCaseUpTo ('(' :: r2) (b :: k) (n + 1)
        rw [compareIgnoreCaseUpTo, compareIgnoreCaseUpTo]
        simp only [h1, h2, ne_eq, not_false_eq_true, if_true]
  | cons a name ih =>
    intro k n hn hk
    cases n with
    | zero => rfl
    | succ n =>
      cases k with
      | nil => simp at hn
      | cons b k =>
        have hn2 : n ≤ k.length := by simpa using hn
        have hrec := ih k n hn2 (fun c hc => hk c (List.mem_cons_of_mem b hc))
        show compareIgnoreCaseUpTo (a :: (name ++ '(' :: r1)) (b :: k) (n + 1)
          = compareIgnoreCaseUpTo (a :: (name ++ '(' :: r2)) (b :: k) (n + 1)
        rw [compareIgnoreCaseUpTo, compareIgnoreCaseUpTo]
        simp only [cur_cons, List.tail_cons, hrec]

theorem startsWithIgnoreCase_bracket (name r1 r2 k : List Char) (hk : k ∈ transformNames) :
    startsWithIgnoreCase (name ++ '(' :: r1) k = startsWithIgnoreCase (name ++ '(' :: r2) k := by
  unfold startsWithIgnoreCase
  apply compareIgnoreCaseUpTo_bracket r1 r2 name k k.length (le_refl _)
  simp only [transformNames, List.mem_cons, List.mem_singleton, List.not_mem_nil,
    or_false] at hk
  rcases hk with h | h | h | h | h | h <;> rw [h] <;> decide

/-- What `parseTransform` reads from a token does not depend on the text after the
token. -/
theorem tokenTransform_token (M : MathOps N) (t : TransformText)
    (h : t.wellFormed = true) (rest : List Char) :
    tokenTransform M (t.name ++ '(' :: (t.args ++ ')' :: rest)) = t.transform M := by
  simp only [TransformText.wellFormed, Bool.and_eq_true, List.all_eq_true] at h
  obtain ⟨⟨hname, hargs⟩, _⟩ := h
  have hn : ∀ x ∈ t.name, x ≠ '(' := by
    intro x hx e
    have := hname x hx
    rw [e] at this
    revert this; decide
  have ha : ∀ x ∈ t.args, x ≠ ')' := by
    intro x hx
    simpa using hargs x hx
  have e1 : ∀ r, upToFirstOccurrenceOf
      (fromFirstOccurrenceOf (t.name ++ '(' :: (t.args ++ ')' :: r)) "(".toList) ")".toList
      = t.args := by
    intro r
    have h1 : fromFirstOccurrenceOf (t.name ++ '(' :: (t.args ++ ')' :: r)) "(".toList
        = t.args ++ ')' :: r := fromFirstOccurrenceOf_char '(' t.name _ hn
    rw [h1]
    exact upToFirstOccurrenceOf_char ')' t.args r ha
  have e2 : ∀ k ∈ transformNames,
      startsWithIgnoreCase (t.name ++ '(' :: (t.args ++ ')' :: rest)) k
        = startsWithIgnoreCase (t.name ++ '(' :: (t.args ++ [')'])) k :=
    fun k hk => startsWithIgnoreCase_bracket t.name _ _ k hk
  unfold TransformText.transform tokenTransform
  simp only [e1 rest, e1 [], e2 _ (show "matrix".toList ∈ transformNames by decide),
    e2 _ (show "translate".toList ∈ transformNames by decide),
    e2 _ (show "scale".toList ∈ transformNames by decide),
    e2 _ (show "rotate".toList ∈ transformNames by decide),
    e2 _ (show "skewX".toList ∈ transformNames by decide),
    e2 _ (show "skewY".toList ∈ transformNames by decide)]

end SVGState

end Juce

namespace Juce

namespace SVGState

variable {N : FloatOps}

/-! ## The loop of `parseTransform` on a list of tokens -/

theorem trimStart_length_le (s : List Char) : (trimStart s).length ≤ s.length :=
  dropWhile_length_le _ s

/-- Two amounts of fuel that both cover the text give the same result: the loop of
`parseTransform` ends before its fuel does. -/
theorem parseTransformLoop_fuel (M : MathOps N) :
    ∀ (fuel1 fuel2 : Nat) (t : List Char) (result : AffineTransform N),
      t.length ≤ fuel1 → t.length ≤ fuel2 →
      parseTransformLoop M fuel1 t result = parseTransformLoop M fuel2 t result := by
  intro fuel1
  induction fuel1 with
  | zero =>
    intro fuel2 t result h1 _
    have ht : t = [] := List.length_eq_zero.mp (Nat.le_zero.mp h1)
    subst ht
    cases fuel2 with
    | zero => rfl
    | succ f => simp [parseTransformLoop]
  | succ fuel1 ih =>
    intro fuel2 t result h1 h2
    cases t with
    | nil =>
      cases fuel2 with
      | zero => simp [parseTransformLoop]
      | succ f => simp [parseTransformLoop]
    | cons a t =>
      cases fuel2 with
      | zero => simp at h2
      | succ fuel2 =>
        have hl := fromFirstOccurrenceOf_length_lt (a :: t) ")".toList (List.cons_ne_nil a t)
        have hl2 := trimStart_length_le (fromFirstOccurrenceOf (a :: t) ")".toList)
        simp only [List.length_cons] at h1 h2 hl
        rw [parseTransformLoop, parseTransformLoop]
        simp only [List.isEmpty_cons, Bool.false_eq_true, if_false]
        exact ih fuel2 _ _ (by omega) (by omega)

theorem token_chars_ne_nil (t : TransformText) (rest : List Char) : t.chars ++ rest ≠ [] := by
  unfold TransformText.chars
  cases t.name <;> simp

/-- The text of well-formed tokens does not begin with white space. -/
theorem transformListText_cur (l : List TransformText)
    (h : ∀ t ∈ l, t.wellFormed = true) : isWhitespace (cur (transformListText l)) = false := by
  cases l with
  | nil => rfl
  | cons t l =>
    have ht := h t (List.mem_cons_self t l)
    simp only [TransformText.wellFormed, Bool.and_eq_true, List.all_eq_true] at ht
    obtain ⟨⟨hname, _⟩, _⟩ := ht
    unfold transformListText TransformText.chars
    cases hn : t.name with
    | nil => rfl
    | cons a name =>
      have ha : isLetter a = true := hname a (by rw [hn]; exact List.mem_cons_self a name)
      have hs := letter_not_separator a ha
      simp only [isSeparator, Bool.or_eq_false_iff] at hs
      exact hs.1

/-- One pass of the loop on a well-formed token that is followed by a text that does not
begin with white space: the transform of the token is put in front of the result and the
loop goes on after the token. -/
theorem parseTransformLoop_token (M : MathOps N) (fuel : Nat) (t : TransformText)
    (rest : List Char) (result : AffineTransform N) (h : t.wellFormed = true)
    (hrest : isWhitespace (cur rest) = false) :
    parseTransformLoop M (fuel + 1) (t.chars ++ rest) result
      = parseTransformLoop M fuel rest ((t.transform M).followedBy result) := by
  have hw := h
  simp only [TransformText.wellFormed, Bool.and_eq_true, List.all_eq_true] at hw
  obtain ⟨⟨hname, hargs⟩, hspace⟩ := hw
  have hne : (t.chars ++ rest).isEmpty = false := by
    cases hc : t.chars ++ rest with
    | nil => exact absurd hc (token_chars_ne_nil t rest)
    | cons a l => rfl
  have hchars : t.chars ++ rest = t.name ++ '(' :: (t.args ++ ')' :: (t.space ++ rest)) := by
    simp [TransformText.chars]
  have hpre : ∀ x ∈ t.name ++ '(' :: t.args, x ≠ ')' := by
    intro x hx
    rcases List.mem_append.mp hx with hx | hx
    · intro e
      have := hname x hx
      rw [e] at this
      revert this; decide
    · rcases List.mem_cons.mp hx with hx | hx
      · rw [hx]; decide
      · simpa using hargs x hx
  have hfrom : fromFirstOccurrenceOf (t.chars ++ rest) ")".toList = t.space ++ rest := by
    have e : t.chars ++ rest = (t.name ++ '(' :: t.args) ++ ')' :: (t.space ++ rest) := by
      simp [TransformText.chars]
    rw [e]
    exact fromFirstOccurrenceOf_char ')' _ _ hpre
  have htrim : trimStart (t.space ++ rest) = rest := by
    unfold trimStart
    rw [dropWhile_append_all _ _ _ (List.all_eq_true.mpr hspace)]
    exact dropWhile_cur_false _ _ hrest
  have htok : tokenTransform M (t.chars ++ rest) = t.transform M := by
    rw [hchars]
    exact tokenTransform_token M t h _
  rw [parseTransformLoop]
  simp only [hne, Bool.false_eq_true, if_false, hfrom, htrim, htok]

/-- The loop of `parseTransform` on the text of a list of well-formed tokens, followed by
a text `rest` that does not begin with white space, puts the transforms of the tokens in
front of the result, the first token first, and goes on at `rest`. -/
theorem parseTransformLoop_tokens (M : MathOps N) (rest : List Char)
    (hrest : isWhitespace (cur rest) = false) :
    ∀ (l : List TransformText) (fuel : Nat) (result : AffineTransform N),
      (∀ t ∈ l, t.wellFormed = true) → (transformListText l ++ rest).length ≤ fuel →
      parseTransformLoop M fuel (transformListText l ++ rest) result
        = parseTransformLoop M fuel rest (composeTokens M l result) := by
  intro l
  induction l with
  | nil => intro fuel result _ _; rfl
  | cons t l ih =>
    intro fuel result h hfuel
    have ht := h t (List.mem_cons_self t l)
    have hl : ∀ t ∈ l, t.wellFormed = true := fun x hx => h x (List.mem_cons_of_mem t hx)
    have hcur : isWhitespace (cur (transformListText l ++ rest)) = false := by
      cases l with
      | nil => exact hrest
      | cons t2 l2 =>
        have := transformListText_cur (t2 :: l2) hl
        have hne : transformListText (t2 :: l2) ≠ [] := token_chars_ne_nil t2 _
        cases hc : transformListText (t2 :: l2) with
        | nil => exact absurd hc hne
        | cons a s => rw [hc] at this; exact this
    have hlen : (t.chars ++ (transformListText l ++ rest)).length
        = (transformListText (t :: l) ++ rest).length := by
      simp [transformListText]
    have hpos : 0 < t.chars.length := by
      simp [TransformText.chars]
    cases fuel with
    | zero =>
      rw [← hlen, List.length_append] at hfuel
      omega
    | succ fuel =>
      have e : transformListText (t :: l) ++ rest
          = t.chars ++ (transformListText l ++ rest) := by
        simp [transformListText]
      rw [e, parseTransformLoop_token M fuel t _ result ht hcur]
      rw [ih fuel _ hl (by
        rw [← hlen, List.length_append] at hfuel
        omega)]
      rw [parseTransformLoop_fuel M fuel (fuel + 1) rest _ (by
        rw [← hlen, List.length_append, List.length_append] at hfuel
        omega) (by
        rw [← hlen, List.length_append, List.length_append] at hfuel
        omega)]
      rfl

/-- The static function `parseTransform` on the text of a list of well-formed tokens. -/
theorem parseTransform_tokens (M : MathOps N) (l : List TransformText)
    (h : ∀ t ∈ l, t.wellFormed = true) :
    parseTransform M (transformListText l) = composeTokens M l AffineTransform.identity := by
  have := parseTransformLoop_tokens M [] rfl l (transformListText l).length
    AffineTransform.identity h (by simp)
  simp only [List.append_nil] at this
  unfold parseTransform
  rw [this]
  cases (transformListText l).length <;> simp [parseTransformLoop]

end SVGState

end Juce

namespace Juce

namespace SVGState

variable {N : FloatOps}

/-! ## A comma before a token -/

theorem startsWithIgnoreCase_comma (rest k : List Char) (hk : k ∈ transformNames) :
    startsWithIgnoreCase (',' :: rest) k = false := by
  simp only [transformNames, List.mem_cons, List.mem_singleton, List.not_mem_nil,
    or_false] at hk
  rcases hk with h | h | h | h | h | h <;> rw [h] <;> rfl

/-- One pass of the loop at a comma that stands before a well-formed token: no key word is
found at the comma, the identity is put in front of the result, and the loop goes on after
the token. -/
theorem parseTransformLoop_comma (M : MathOps N) (fuel : Nat) (ws : List Char)
    (t : TransformText) (rest : List Char) (result : AffineTransform N)
    (hws : ws.all isWhitespace = true) (h : t.wellFormed = true)
    (hrest : isWhitespace (cur rest) = false) :
    parseTransformLoop M (fuel + 1) (',' :: (ws ++ (t.chars ++ rest))) result
      = parseTransformLoop M fuel rest (AffineTransform.identity.followedBy result) := by
  have hw := h
  simp only [TransformText.wellFormed, Bool.and_eq_true, List.all_eq_true] at hw
  obtain ⟨⟨hname, hargs⟩, hspace⟩ := hw
  have hpre : ∀ x ∈ ',' :: (ws ++ (t.name ++ '(' :: t.args)), x ≠ ')' := by
    intro x hx
    rcases List.mem_cons.mp hx with hx | hx
    · rw [hx]; decide
    · rcases List.mem_append.mp hx with hx | hx
      · intro e
        have := List.all_eq_true.mp hws x hx
        rw [e] at this
        revert this; decide
      · rcases List.mem_append.mp hx with hx | hx
        · intro e
          have := hname x hx
          rw [e] at this
          revert this; decide
        · rcases List.mem_cons.mp hx with hx | hx
          · rw [hx]; decide
          · simpa using hargs x hx
  have hfrom : fromFirstOccurrenceOf (',' :: (ws ++ (t.chars ++ rest))) ")".toList
      = t.space ++ rest := by
    have e : ',' :: (ws ++ (t.chars ++ rest))
        = (',' :: (ws ++ (t.name ++ '(' :: t.args))) ++ ')' :: (t.space ++ rest) := by
      simp [TransformText.chars]
    rw [e]
    exact fromFirstOccurrenceOf_char ')' _ _ hpre
  have htrim : trimStart (t.space ++ rest) = rest := by
    unfold trimStart
    rw [dropWhile_append_all _ _ _ (List.all_eq_true.mpr hspace)]
    exact dropWhile_cur_false _ _ hrest
  have htok : tokenTransform M (',' :: (ws ++ (t.chars ++ rest)))
      = AffineTransform.identity := by
    unfold tokenTransform
    simp only [startsWithIgnoreCase_comma _ _ (show "matrix".toList ∈ transformNames by decide),
      startsWithIgnoreCase_comma _ _ (show "translate".toList ∈ transformNames by decide),
      startsWithIgnoreCase_comma _ _ (show "scale".toList ∈ transformNames by decide),
      startsWithIgnoreCase_comma _ _ (show "rotate".toList ∈ transformNames by decide),
      startsWithIgnoreCase_comma _ _ (show "skewX".toList ∈ transformNames by decide),
      startsWithIgnoreCase_comma _ _ (show "skewY".toList ∈ transformNames by decide),
      Bool.false_eq_true, if_false]
  rw [parseTransformLoop]
  simp only [List.isEmpty_cons, Bool.false_eq_true, if_false, hfrom, htrim, htok]

/-- White space after the last token of a non-empty list is the space of that token: the
text with the white space is the text of a list of tokens with the same transforms. -/
theorem transformListText_space (M : MathOps N) (ws : List Char)
    (hws : ws.all isWhitespace = true) :
    ∀ l : List TransformText, l ≠ [] → (∀ t ∈ l, t.wellFormed = true) →
      ∃ l2 : List TransformText, (∀ t ∈ l2, t.wellFormed = true)
        ∧ transformListText l2 = transformListText l ++ ws
        ∧ ∀ r, composeTokens M l2 r = composeTokens M l r := by
  intro l
  induction l with
  | nil => intro h; exact absurd rfl h
  | cons t l ih =>
    intro _ h
    have ht := h t (List.mem_cons_self t l)
    have hl : ∀ x ∈ l, x.wellFormed = true := fun x hx => h x (List.mem_cons_of_mem t hx)
    cases l with
    | nil =>
      refine ⟨[⟨t.name, t.args, t.space ++ ws⟩], ?_, ?_, ?_⟩
      · intro x hx
        rw [List.mem_singleton] at hx
        rw [hx]
        simp only [TransformText.wellFormed, Bool.and_eq_true, List.all_append] at ht ⊢
        exact ⟨ht.1, ht.2, hws⟩
      · simp [transformListText, TransformText.chars]
      · intro r; rfl
    | cons t2 l2 =>
      obtain ⟨l3, h3, e3, c3⟩ := ih (List.cons_ne_nil t2 l2) hl
      refine ⟨t :: l3, ?_, ?_, ?_⟩
      · intro x hx
        rcases List.mem_cons.mp hx with hx | hx
        · rw [hx]; exact ht
        · exact h3 x hx
      · show t.chars ++ transformListText l3 = (t.chars ++ transformListText (t2 :: l2)) ++ ws
        rw [e3, List.append_assoc]
      · intro r
        show composeTokens M l3 ((t.transform M).followedBy r)
          = composeTokens M (t2 :: l2) ((t.transform M).followedBy r)
        exact c3 _

theorem transformListText_append (a b : List TransformText) :
    transformListText (a ++ b) = transformListText a ++ transformListText b := by
  induction a with
  | nil => rfl
  | cons t a ih => simp [transformListText, ih]

theorem composeTokens_append (M : MathOps N) (a b : List TransformText)
    (r : AffineTransform N) :
    composeTokens M (a ++ b) r = composeTokens M b (composeTokens M a r) := by
  unfold composeTokens
  exact List.foldl_append _ _ _ _

/-! ## Composition in exact arithmetic -/

section Field

variable {R : Type} [LinearOrderedField R] (fns : Functions R)

theorem followedBy_identity (x : AffineTransform (fieldOps R fns)) :
    x.followedBy AffineTransform.identity = x := by
  cases x
  simp only [AffineTransform.followedBy, AffineTransform.identity, Nat.cast_one, pow_zero,
    div_one, one_mul, zero_mul, add_zero, zero_add]

theorem identity_followedBy (x : AffineTransform (fieldOps R fns)) :
    AffineTransform.identity.followedBy x = x := by
  cases x
  simp only [AffineTransform.followedBy, AffineTransform.identity, Nat.cast_one, pow_zero,
    div_one, mul_one, mul_zero, add_zero, zero_add]

theorem followedBy_assoc (x y z : AffineTransform (fieldOps R fns)) :
    (x.followedBy y).followedBy z = x.followedBy (y.followedBy z) := by
  cases x; cases y; cases z
  simp only [AffineTransform.followedBy, AffineTransform.mk.injEq]
  refine ⟨?_, ?_, ?_, ?_, ?_, ?_⟩ <;> ring

/-- The transforms of a list of tokens in front of a result are the transforms in front
of the identity, followed by the result. -/
theorem composeTokens_result (l : List TransformText) :
    ∀ r : AffineTransform (fieldOps R fns),
      composeTokens (fieldMath R fns) l r
        = (composeTokens (fieldMath R fns) l AffineTransform.identity).followedBy r := by
  induction l with
  | nil => intro r; exact (identity_followedBy fns r).symm
  | cons t l ih =>
    intro r
    show composeTokens (fieldMath R fns) l ((t.transform (fieldMath R fns)).followedBy r)
      = (composeTokens (fieldMath R fns) l
          ((t.transform (fieldMath R fns)).followedBy AffineTransform.identity)).followedBy r
    rw [ih, ih ((t.transform (fieldMath R fns)).followedBy AffineTransform.identity),
      followedBy_identity, followedBy_assoc]

end Field

end SVGState

end Juce

namespace Juce

namespace SVGState

variable {N : FloatOps}

/-! ## The stops of a gradient -/

/-- The gradient that `padStops` gives has a stop. -/
theorem padStops_ne_nil (M : MathOps N) (C : ColourOps N) (g : ColourGradient N C) :
    (padStops M C g).colours ≠ [] := by
  unfold padStops
  simp only [ColourGradient.getNumColours, ColourGradient.addColour]
  split
  · rename_i hn
    have hne : g.colours ≠ [] := by
      intro h0; rw [h0] at hn; exact hn rfl
    split <;> split <;> simp [hne]
  · simp

theorem resolveStops_ne_nil (self : SVGState N) (M : MathOps N) (C : ColourOps N)
    (topLevelXml fillXml : XmlPath) (opacity : N.F) :
    (self.resolveStops M C topLevelXml fillXml opacity).colours ≠ [] := by
  unfold resolveStops
  have h := padStops_ne_nil M C (self.collectStops M C topLevelXml fillXml)
  simp only []
  split
  · simp only [ColourGradient.multiplyOpacity, ne_eq, List.map_eq_nil_iff]
    exact h
  · exact h

/-- The colour at the last index is that of the last stop. -/
theorem getColour_last (C : ColourOps N) (g : ColourGradient N C) (last : N.F × C.Colour)
    (h : g.colours.getLast? = some last) :
    g.getColour (g.getNumColours - 1) = last.2 := by
  unfold ColourGradient.getColour ColourGradient.getNumColours
  have hne : g.colours ≠ [] := by
    intro h0; rw [h0] at h; cases h
  rw [List.getLast?_eq_getLast _ hne] at h
  have hlt : g.colours.length - 1 < g.colours.length :=
    Nat.sub_lt (List.length_pos.mpr hne) Nat.one_pos
  rw [List.getD_eq_getElem _ _ hlt]
  rw [List.getLast_eq_getElem] at h
  simp only [Option.some.injEq] at h
  rw [h]

end SVGState

end Juce

namespace Juce

namespace SVGState

section Field

variable {R : Type} [LinearOrderedField R] (fns : Functions R)

/-- The value that `jlimit` gives between 0 and 1 lies between them. -/
theorem jlimit_zero_one (v : R) :
    0 ≤ (fieldMath R fns).jlimit ((fieldOps R fns).lit 0 0) ((fieldOps R fns).lit 1 0) v
      ∧ (fieldMath R fns).jlimit ((fieldOps R fns).lit 0 0) ((fieldOps R fns).lit 1 0) v
        ≤ 1 := by
  unfold MathOps.jlimit
  simp only [Nat.cast_zero, Nat.cast_one, pow_zero, div_one, decide_eq_true_eq]
  split_ifs with h1 h2
  · constructor <;> norm_num
  · constructor <;> norm_num
  · exact ⟨not_lt.mp h1, not_lt.mp h2⟩

/-- The positions of the stops that `addGradientStopsIn` adds lie between 0 and 1. -/
theorem addGradientStopsIn_positions (self : SVGState (fieldOps R fns))
    (C : ColourOps (fieldOps R fns)) (fillXml : XmlPath) :
    ∀ (cg : ColourGradient (fieldOps R fns) C),
      (∀ p ∈ cg.colours, (0 : R) ≤ p.1 ∧ p.1 ≤ (1 : R)) →
      ∀ p ∈ (self.addGradientStopsIn (fieldMath R fns) C cg fillXml).colours,
        (0 : R) ≤ p.1 ∧ p.1 ≤ (1 : R) := by
  unfold addGradientStopsIn
  generalize fillXml.xml.children.filter
    (fun e => e.getTagNameWithoutNamespace == "stop".toList) = stops
  induction stops with
  | nil => intro cg h; exact h
  | cons e stops ih =>
    intro cg h
    simp only [List.foldl_cons]
    apply ih
    intro p hp
    unfold addGradientStop ColourGradient.addColour at hp
    simp only [List.mem_append, List.mem_singleton] at hp
    rcases hp with hp | hp
    · exact h p hp
    · rw [hp]
      exact jlimit_zero_one fns _

/-- The positions of the stops collected lie between 0 and 1. -/
theorem collectStops_positions (self : SVGState (fieldOps R fns))
    (C : ColourOps (fieldOps R fns)) (topLevelXml fillXml : XmlPath) :
    ∀ p ∈ (self.collectStops (fieldMath R fns) C topLevelXml fillXml).colours,
      (0 : R) ≤ p.1 ∧ p.1 ≤ (1 : R) := by
  have hempty : ∀ p ∈ (ColourGradient.empty : ColourGradient (fieldOps R fns) C).colours,
      (0 : R) ≤ p.1 ∧ p.1 ≤ (1 : R) := by
    intro p hp; cases hp
  unfold collectStops
  apply addGradientStopsIn_positions
  simp only []
  split
  · split
    · exact addGradientStopsIn_positions fns self C _ _ hempty
    · exact hempty
  · exact hempty

/-- The stops at the two ends: after `padStops` a gradient with stops between 0 and 1
has a stop at 0 with the colour of its first stop and a stop at 1 with the colour of its
last stop, and its stops are still there, in front. -/
theorem padStops_ends (C : ColourOps (fieldOps R fns))
    (g : ColourGradient (fieldOps R fns) C) (first last : R × C.Colour)
    (hfirst : g.colours.head? = some first) (hlast : g.colours.getLast? = some last)
    (hunit : ∀ p ∈ g.colours, (0 : R) ≤ p.1 ∧ p.1 ≤ (1 : R)) :
    ((0 : R), first.2) ∈ (padStops (fieldMath R fns) C g).colours
      ∧ ((1 : R), last.2) ∈ (padStops (fieldMath R fns) C g).colours
      ∧ g.colours <+: (padStops (fieldMath R fns) C g).colours := by
  have hne : g.colours ≠ [] := by
    intro h0; rw [h0] at hfirst; cases hfirst
  have hlen : 0 < g.colours.length := List.length_pos.mpr hne
  have hn : ¬ g.colours.length = 0 := by omega
  have hfm : first ∈ g.colours := List.mem_of_mem_head? hfirst
  have hlm : last ∈ g.colours := List.mem_of_mem_getLast? hlast
  have h0 : g.colours.getD 0 ((0 : R), C.black) = first := by
    cases hc : g.colours with
    | nil => exact absurd hc hne
    | cons a l =>
      rw [hc] at hfirst
      simp only [List.head?_cons, Option.some.injEq] at hfirst
      rw [← hfirst]; rfl
  have hl : ∀ extra : List (R × C.Colour),
      (g.colours ++ extra).getD (g.colours.length - 1) ((0 : R), C.black) = last := by
    intro extra
    have hlt : g.colours.length - 1 < g.colours.length := Nat.sub_lt hlen Nat.one_pos
    have hlt2 : g.colours.length - 1 < (g.colours ++ extra).length := by
      rw [List.length_append]; omega
    rw [List.getD_eq_getElem _ _ hlt2, List.getElem_append_left hlt]
    rw [List.getLast?_eq_getLast _ hne, List.getLast_eq_getElem] at hlast
    simpa using hlast
  have hl0 := hl []
  rw [List.append_nil] at hl0
  have hfirst0 : ¬ (0 : R) < first.1 → first = ((0 : R), first.2) := by
    intro h
    have := (hunit first hfm).1
    have e : first.1 = 0 := le_antisymm (not_lt.mp h) this
    exact Prod.ext e rfl
  have hlast1 : ¬ last.1 < (1 : R) → last = ((1 : R), last.2) := by
    intro h
    have := (hunit last hlm).2
    have e : last.1 = 1 := le_antisymm this (not_lt.mp h)
    exact Prod.ext e rfl
  unfold padStops
  simp only [ColourGradient.getColourPosition,
    ColourGradient.getColour, ColourGradient.addColour, ColourGradient.getNumColours,
    Nat.cast_zero, Nat.cast_one, pow_zero, div_one, decide_eq_true_eq, ne_eq, hn,
    not_false_eq_true, if_true]
  have z : (fieldOps R fns).zero = (0 : R) := rfl
  simp only [z, h0]
  by_cases hf : (0 : R) < first.1
  · simp only [hf, if_true, hl]
    by_cases hla : last.1 < (1 : R)
    · simp only [hla, if_true]
      refine ⟨by simp, by simp, ?_⟩
      exact ⟨_, (List.append_assoc _ _ _).symm⟩
    · simp only [hla, if_false]
      refine ⟨by simp, ?_, List.prefix_append _ _⟩
      rw [← hlast1 hla]
      exact List.mem_append_left _ hlm
  · simp only [hf, if_false, hl0]
    by_cases hla : last.1 < (1 : R)
    · simp only [hla, if_true]
      refine ⟨?_, by simp, List.prefix_append _ _⟩
      rw [← hfirst0 hf]
      exact List.mem_append_left _ hfm
    · simp only [hla, if_false]
      refine ⟨?_, ?_, List.prefix_refl _⟩
      · rw [← hfirst0 hf]; exact hfm
      · rw [← hlast1 hla]; exact hlm

end Field

end SVGState

end Juce

namespace Juce

namespace SVGState

variable {N : FloatOps}

/-- The stops of `resolveStops` are those of `padStops` at the opacity. -/
theorem resolveStops_colours (self : SVGState N) (M : MathOps N) (C : ColourOps N)
    (topLevelXml fillXml : XmlPath) (opacity : N.F) :
    (self.resolveStops M C topLevelXml fillXml opacity).colours
      = (padStops M C (self.collectStops M C topLevelXml fillXml)).colours.map
          (fun c => (c.1, C.atOpacity M opacity c.2)) := by
  unfold resolveStops ColourOps.atOpacity
  simp only []
  split
  · rfl
  · simp

end SVGState

end Juce

namespace Juce

mutual

/-- The loop over the children finds the first element in document order that has the
id. -/
theorem findInChildren_descendants (id : List Char) (parents : List XmlElement) :
    ∀ es : List XmlElement,
      findInChildren id parents es
        = (descendantsOfChildren parents es).find?
            (fun p => p.xml.compareAttribute "id".toList id)
  | [] => by simp [findInChildren, descendantsOfChildren]
  | e :: es => by
    rw [findInChildren, descendantsOfChildren, List.find?_append,
      ← findAtChild_descendants id parents e, ← findInChildren_descendants id parents es]
    cases findAtChild id parents e <;> rfl

/-- One pass of the loop finds the first element in document order among the child and
the elements below it. -/
theorem findAtChild_descendants (id : List Char) (parents : List XmlElement) :
    ∀ e : XmlElement,
      findAtChild id parents e
        = (descendantsOfChild parents e).find?
            (fun p => p.xml.compareAttribute "id".toList id)
  | XmlElement.mk tag attributes children text => by
    rw [findAtChild, descendantsOfChild, List.find?_cons]
    by_cases h : (XmlElement.mk tag attributes children text).compareAttribute "id".toList id
        = true
    · simp only [h, if_true]
    · simp only [h, Bool.false_eq_true, if_false]
      rw [findInChildren_descendants id _ children]

end

end Juce

namespace Juce

theorem xor_one_xor_one (j : Nat) : (j ^^^ 1) ^^^ 1 = j := by
  rw [Nat.xor_assoc]; simp

theorem xor_one_ne (k : Nat) : k ^^^ 1 ≠ k := by
  intro h
  have := congrArg (fun x => k ^^^ x) h
  simp [← Nat.xor_assoc] at this

theorem xor_one_eq_iff (j k : Nat) : j ^^^ 1 = k ↔ j = k ^^^ 1 := by
  constructor
  · intro h; rw [← h, xor_one_xor_one]
  · intro h; rw [h, xor_one_xor_one]

theorem getD_set_of_lt {α : Type} (l : List α) (i j : Nat) (a d : α) (hj : j < l.length) :
    (l.set i a).getD j d = if i = j then a else l.getD j d := by
  simp only [List.getD_eq_getElem?_getD, List.getElem?_set]
  split_ifs with h1 h2
  · rfl
  · omega
  · rfl

namespace SVGState

section Dashes

variable {N : FloatOps}

theorem dashValues_succ (self : SVGState N) (fuel : Nat) (t : List Char)
    (dashLengths : List N.F) :
    self.dashValues (fuel + 1) t dashLengths
      = if (self.parseCoord t true true).1 = true then
          self.dashValues fuel
            (if cur (findEndOfWhitespace (self.parseCoord t true true).2.2) = ',' then
              (findEndOfWhitespace (self.parseCoord t true true).2.2).tail
              else findEndOfWhitespace (self.parseCoord t true true).2.2)
            (dashLengths ++ [(self.parseCoord t true true).2.1])
        else dashLengths := rfl

/-- The loop that reads the dash lengths does not depend on the number of passes allowed,
once that is above the number of characters left. -/
theorem dashValues_fuel (self : SVGState N) :
    ∀ (n : Nat) (t : List Char) (dashLengths : List N.F), t.length < n →
      ∀ m, t.length < m → self.dashValues n t dashLengths = self.dashValues m t dashLengths := by
  intro n
  induction n with
  | zero => intro t _ h; omega
  | succ n ih =>
    intro t dashLengths hn m hm
    cases m with
    | zero => omega
    | succ m =>
      have hlen := parseCoord_length self t true true
      rw [dashValues_succ, dashValues_succ]
      by_cases hok : (self.parseCoord t true true).1 = true
      · have h1 := hlen.2 hok
        have h2 : (findEndOfWhitespace (self.parseCoord t true true).2.2).length
            ≤ (self.parseCoord t true true).2.2.length := dropWhile_length_le _ _
        have h3 : (if cur (findEndOfWhitespace (self.parseCoord t true true).2.2) = ',' then
              (findEndOfWhitespace (self.parseCoord t true true).2.2).tail
            else findEndOfWhitespace (self.parseCoord t true true).2.2).length
            ≤ (self.parseCoord t true true).2.2.length := by
          split
          · rw [List.length_tail]; omega
          · exact h2
        simp only [hok, if_true]
        exact ih _ _ (by omega) m (by omega)
      · rw [if_neg hok, if_neg hok]

end Dashes

section Field

variable {R : Type} [LinearOrderedField R] (fns : Functions R)

theorem fieldOps_lit_thousandth : (fieldOps R fns).lit 1 3 = (1 / 1000 : R) := by
  rw [fieldOps_lit]; norm_num

/-- The entry at the index that the loop has reached is the length read, reduced or
not. -/
theorem dashAfter_self (parsed : List R) (k : Nat) (h : dashAfter parsed k k ≤ 0) :
    parsed.getD k 0 ≤ 0 := by
  unfold dashAfter at h
  rw [if_neg (by omega)] at h
  split at h
  · rename_i h2
    linarith [h2.2.2.2]
  · exact h

/-- The entries at the other indices stay as they are in a pass. -/
theorem dashAfter_succ_other (parsed : List R) (k j : Nat) (hjk : j ≠ k)
    (hjp : j ≠ k ^^^ 1) : dashAfter parsed (k + 1) j = dashAfter parsed k j := by
  have hx : j ^^^ 1 ≠ k := fun h => hjp ((xor_one_eq_iff j k).mp h)
  have h1 : j < k + 1 ↔ j < k := by
    constructor <;> intro h <;> omega
  have h2 : j ^^^ 1 < k + 1 ↔ j ^^^ 1 < k := by
    constructor <;> intro h <;> omega
  unfold dashAfter
  simp only [h1, h2]

/-- The entry at the index of a pass, when the length read there is zero or negative. -/
theorem dashAfter_succ_self (parsed : List R) (k : Nat) (h : parsed.getD k 0 ≤ 0) :
    dashAfter parsed (k + 1) k = 1 / 1000 := by
  unfold dashAfter
  rw [if_pos ⟨by omega, h⟩]

/-- The entry at the paired index before the pass. -/
theorem dashAfter_pair_before (parsed : List R) (k : Nat) :
    dashAfter parsed k (k ^^^ 1)
      = if k ^^^ 1 < k ∧ parsed.getD (k ^^^ 1) 0 ≤ 0 then 1 / 1000
        else parsed.getD (k ^^^ 1) 0 := by
  unfold dashAfter
  simp only [xor_one_xor_one, lt_irrefl, false_and, if_false]

/-- The entry at the paired index after the pass, when the length read at the index of
the pass is zero or negative. -/
theorem dashAfter_pair_after (parsed : List R) (k : Nat) (hk : k < parsed.length)
    (h : parsed.getD k 0 ≤ 0) :
    dashAfter parsed (k + 1) (k ^^^ 1)
      = if k ^^^ 1 < k ∧ parsed.getD (k ^^^ 1) 0 ≤ 0 then 1 / 1000
        else if 1 / 1000 < parsed.getD (k ^^^ 1) 0 then parsed.getD (k ^^^ 1) 0 - 1 / 1000
        else parsed.getD (k ^^^ 1) 0 := by
  have hpk : k ^^^ 1 ≠ k := xor_one_ne k
  have h1 : k ^^^ 1 < k + 1 ↔ k ^^^ 1 < k := by
    constructor <;> intro h <;> omega
  unfold dashAfter
  simp only [xor_one_xor_one, h1, Nat.lt_succ_self, hk, h, true_and]

/-- The entry at the paired index of a pass, when the length read at the index of the pass
is zero or negative. -/
theorem dashAfter_succ_pair (parsed : List R) (k : Nat) (hk : k < parsed.length)
    (h : parsed.getD k 0 ≤ 0) :
    dashAfter parsed (k + 1) (k ^^^ 1)
      = if 1 / 1000 < dashAfter parsed k (k ^^^ 1) then
          dashAfter parsed k (k ^^^ 1) - 1 / 1000
        else dashAfter parsed k (k ^^^ 1) := by
  have he : (0 : R) < 1 / 1000 := by norm_num
  rw [dashAfter_pair_after parsed k hk h, dashAfter_pair_before]
  by_cases hc : k ^^^ 1 < k ∧ parsed.getD (k ^^^ 1) 0 ≤ 0
  · simp only [hc, and_self, if_true, lt_irrefl, if_false]
  · simp only [hc, if_false]

/-- One pass of the loop over the indices, at an entry that is zero or negative. -/
theorem fixDash_getD (parsed dashes : List R) (k : Nat)
    (hlen : dashes.length = parsed.length) (hk : k < parsed.length)
    (hinv : ∀ j, j < parsed.length → dashes.getD j 0 = dashAfter parsed k j)
    (hle : dashes.getD k 0 ≤ 0) :
    (fixDash (fieldMath R fns) dashes k).length = parsed.length
      ∧ ∀ j, j < parsed.length →
          (fixDash (fieldMath R fns) dashes k).getD j 0 = dashAfter parsed (k + 1) j := by
  have hpk : k ^^^ 1 ≠ k := xor_one_ne k
  have hk0 : parsed.getD k 0 ≤ 0 := dashAfter_self parsed k (by rw [← hinv k hk]; exact hle)
  have hset : ∀ j, j < parsed.length →
      (dashes.set k (1 / 1000)).getD j 0 = if k = j then 1 / 1000 else dashAfter parsed k j := by
    intro j hj
    rw [getD_set_of_lt _ _ _ _ _ (by omega), hinv j hj]
  have hlit : ((1 : ℕ) : R) / 10 ^ 3 = 1 / 1000 := by norm_num
  unfold fixDash
  simp only [hlit, List.length_set, decide_eq_true_eq, hlen]
  by_cases hp : k ^^^ 1 < parsed.length
  · have hpair := hset (k ^^^ 1) hp
    rw [if_neg (fun h => hpk h.symm)] at hpair
    rw [hpair]
    by_cases hlt : 1 / 1000 < dashAfter parsed k (k ^^^ 1)
    · rw [if_pos ⟨hp, hlt⟩]
      refine ⟨by simp only [List.length_set, hlen], fun j hj => ?_⟩
      rw [getD_set_of_lt _ _ _ _ _ (by simp only [List.length_set]; omega)]
      by_cases hjp : k ^^^ 1 = j
      · rw [if_pos hjp, ← hjp, dashAfter_succ_pair parsed k hk hk0, if_pos hlt]
      · rw [if_neg hjp, hset j hj]
        by_cases hjk : k = j
        · rw [if_pos hjk, ← hjk, dashAfter_succ_self parsed k hk0]
        · rw [if_neg hjk, dashAfter_succ_other parsed k j (fun h => hjk h.symm)
            (fun h => hjp h.symm)]
    · rw [if_neg (fun h => hlt h.2)]
      refine ⟨by simp only [List.length_set, hlen], fun j hj => ?_⟩
      rw [hset j hj]
      by_cases hjk : k = j
      · rw [if_pos hjk, ← hjk, dashAfter_succ_self parsed k hk0]
      · rw [if_neg hjk]
        by_cases hjp : k ^^^ 1 = j
        · rw [← hjp, dashAfter_succ_pair parsed k hk hk0, if_neg hlt]
        · rw [dashAfter_succ_other parsed k j (fun h => hjk h.symm) (fun h => hjp h.symm)]
  · rw [if_neg (fun h => hp h.1)]
    refine ⟨by simp only [List.length_set, hlen], fun j hj => ?_⟩
    rw [hset j hj]
    by_cases hjk : k = j
    · rw [if_pos hjk, ← hjk, dashAfter_succ_self parsed k hk0]
    · rw [if_neg hjk, dashAfter_succ_other parsed k j (fun h => hjk h.symm)
        (fun h => hp (by rw [← h]; exact hj))]

/-- A pass at an index where the length read is above zero changes no entry. -/
theorem dashAfter_succ_positive (parsed : List R) (k j : Nat)
    (hk0 : ¬ parsed.getD k 0 ≤ 0) : dashAfter parsed (k + 1) j = dashAfter parsed k j := by
  have hpk : k ^^^ 1 ≠ k := xor_one_ne k
  by_cases hjk : j = k
  · subst hjk
    have h1 : j ^^^ 1 < j + 1 ↔ j ^^^ 1 < j := by
      constructor <;> intro h <;> omega
    unfold dashAfter
    simp only [hk0, and_false, if_false, h1]
  · by_cases hjp : j = k ^^^ 1
    · subst hjp
      have h1 : k ^^^ 1 < k + 1 ↔ k ^^^ 1 < k := by
        constructor <;> intro h <;> omega
      unfold dashAfter
      simp only [xor_one_xor_one, hk0, lt_irrefl, false_and, and_false, if_false, h1]
    · exact dashAfter_succ_other parsed k j hjk hjp

/-- The loop over the indices from the index `k`, for lengths of which a single one is
above zero: it ends with the list in which every entry is as the loop leaves it. -/
theorem dashLoop_getD (parsed : List R)
    (hsingle : parsed.length = 1 → 0 < parsed.getD 0 0) :
    ∀ (n k : Nat) (dashes : List R), k + n = parsed.length →
      dashes.length = parsed.length →
      (∀ j, j < parsed.length → dashes.getD j 0 = dashAfter parsed k j) →
      ∃ l, dashLoop (fieldMath R fns) n k dashes = some l ∧ l.length = parsed.length
        ∧ ∀ j, j < parsed.length → l.getD j 0 = dashAfter parsed parsed.length j := by
  intro n
  induction n with
  | zero =>
    intro k dashes hk hlen hinv
    have hk2 : k = parsed.length := by omega
    subst hk2
    exact ⟨dashes, rfl, hlen, hinv⟩
  | succ n ih =>
    intro k dashes hk hlen hinv
    have hkl : k < parsed.length := by omega
    rw [dashLoop]
    simp only [decide_eq_true_eq]
    by_cases hle : dashes.getD k 0 ≤ 0
    · have hle2 : dashes.getD k (fieldOps R fns).zero ≤ (fieldOps R fns).zero := hle
      rw [if_pos hle2]
      have hk0 : parsed.getD k 0 ≤ 0 :=
        dashAfter_self parsed k (by rw [← hinv k hkl]; exact hle)
      have hone : ¬ dashes.length = 1 := by
        intro h1
        rw [hlen] at h1
        have hkz : k = 0 := by omega
        subst hkz
        exact absurd (hsingle h1) (not_lt.mpr hk0)
      rw [if_neg hone]
      obtain ⟨h1, h2⟩ := fixDash_getD fns parsed dashes k hlen hkl hinv hle
      exact ih (k + 1) _ (by omega) h1 h2
    · have hle2 : ¬ dashes.getD k (fieldOps R fns).zero ≤ (fieldOps R fns).zero := hle
      rw [if_neg hle2]
      refine ih (k + 1) dashes (by omega) hlen (fun j hj => ?_)
      have hk0 : ¬ parsed.getD k 0 ≤ 0 := by
        intro h0
        apply hle
        rw [hinv k hkl]
        unfold dashAfter
        rw [if_neg (fun h => absurd h.1 (lt_irrefl k))]
        split
        · rename_i h2
          exact absurd h2.2.2.2 (not_lt.mpr (le_trans h0 (by norm_num)))
        · exact h0
      rw [hinv j hj, dashAfter_succ_positive parsed k j hk0]

/-- When the loop over the indices is done, every entry is as the claim describes it. -/
theorem dashAfter_length (parsed : List R) (j : Nat) (hj : j < parsed.length) :
    dashAfter parsed parsed.length j = expectedDash parsed j := by
  unfold dashAfter expectedDash
  simp only [hj, true_and, and_self_left]

/-- The entries that the claim describes are above zero. -/
theorem expectedDash_pos (parsed : List R) (j : Nat) : 0 < expectedDash parsed j := by
  unfold expectedDash
  split
  · norm_num
  · rename_i h1
    split
    · rename_i h2
      linarith [h2.2.2]
    · exact not_le.mp h1

/-- The loop over the indices returns at once for a single length that is zero or
negative. -/
theorem dashLoop_single (v : R) (hv : v ≤ 0) :
    dashLoop (fieldMath R fns) 1 0 [v] = none := by
  rw [dashLoop]
  simp only [decide_eq_true_eq]
  have h : [v].getD 0 (fieldOps R fns).zero ≤ (fieldOps R fns).zero := hv
  rw [if_pos h, if_pos (show ([v] : List R).length = 1 from rfl)]

end Field

end SVGState

end Juce

namespace Juce

namespace SVGState

variable {N : FloatOps}

/-! ## Pairs without a letter as line commands -/

theorem linesText_commandsText (l : Char) (ps : List PairText) :
    linesText l ps = commandsText (ps.map (fun p => (⟨l, p⟩ : Command))) := by
  induction ps with
  | nil => rfl
  | cons p ps ih => simp only [linesText, List.map_cons, commandsText, ih]

/-- The elements of line commands depend on the numbers of their pairs only. -/
theorem expectedElements_sameNumbers (l : Char) :
    ∀ (pqs : List (PairText × PairText)) (current : Point N),
      (∀ pq ∈ pqs, sameNumbers pq.1 pq.2 = true) →
      expectedElements N current ((pqs.map Prod.fst).map (fun p => (⟨l, p⟩ : Command)))
        = expectedElements N current ((pqs.map Prod.snd).map (fun p => (⟨l, p⟩ : Command))) := by
  intro pqs
  induction pqs with
  | nil => intro _ _; rfl
  | cons pq pqs ih =>
    intro current h
    have hv : pq.1.value N = pq.2.value N :=
      sameNumbers_value _ _ (h pq (List.mem_cons_self _ _))
    simp only [List.map_cons, expectedElements, Command.element, Command.point, hv]
    rw [ih _ (fun pq' h' => h pq' (List.mem_cons_of_mem _ h'))]

/-- Pairs after the first pair of a move, set off by separators, give the same path as the
same numbers written after the letter of the line command. -/
theorem parsePathString_implicit_explicit (self : SVGState N)
    (lead trail lead' trail' : List Char) (m l : Char) (p0 q0 : PairText)
    (pqs : List (PairText × PairText))
    (hml : (m = 'M' ∧ l = 'L') ∨ (m = 'm' ∧ l = 'l'))
    (hlead : lead.all isWhitespace = true) (htrail : trail.all isSeparator = true)
    (hlead' : lead'.all isWhitespace = true) (htrail' : trail'.all isSeparator = true)
    (hp0 : p0.wellFormed = true) (hq0 : q0.wellFormed = true)
    (h0 : sameNumbers p0 q0 = true) (hpqs : ∀ pq ∈ pqs, implicitExplicit pq = true) :
    self.parsePathString []
        (lead ++ (m :: (p0.chars ++ (pairsText (pqs.map Prod.fst) ++ trail))))
      = self.parsePathString []
        (lead' ++ (m :: (q0.chars ++ (linesText l (pqs.map Prod.snd) ++ trail')))) := by
  have hm : m ∈ moveLineLetters := by
    rcases hml with h | h <;> rw [h.1] <;> decide
  have hl : l ∈ moveLineLetters := by
    rcases hml with h | h <;> rw [h.2] <;> decide
  have hl' : l = 'L' ∨ l = 'l' := by
    rcases hml with h | h
    · exact Or.inl h.2
    · exact Or.inr h.2
  have hrel : decide (97 ≤ m.toNat) = decide (97 ≤ l.toNat) := by
    rcases hml with h | h <;> rw [h.1, h.2] <;> decide
  have hA : ∀ s ∈ (⟨some m, p0⟩ : Segment)
      :: (pqs.map Prod.fst).map (fun p => (⟨none, p⟩ : Segment)), s.wellFormed = true := by
    intro s hs
    simp only [List.mem_cons, List.mem_map] at hs
    rcases hs with h | ⟨p, ⟨pq, hpq, h1⟩, h2⟩
    · subst h; simp [Segment.wellFormed, hp0, hm]
    · subst h2; subst h1
      have := hpqs pq hpq
      simp only [implicitExplicit, Bool.and_eq_true] at this
      simp [Segment.wellFormed, this.1.1.1, this.1.1.2]
  have hB : ∀ s ∈ (⟨some m, q0⟩ : Segment)
      :: (pqs.map Prod.snd).map (fun p => (⟨some l, p⟩ : Segment)), s.wellFormed = true := by
    intro s hs
    simp only [List.mem_cons, List.mem_map] at hs
    rcases hs with h | ⟨p, ⟨pq, hpq, h1⟩, h2⟩
    · subst h; simp [Segment.wellFormed, hq0, hm]
    · subst h2; subst h1
      have := hpqs pq hpq
      simp only [implicitExplicit, Bool.and_eq_true] at this
      simp [Segment.wellFormed, this.1.2, hl]
  have eA := parsePathString_segments self [] lead trail _ _ hlead htrail hA rfl
  have eB := parsePathString_segments self [] lead' trail' _ _ hlead' htrail' hB rfl
  simp only [render, Segment.chars, render_implicit, render_explicit, List.cons_append,
    List.append_assoc] at eA eB
  rw [eA, eB]
  have hv : p0.value N = q0.value N := sameNumbers_value _ _ h0
  obtain ⟨k1, k2⟩ := drawAll_implicit_explicit (N := N) l hl' pqs
    (Segment.draw N ⟨some m, p0⟩ (Pen.initial []))
    (Segment.draw N ⟨some m, q0⟩ (Pen.initial []))
    hpqs
    (by simp [Segment.draw, hv])
    (by simp [Segment.draw, hv])
    (by simp [Segment.draw, hv])
    (by rcases hml with h | h <;> simp [Segment.draw, h.1, h.2])
    (by rcases hml with h | h <;> simp [Segment.draw, h.1])
    (by rcases hml with h | h <;> simp [Segment.draw, h.1])
  simp only [drawAll, Pen.finish]
  rw [k1, k2]

/-- The path of pairs that follow the first pair of a move without a letter: a move to the
first pair and a line to each of the others, absolute after `M` and relative after `m`,
closed when it ends where it started. -/
theorem parsePathString_implicit_elements (self : SVGState N)
    (lead trail : List Char) (m l : Char) (p0 : PairText) (ps : List PairText)
    (hml : (m = 'M' ∧ l = 'L') ∨ (m = 'm' ∧ l = 'l'))
    (hlead : lead.all isWhitespace = true) (htrail : trail.all isSeparator = true)
    (hp0 : p0.wellFormed = true)
    (hps : ∀ p ∈ ps, p.wellFormed = true ∧ p.pre.isEmpty = false) :
    self.parsePathString [] (lead ++ (m :: (p0.chars ++ (pairsText ps ++ trail))))
      = expectedElements N Point.origin
          ((⟨m, p0⟩ : Command) :: ps.map (fun p => (⟨l, p⟩ : Command)))
        ++ (if (finalPoint N Point.origin
                ((⟨m, p0⟩ : Command) :: ps.map (fun p => (⟨l, p⟩ : Command)))).eq
              (finalStart N Point.origin Point.origin
                ((⟨m, p0⟩ : Command) :: ps.map (fun p => (⟨l, p⟩ : Command))))
            then [PathElement.close] else []) := by
  have hm : m ∈ moveLineLetters := by
    rcases hml with h | h <;> rw [h.1] <;> decide
  have hl : l ∈ moveLineLetters := by
    rcases hml with h | h <;> rw [h.2] <;> decide
  have hpqs : ∀ pq ∈ ps.map (fun p => (p, p)), implicitExplicit pq = true := by
    intro pq hpq
    obtain ⟨p, hp, rfl⟩ := List.mem_map.mp hpq
    have := hps p hp
    simp [implicitExplicit, sameNumbers, this.1, this.2]
  have hfst : (ps.map (fun p => (p, p))).map Prod.fst = ps := by
    simp [List.map_map, Function.comp_def]
  have hsnd : (ps.map (fun p => (p, p))).map Prod.snd = ps := by
    simp [List.map_map, Function.comp_def]
  have h1 := parsePathString_implicit_explicit self lead trail lead trail m l p0 p0
    (ps.map (fun p => (p, p))) hml hlead htrail hlead htrail hp0 hp0
    (by simp [sameNumbers]) hpqs
  rw [hfst, hsnd] at h1
  rw [h1, linesText_commandsText]
  have hwf : ∀ c' ∈ (⟨m, p0⟩ : Command) :: ps.map (fun p => (⟨l, p⟩ : Command)),
      c'.wellFormed = true := by
    intro c' hc'
    simp only [List.mem_cons, List.mem_map] at hc'
    rcases hc' with h | ⟨p, hp, h⟩
    · subst h
      simp [Command.wellFormed, hm, hp0]
    · subst h
      simp [Command.wellFormed, hl, (hps p hp).1]
  have h2 := (parsePathString_commands self lead trail ⟨m, p0⟩
    (ps.map (fun p => (⟨l, p⟩ : Command))) hlead htrail hwf
    (by rcases hml with h | h
        · exact Or.inl h.1
        · exact Or.inr h.1)).2
  simp only [commandsText, List.cons_append, List.append_assoc] at h2
  exact h2

end SVGState

end Juce

namespace Juce

namespace SVGState

variable {N : FloatOps}

/-! ## The `break` of the loop -/

theorem caseMoveLine_carryOn (self : SVGState N) (st : PathParse N) :
    (self.caseMoveLine st).carryOn = st.carryOn := by
  unfold caseMoveLine
  split
  · simp only
    split <;> rfl
  · rfl

theorem advance_carryOn (st : PathParse N) (d' : List Char) :
    (advance st d').carryOn = st.carryOn := by
  unfold advance; split <;> rfl

theorem caseHorizontal_carryOn (self : SVGState N) (st : PathParse N) :
    (self.caseHorizontal st).carryOn = st.carryOn := by
  unfold caseHorizontal
  split
  · rfl
  · rw [advance_carryOn]

theorem caseVertical_carryOn (self : SVGState N) (st : PathParse N) :
    (self.caseVertical st).carryOn = st.carryOn := by
  unfold caseVertical
  split
  · rfl
  · rw [advance_carryOn]

theorem caseCubic_carryOn (self : SVGState N) (st : PathParse N) :
    (self.caseCubic st).carryOn = st.carryOn := by
  unfold caseCubic
  split
  · rfl
  · split
    · rfl
    · split <;> rfl

theorem caseSmoothCubic_carryOn (self : SVGState N) (st : PathParse N) :
    (self.caseSmoothCubic st).carryOn = st.carryOn := by
  unfold caseSmoothCubic
  split
  · rfl
  · split <;> rfl

theorem caseQuadratic_carryOn (self : SVGState N) (st : PathParse N) :
    (self.caseQuadratic st).carryOn = st.carryOn := by
  unfold caseQuadratic
  split
  · rfl
  · split <;> rfl

theorem caseSmoothQuadratic_carryOn (self : SVGState N) (st : PathParse N) :
    (self.caseSmoothQuadratic st).carryOn = st.carryOn := by
  unfold caseSmoothQuadratic
  split <;> rfl

theorem caseArc_carryOn (self : SVGState N) (st : PathParse N) :
    (self.caseArc st).carryOn = st.carryOn := by
  unfold caseArc
  split
  · rfl
  · split
    · rfl
    · split
      · rfl
      · split
        · rfl
        · split <;> rfl

/-- The switch at a current command that is a command letter: the default case is not
taken, and the current command stays a command letter. -/
theorem dispatch_letter (self : SVGState N) (st : PathParse N)
    (h : st.currentCommand ∈ commandLetters) :
    (self.dispatch st).carryOn = st.carryOn
      ∧ (self.dispatch st).currentCommand ∈ commandLetters := by
  simp only [commandLetters, List.mem_cons, List.mem_singleton, List.not_mem_nil,
    or_false] at h
  have hmem : st.currentCommand ∈ commandLetters := by
    simp only [commandLetters, List.mem_cons, List.mem_singleton, List.not_mem_nil,
      or_false]
    exact h
  unfold dispatch
  simp only
  split
  · refine ⟨caseMoveLine_carryOn self st, ?_⟩
    rcases caseMoveLine_command self st with h1 | h1 <;> rw [h1]
    · exact hmem
    · decide
  split
  · exact ⟨caseHorizontal_carryOn self st, by rw [caseHorizontal_command]; exact hmem⟩
  split
  · exact ⟨caseVertical_carryOn self st, by rw [caseVertical_command]; exact hmem⟩
  split
  · exact ⟨caseCubic_carryOn self st, by rw [caseCubic_command]; exact hmem⟩
  split
  · exact ⟨caseSmoothCubic_carryOn self st, by rw [caseSmoothCubic_command]; exact hmem⟩
  split
  · exact ⟨caseQuadratic_carryOn self st, by rw [caseQuadratic_command]; exact hmem⟩
  split
  · exact ⟨caseSmoothQuadratic_carryOn self st,
      by rw [caseSmoothQuadratic_command]; exact hmem⟩
  split
  · exact ⟨caseArc_carryOn self st, by rw [caseArc_command]; exact hmem⟩
  split
  · exact ⟨rfl, by simp only [caseClose]; decide⟩
  · rename_i h1 h2 h3 h4 h5 h6 h7 h8 h9
    simp only [not_or] at h1 h2 h3 h4 h5 h6 h7 h8 h9
    rcases h with h | h | h | h | h | h | h | h | h | h | h | h | h | h | h | h | h | h | h | h
    all_goals first
      | exact absurd h h1.1 | exact absurd h h1.2.1 | exact absurd h h1.2.2.1
      | exact absurd h h1.2.2.2 | exact absurd h h2.1 | exact absurd h h2.2
      | exact absurd h h3.1 | exact absurd h h3.2 | exact absurd h h4.1 | exact absurd h h4.2
      | exact absurd h h5.1 | exact absurd h h5.2 | exact absurd h h6.1 | exact absurd h h6.2
      | exact absurd h h7.1 | exact absurd h h7.2 | exact absurd h h8.1 | exact absurd h h8.2
      | exact absurd h h9.1 | exact absurd h h9.2

/-- A pass of the loop that reads a command letter, or that starts with a command letter
as the current command, does not end with the `break`, and leaves a command letter as the
current command. -/
theorem iteration_letter (self : SVGState N) (st : PathParse N)
    (h : cur st.d ∈ commandLetters ∨ st.currentCommand ∈ commandLetters)
    (hc : st.carryOn = true) :
    (self.iteration st).carryOn = true
      ∧ (self.iteration st).currentCommand ∈ commandLetters := by
  have hr : (readCommand st).currentCommand ∈ commandLetters
      ∧ (readCommand st).carryOn = true := by
    unfold readCommand
    by_cases hl : cur st.d ∈ commandLetters
    · rw [if_pos hl]
      exact ⟨hl, hc⟩
    · rw [if_neg hl]
      rcases h with h | h
      · exact absurd h hl
      · exact ⟨h, hc⟩
  obtain ⟨h1, h2⟩ := dispatch_letter self (readCommand st) hr.1
  rw [hr.2] at h1
  rw [iteration_unfold]
  simp only [h1, if_true]
  exact ⟨trivial, h2⟩

/-- Once a command letter is read, the loop is never left by the `break`. -/
theorem loop_letter (self : SVGState N) :
    ∀ (fuel : Nat) (st : PathParse N),
      (cur st.d ∈ commandLetters ∨ st.currentCommand ∈ commandLetters) →
      st.carryOn = true → (loop self fuel st).carryOn = true := by
  intro fuel
  induction fuel with
  | zero => intro st _ hc; exact hc
  | succ n ih =>
    intro st h hc
    rw [loop_succ]
    split
    · exact hc
    · obtain ⟨h1, h2⟩ := iteration_letter self st h hc
      exact ih _ (Or.inr h2) h1

/-- With as many passes as there are characters left, the loop ends where its test fails,
after the `break`, or with the cursor beyond the text. -/
theorem loop_ends (self : SVGState N) :
    ∀ (fuel : Nat) (st : PathParse N), Tidy st → st.d.length ≤ fuel →
      ((loop self fuel st).d.isEmpty || !(loop self fuel st).carryOn
        || (loop self fuel st).overrun) = true := by
  intro fuel
  induction fuel with
  | zero =>
    intro st _ hf
    have hd : st.d = [] := List.length_eq_zero.mp (Nat.le_zero.mp hf)
    simp [loop, hd]
  | succ n ih =>
    intro st ht hf
    rw [loop_succ]
    by_cases hs : (st.d.isEmpty || !st.carryOn || st.overrun) = true
    · rw [if_pos hs]; exact hs
    · rw [if_neg hs]
      have hne : st.d ≠ [] := by
        intro hd; apply hs; simp [hd]
      rcases iteration_progress self st ht hne with hp | hp | hp
      · exact ih _ (iteration_tidy self st) (by omega)
      · rw [loop_stop self n _ (by simp [hp])]; simp [hp]
      · rw [loop_stop self n _ (by simp [hp])]; simp [hp]

/-- A path text that starts, after white space, with a command letter is interpreted to
its end: the loop is not left by the `break`, and it ends with the cursor at the end of
the text or beyond it. -/
theorem run_letter (self : SVGState N) (path : Path N) (lead : List Char) (c : Char)
    (rest : List Char) (hlead : lead.all isWhitespace = true) (hw : isWhitespace c = false)
    (hc : c ∈ commandLetters) :
    (self.run path (lead ++ c :: rest)).carryOn = true
      ∧ ((self.run path (lead ++ c :: rest)).d = []
        ∨ (self.run path (lead ++ c :: rest)).overrun = true) := by
  have hd : (start path (lead ++ c :: rest)).d = c :: rest := by
    simp only [start, findEndOfWhitespace]
    rw [dropWhile_append_all _ _ _ hlead]
    exact dropWhile_cur_false _ _ hw
  have h1 : (self.run path (lead ++ c :: rest)).carryOn = true :=
    loop_letter self _ _ (Or.inl (by rw [hd]; exact hc)) rfl
  have h2 := loop_ends self (start path (lead ++ c :: rest)).d.length
    (start path (lead ++ c :: rest)) ⟨by simp only [start]; decide, by simp only [start]; decide⟩
    (le_refl _)
  refine ⟨h1, ?_⟩
  have h3 : ((self.run path (lead ++ c :: rest)).d.isEmpty
      || !(self.run path (lead ++ c :: rest)).carryOn
      || (self.run path (lead ++ c :: rest)).overrun) = true := h2
  rw [h1] at h3
  simp only [Bool.not_true, Bool.or_false, Bool.or_eq_true, List.isEmpty_iff] at h3
  exact h3

end SVGState

end Juce

namespace Juce

namespace SVGState

variable {N : FloatOps}

/-- When the first character of a path text after its leading white space is not one of
the command letters, `parsePathString` stops at that character: the path is the path of
the text before the character, and nothing after it is interpreted. -/
theorem parsePathString_stops_at_first (self : SVGState N) (path : Path N)
    (lead : List Char) (c : Char) (rest : List Char)
    (hlead : lead.all isWhitespace = true) (hc : c ∉ commandLetters)
    (hw : isWhitespace c = false) :
    self.parsePathString path (lead ++ c :: rest) = self.parsePathString path lead := by
  have hd : (start path (lead ++ c :: rest)).d = c :: rest := by
    simp only [start, findEndOfWhitespace]
    rw [dropWhile_append_all _ _ _ hlead]
    exact dropWhile_cur_false _ _ hw
  have hd0 : (start path lead).d = [] := findEndOfWhitespace_all lead hlead
  have hr : readCommand (start path (lead ++ c :: rest)) = start path (lead ++ c :: rest) :=
    readCommand_tidy_of_not_letter _ (by rw [hd]; exact hc)
  have hdis := dispatch_unknown self (start path (lead ++ c :: rest))
    (by simp only [start]; decide)
  have hit : self.iteration (start path (lead ++ c :: rest))
      = { start path (lead ++ c :: rest) with carryOn := false } := by
    rw [iteration_unfold, hr, hdis]
    rfl
  have hlen : (start path (lead ++ c :: rest)).d.length = rest.length + 1 := by
    rw [hd]; rfl
  have hrun : self.run path (lead ++ c :: rest)
      = { start path (lead ++ c :: rest) with carryOn := false } := by
    show loop self (start path (lead ++ c :: rest)).d.length
      (start path (lead ++ c :: rest)) = _
    rw [hlen, loop_break self _ _ (by rw [hd]; exact List.cons_ne_nil _ _) rfl rfl
      (by rw [hit]), hit]
  have hrun0 : self.run path lead = start path lead := by
    unfold run
    simp only [hd0, List.length_nil]
    rfl
  unfold parsePathString
  rw [hrun, hrun0]
  rfl

end SVGState

end Juce

namespace Juce

namespace SVGState

/-! ## The arc radii and the gradient axis without rounding -/

end SVGState

end Juce

namespace Juce

namespace SVGState

variable {N : FloatOps}

/-! ## Claims about move and line commands -/

/-- C1: for a path text that starts with `M` or `m` and consists of well-formed `M`, `m`,
`L`, `l` commands, each with one coordinate pair, `parsePathString` produces one move for
each `M`/`m` and one line for each `L`/`l`, in the order of the text, whose points are the
pair itself for an uppercase letter and the pair added to the previous current point for a
lowercase letter; nothing else is produced but, possibly, a final close. -/
theorem parsePathString_moveLine_points (self : SVGState N) (lead trail : List Char)
    (c : Command) (cs : List Command)
    (hlead : lead.all isWhitespace = true) (htrail : trail.all isSeparator = true)
    (hwf : ∀ c' ∈ c :: cs, c'.wellFormed = true) (hfirst : c.letter = 'M' ∨ c.letter = 'm') :
    ∃ closing : Path N, (closing = [] ∨ closing = [PathElement.close])
      ∧ self.parsePathString [] (lead ++ (commandsText (c :: cs) ++ trail))
          = expectedElements N Point.origin (c :: cs) ++ closing := by
  obtain ⟨_, h⟩ := parsePathString_commands self lead trail c cs hlead htrail hwf hfirst
  refine ⟨_, ?_, h⟩
  split
  · exact Or.inr rfl
  · exact Or.inl rfl

/-- C1 at the text `M0,0 L10,0 L10,10`, which gives the points (0,0), (10,0), (10,10). -/
theorem parsePathString_moveLine_points_witness :
    ∃ closing : Path exactOps, (closing = [] ∨ closing = [PathElement.close])
      ∧ exampleState.parsePathString [] "M0,0 L10,0 L10,10".toList
          = [PathElement.moveTo ⟨(0 : ℚ), (0 : ℚ)⟩, PathElement.lineTo ⟨(10 : ℚ), (0 : ℚ)⟩,
             PathElement.lineTo ⟨(10 : ℚ), (10 : ℚ)⟩] ++ closing := by
  with_unfolding_all
    exact parsePathString_moveLine_points exampleState [] []
      ⟨'M', commaPair "0" "0" " "⟩
      [⟨'L', commaPair "10" "0" " "⟩, ⟨'L', commaPair "10" "10" ""⟩]
      (by decide) (by decide) (by decide) (by decide)

end SVGState

end Juce

namespace Juce

namespace SVGState

variable {N : FloatOps}

/-- C2: for a path text that starts with `M` or `m` and consists of well-formed `M`, `m`,
`L`, `l` commands, with no `Z` or `z`, the path that `parsePathString` produces ends with a
close exactly when the final point compares equal to the start point of the last
subpath. -/
theorem parsePathString_closed_iff_back_at_start (self : SVGState N)
    (lead trail : List Char) (c : Command) (cs : List Command)
    (hlead : lead.all isWhitespace = true) (htrail : trail.all isSeparator = true)
    (hwf : ∀ c' ∈ c :: cs, c'.wellFormed = true) (hfirst : c.letter = 'M' ∨ c.letter = 'm') :
    (self.parsePathString [] (lead ++ (commandsText (c :: cs) ++ trail))).endsWithClose = true
      ↔ (finalPoint N Point.origin (c :: cs)).eq
          (finalStart N Point.origin Point.origin (c :: cs)) = true := by
  obtain ⟨h1, h2⟩ := parsePathString_commands self lead trail c cs hlead htrail hwf hfirst
  rw [h2]
  by_cases he : (finalPoint N Point.origin (c :: cs)).eq
      (finalStart N Point.origin Point.origin (c :: cs)) = true
  · simp only [he, if_true, iff_true]
    rw [Path.endsWithClose_append_singleton]; rfl
  · simp [he, h1]

/-- C2 at the texts `M0,0 L10,0 L0,0`, which is closed, and `M0,0 L10,0 L10,10`, which is
not. -/
theorem parsePathString_closed_iff_back_at_start_witness :
    (exampleState.parsePathString [] "M0,0 L10,0 L0,0".toList).endsWithClose = true
      ∧ ¬ (exampleState.parsePathString [] "M0,0 L10,0 L10,10".toList).endsWithClose = true :=
  ⟨(parsePathString_closed_iff_back_at_start exampleState [] []
      ⟨'M', commaPair "0" "0" " "⟩
      [⟨'L', commaPair "10" "0" " "⟩, ⟨'L', commaPair "0" "0" ""⟩]
      (by decide) (by decide) (by decide) (by decide)).mpr (by with_unfolding_all decide),
   fun h => absurd
    ((parsePathString_closed_iff_back_at_start exampleState [] []
      ⟨'M', commaPair "0" "0" " "⟩
      [⟨'L', commaPair "10" "0" " "⟩, ⟨'L', commaPair "10" "10" ""⟩]
      (by decide) (by decide) (by decide) (by decide)).mp h) (by with_unfolding_all decide)⟩

/-- C3: for a path text of the form `M p0 L p1 ... L pn Z` with well-formed pairs,
`parsePathString` produces one subpath: the move to `p0`, the lines to `p1`, ..., `pn` in
order, and one close; the statement after the loop adds no second close. -/
theorem parsePathString_closed_polyline (self : SVGState N) (lead ws : List Char)
    (p0 : PairText) (ps : List PairText) (z : Char)
    (hlead : lead.all isWhitespace = true) (hws : ws.all isWhitespace = true)
    (hp0 : p0.wellFormed = true) (hps : ∀ p ∈ ps, p.wellFormed = true)
    (hz : z = 'Z' ∨ z = 'z') :
    self.parsePathString [] (lead ++ (commandsText (polyline p0 ps) ++ z :: ws))
      = PathElement.moveTo (p0.value N)
          :: ps.map (fun p => PathElement.lineTo (p.value N)) ++ [PathElement.close] := by
  have hwf := polyline_wellFormed p0 ps hp0 hps
  have hzn : endsNumber (z :: ws) = true := by
    rcases hz with h | h <;> subst h <;> rfl
  have hzs : isSeparator z = false := by
    rcases hz with h | h <;> subst h <;> rfl
  obtain ⟨st', fuel, e1, e2, e3, e4, e5, e6, e7⟩ :=
    run_segments self [] lead (z :: ws) (Command.toSegment ⟨'M', p0⟩)
      ((ps.map (fun p => (⟨'L', p⟩ : Command))).map Command.toSegment) hlead hzn
      (segments_wellFormed (polyline p0 ps) hwf) rfl
  have hr := render_map_toSegment (polyline p0 ps)
  simp only [polyline, List.map_cons] at hr
  rw [hr] at e1
  have hd : st'.d = z :: ws := by
    rw [e2]; exact dropWhile_cur_false _ _ hzs
  obtain ⟨hok, hpath, _, _⟩ := drawAll_from_initial (N := N) ⟨'M', p0⟩
    (ps.map (fun p => (⟨'L', p⟩ : Command))) hwf (Or.inl rfl)
  simp only [List.map_cons] at hok hpath
  rw [← e3] at hok hpath
  have hit := iteration_close self st' z ws hd hz e4
  have hstop : loop self fuel (self.iteration st') = self.iteration st' :=
    loop_stop self _ _ (by rw [hit]; simp [findEndOfWhitespace_all ws hws])
  unfold parsePathString
  simp only [polyline]
  rw [e1, loop_unroll self fuel st' e6 (by rw [hd]; exact List.cons_ne_nil _ _) e4 e5 e7,
    hstop, hit]
  refine (finish_after_close st'.pen hok _ ?_ ?_).trans ?_
  · rfl
  · rfl
  rw [hpath]
  exact congrArg (· ++ [PathElement.close]) (expectedElements_polyline p0 ps)

/-- C3 at the text `M0,0 L10,0 L10,10 Z`: the three points and one close. -/
theorem parsePathString_closed_polyline_witness :
    exampleState.parsePathString [] "M0,0 L10,0 L10,10 Z".toList
      = [PathElement.moveTo ⟨(0 : ℚ), (0 : ℚ)⟩, PathElement.lineTo ⟨(10 : ℚ), (0 : ℚ)⟩,
         PathElement.lineTo ⟨(10 : ℚ), (10 : ℚ)⟩, PathElement.close] := by
  with_unfolding_all
    exact parsePathString_closed_polyline exampleState [] []
      (commaPair "0" "0" " ") [commaPair "10" "0" " ", commaPair "10" "10" " "] 'Z'
      (by decide) (by decide) (by decide) (by decide) (by decide)

end SVGState

end Juce

namespace Juce

namespace SVGState

variable {N : FloatOps}

/-- C4: coordinate pairs that follow the first pair of a move without a command letter are
line segments, absolute after `M` and relative after `m`. For well-formed pairs, the text
`M x0 y0 x1 y1 ... xn yn` gives a move to the first pair and a line to each of the other
pairs, the text `m x0 y0 x1 y1 ...` a move to the first pair and a line to each of the
other pairs added to the point before it (the elements of the pairs read as `l` commands,
each a line to its pair added to the current point), and nothing else but, possibly, a
final close;
and each gives the same path as the text with the letter `L`, or `l`, before each of the
other pairs, for well-formed pairs of the same numbers. -/
theorem parsePathString_implicit_lines (self : SVGState N)
    (lead trail lead' trail' : List Char) (m l : Char) (p0 q0 : PairText)
    (pqs : List (PairText × PairText))
    (hml : (m = 'M' ∧ l = 'L') ∨ (m = 'm' ∧ l = 'l'))
    (hlead : lead.all isWhitespace = true) (htrail : trail.all isSeparator = true)
    (hlead' : lead'.all isWhitespace = true) (htrail' : trail'.all isSeparator = true)
    (hp0 : p0.wellFormed = true) (hq0 : q0.wellFormed = true)
    (h0 : sameNumbers p0 q0 = true) (hpqs : ∀ pq ∈ pqs, implicitExplicit pq = true) :
    (∃ closing : Path N, (closing = [] ∨ closing = [PathElement.close])
        ∧ self.parsePathString []
            (lead ++ (m :: (p0.chars ++ (pairsText (pqs.map Prod.fst) ++ trail))))
          = PathElement.moveTo (if m = 'm' then (p0.value N).add Point.origin else p0.value N)
              :: expectedElements N
                  (if m = 'm' then (p0.value N).add Point.origin else p0.value N)
                  ((pqs.map Prod.fst).map (fun p => (⟨l, p⟩ : Command)))
            ++ closing)
      ∧ (m = 'M' →
          expectedElements N (p0.value N)
              ((pqs.map Prod.fst).map (fun p => (⟨l, p⟩ : Command)))
            = (pqs.map Prod.fst).map (fun p => PathElement.lineTo (p.value N)))
      ∧ (m = 'm' → ∀ (current : Point N) (p : PairText) (ps : List PairText),
          expectedElements N current ((p :: ps).map (fun p => (⟨l, p⟩ : Command)))
            = PathElement.lineTo ((p.value N).add current)
              :: expectedElements N ((p.value N).add current)
                  (ps.map (fun p => (⟨l, p⟩ : Command))))
      ∧ self.parsePathString []
          (lead ++ (m :: (p0.chars ++ (pairsText (pqs.map Prod.fst) ++ trail))))
        = self.parsePathString []
          (lead' ++ (m :: (q0.chars ++ (linesText l (pqs.map Prod.snd) ++ trail')))) := by
  have hps : ∀ p ∈ pqs.map Prod.fst, p.wellFormed = true ∧ p.pre.isEmpty = false := by
    intro p hp
    obtain ⟨pq, hpq, rfl⟩ := List.mem_map.mp hp
    have := hpqs pq hpq
    simp only [implicitExplicit, Bool.and_eq_true, Bool.not_eq_true'] at this
    exact ⟨this.1.1.1, this.1.1.2⟩
  have hel := parsePathString_implicit_elements self lead trail m l p0 (pqs.map Prod.fst)
    hml hlead htrail hp0 hps
  refine ⟨⟨(if (finalPoint N Point.origin ((⟨m, p0⟩ : Command)
        :: (pqs.map Prod.fst).map (fun p => (⟨l, p⟩ : Command)))).eq
      (finalStart N Point.origin Point.origin ((⟨m, p0⟩ : Command)
        :: (pqs.map Prod.fst).map (fun p => (⟨l, p⟩ : Command))))
      then [PathElement.close] else []), ?_, ?_⟩, ?_, ?_,
    parsePathString_implicit_explicit self lead trail lead' trail'
      m l p0 q0 pqs hml hlead htrail hlead' htrail' hp0 hq0 h0 hpqs⟩
  · split
    · exact Or.inr rfl
    · exact Or.inl rfl
  · rw [hel]
    rcases hml with h | h
    · simp [expectedElements, Command.element, Command.point, h.1]
    · simp [expectedElements, Command.element, Command.point, h.1]
  · intro hM
    rcases hml with h | h
    · rw [h.2]
      exact expectedElements_polyline_tail _ _
    · rw [h.1] at hM
      exact absurd hM (by decide)
  · intro hm current p ps
    rcases hml with h | h
    · rw [h.1] at hm
      exact absurd hm (by decide)
    · rw [h.2]
      simp [expectedElements, Command.element, Command.point]

/-- C4 at the texts `M0,0 10,0 10,10` and `M0,0 L10,0 L10,10`, which give the move to (0,0)
and the lines to (10,0) and (10,10), and at the text `m5,5 10,0 10,10`, which gives the
move to (5,5) and the lines to (15,5) and (25,15). -/
theorem parsePathString_implicit_lines_witness :
    exampleState.parsePathString [] "M0,0 10,0 10,10".toList
        = exampleState.parsePathString [] "M0,0 L10,0 L10,10".toList
      ∧ exampleState.parsePathString [] "M0,0 10,0 10,10".toList
        = [PathElement.moveTo ⟨(0 : ℚ), (0 : ℚ)⟩, PathElement.lineTo ⟨(10 : ℚ), (0 : ℚ)⟩,
           PathElement.lineTo ⟨(10 : ℚ), (10 : ℚ)⟩]
      ∧ exampleState.parsePathString [] "m5,5 10,0 10,10".toList
        = [PathElement.moveTo ⟨(5 : ℚ), (5 : ℚ)⟩, PathElement.lineTo ⟨(15 : ℚ), (5 : ℚ)⟩,
           PathElement.lineTo ⟨(25 : ℚ), (15 : ℚ)⟩] := by
  have h := parsePathString_implicit_lines exampleState [] [] [] [] 'M' 'L'
    (commaPair "0" "0" "") (commaPair "0" "0" " ")
    [(⟨[' '], wholeNumber "10", [','], wholeNumber "0", []⟩, commaPair "10" "0" " "),
     (⟨[' '], wholeNumber "10", [','], wholeNumber "10", []⟩, commaPair "10" "10" "")]
    (by decide) (by decide) (by decide) (by decide) (by decide) (by decide) (by decide)
    (by decide) (by decide)
  refine ⟨h.2.2.2, by with_unfolding_all rfl, by with_unfolding_all rfl⟩

end SVGState

end Juce

namespace Juce

namespace SVGState

variable {N : FloatOps}

/-- C5: the first control point of the cubic of an `S` command that follows a line is not
the current point: the text `M0,0 L10,0 S20,10 30,0` gives a cubic from (10,0) whose first
control point is (20,0), the reflection of (0,0) through (10,0), where the claim has
(10,0). -/
theorem parsePathString_smooth_cubic_after_line :
    exampleState.parsePathString [] "M0,0 L10,0 S20,10 30,0".toList
      = [PathElement.moveTo ⟨(0 : ℚ), (0 : ℚ)⟩, PathElement.lineTo ⟨(10 : ℚ), (0 : ℚ)⟩,
         PathElement.cubicTo ⟨(20 : ℚ), (0 : ℚ)⟩ ⟨(20 : ℚ), (10 : ℚ)⟩ ⟨(30 : ℚ), (0 : ℚ)⟩] := by
  with_unfolding_all rfl

/-- C6: the control point of the quadratic of a `T` command that follows a line is not the
current point. In `M0,0 L10,0 T20,10` the command before `T` is a line and the current
point is (10,0), but the control point of the quadratic is (20,10), its own end point.
That point is recorded as the control point for the next command, so in
`M0,0 L10,0 T20,10 T30,0` the second `T` reflects (20,10) through itself and its control
point is the point it starts from. After a `Q` the control points are the reflections:
`M0,0 Q5,5 10,0 T20,10 T30,0` gives (15,-5) and (25,25). -/
theorem parsePathString_smooth_quadratic_after_line :
    exampleState.parsePathString [] "M0,0 L10,0 T20,10".toList
        = [PathElement.moveTo ⟨(0 : ℚ), (0 : ℚ)⟩, PathElement.lineTo ⟨(10 : ℚ), (0 : ℚ)⟩,
           PathElement.quadraticTo ⟨(20 : ℚ), (10 : ℚ)⟩ ⟨(20 : ℚ), (10 : ℚ)⟩]
      ∧ (⟨(20 : ℚ), (10 : ℚ)⟩ : Point exactOps) ≠ ⟨(10 : ℚ), (0 : ℚ)⟩
      ∧ exampleState.parsePathString [] "M0,0 L10,0 T20,10 T30,0".toList
        = [PathElement.moveTo ⟨(0 : ℚ), (0 : ℚ)⟩, PathElement.lineTo ⟨(10 : ℚ), (0 : ℚ)⟩,
           PathElement.quadraticTo ⟨(20 : ℚ), (10 : ℚ)⟩ ⟨(20 : ℚ), (10 : ℚ)⟩,
           PathElement.quadraticTo ⟨(20 : ℚ), (10 : ℚ)⟩ ⟨(30 : ℚ), (0 : ℚ)⟩]
      ∧ exampleState.parsePathString [] "M0,0 Q5,5 10,0 T20,10 T30,0".toList
        = [PathElement.moveTo ⟨(0 : ℚ), (0 : ℚ)⟩,
           PathElement.quadraticTo ⟨(5 : ℚ), (5 : ℚ)⟩ ⟨(10 : ℚ), (0 : ℚ)⟩,
           PathElement.quadraticTo ⟨(15 : ℚ), (-5 : ℚ)⟩ ⟨(20 : ℚ), (10 : ℚ)⟩,
           PathElement.quadraticTo ⟨(25 : ℚ), (25 : ℚ)⟩ ⟨(30 : ℚ), (0 : ℚ)⟩] := by
  refine ⟨by with_unfolding_all rfl, ?_, by with_unfolding_all rfl,
    by with_unfolding_all rfl⟩
  intro h
  have h1 : (20 : ℚ) = 10 := congrArg Point.x h
  revert h1
  norm_num

/-- One pass of the loop at a `T` or `t` command with a well-formed pair: the pass
appends one quadratic whose end point is the pair (added to the current point for `t`) and
whose control point is the reflection of the recorded control point `last2` through the
current point when the previous command is `Q`, `q`, `T` or `t`, and is the end point of the
quadratic itself otherwise; that control point is recorded for the next command. -/
theorem iteration_smooth_quadratic (self : SVGState N) (st : PathParse N) (t : Char)
    (p : PairText) (tail : List Char) (hd : st.d = t :: (p.chars ++ tail))
    (ht : t = 'T' ∨ t = 't') (hp : p.wellFormed = true) (htail : endsNumber tail = true)
    (hc : st.carryOn = true) :
    (self.iteration st).path
        = st.path.quadraticTo
            (if st.previousCommand ∈ ['Q', 'q', 'T', 't'] then Point.reflect st.last st.last2
             else (if t = 't' then (p.value N).add st.last else p.value N))
            (if t = 't' then (p.value N).add st.last else p.value N)
      ∧ (self.iteration st).last2
        = (if st.previousCommand ∈ ['Q', 'q', 'T', 't'] then Point.reflect st.last st.last2
           else (if t = 't' then (p.value N).add st.last else p.value N))
      ∧ (self.iteration st).last = (if t = 't' then (p.value N).add st.last else p.value N) := by
  have hl : t ∈ commandLetters := by rcases ht with h | h <;> subst h <;> decide
  have hr := readCommand_letter st t _ hd hl
  have hrel : decide (97 ≤ t.toNat) = decide (t = 't') := by
    rcases ht with h | h <;> subst h <;> decide
  have hcase := caseSmoothQuadratic_wellFormed self (readCommand st) p tail
    (by rw [hr]) hp htail
  unfold iteration
  rw [dispatch_smoothQuadratic self _ (by rw [hr]; exact ht), hcase, hr]
  simp only [hrel, hc, decide_eq_true_eq, if_true, Point.reflect, and_self]

/-- The pass at a `T` that follows a line and at a `T` that follows a `Q`. -/
theorem iteration_smooth_quadratic_witness :
    ((exampleState.iteration
        { SVGState.start [] "T20,10".toList with
          previousCommand := 'L', last := ⟨(10 : ℚ), (0 : ℚ)⟩ }).path
      = Path.quadraticTo [] ⟨(20 : ℚ), (10 : ℚ)⟩ ⟨(20 : ℚ), (10 : ℚ)⟩)
    ∧ ((exampleState.iteration
        { SVGState.start [] "T20,10".toList with
          previousCommand := 'Q', last := ⟨(10 : ℚ), (0 : ℚ)⟩,
          last2 := ⟨(5 : ℚ), (5 : ℚ)⟩ }).path
      = Path.quadraticTo [] ⟨(15 : ℚ), (-5 : ℚ)⟩ ⟨(20 : ℚ), (10 : ℚ)⟩) := by
  constructor
  · with_unfolding_all
      exact (iteration_smooth_quadratic exampleState
        { SVGState.start [] "T20,10".toList with
          previousCommand := 'L', last := ⟨(10 : ℚ), (0 : ℚ)⟩ }
        'T' (commaPair "20" "10" "") [] rfl (by decide) (by decide) (by decide) rfl).1
  · with_unfolding_all
      exact (iteration_smooth_quadratic exampleState
        { SVGState.start [] "T20,10".toList with
          previousCommand := 'Q', last := ⟨(10 : ℚ), (0 : ℚ)⟩,
          last2 := ⟨(5 : ℚ), (5 : ℚ)⟩ }
        'T' (commaPair "20" "10" "") [] rfl (by decide) (by decide) (by decide) rfl).1

end SVGState

end Juce

namespace Juce

namespace SVGState

variable {N : FloatOps}

/-- C9: the pass of the loop at a `Z` or `z` closes the subpath and makes the current point
and the point before it, which the smooth commands reflect, equal to the start of that
subpath; a well-formed coordinate pair that follows without a command letter is then read
as a move: the next pass starts a new subpath at the pair (added to the start of the
closed subpath after `z`) and draws no line. -/
theorem iteration_close_then_pair (self : SVGState N) (st : PathParse N) (z : Char)
    (ws : List Char) (p : PairText) (tail : List Char)
    (hd : st.d = z :: (ws ++ (p.chars ++ tail))) (hz : z = 'Z' ∨ z = 'z')
    (hws : ws.all isWhitespace = true) (hp : p.wellFormed = true)
    (htail : endsNumber tail = true) (hc : st.carryOn = true) :
    (self.iteration st).path = st.path.closeSubPath
      ∧ (self.iteration st).last = st.subpathStart
      ∧ (self.iteration st).last2 = st.subpathStart
      ∧ (self.iteration (self.iteration st)).path
          = st.path.closeSubPath.startNewSubPath
              (if z = 'z' then (p.value N).add st.subpathStart else p.value N)
      ∧ (self.iteration (self.iteration st)).subpathStart
          = (if z = 'z' then (p.value N).add st.subpathStart else p.value N) := by
  have hit := iteration_close self st z _ hd hz hc
  obtain ⟨p', hp', hv, hf⟩ := findEndOfWhitespace_pair (N := N) ws p tail hws hp
  have hrel : decide (97 ≤ z.toNat) = decide (z = 'z') := by
    rcases hz with h | h <;> subst h <;> decide
  have hd1 : (self.iteration st).d = p'.chars ++ tail := by rw [hit]; exact hf
  have hcmd : (self.iteration st).currentCommand = 'M' := by rw [hit]
  obtain ⟨k1, k2⟩ := iteration_move_pair self (self.iteration st) p' tail hd1 hp' htail hcmd
  rw [k1, k2, hit]
  simp only [hrel, hv, decide_eq_true_eq, and_self]

/-- C9 at the text `Z 5,5` read in a subpath that started at (1,1). -/
theorem iteration_close_then_pair_witness :
    (exampleState.iteration (exampleState.iteration
        { SVGState.start [PathElement.moveTo ⟨(1 : ℚ), (1 : ℚ)⟩,
            PathElement.lineTo ⟨(3 : ℚ), (1 : ℚ)⟩] "Z 5,5".toList with
          subpathStart := ⟨(1 : ℚ), (1 : ℚ)⟩, last := ⟨(3 : ℚ), (1 : ℚ)⟩ })).path
      = [PathElement.moveTo ⟨(1 : ℚ), (1 : ℚ)⟩, PathElement.lineTo ⟨(3 : ℚ), (1 : ℚ)⟩,
         PathElement.close, PathElement.moveTo ⟨(5 : ℚ), (5 : ℚ)⟩] := by
  have h := (iteration_close_then_pair exampleState
      { SVGState.start [PathElement.moveTo ⟨(1 : ℚ), (1 : ℚ)⟩,
          PathElement.lineTo ⟨(3 : ℚ), (1 : ℚ)⟩] "Z 5,5".toList with
        subpathStart := ⟨(1 : ℚ), (1 : ℚ)⟩, last := ⟨(3 : ℚ), (1 : ℚ)⟩ }
      'Z' [' '] (commaPair "5" "5" "") [] rfl (by decide) (by decide) (by decide)
      (by decide) rfl).2.2.2.1
  rw [h]
  with_unfolding_all rfl

end SVGState

end Juce

namespace Juce

namespace SVGState

variable {N : FloatOps}

/-- C10: for an `A` or `a` command with well-formed operands whose end point (added to the
current point for `a`) compares equal to the current point, the pass of the loop appends
nothing to the path, neither an arc nor a line, and the current point after the pass is
that end point, which compares equal to the current point before it. -/
theorem iteration_arc_degenerate (self : SVGState N) (st : PathParse N) (l : Char)
    (a : ArcText) (tail : List Char) (hd : st.d = l :: (a.chars ++ tail))
    (hl : l = 'A' ∨ l = 'a') (ha : a.wellFormed = true) (htail : endsNumber tail = true)
    (hc : st.carryOn = true)
    (heq : st.last.eq (if l = 'a' then (a.target.value N).add st.last
                       else a.target.value N) = true) :
    (self.iteration st).path = st.path
      ∧ (self.iteration st).last
          = (if l = 'a' then (a.target.value N).add st.last else a.target.value N)
      ∧ st.last.eq (self.iteration st).last = true := by
  have hlet : l ∈ commandLetters := by rcases hl with h | h <;> subst h <;> decide
  have hr := readCommand_letter st l _ hd hlet
  have hrel : decide (97 ≤ l.toNat) = decide (l = 'a') := by
    rcases hl with h | h <;> subst h <;> decide
  have hcase := caseArc_wellFormed self (readCommand st) a tail (by rw [hr]) ha htail
  rw [iteration_unfold, dispatch_arc self _ (by rw [hr]; exact hl), hcase, hr]
  simp only [hrel, hc, decide_eq_true_eq, if_true, point_ne_eq_not_eq, heq, Bool.not_true,
    Bool.false_eq_true, if_false, and_self]

/-- C10 at the text `A5,5 0 0 1 10,10` read when the current point is (10,10). -/
theorem iteration_arc_degenerate_witness :
    (exampleState.iteration
        { SVGState.start [PathElement.moveTo ⟨(10 : ℚ), (10 : ℚ)⟩]
            "A5,5 0 0 1 10,10".toList with
          subpathStart := ⟨(10 : ℚ), (10 : ℚ)⟩, last := ⟨(10 : ℚ), (10 : ℚ)⟩ }).path
      = [PathElement.moveTo ⟨(10 : ℚ), (10 : ℚ)⟩] := by
  have hd : ({ SVGState.start [PathElement.moveTo ⟨(10 : ℚ), (10 : ℚ)⟩]
            "A5,5 0 0 1 10,10".toList with
          subpathStart := ⟨(10 : ℚ), (10 : ℚ)⟩, last := ⟨(10 : ℚ), (10 : ℚ)⟩ }
        : PathParse exactOps).d
      = 'A' :: ((ArcText.mk (commaPair "5" "5" " ") (wholeNumber "0") [' ']
          (wholeNumber "0") [' '] (wholeNumber "1")
          ⟨[' '], wholeNumber "10", [','], wholeNumber "10", []⟩).chars ++ []) := by
    decide
  have h := iteration_arc_degenerate exampleState _ 'A' _ [] hd (by decide) (by decide)
    (by decide) rfl (by with_unfolding_all decide)
  exact h.1

end SVGState

end Juce

namespace Juce

namespace SVGState

variable {N : FloatOps}

/-- C7 as stated fails: in `M0,0 L10,0 X L5,5` the letter `X` comes where a command letter
is expected, but the path is not the path of the text before it: the pair `5,5` after the
`X` is drawn as a line. -/
theorem parsePathString_unknown_letter_after_command :
    exampleState.parsePathString [] "M0,0 L10,0 X L5,5".toList
        = [PathElement.moveTo ⟨(0 : ℚ), (0 : ℚ)⟩, PathElement.lineTo ⟨(10 : ℚ), (0 : ℚ)⟩,
           PathElement.lineTo ⟨(5 : ℚ), (5 : ℚ)⟩]
      ∧ exampleState.parsePathString [] "M0,0 L10,0 ".toList
        = [PathElement.moveTo ⟨(0 : ℚ), (0 : ℚ)⟩, PathElement.lineTo ⟨(10 : ℚ), (0 : ℚ)⟩]
      ∧ exampleState.parsePathString [] "M0,0 L10,0 X L5,5".toList
        ≠ exampleState.parsePathString [] "M0,0 L10,0 ".toList := by
  have h1 : exampleState.parsePathString [] "M0,0 L10,0 X L5,5".toList
      = [PathElement.moveTo ⟨(0 : ℚ), (0 : ℚ)⟩, PathElement.lineTo ⟨(10 : ℚ), (0 : ℚ)⟩,
         PathElement.lineTo ⟨(5 : ℚ), (5 : ℚ)⟩] := by
    with_unfolding_all rfl
  have h2 : exampleState.parsePathString [] "M0,0 L10,0 ".toList
      = [PathElement.moveTo ⟨(0 : ℚ), (0 : ℚ)⟩, PathElement.lineTo ⟨(10 : ℚ), (0 : ℚ)⟩] := by
    with_unfolding_all rfl
  refine ⟨h1, h2, ?_⟩
  rw [h1, h2]
  intro h
  have := congrArg List.length h
  simp at this

/-- C7, amended: when the first character of a path text after its leading white space is
not one of the command letters, `parsePathString` stops at that character: the path is
the path of the text before the character, and nothing after it is interpreted. When that
first character is a command letter, no later character stops the interpretation: the
loop is not left by the `break`, and it ends with the cursor at the end of the text, or
beyond it after the increment of the cases `H` and `V`. -/
theorem parsePathString_unknown_first_letter (self : SVGState N) (path : Path N)
    (lead : List Char) (c : Char) (rest : List Char)
    (hlead : lead.all isWhitespace = true) (hw : isWhitespace c = false) :
    (c ∉ commandLetters →
        self.parsePathString path (lead ++ c :: rest) = self.parsePathString path lead)
      ∧ (c ∈ commandLetters →
        (self.run path (lead ++ c :: rest)).carryOn = true
          ∧ ((self.run path (lead ++ c :: rest)).d = []
            ∨ (self.run path (lead ++ c :: rest)).overrun = true)) :=
  ⟨fun hc => parsePathString_stops_at_first self path lead c rest hlead hc hw,
   fun hc => run_letter self path lead c rest hlead hw hc⟩

/-- C7, amended, at the text ` X M0,0 L10,0`, whose path has no element, and at the text
`M0,0 L10,0 X L5,5`, which is interpreted to its end. -/
theorem parsePathString_unknown_first_letter_witness :
    exampleState.parsePathString [] " X M0,0 L10,0".toList = []
      ∧ (exampleState.run [] "M0,0 L10,0 X L5,5".toList).carryOn = true
      ∧ ((exampleState.run [] "M0,0 L10,0 X L5,5".toList).d = []
        ∨ (exampleState.run [] "M0,0 L10,0 X L5,5".toList).overrun = true) := by
  have h := (parsePathString_unknown_first_letter exampleState [] [' '] 'X'
    "M0,0 L10,0".toList (by decide) (by decide)).1 (by decide)
  have h2 := (parsePathString_unknown_first_letter exampleState [] [] 'M'
    "0,0 L10,0 X L5,5".toList (by decide) (by decide)).2 (by decide)
  exact ⟨h.trans (by with_unfolding_all rfl), h2.1, h2.2⟩

end SVGState

end Juce

namespace Juce

namespace SVGState

variable {N : FloatOps}

/-- C8: a command letter that follows malformed operands can be skipped with them. In
`M0,0 L x C1,1 2,2 3,3` the operands of `L` are malformed, but the `C` later in the text is
not interpreted as a command: after the `x` is skipped, the next read passes the white
space and fails at the `C`, which is then the character skipped, and the three pairs are
drawn as lines, where the claim has one cubic. In `M0,0 L x M5,5 L6,6` the `M` is lost in
the same way and no subpath is started at (5,5). A command letter that follows well-formed
operands or a `Z` is read as a command: `M0,0 L1,1 C1,1 2,2 3,3` and
`M0,0 Z C1,1 2,2 3,3` give the cubic. -/
theorem parsePathString_command_letter_skipped :
    exampleState.parsePathString [] "M0,0 L x C1,1 2,2 3,3".toList
        = [PathElement.moveTo ⟨(0 : ℚ), (0 : ℚ)⟩, PathElement.lineTo ⟨(1 : ℚ), (1 : ℚ)⟩,
           PathElement.lineTo ⟨(2 : ℚ), (2 : ℚ)⟩, PathElement.lineTo ⟨(3 : ℚ), (3 : ℚ)⟩]
      ∧ exampleState.parsePathString [] "M0,0 L x M5,5 L6,6".toList
        = [PathElement.moveTo ⟨(0 : ℚ), (0 : ℚ)⟩, PathElement.lineTo ⟨(5 : ℚ), (5 : ℚ)⟩,
           PathElement.lineTo ⟨(6 : ℚ), (6 : ℚ)⟩]
      ∧ exampleState.parsePathString [] "M0,0 L1,1 C1,1 2,2 3,3".toList
        = [PathElement.moveTo ⟨(0 : ℚ), (0 : ℚ)⟩, PathElement.lineTo ⟨(1 : ℚ), (1 : ℚ)⟩,
           PathElement.cubicTo ⟨(1 : ℚ), (1 : ℚ)⟩ ⟨(2 : ℚ), (2 : ℚ)⟩ ⟨(3 : ℚ), (3 : ℚ)⟩]
      ∧ exampleState.parsePathString [] "M0,0 Z C1,1 2,2 3,3".toList
        = [PathElement.moveTo ⟨(0 : ℚ), (0 : ℚ)⟩, PathElement.close,
           PathElement.cubicTo ⟨(1 : ℚ), (1 : ℚ)⟩ ⟨(2 : ℚ), (2 : ℚ)⟩ ⟨(3 : ℚ), (3 : ℚ)⟩] := by
  refine ⟨?_, ?_, ?_, ?_⟩
  · with_unfolding_all rfl
  · with_unfolding_all rfl
  · with_unfolding_all rfl
  · with_unfolding_all rfl

/-- One pass of the loop when the read of the first operand of a command fails, after
optional separators, at a character that can occur in no number and is no command letter:
the pass appends nothing to the path and skips the separators and that character, without
leaving the loop; a command letter that follows the skipped character at once is read as
the command of the next pass, with the rest of the text as its operands. -/
theorem iteration_skips_malformed (self : SVGState N) (st : PathParse N)
    (seps : List Char) (c l : Char) (rest : List Char)
    (hd : st.d = seps ++ c :: l :: rest) (hseps : seps.all isSeparator = true)
    (hc : numberChar c = false) (hcs : isSeparator c = false)
    (hcl : c ∉ commandLetters) (hl : l ∈ commandLetters)
    (hcmd : st.currentCommand ∈ operandLetters) (hcar : st.carryOn = true) :
    (self.iteration st).path = st.path
      ∧ (self.iteration st).d = l :: rest
      ∧ (self.iteration st).carryOn = true
      ∧ (self.iteration st).overrun = st.overrun
      ∧ (readCommand (self.iteration st)).currentCommand = l
      ∧ (readCommand (self.iteration st)).d = rest := by
  have hnl : cur st.d ∉ commandLetters := by
    rw [hd]
    cases seps with
    | nil => exact hcl
    | cons a t =>
      simp only [List.all_cons, Bool.and_eq_true] at hseps
      exact separator_not_letter a hseps.1
  have hr := readCommand_tidy_of_not_letter st hnl
  obtain ⟨h1, h2, h3, h4, _⟩ := dispatch_fail self st seps c (l :: rest) hd hseps hc hcs hcmd
  have hit : self.iteration st
      = { self.dispatch st with previousCommand := (self.dispatch st).currentCommand } := by
    rw [iteration_unfold, hr]
    simp [h3, hcar]
  have hd2 : (self.iteration st).d = l :: rest := by rw [hit]; exact h2
  have hr2 := readCommand_letter (self.iteration st) l rest hd2 hl
  refine ⟨by rw [hit]; exact h1, hd2, by rw [hit]; exact h3.trans hcar,
    by rw [hit]; exact h4, by rw [hr2], by rw [hr2]⟩

/-- The pass at the text ` xC1,1 2,2 3,3` read while `L` is the current command: the
`x` is skipped and the next pass appends the cubic. -/
theorem iteration_skips_malformed_witness :
    (exampleState.iteration
        { SVGState.start [PathElement.moveTo ⟨(0 : ℚ), (0 : ℚ)⟩] [] with
          d := " xC1,1 2,2 3,3".toList, currentCommand := 'L' }).d
        = "C1,1 2,2 3,3".toList
      ∧ exampleState.parsePathString [] "M0,0 L xC1,1 2,2 3,3".toList
        = [PathElement.moveTo ⟨(0 : ℚ), (0 : ℚ)⟩,
           PathElement.cubicTo ⟨(1 : ℚ), (1 : ℚ)⟩ ⟨(2 : ℚ), (2 : ℚ)⟩ ⟨(3 : ℚ), (3 : ℚ)⟩] := by
  have h := iteration_skips_malformed exampleState
    { SVGState.start [PathElement.moveTo ⟨(0 : ℚ), (0 : ℚ)⟩] [] with
      d := " xC1,1 2,2 3,3".toList, currentCommand := 'L' }
    [' '] 'x' 'C' "1,1 2,2 3,3".toList rfl (by decide) (by decide) (by decide) (by decide)
    (by decide) (by decide) rfl
  exact ⟨h.2.1, by with_unfolding_all rfl⟩

end SVGState

end Juce

namespace Juce

namespace SVGState

/-- C11 as stated fails: on ` ,x` the read fails and the cursor is at `x`, after the white
space and the comma, not where it was before the call. -/
theorem parseNextNumber_failure_moves_cursor :
    parseNextNumber " ,x".toList false = (none, "x".toList)
      ∧ "x".toList ≠ " ,x".toList := by
  decide

/-- C11, amended: whenever `parseNextNumber` reports failure, the cursor is left after the
leading white space and commas of the text, with nothing else consumed; it is at the
position it had before the call exactly when the text does not begin with white space or
a comma. -/
theorem parseNextNumber_failure_cursor (text : List Char) (allowUnits : Bool)
    (h : (parseNextNumber text allowUnits).1 = none) :
    (parseNextNumber text allowUnits).2 = skipSeparators text
      ∧ ((parseNextNumber text allowUnits).2 = text ↔ isSeparator (cur text) = false) := by
  have h1 := parseNextNumber_none text allowUnits h
  refine ⟨h1, ?_⟩
  rw [h1]
  constructor
  · intro he
    cases text with
    | nil => rfl
    | cons a t =>
      cases ha : isSeparator a with
      | false => exact ha
      | true =>
        have hl := dropWhile_length_le isSeparator t
        have := congrArg List.length he
        simp only [skipSeparators, List.dropWhile, ha, List.length_cons] at this
        omega
  · intro hs
    exact dropWhile_cur_false _ _ hs

/-- C11, amended, at the text ` ,x`. -/
theorem parseNextNumber_failure_cursor_witness :
    (parseNextNumber " ,x".toList false).2 = "x".toList :=
  (parseNextNumber_failure_cursor " ,x".toList false (by decide)).1.trans (by decide)

/-- C12 as stated fails: the texts `-`, `+` and `.`, and `px` when units are allowed, have
no digit, and `parseNextNumber` reports success on each of them. -/
theorem parseNextNumber_success_without_digit :
    parseNextNumber "-".toList false = (some "-".toList, [])
      ∧ parseNextNumber "+".toList false = (some "+".toList, [])
      ∧ parseNextNumber ".".toList false = (some ".".toList, [])
      ∧ parseNextNumber "px".toList true = (some "px".toList, []) := by
  decide

/-- C12, amended: `parseNextNumber` reports success exactly when, after the leading white
space and commas, the text begins with a sign or a digit, with a point, with `e` or `E`
followed by a sign or digit, or, when units are allowed, with a letter; it reports failure
for every other text. The token of a success need not contain a digit. -/
theorem parseNextNumber_success_iff (text : List Char) (allowUnits : Bool) :
    (parseNextNumber text allowUnits).1.isSome
      = startsNumber allowUnits (skipSeparators text) := by
  have h := scanNumber_length_lt_iff allowUnits (skipSeparators text)
  have hle := (scanNumber_suffix allowUnits (skipSeparators text)).length_le
  unfold parseNextNumber
  by_cases hl : (scanNumber allowUnits (skipSeparators text)).length
      = (skipSeparators text).length
  · have : ¬ startsNumber allowUnits (skipSeparators text) = true := by
      intro hs; have := h.mpr hs; omega
    simp [hl, this]
  · have : startsNumber allowUnits (skipSeparators text) = true := h.mp (by omega)
    simp [hl, this]

end SVGState

end Juce

namespace Juce

namespace SVGState

/-- C13: whenever `parseNextNumber` succeeds, the returned text has the form of a token (an
optional sign, digits, an optional point with digits, an optional exponent of `e` or `E`,
a sign or digit and digits, and then letters only when units are allowed); it is a prefix
of the text that follows the leading white space and commas, and no prefix of that form
is longer; it has no white space and no comma; and the cursor is left after the white
space and commas that follow the token, at a character that is neither, so that the next
call starts at the next token. -/
theorem parseNextNumber_success_longest (text : List Char) (allowUnits : Bool)
    (value rest : List Char)
    (h : parseNextNumber text allowUnits = (some value, rest)) :
    (∃ n units, numberForm allowUnits n units = true ∧ value = n.chars ++ units)
      ∧ value <+: skipSeparators text
      ∧ (∀ n units, numberForm allowUnits n units = true →
          (n.chars ++ units) <+: skipSeparators text →
          (n.chars ++ units).length ≤ value.length)
      ∧ (∀ c ∈ value, isWhitespace c = false ∧ c ≠ ',')
      ∧ (∃ between, between.all isSeparator = true
          ∧ skipSeparators text = value ++ (between ++ rest))
      ∧ isSeparator (cur rest) = false
      ∧ skipSeparators rest = rest := by
  obtain ⟨n, units, hform, hsplit⟩ := scanNumber_split allowUnits (skipSeparators text)
  have hval : value = n.chars ++ units
      ∧ rest = skipSeparators (scanNumber allowUnits (skipSeparators text)) := by
    unfold parseNextNumber at h
    by_cases hl : (scanNumber allowUnits (skipSeparators text)).length
        = (skipSeparators text).length
    · simp [hl] at h
    · simp only [hl, if_false, Prod.mk.injEq, Option.some.injEq] at h
      refine ⟨?_, h.2.symm⟩
      rw [← h.1]
      have hlen : (skipSeparators text).length
          - (scanNumber allowUnits (skipSeparators text)).length
          = (n.chars ++ units).length := by
        have := congrArg List.length hsplit
        rw [List.length_append] at this
        omega
      rw [hlen]
      nth_rewrite 1 [hsplit]
      exact List.take_left' rfl
  obtain ⟨hv, hr⟩ := hval
  have hcur : isSeparator (cur rest) = false := by
    rw [hr]
    unfold skipSeparators
    cases hd : List.dropWhile isSeparator (scanNumber allowUnits
        (List.dropWhile isSeparator text)) with
    | nil => rfl
    | cons a l =>
      have := List.head_dropWhile_not isSeparator
        (scanNumber allowUnits (List.dropWhile isSeparator text))
        (by rw [hd]; exact List.cons_ne_nil a l)
      simp only [hd, List.head_cons] at this
      simpa [cur] using this
  refine ⟨⟨n, units, hform, hv⟩, ?_, ?_, ?_, ?_, hcur, dropWhile_cur_false _ _ hcur⟩
  · rw [hv]; exact ⟨_, hsplit.symm⟩
  · intro n2 units2 hform2 hpre
    obtain ⟨rest2, hrest2⟩ := hpre
    have hlong := scanNumber_longest allowUnits n2 units2 rest2 hform2
    rw [hrest2] at hlong
    have h1 := hlong.length_le
    have h2 := congrArg List.length hrest2
    have h3 := congrArg List.length hsplit
    rw [List.length_append] at h2 h3
    rw [hv]
    omega
  · intro c hc
    rw [hv] at hc
    have := numberForm_no_separator allowUnits n units hform c hc
    simp only [isSeparator, Bool.or_eq_false_iff, beq_eq_false_iff_ne] at this
    exact ⟨this.1, this.2⟩
  · refine ⟨(scanNumber allowUnits (skipSeparators text)).takeWhile isSeparator,
      takeWhile_all _ _, ?_⟩
    rw [hr, hv]
    unfold skipSeparators
    rw [List.takeWhile_append_dropWhile]
    exact hsplit

/-- C13 at the text ` -1.5e3px, 20 ` with units allowed: two calls return `-1.5e3px` and
then `20`. -/
theorem parseNextNumber_success_longest_witness :
    (∀ c ∈ "-1.5e3px".toList, isWhitespace c = false ∧ c ≠ ',')
      ∧ parseNextNumber " -1.5e3px, 20 ".toList true = (some "-1.5e3px".toList, "20 ".toList)
      ∧ parseNextNumber "20 ".toList true = (some "20".toList, []) :=
  ⟨(parseNextNumber_success_longest " -1.5e3px, 20 ".toList true "-1.5e3px".toList
      "20 ".toList (by decide)).2.2.2.1, by decide, by decide⟩

end SVGState

end Juce

namespace Juce

namespace SVGState

/-- C14: a percentage of two characters is not resolved against the reference size. For
every character `c` and every size, `getCoordLength` on the literal `c%` returns the number
the literal starts with, since the scaling is under the test `len > 2`; at exact
arithmetic the literal `5%` at size 200 gives 5, where the claim has 10, while `50%` at
size 200 gives 100. -/
theorem getCoordLength_percent_two_characters :
    (∀ (N : FloatOps) (c : Char) (size : N.F),
        getCoordLength N [c, '%'] size = N.getFloatValue [c, '%'])
      ∧ getCoordLength exactOps "5%".toList (200 : ℚ) = (5 : ℚ)
      ∧ getCoordLength exactOps "50%".toList (200 : ℚ) = (100 : ℚ) := by
  refine ⟨fun N c size => getCoordLength_short N [c, '%'] size (by simp), ?_, ?_⟩
  · with_unfolding_all rfl
  · with_unfolding_all rfl

/-- C15 as stated fails: the literal `1vmin` has the magnitude 1 and a suffix other than
`in`, `mm`, `cm` and `pc`, and `getCoordLength` returns 96 for it, not 1. -/
theorem getCoordLength_other_suffix_scaled :
    getCoordLength exactOps "1vmin".toList (0 : ℚ) = (96 : ℚ)
      ∧ exactOps.getFloatValue "1vmin".toList = (1 : ℚ) := by
  refine ⟨?_, ?_⟩
  · with_unfolding_all rfl
  · with_unfolding_all rfl

/-- C15, amended: for every literal of a non-empty text `m` followed by two characters,
with `v` the number that `getFloatValue` reads from the literal, `getCoordLength` returns
`v * 96` when the two characters are `in`, `v * (96 / 25.4)` for `mm`, `v * (96 / 2.54)`
for `cm` and `v * 15` for `pc`, whatever the reference size; and it returns `v` unchanged
when the last two characters are none of these pairs and the last one is not `%`, as for
a literal without suffix or with the suffix `px`. Only the last two characters are
looked at, so a longer suffix that ends in one of the pairs is scaled as that pair. -/
theorem getCoordLength_units (N : FloatOps) (m : List Char) (size : N.F) (hm : m ≠ []) :
    getCoordLength N (m ++ ['i', 'n']) size
        = N.mul (N.getFloatValue (m ++ ['i', 'n'])) (N.lit 96 0)
      ∧ getCoordLength N (m ++ ['m', 'm']) size
        = N.mul (N.getFloatValue (m ++ ['m', 'm'])) (N.div (N.lit 96 0) (N.lit 254 1))
      ∧ getCoordLength N (m ++ ['c', 'm']) size
        = N.mul (N.getFloatValue (m ++ ['c', 'm'])) (N.div (N.lit 96 0) (N.lit 254 2))
      ∧ getCoordLength N (m ++ ['p', 'c']) size
        = N.mul (N.getFloatValue (m ++ ['p', 'c'])) (N.lit 15 0)
      ∧ (∀ a b : Char, ¬ (a = 'i' ∧ b = 'n') → ¬ (a = 'm' ∧ b = 'm') → ¬ (a = 'c' ∧ b = 'm')
          → ¬ (a = 'p' ∧ b = 'c') → b ≠ '%'
          → getCoordLength N (m ++ [a, b]) size = N.getFloatValue (m ++ [a, b])) := by
  refine ⟨?_, ?_, ?_, ?_, ?_⟩
  · rw [getCoordLength_last_two N m _ _ size hm]; simp
  · rw [getCoordLength_last_two N m _ _ size hm]; simp
  · rw [getCoordLength_last_two N m _ _ size hm]; simp
  · rw [getCoordLength_last_two N m _ _ size hm]; simp
  · intro a b h1 h2 h3 h4 h5
    rw [getCoordLength_last_two N m _ _ size hm]
    simp only [h1, h2, h3, h4, h5, if_false]

/-- C15, amended, at the magnitudes `1` and `2`: `1in` is 96, `2cm` is 2 * 96 / 2.54 and
`1px` is 1, at the reference size 50. -/
theorem getCoordLength_units_witness :
    getCoordLength exactOps "1in".toList (50 : ℚ) = (96 : ℚ)
      ∧ getCoordLength exactOps "2cm".toList (50 : ℚ) = (9600 / 127 : ℚ)
      ∧ getCoordLength exactOps "1px".toList (50 : ℚ) = (1 : ℚ) := by
  have h1 := getCoordLength_units exactOps "1".toList (50 : ℚ) (by decide)
  have h2 := getCoordLength_units exactOps "2".toList (50 : ℚ) (by decide)
  refine ⟨h1.1.trans ?_, h2.2.2.1.trans ?_,
    (h1.2.2.2.2 'p' 'x' (by decide) (by decide) (by decide) (by decide) (by decide)).trans ?_⟩
  · with_unfolding_all rfl
  · with_unfolding_all rfl
  · with_unfolding_all rfl

end SVGState

end Juce

namespace Juce

namespace SVGState

variable {N : FloatOps}

/-- C16: the value that `getStyleAttribute` takes from an inline style can be that of
another property. With `fill="red"` and `style="fill:blue"` the result for `fill` is `red`
and with `style="fill:blue"` alone it is `blue`, as the claim has it; but with
`style="pointer-events:fill;stroke:red;fill:blue"` and no direct attribute, the inline
style declares `fill` with the value `blue` and the result is `red`, the value of
`stroke`. -/
theorem getStyleAttribute_inline_style_other_property :
    (styleState "").getStyleAttribute
        ⟨element "rect" [("fill", "red"), ("style", "fill:blue")] [] "", []⟩
        "fill".toList [] = "red".toList
      ∧ (styleState "").getStyleAttribute
        ⟨element "rect" [("style", "fill:blue")] [] "", []⟩
        "fill".toList [] = "blue".toList
      ∧ (styleState "").getStyleAttribute
        ⟨element "rect" [("style", "pointer-events:fill;stroke:red;fill:blue")] [] "", []⟩
        "fill".toList [] = "red".toList := by
  decide

/-- C17 as stated fails: the element has no `fill` attribute, its inline style
`stroke:red` does not declare `fill`, and its class `a` has the block `.a { fill: green; }`
in the style text, yet the result for `fill` is the default and not `green`; without the
style attribute the same element gets `green`. -/
theorem getStyleAttribute_class_not_consulted_after_style :
    (styleState ".a { fill: green; }").getStyleAttribute
        ⟨element "rect" [("style", "stroke:red"), ("class", "a")] [] "", []⟩
        "fill".toList "none".toList = "none".toList
      ∧ (styleState ".a { fill: green; }").getStyleAttribute
        ⟨element "rect" [("class", "a")] [] "", []⟩
        "fill".toList "none".toList = "green".toList := by
  decide

/-- C17, amended: for an element that has no direct attribute for the property and whose
inline style attribute is present and non-empty but yields no value for the property,
`getStyleAttribute` does not consult the class layer: the result is that of the same
lookup on the parent, or the default when there is no parent, whatever the class attribute
of the element and the style text are. -/
theorem getStyleAttribute_style_without_property (self : SVGState N) (xml : XmlElement)
    (parents : List XmlElement) (attributeName defaultValue : List Char)
    (hatt : xml.hasAttribute attributeName = false)
    (hstyle : xml.getStringAttribute "style".toList [] ≠ [])
    (hmiss : getAttributeFromStyleList (xml.getStringAttribute "style".toList [])
      attributeName [] = []) :
    self.getStyleAttribute ⟨xml, parents⟩ attributeName defaultValue
      = match (XmlPath.mk xml parents).parent with
        | none => defaultValue
        | some p => self.getStyleAttribute p attributeName defaultValue := by
  have hne : (xml.getStringAttribute "style".toList []).isEmpty = false := by
    cases hs : xml.getStringAttribute "style".toList [] with
    | nil => exact absurd hs hstyle
    | cons a l => rfl
  have hown : self.ownStyleAttribute xml attributeName defaultValue = none := by
    unfold ownStyleAttribute
    simp only [hatt, Bool.false_eq_true, if_false, hne, Bool.not_false, if_true, hmiss,
      List.isEmpty_nil, Bool.not_true]
  cases parents with
  | nil =>
    simp only [getStyleAttribute, getStyleAttributeFrom, hown, XmlPath.parent]
    rfl
  | cons p ps =>
    simp only [getStyleAttribute, getStyleAttributeFrom, hown, XmlPath.parent]

/-- C17, amended, at an element with `style="stroke:red"` and `class="a"` below a group
with `fill="blue"`: the result is the value of the group, not that of the class block. -/
theorem getStyleAttribute_style_without_property_witness :
    (styleState ".a { fill: green; }").getStyleAttribute
        ⟨element "rect" [("style", "stroke:red"), ("class", "a")] [] "",
          [element "g" [("fill", "blue")] [] ""]⟩
        "fill".toList "none".toList = "blue".toList :=
  (getStyleAttribute_style_without_property (styleState ".a { fill: green; }")
    (element "rect" [("style", "stroke:red"), ("class", "a")] [] "")
    [element "g" [("fill", "blue")] [] ""] "fill".toList "none".toList
    (by decide) (by decide) (by decide)).trans (by decide)

/-- C18: a non-empty default is returned although an ancestor supplies the property. The
element has the class `a`, whose block `.a { fill: red; }` lacks `stroke-width`, and its
parent has `stroke-width="3"`: with the default `1` the result for `stroke-width` is `1`,
where the claim has `3`; with an empty default, or without the class attribute, it is
`3`. -/
theorem getStyleAttribute_default_before_ancestor :
    (styleState ".a { fill: red; }").getStyleAttribute
        ⟨element "rect" [("class", "a")] [] "", [element "g" [("stroke-width", "3")] [] ""]⟩
        "stroke-width".toList "1".toList = "1".toList
      ∧ (styleState ".a { fill: red; }").getStyleAttribute
        ⟨element "rect" [("class", "a")] [] "", [element "g" [("stroke-width", "3")] [] ""]⟩
        "stroke-width".toList [] = "3".toList
      ∧ (styleState ".a { fill: red; }").getStyleAttribute
        ⟨element "rect" [] [] "", [element "g" [("stroke-width", "3")] [] ""]⟩
        "stroke-width".toList "1".toList = "3".toList := by
  decide

/-- C19 as stated fails: with `class="a"` and the style text
`.A { fill: red; } .a { fill: green; }` the first block whose selector is `.a` gives
`green`, but the result is `red`, from the block of `.A`. -/
theorem getStyleAttribute_class_other_case :
    (styleState ".A { fill: red; } .a { fill: green; }").getStyleAttribute
        ⟨element "rect" [("class", "a")] [] "", []⟩ "fill".toList [] = "red".toList := by
  decide

/-- C19, amended: for an element with a class attribute, no direct attribute for the
property and no (or an empty) style attribute, let the style text read: a text in which no
point starts a selector of the class, a point, a name that equals the class name up to the
case of its letters, white space (possibly none), possibly a comma with a text without an
opening brace, and a block in braces from which `getAttributeFromStyleList` gets a
non-empty value. Then the result of `getStyleAttribute` is that value. A point that is
followed by a text as long as the class name and then by a character that is neither white
space, `{` nor `,` starts no block for the class: `findStyleItem` goes on from the
character after the point. -/
theorem getStyleAttribute_class_block (self : SVGState N) (xml : XmlElement)
    (parents : List XmlElement) (attributeName defaultValue : List Char)
    (pre sel ws gap body post : List Char)
    (hatt : xml.hasAttribute attributeName = false)
    (hstyle : xml.getStringAttribute "style".toList [] = [])
    (hclass : xml.hasAttribute "class".toList = true)
    (hcss : self.cssStyleText
      = pre ++ '.' :: (sel ++ (ws ++ (gap ++ '{' :: (body ++ '}' :: post)))))
    (hpre : noSelectorBefore (xml.getStringAttribute "class".toList []) pre
      ('.' :: (sel ++ (ws ++ (gap ++ '{' :: (body ++ '}' :: post))))) = true)
    (hlen : sel.length = (xml.getStringAttribute "class".toList []).length)
    (hup : sel.map toUpperCase
      = (xml.getStringAttribute "class".toList []).map toUpperCase)
    (hws : ws.all isWhitespace = true)
    (hgap : gap = [] ∨ (cur gap = ',' ∧ ∀ c ∈ gap, c ≠ '{'))
    (hbody : ∀ c ∈ body, c ≠ '}')
    (hval : getAttributeFromStyleList body attributeName defaultValue ≠ []) :
    self.getStyleAttribute ⟨xml, parents⟩ attributeName defaultValue
        = getAttributeFromStyleList body attributeName defaultValue
      ∧ ∀ (x : Char) (rest : List Char), isWhitespace x = false → x ≠ '{' → x ≠ ',' →
          findStyleItem ('.' :: (sel ++ x :: rest))
              (xml.getStringAttribute "class".toList [])
            = findStyleItem (sel ++ x :: rest) (xml.getStringAttribute "class".toList []) := by
  have hloop := classLoop_first_block xml attributeName defaultValue self.cssStyleText.length
    pre sel ws gap body post hpre hlen hup hws hgap hbody hval
  rw [← hcss] at hloop
  have hown : self.ownStyleAttribute xml attributeName defaultValue
      = some (getAttributeFromStyleList body attributeName defaultValue) := by
    unfold ownStyleAttribute
    simp only [hatt, Bool.false_eq_true, if_false, hstyle, List.isEmpty_nil, Bool.not_true,
      hclass, if_true]
    exact hloop
  refine ⟨?_, fun x rest hx hb hc => findStyleItem_longer_name sel _ rest x hlen hx hb hc⟩
  cases parents with
  | nil => simp only [getStyleAttribute, getStyleAttributeFrom, hown, Option.getD_some]
  | cons p ps => simp only [getStyleAttribute, getStyleAttributeFrom, hown]

/-- C19, amended, at `class="a"` and the style text
`.ax { fill: red; } .a { fill: green; }`: the block of `.ax` is passed and the result for
`fill` is `green`. -/
theorem getStyleAttribute_class_block_witness :
    (styleState ".ax { fill: red; } .a { fill: green; }").getStyleAttribute
        ⟨element "rect" [("class", "a")] [] "", []⟩ "fill".toList [] = "green".toList :=
  (getStyleAttribute_class_block (styleState ".ax { fill: red; } .a { fill: green; }")
    (element "rect" [("class", "a")] [] "") [] "fill".toList []
    ".ax { fill: red; } ".toList "a".toList " ".toList [] " fill: green; ".toList []
    (by decide) (by decide) (by decide) (by decide) (by decide) (by decide) (by decide)
    (by decide) (by decide) (by decide) (by decide)).1.trans (by decide)

end SVGState

end Juce

namespace Juce

namespace SVGState

variable {N : FloatOps}

/-- C20 as stated fails: in a document with a `rect` of class `a` followed by the `style`
element with `.a { fill: green; }`, the `rect` is parsed with an empty style text and its
`fill` is the default; the same holds when the `style` element lies inside an earlier
group that has a `transform` attribute. Only with the `style` element before the `rect`,
in the same group, is the `fill` of the `rect` `green`. The lists give each element handed
to `parseSubElement` with the value of `getStyleAttribute` for `fill` and default
`none`. -/
theorem createFromSVG_style_after_or_in_transformed_group :
    (createFromSVG exactOps
        (element "svg" [] [element "rect" [("class", "a")] [] "",
          element "style" [] [] ".a { fill: green; }"] "")).map
          (fun v => (v.tag, v.style "fill".toList "none".toList))
        = [("rect".toList, "none".toList), ("style".toList, "none".toList)]
      ∧ (createFromSVG exactOps
        (element "svg" []
          [element "g" [("transform", "scale(2)")]
            [element "style" [] [] ".a { fill: green; }"] "",
           element "rect" [("class", "a")] [] ""] "")).map
          (fun v => (v.tag, v.style "fill".toList "none".toList))
        = [("g".toList, "none".toList), ("style".toList, "none".toList),
           ("rect".toList, "none".toList)]
      ∧ (createFromSVG exactOps
        (element "svg" [] [element "style" [] [] ".a { fill: green; }",
          element "rect" [("class", "a")] [] ""] "")).map
          (fun v => (v.tag, v.style "fill".toList "none".toList))
        = [("style".toList, "none".toList), ("rect".toList, "green".toList)] := by
  decide

/-- C20, amended: the style text in which `getStyleAttribute` looks for the class of an
element is the one the parser holds when the element is parsed. Among the children of an
element, a `style` element puts its text, followed by a line end, in front of the style
text of the parser, and the children after it are parsed with that text; the calls for the
first children do not depend on the children that follow, so a `style` element that comes
later is not seen; and a group with a `transform` attribute is parsed by a copy of the
parser, so the children after the group are parsed with the style text from before the
group, whatever `style` elements the group holds. -/
theorem parseSubElements_style_text (self : SVGState N) (parents : List XmlElement)
    (style group : XmlElement) (pre post : List XmlElement)
    (hstyle : style.getTagNameWithoutNamespace = "style".toList)
    (hgroup : group.getTagNameWithoutNamespace = "g".toList)
    (htransform : group.hasAttribute "transform".toList = true) :
    parseSubElements self parents (style :: post)
        = (⟨self, ⟨style, parents⟩⟩ :: (parseSubElements (self.parseCSSStyle style) parents post).1,
           (parseSubElements (self.parseCSSStyle style) parents post).2)
      ∧ (self.parseCSSStyle style).cssStyleText
        = style.getAllSubText ++ "\n".toList ++ self.cssStyleText
      ∧ (parseSubElements self parents (pre ++ post)).1
        = (parseSubElements self parents pre).1
          ++ (parseSubElements (parseSubElements self parents pre).2 parents post).1
      ∧ parseSubElements self parents (group :: post)
        = ((parseSubElement self parents group).1 ++ (parseSubElements self parents post).1,
           (parseSubElements self parents post).2) := by
  refine ⟨?_, rfl, ?_, ?_⟩
  · rw [parseSubElements, parseSubElement_style self parents style hstyle]
    rfl
  · rw [parseSubElements_append]
  · rw [parseSubElements, parseSubElement_group_transform self parents group hgroup htransform]

/-- C20, amended, at the `style` element with `.a { fill: green; }` and a group with a
`transform` attribute that holds it: after the `style` element the style text of the
parser is that text and a line end, and after the group it is empty as before. -/
theorem parseSubElements_style_text_witness :
    ((initial exactOps).parseCSSStyle
        (element "style" [] [] ".a { fill: green; }")).cssStyleText
        = ".a { fill: green; }\n".toList
      ∧ (parseSubElements (initial exactOps) []
          [element "g" [("transform", "scale(2)")]
            [element "style" [] [] ".a { fill: green; }"] "",
           element "rect" [("class", "a")] [] ""]).2.cssStyleText = [] := by
  have h := parseSubElements_style_text (initial exactOps) []
    (element "style" [] [] ".a { fill: green; }")
    (element "g" [("transform", "scale(2)")]
      [element "style" [] [] ".a { fill: green; }"] "")
    [element "rect" [("class", "a")] [] ""] [element "rect" [("class", "a")] [] ""]
    (by decide) (by decide) (by decide)
  refine ⟨h.2.1.trans (by decide), ?_⟩
  rw [h.2.2.2]
  decide

end SVGState

end Juce

namespace Juce

namespace SVGState

variable {N : FloatOps}

/-- C21: `getInheritedAttribute` returns the value of the element's own attribute
when the element has the attribute, otherwise the result of the same lookup on its parent,
and the empty string when there is no parent. For a name other than `style` and `class`
its result is the same on any two parsers, whatever their style texts, and any two paths
that differ only in the `style` and `class` attributes of their elements. The parser calls
the method with the names `x`, `y`, `dx` and `dy` only. -/
theorem getInheritedAttribute_direct_only (self other : SVGState N) (a b : XmlPath)
    (attributeName : List Char)
    (hstyle : attributeName ≠ "style".toList) (hclass : attributeName ≠ "class".toList)
    (hsame : a.sameButStyle b) :
    self.getInheritedAttribute a attributeName
        = (if a.xml.hasAttribute attributeName then
            a.xml.getStringAttribute attributeName []
          else
            match a.parent with
            | none => []
            | some p => self.getInheritedAttribute p attributeName)
      ∧ self.getInheritedAttribute a attributeName
        = other.getInheritedAttribute b attributeName := by
  refine ⟨?_, ?_⟩
  · cases a with
    | mk xml parents =>
      cases parents with
      | nil => simp only [getInheritedAttribute, getInheritedAttributeFrom, XmlPath.parent]
      | cons p ps =>
        simp only [getInheritedAttribute, getInheritedAttributeFrom, XmlPath.parent]
  · exact getInheritedAttributeFrom_otherAttributes attributeName hstyle hclass
      a.parents b.parents a.xml b.xml hsame

/-- C21 at a `text` element without `x` below a group with `x="5"`, against the
same elements with `style` and `class` attributes added, on a parser with another style
text: the result for `x` is `5` in both. -/
theorem getInheritedAttribute_direct_only_witness :
    exampleState.getInheritedAttribute
        ⟨element "text" [] [] "", [element "g" [("x", "5")] [] ""]⟩ "x".toList
        = "5".toList
      ∧ (styleState ".a { x: 7; }").getInheritedAttribute
        ⟨element "text" [("style", "x:9"), ("class", "a")] [] "",
          [element "g" [("style", "x:8"), ("x", "5")] [] ""]⟩ "x".toList
        = "5".toList := by
  have h := getInheritedAttribute_direct_only exampleState (styleState ".a { x: 7; }")
    ⟨element "text" [] [] "", [element "g" [("x", "5")] [] ""]⟩
    ⟨element "text" [("style", "x:9"), ("class", "a")] [] "",
      [element "g" [("style", "x:8"), ("x", "5")] [] ""]⟩
    "x".toList (by decide) (by decide) (by unfold XmlPath.sameButStyle; decide)
  have h1 : exampleState.getInheritedAttribute
      ⟨element "text" [] [] "", [element "g" [("x", "5")] [] ""]⟩ "x".toList
      = "5".toList := by decide
  exact ⟨h1, h.2.symm.trans h1⟩

end SVGState

end Juce

namespace Juce

namespace SVGState

variable {N : FloatOps}

/-- C28: a polyline of one point is closed only when that point is the origin. For the
points list `5,5` and `isPolyline` true, `parsePolygon` gives the move to (5,5) and no
close, where the claim has a close, the one point being first and last; for the list `0,0`
it gives a close. With `isPolyline` false the list `5,5` is closed, and a polyline of
several points is closed exactly when the last point equals the first. -/
theorem parsePolygon_single_point :
    exampleState.parsePolygon ⟨element "polyline" [("points", "5,5")] [] "", []⟩ true []
        = [PathElement.moveTo ⟨(5 : ℚ), (5 : ℚ)⟩]
      ∧ exampleState.parsePolygon ⟨element "polyline" [("points", "0,0")] [] "", []⟩ true []
        = [PathElement.moveTo ⟨(0 : ℚ), (0 : ℚ)⟩, PathElement.close]
      ∧ exampleState.parsePolygon ⟨element "polygon" [("points", "5,5")] [] "", []⟩ false []
        = [PathElement.moveTo ⟨(5 : ℚ), (5 : ℚ)⟩, PathElement.close]
      ∧ exampleState.parsePolygon
          ⟨element "polyline" [("points", "5,5 7,7 5,5")] [] "", []⟩ true []
        = [PathElement.moveTo ⟨(5 : ℚ), (5 : ℚ)⟩, PathElement.lineTo ⟨(7 : ℚ), (7 : ℚ)⟩,
           PathElement.lineTo ⟨(5 : ℚ), (5 : ℚ)⟩, PathElement.close]
      ∧ exampleState.parsePolygon
          ⟨element "polyline" [("points", "5,5 7,7")] [] "", []⟩ true []
        = [PathElement.moveTo ⟨(5 : ℚ), (5 : ℚ)⟩, PathElement.lineTo ⟨(7 : ℚ), (7 : ℚ)⟩] := by
  refine ⟨?_, ?_, ?_, ?_, ?_⟩
  · with_unfolding_all rfl
  · with_unfolding_all rfl
  · with_unfolding_all rfl
  · with_unfolding_all rfl
  · with_unfolding_all rfl

end SVGState

end Juce

namespace Juce

namespace SVGState

/-- C29: in exact arithmetic on an ordered field, with a circle constant above 0, an arc
cosine whose values on the numbers from -1 to 1 lie between 0 and the circle constant, and
an `fmod` that leaves a number of smaller magnitude than the divisor as it is, the
`deltaAngle` of `endpointToCentreParameters` is at least 0 and below a full turn when
`sweep` is true, and above minus a full turn and at most 0 when `sweep` is false, for all
end points, radii and angles. -/
theorem endpointToCentreParameters_deltaAngle_range {R : Type} [LinearOrderedField R]
    (fns : Functions R) (x1 y1 x2 y2 angle rx ry : R) (largeArc sweep : Bool)
    (hpi : 0 < fns.pi)
    (hacos : ∀ v : R, -1 ≤ v → v ≤ 1 → 0 ≤ fns.acos v ∧ fns.acos v ≤ fns.pi)
    (hfmod : ∀ x m : R, 0 < m → -m < x → x < m → fns.fmod x m = x) :
    (sweep = true →
        0 ≤ (endpointToCentreParameters (fieldMath R fns) x1 y1 x2 y2 angle
              largeArc sweep rx ry).deltaAngle
        ∧ (endpointToCentreParameters (fieldMath R fns) x1 y1 x2 y2 angle
              largeArc sweep rx ry).deltaAngle < 2 * fns.pi)
      ∧ (sweep = false →
        -(2 * fns.pi) < (endpointToCentreParameters (fieldMath R fns) x1 y1 x2 y2 angle
              largeArc sweep rx ry).deltaAngle
        ∧ (endpointToCentreParameters (fieldMath R fns) x1 y1 x2 y2 angle
              largeArc sweep rx ry).deltaAngle ≤ 0) := by
  unfold endpointToCentreParameters
  simp only [Nat.cast_one, Nat.cast_ofNat, pow_zero, div_one]
  exact fmod_sweepAngle_range fns sweep _ _ hpi hacos hfmod

/-- C29 at the arc from (0,0) to (10,10) with both radii 10, no rotation, `largeArc` false
and `sweep` true, with the functions for examples: `deltaAngle` is at least 0 and below a
full turn, and it is the quarter turn 355/226. -/
theorem endpointToCentreParameters_deltaAngle_range_witness :
    (0 ≤ (endpointToCentreParameters (fieldMath ℚ exactFunctions) (0 : ℚ) 0 10 10 0
          false true 10 10).deltaAngle
        ∧ (endpointToCentreParameters (fieldMath ℚ exactFunctions) (0 : ℚ) 0 10 10 0
          false true 10 10).deltaAngle < 2 * exactFunctions.pi)
      ∧ (endpointToCentreParameters (fieldMath ℚ exactFunctions) (0 : ℚ) 0 10 10 0
          false true 10 10).deltaAngle = 355 / 226 := by
  refine ⟨(endpointToCentreParameters_deltaAngle_range exactFunctions (0 : ℚ) 0 10 10 0
    10 10 false true (by norm_num [exactFunctions])
    (fun v _ _ => exactFunctions_acos_range v) exactFunctions_fmod_small).1 rfl, ?_⟩
  with_unfolding_all rfl

end SVGState

end Juce

namespace Juce

namespace SVGState

/-- C22: for every arithmetic, every non-empty list `a` of well-formed tokens, every
well-formed token `b` and every white space `ws` between them, `parseTransform` of the
text of `a`, `ws` and `b` is the transform of `b` followed by `parseTransform` of the text
of `a`: the token parsed last is put in front (`result = trans.followedBy (result)`), so
that the token listed first is applied last to a point. `parseTransform` of `b` alone is
the transform of `b` followed by the identity; when that is the transform of `b` itself,
as it is for finite numbers, the result for the list `A B` is `parseTransform` of `B`
followed by `parseTransform` of `A`. And `parseTransform` of the text of `a` is what
results when the transform of each token in turn is put in front of the result so far,
starting from the identity. -/
theorem parseTransform_list_order {N : FloatOps} (M : MathOps N)
    (a : List TransformText) (b : TransformText) (ws : List Char) (hne : a ≠ [])
    (ha : ∀ t ∈ a, t.wellFormed = true) (hb : b.wellFormed = true)
    (hws : ws.all isWhitespace = true) :
    parseTransform M (transformListText a ++ ws ++ b.chars)
        = (b.transform M).followedBy (parseTransform M (transformListText a))
      ∧ parseTransform M b.chars = (b.transform M).followedBy AffineTransform.identity
      ∧ ((b.transform M).followedBy AffineTransform.identity = b.transform M →
          parseTransform M (transformListText a ++ ws ++ b.chars)
            = (parseTransform M b.chars).followedBy
                (parseTransform M (transformListText a)))
      ∧ parseTransform M (transformListText a)
        = composeTokens M a AffineTransform.identity := by
  obtain ⟨a2, h2, e2, c2⟩ := transformListText_space M ws hws a hne ha
  have hall : ∀ t ∈ a2 ++ [b], t.wellFormed = true := by
    intro t ht
    rcases List.mem_append.mp ht with ht | ht
    · exact h2 t ht
    · rw [List.mem_singleton.mp ht]; exact hb
  have hb1 : ∀ t ∈ [b], t.wellFormed = true := by
    intro t ht
    rw [List.mem_singleton.mp ht]; exact hb
  have hbt : transformListText [b] = b.chars := by
    simp only [transformListText, List.append_nil]
  have h1 : parseTransform M (transformListText a ++ ws ++ b.chars)
      = (b.transform M).followedBy (parseTransform M (transformListText a)) := by
    rw [← e2, ← hbt, ← transformListText_append, parseTransform_tokens M _ hall,
      parseTransform_tokens M a ha, composeTokens_append, c2]
    rfl
  have h3 : parseTransform M b.chars
      = (b.transform M).followedBy AffineTransform.identity := by
    rw [← hbt, parseTransform_tokens M _ hb1]
    rfl
  refine ⟨h1, h3, fun hid => ?_, parseTransform_tokens M a ha⟩
  rw [h1, h3, hid]

set_option maxRecDepth 100000 in
/-- C22 at the tokens `translate(10,0)` and `scale(2)` with a space between them, on the
rational numbers and in the arithmetic of `float`: the result maps `x` to `2 x + 10`, the
scale first and the translation last, and it is `parseTransform` of `scale(2)` followed by
that of `translate(10,0)`. -/
theorem parseTransform_list_order_witness :
    (parseTransform (fieldMath ℚ exactFunctions) "translate(10,0) scale(2)".toList
        = (parseTransform (fieldMath ℚ exactFunctions) "scale(2)".toList).followedBy
            (parseTransform (fieldMath ℚ exactFunctions) "translate(10,0)".toList)
      ∧ parseTransform (fieldMath ℚ exactFunctions) "translate(10,0) scale(2)".toList
        = ⟨(2 : ℚ), (0 : ℚ), (10 : ℚ), (0 : ℚ), (2 : ℚ), (0 : ℚ)⟩)
      ∧ parseTransform (binaryMath 24) "translate(10,0) scale(2)".toList
        = (parseTransform (binaryMath 24) "scale(2)".toList).followedBy
            (parseTransform (binaryMath 24) "translate(10,0)".toList)
      ∧ parseTransform (binaryMath 24) "translate(10,0) scale(2)".toList
        = ⟨(2 : ℚ), (0 : ℚ), (10 : ℚ), (0 : ℚ), (2 : ℚ), (0 : ℚ)⟩ := by
  have h := (parseTransform_list_order (fieldMath ℚ exactFunctions)
    [⟨"translate".toList, "10,0".toList, []⟩] ⟨"scale".toList, "2".toList, []⟩
    " ".toList (List.cons_ne_nil _ _) (by decide) (by decide) (by decide)).2.2.1
    (by with_unfolding_all rfl)
  have hb := (parseTransform_list_order (binaryMath 24)
    [⟨"translate".toList, "10,0".toList, []⟩] ⟨"scale".toList, "2".toList, []⟩
    " ".toList (List.cons_ne_nil _ _) (by decide) (by decide) (by decide)).2.2.1
    (by with_unfolding_all rfl)
  refine ⟨⟨h, ?_⟩, hb, ?_⟩
  · with_unfolding_all rfl
  · with_unfolding_all rfl

/-- C23 as stated fails: on the rational numbers `translate(10,0),scale(2)` and
`translate(10,0), scale(2)` give the translation alone, while `translate(10,0) scale(2)`
gives the scale followed by the translation. -/
theorem parseTransform_comma_drops_token :
    parseTransform (fieldMath ℚ exactFunctions) "translate(10,0),scale(2)".toList
        = ⟨(1 : ℚ), (0 : ℚ), (10 : ℚ), (0 : ℚ), (1 : ℚ), (0 : ℚ)⟩
      ∧ parseTransform (fieldMath ℚ exactFunctions) "translate(10,0), scale(2)".toList
        = ⟨(1 : ℚ), (0 : ℚ), (10 : ℚ), (0 : ℚ), (1 : ℚ), (0 : ℚ)⟩
      ∧ parseTransform (fieldMath ℚ exactFunctions) "translate(10,0) scale(2)".toList
        = ⟨(2 : ℚ), (0 : ℚ), (10 : ℚ), (0 : ℚ), (2 : ℚ), (0 : ℚ)⟩
      ∧ (⟨(1 : ℚ), (0 : ℚ), (10 : ℚ), (0 : ℚ), (1 : ℚ), (0 : ℚ)⟩
          : AffineTransform (fieldOps ℚ exactFunctions))
        ≠ ⟨(2 : ℚ), (0 : ℚ), (10 : ℚ), (0 : ℚ), (2 : ℚ), (0 : ℚ)⟩ := by
  refine ⟨?_, ?_, ?_, ?_⟩
  · with_unfolding_all rfl
  · with_unfolding_all rfl
  · with_unfolding_all rfl
  · intro h
    have h1 : (1 : ℚ) = 2 := congrArg AffineTransform.mat00 h
    revert h1
    norm_num

/-- C23, amended: in exact arithmetic on an ordered field, a comma between transform
tokens is not taken as a separator: the token that follows a comma is not recognised and
adds nothing. For lists `a` and `c` of well-formed tokens, a well-formed token `b` and
white space `ws`, `parseTransform` of the text of `a`, a comma, `ws`, `b` and the text of
`c` equals `parseTransform` of the text of `a` and `c` without `b`; so for tokens `A` and
`B` the texts `A,B` and `A, B` give `parseTransform` of `A`. -/
theorem parseTransform_comma {R : Type} [LinearOrderedField R] (fns : Functions R)
    (a c : List TransformText) (b : TransformText) (ws : List Char)
    (ha : ∀ t ∈ a, t.wellFormed = true) (hb : b.wellFormed = true)
    (hc : ∀ t ∈ c, t.wellFormed = true) (hws : ws.all isWhitespace = true) :
    parseTransform (fieldMath R fns)
        (transformListText a ++ ',' :: (ws ++ (b.chars ++ transformListText c)))
      = parseTransform (fieldMath R fns) (transformListText (a ++ c)) := by
  have hall : ∀ t ∈ a ++ c, t.wellFormed = true := by
    intro t ht
    rcases List.mem_append.mp ht with ht | ht
    · exact ha t ht
    · exact hc t ht
  have hcur := transformListText_cur c hc
  have hlen : 0 < (',' :: (ws ++ (b.chars ++ transformListText c))).length := by simp
  rw [parseTransform_tokens _ _ hall]
  unfold parseTransform
  rw [parseTransformLoop_tokens (fieldMath R fns)
    (',' :: (ws ++ (b.chars ++ transformListText c)))
    (show isWhitespace ',' = false by decide) a _ _ ha (le_refl _)]
  rw [parseTransformLoop_fuel _ _ ((ws ++ (b.chars ++ transformListText c)).length + 1) _ _
    (by rw [List.length_append]; exact Nat.le_add_left _ _) (by simp)]
  rw [parseTransformLoop_comma _ _ ws b _ _ hws hb hcur, identity_followedBy]
  have h := parseTransformLoop_tokens (fieldMath R fns) [] rfl c
    (ws ++ (b.chars ++ transformListText c)).length
    (composeTokens (fieldMath R fns) a AffineTransform.identity) hc (by
      simp only [List.append_nil, List.length_append]
      omega)
  simp only [List.append_nil] at h
  rw [h, composeTokens_append]
  cases (ws ++ (b.chars ++ transformListText c)).length <;> simp [parseTransformLoop]

/-- C23, amended, at the tokens `translate(10,0)` and `scale(2)` on the rational numbers:
with a comma and a space between them the result is `parseTransform` of
`translate(10,0)`. -/
theorem parseTransform_comma_witness :
    parseTransform (fieldMath ℚ exactFunctions) "translate(10,0), scale(2)".toList
      = parseTransform (fieldMath ℚ exactFunctions) "translate(10,0)".toList :=
  parseTransform_comma exactFunctions [⟨"translate".toList, "10,0".toList, []⟩] []
    ⟨"scale".toList, "2".toList, []⟩ " ".toList (by decide) (by decide) (by decide)
    (by decide)

end SVGState

end Juce

namespace Juce

namespace SVGState

variable {N : FloatOps}

/-- C25: in exact arithmetic on an ordered field, with `ColourGradient::addColour` putting
a stop after the stops there are, for every gradient element for which at least one stop
is collected, with `first` the first and `last` the last stop collected: the stops of the
gradient of `getGradientFillType` include a stop at 0 with the colour of `first` and a
stop at 1 with the colour of `last`, and they begin with the stops collected, in their
order. The colours are taken at the opacity of the call. -/
theorem resolveStops_boundary_stops {R : Type} [LinearOrderedField R] (fns : Functions R)
    (self : SVGState (fieldOps R fns)) (C : ColourOps (fieldOps R fns))
    (topLevelXml fillXml : XmlPath) (opacity : R) (first last : R × C.Colour)
    (hfirst : (self.collectStops (fieldMath R fns) C topLevelXml fillXml).colours.head?
      = some first)
    (hlast : (self.collectStops (fieldMath R fns) C topLevelXml fillXml).colours.getLast?
      = some last) :
    ((0 : R), C.atOpacity (fieldMath R fns) opacity first.2)
        ∈ (self.resolveStops (fieldMath R fns) C topLevelXml fillXml opacity).colours
      ∧ ((1 : R), C.atOpacity (fieldMath R fns) opacity last.2)
        ∈ (self.resolveStops (fieldMath R fns) C topLevelXml fillXml opacity).colours
      ∧ (self.collectStops (fieldMath R fns) C topLevelXml fillXml).colours.map
          (fun c => (c.1, C.atOpacity (fieldMath R fns) opacity c.2))
        <+: (self.resolveStops (fieldMath R fns) C topLevelXml fillXml opacity).colours := by
  obtain ⟨h0, h1, hpre⟩ := padStops_ends fns C _ first last hfirst hlast
    (collectStops_positions fns self C topLevelXml fillXml)
  rw [resolveStops_colours]
  refine ⟨?_, ?_, ?_⟩
  · exact List.mem_map.mpr ⟨_, h0, rfl⟩
  · exact List.mem_map.mpr ⟨_, h1, rfl⟩
  · obtain ⟨rest, hrest⟩ := hpre
    rw [← hrest, List.map_append]
    exact List.prefix_append _ _

/-- C25 at a gradient with the stops `A` at 0.2 and `B` at 80%, at the opacity 1 on the
rational numbers: the stops are `A` at 1/5, `B` at 4/5, `A` at 0 and `B` at 1. -/
theorem resolveStops_boundary_stops_witness :
    (fieldState.resolveStops (fieldMath ℚ exactFunctions)
        (textColours (fieldOps ℚ exactFunctions)) emptyDocument
        ⟨element "linearGradient" []
          [element "stop" [("offset", "0.2"), ("stop-color", "A")] [] "",
           element "stop" [("offset", "80%"), ("stop-color", "B")] [] ""] "",
          [emptyDocument.xml]⟩ (1 : ℚ)).colours
        = [((1 / 5 : ℚ), ("A".toList, [(1 : ℚ)])), ((4 / 5 : ℚ), ("B".toList, [(1 : ℚ)])),
           ((0 : ℚ), ("A".toList, [(1 : ℚ)])), ((1 : ℚ), ("B".toList, [(1 : ℚ)]))]
      ∧ ((0 : ℚ), (textColours (fieldOps ℚ exactFunctions)).atOpacity
            (fieldMath ℚ exactFunctions) (1 : ℚ) ("A".toList, [(1 : ℚ)]))
        ∈ (fieldState.resolveStops (fieldMath ℚ exactFunctions)
          (textColours (fieldOps ℚ exactFunctions)) emptyDocument
          ⟨element "linearGradient" []
            [element "stop" [("offset", "0.2"), ("stop-color", "A")] [] "",
             element "stop" [("offset", "80%"), ("stop-color", "B")] [] ""] "",
            [emptyDocument.xml]⟩ (1 : ℚ)).colours := by
  refine ⟨by with_unfolding_all rfl, ?_⟩
  exact (resolveStops_boundary_stops exactFunctions fieldState
    (textColours (fieldOps ℚ exactFunctions)) emptyDocument
    ⟨element "linearGradient" []
      [element "stop" [("offset", "0.2"), ("stop-color", "A")] [] "",
       element "stop" [("offset", "80%"), ("stop-color", "B")] [] ""] "",
      [emptyDocument.xml]⟩ (1 : ℚ) ((1 / 5 : ℚ), ("A".toList, [(1 : ℚ)]))
    ((4 / 5 : ℚ), ("B".toList, [(1 : ℚ)]))
    (by with_unfolding_all rfl) (by with_unfolding_all rfl)).1

/-- C26: for a gradient element whose tag is not `radialGradient` and for which the two
points that `getGradientFillType` computes from `x1`, `y1` and from `x2`, `y2` compare
equal, the method returns a solid colour, the colour of the last of the stops of the
gradient. -/
theorem getGradientFillType_coinciding_points (self : SVGState N) (M : MathOps N)
    (C : ColourOps N) (topLevelXml : XmlPath) (transform : AffineTransform N)
    (fillXml : XmlPath) (pathBounds : Rectangle N) (opacity : N.F)
    (hlinear : (fillXml.xml.getTagNameWithoutNamespace == "radialGradient".toList) = false)
    (hsame : (self.gradientPoint fillXml pathBounds "x1".toList "0%".toList
        "y1".toList "0%".toList).eq
      (self.gradientPoint fillXml pathBounds "x2".toList "100%".toList
        "y2".toList "0%".toList) = true) :
    ∃ last : N.F × C.Colour,
      (self.resolveStops M C topLevelXml fillXml opacity).colours.getLast? = some last
        ∧ self.getGradientFillType M C topLevelXml transform fillXml pathBounds opacity
          = FillType.colour last.2 := by
  have hne := resolveStops_ne_nil self M C topLevelXml fillXml opacity
  refine ⟨(self.resolveStops M C topLevelXml fillXml opacity).colours.getLast hne,
    List.getLast?_eq_getLast _ hne, ?_⟩
  unfold getGradientFillType
  simp only [hlinear, Bool.false_eq_true, if_false, hsame, if_true]
  rw [getColour_last C _ _ (List.getLast?_eq_getLast _ hne)]

/-- C26 at a `linearGradient` element with `x2="0"` and the stops `A` at 0.2 and `B` at
80%, for a path with the bounds (0, 0, 100, 50), on the rational numbers: the fill is the
solid colour `B`. -/
theorem getGradientFillType_coinciding_points_witness :
    fieldState.getGradientFillType (fieldMath ℚ exactFunctions)
        (textColours (fieldOps ℚ exactFunctions)) emptyDocument AffineTransform.identity
        ⟨element "linearGradient" [("x2", "0")]
          [element "stop" [("offset", "0.2"), ("stop-color", "A")] [] "",
           element "stop" [("offset", "80%"), ("stop-color", "B")] [] ""] "",
          [emptyDocument.xml]⟩ ⟨(0 : ℚ), 0, 100, 50⟩ (1 : ℚ)
      = FillType.colour ("B".toList, [(1 : ℚ)]) := by
  obtain ⟨last, h1, h2⟩ := getGradientFillType_coinciding_points fieldState
    (fieldMath ℚ exactFunctions) (textColours (fieldOps ℚ exactFunctions)) emptyDocument
    AffineTransform.identity
    ⟨element "linearGradient" [("x2", "0")]
      [element "stop" [("offset", "0.2"), ("stop-color", "A")] [] "",
       element "stop" [("offset", "80%"), ("stop-color", "B")] [] ""] "",
      [emptyDocument.xml]⟩ ⟨(0 : ℚ), 0, 100, 50⟩ (1 : ℚ) (by decide)
    (by with_unfolding_all rfl)
  rw [h2]
  have h3 : (fieldState.resolveStops (fieldMath ℚ exactFunctions)
      (textColours (fieldOps ℚ exactFunctions)) emptyDocument
      ⟨element "linearGradient" [("x2", "0")]
        [element "stop" [("offset", "0.2"), ("stop-color", "A")] [] "",
         element "stop" [("offset", "80%"), ("stop-color", "B")] [] ""] "",
        [emptyDocument.xml]⟩ (1 : ℚ)).colours.getLast?
      = some ((1 : ℚ), ("B".toList, [(1 : ℚ)])) := by
    with_unfolding_all rfl
  rw [h3] at h1
  simp only [Option.some.injEq] at h1
  rw [← h1]

/-- C27: the radius of a radial gradient that is given as a plain fraction is not taken as
a fraction of the bounds. For a path with the bounds (0, 0, 100, 50) and no
`gradientUnits`, on the rational numbers, the centre is (50, 25) by the defaults of 50%;
with `r="0.5"` the second point is (50.5, 25), a radius of 0.5 where the claim has 50, and
with `r="50%"` it is (100, 25), a radius of 50. -/
theorem getGradientFillType_radius_plain_fraction :
    fieldState.getGradientFillType (fieldMath ℚ exactFunctions)
        (textColours (fieldOps ℚ exactFunctions)) emptyDocument AffineTransform.identity
        ⟨element "radialGradient" [("r", "0.5")] [] "", [emptyDocument.xml]⟩
        ⟨(0 : ℚ), 0, 100, 50⟩ (1 : ℚ)
        = FillType.gradient
            ⟨[((0 : ℚ), ("black".toList, [])), ((1 : ℚ), ("black".toList, []))], true,
              ⟨(50 : ℚ), (25 : ℚ)⟩, ⟨(101 / 2 : ℚ), (25 : ℚ)⟩⟩
            ⟨(1 : ℚ), (0 : ℚ), (0 : ℚ), (0 : ℚ), (1 : ℚ), (0 : ℚ)⟩
      ∧ fieldState.getGradientFillType (fieldMath ℚ exactFunctions)
        (textColours (fieldOps ℚ exactFunctions)) emptyDocument AffineTransform.identity
        ⟨element "radialGradient" [("r", "50%")] [] "", [emptyDocument.xml]⟩
        ⟨(0 : ℚ), 0, 100, 50⟩ (1 : ℚ)
        = FillType.gradient
            ⟨[((0 : ℚ), ("black".toList, [])), ((1 : ℚ), ("black".toList, []))], true,
              ⟨(50 : ℚ), (25 : ℚ)⟩, ⟨(100 : ℚ), (25 : ℚ)⟩⟩
            ⟨(1 : ℚ), (0 : ℚ), (0 : ℚ), (0 : ℚ), (1 : ℚ), (0 : ℚ)⟩ := by
  refine ⟨?_, ?_⟩
  · with_unfolding_all rfl
  · with_unfolding_all rfl

end SVGState

end Juce

namespace Juce

namespace SVGState

end SVGState

end Juce

namespace Juce

namespace XmlPath

/-- C32: `applyOperationToChildWithID` applies the operation to the first element, in
depth-first document order, among the proper descendants of the element of the path that
has the given id, and returns true; when no proper descendant has the id it applies the
operation to nothing and returns false. So the result is true exactly when some proper
descendant has the id, and the operation is applied to at most one element. The example is
a document in which a `rect` inside a group and a `circle` after the group both have the
id `x`: the operation is applied to the `rect`, with the group and the root as its
path. -/
theorem applyOperationToChildWithID_first_descendant (self : XmlPath) (id : List Char) :
    self.applyOperationToChildWithID id
        = self.descendants.find? (fun p => p.xml.compareAttribute "id".toList id)
      ∧ (self.applyOperationToChildWithID id).isSome
        = self.descendants.any (fun p => p.xml.compareAttribute "id".toList id)
      ∧ applyOperationToChildWithID
          ⟨element "svg" [("id", "x")]
            [element "g" [] [element "rect" [("id", "x")] [] ""] "",
             element "circle" [("id", "x")] [] ""] "", []⟩ "x".toList
        = some ⟨element "rect" [("id", "x")] [] "",
            [element "g" [] [element "rect" [("id", "x")] [] ""] "",
             element "svg" [("id", "x")]
              [element "g" [] [element "rect" [("id", "x")] [] ""] "",
               element "circle" [("id", "x")] [] ""] ""]⟩ := by
  have h : self.applyOperationToChildWithID id
      = self.descendants.find? (fun p => p.xml.compareAttribute "id".toList id) :=
    findInChildren_descendants id (self.xml :: self.parents) self.xml.children
  refine ⟨h, ?_, ?_⟩
  · rw [h, Bool.eq_iff_iff]
    simp only [List.find?_isSome, List.any_eq_true]
  · rfl

end XmlPath

end Juce

namespace Juce

namespace SVGState

/-- C33: a pass of the loop of `parsePathString` can move the cursor beyond the end of the
text, after which the test of the loop reads what lies behind the text. On the text `h`
the first pass consumes the letter, fails to read a number at the end of the text and
increments the cursor there; it does not leave the loop by `break`. The same happens on
`M1,1 hx,` in a pass that starts at the comma, and the run on `M0,0 H` ends in this way,
while the run on `M0,0 L` ends with the cursor at the end of the text. -/
theorem parsePathString_cursor_leaves_text :
    (exampleState.iteration (start [] "h".toList)).overrun = true
      ∧ (exampleState.iteration (start [] "h".toList)).carryOn = true
      ∧ (exampleState.run [] "M1,1 hx,".toList).overrun = true
      ∧ (exampleState.run [] "M1,1 hx,".toList).carryOn = true
      ∧ (exampleState.run [] "M0,0 H".toList).overrun = true
      ∧ (exampleState.run [] "M0,0 L".toList).overrun = false
      ∧ (exampleState.run [] "M0,0 L".toList).d = [] := by
  refine ⟨?_, ?_, ?_, ?_, ?_, ?_, ?_⟩
  · with_unfolding_all rfl
  · with_unfolding_all rfl
  · with_unfolding_all rfl
  · with_unfolding_all rfl
  · with_unfolding_all rfl
  · with_unfolding_all rfl
  · with_unfolding_all rfl

/-- C34: the increment of the cursor after a failed read in the cases `H`, `h`, `V` and
`v` is made at the end of the text as well. With the cursor at the end and the current
command `H` or `V`, `parseCoord` fails and the case increments the cursor beyond the end;
`parseCoordsOrSkip`, which the case `L` calls, leaves the cursor where it is. So the path
text `M0,0 H` of the claim, and `M0,0 V`, move the cursor beyond the end. -/
theorem caseHorizontal_increments_at_end :
    (exampleState.caseHorizontal
        { start [] "M0,0 H".toList with d := [], currentCommand := 'H' }).overrun = true
      ∧ (exampleState.caseVertical
        { start [] "M0,0 V".toList with d := [], currentCommand := 'V' }).overrun = true
      ∧ (exampleState.caseMoveLine
        { start [] "M0,0 L".toList with d := [], currentCommand := 'L' }).overrun = false
      ∧ (exampleState.parseCoordsOrSkip [] Point.origin false).2.2 = []
      ∧ (exampleState.run [] "M0,0 H".toList).overrun = true
      ∧ (exampleState.run [] "M0,0 V".toList).overrun = true
      ∧ (exampleState.run [] "M0,0 v ".toList).overrun = true := by
  refine ⟨?_, ?_, ?_, ?_, ?_, ?_, ?_⟩
  · with_unfolding_all rfl
  · with_unfolding_all rfl
  · with_unfolding_all rfl
  · with_unfolding_all rfl
  · with_unfolding_all rfl
  · with_unfolding_all rfl
  · with_unfolding_all rfl

/-- C35: `getAttributeFromStyleList` returns the value of another property when the name
occurs as a word in the value of an earlier declaration. For `fill` in the list
`font-family:fill; stroke:red` the result is `red`, the value of `stroke`, where the claim
has the default; for `stroke` in `stroke-width:2; stroke:red` the result is `red`, as the
claim has it. -/
theorem getAttributeFromStyleList_name_in_value :
    getAttributeFromStyleList "font-family:fill; stroke:red".toList "fill".toList
        "none".toList = "red".toList
      ∧ getAttributeFromStyleList "stroke-width:2; stroke:red".toList "stroke".toList
        "none".toList = "red".toList
      ∧ getAttributeFromStyleList "font-family:serif; stroke:red".toList "fill".toList
        "none".toList = "none".toList := by
  refine ⟨?_, ?_, ?_⟩
  · decide
  · decide
  · decide

end SVGState

end Juce

namespace Juce

namespace SVGState

/-- C36: in exact arithmetic on an ordered field, every list `l` of dash lengths that
`parseDashArray` sets is non-empty and has only lengths above zero. It has as many entries
as lengths were read from the text, and its entry at the index `i` is 0.001 where the
length read is zero or negative, the length read less 0.001 where that is above 0.001 and
the length read at the index `i xor 1` is zero or negative, and the length read otherwise.
The text is then neither `null` nor `none`, whatever the case of its letters, and a single
length read from it is above zero. The loop that reads the lengths needs no more passes
than the text has characters, and one. -/
theorem parseDashArray_lengths {R : Type} [LinearOrderedField R] (fns : Functions R)
    (self : SVGState (fieldOps R fns)) (dashList : List Char) (l : List R)
    (h : self.parseDashArray (fieldMath R fns) dashList = some l) :
    l ≠ [] ∧ (∀ x ∈ l, 0 < x)
      ∧ l.length = (self.dashLengthsRead dashList).length
      ∧ (∀ i, i < l.length → l.getD i 0 = expectedDash (self.dashLengthsRead dashList) i)
      ∧ equalsIgnoreCase dashList "null".toList = false
      ∧ equalsIgnoreCase dashList "none".toList = false
      ∧ (∀ v : R, self.dashLengthsRead dashList = [v] → 0 < v)
      ∧ (∀ m, dashList.length < m →
          self.dashValues m dashList [] = self.dashLengthsRead dashList) := by
  unfold parseDashArray at h
  by_cases hnone : (equalsIgnoreCase dashList "null".toList
      || equalsIgnoreCase dashList "none".toList) = true
  · rw [if_pos hnone] at h
    exact absurd h (by simp)
  rw [if_neg hnone] at h
  simp only [Bool.or_eq_true, not_or, Bool.not_eq_true] at hnone
  by_cases hlen : 0 < (self.dashLengthsRead dashList).length
  swap
  · simp only [hlen, if_false] at h
    exact absurd h (by simp)
  simp only [hlen, if_true] at h
  have hsingle : ∀ v : R, self.dashLengthsRead dashList = [v] → 0 < v := by
    intro v hv
    by_contra hneg
    rw [hv] at h
    rw [show ([v] : List R).length = 1 from rfl,
      dashLoop_single fns v (not_lt.mp hneg)] at h
    exact absurd h (by simp)
  have hsingle2 : (self.dashLengthsRead dashList).length = 1 →
      0 < (self.dashLengthsRead dashList).getD 0 (0 : R) := by
    intro h1
    obtain ⟨v, hv⟩ := List.length_eq_one.mp h1
    rw [hv]
    exact hsingle v hv
  obtain ⟨l2, e1, e2, e3⟩ := dashLoop_getD fns (self.dashLengthsRead dashList) hsingle2
    (self.dashLengthsRead dashList).length 0 (self.dashLengthsRead dashList) (by omega) rfl
    (fun j _ => by
      unfold dashAfter
      simp only [Nat.not_lt_zero, false_and, if_false])
  rw [e1] at h
  have hl : l2 = l := Option.some.inj h
  subst hl
  have hget : ∀ i, i < l2.length →
      l2.getD i 0 = expectedDash (self.dashLengthsRead dashList) i := by
    intro i hi
    rw [e3 i (by omega), dashAfter_length _ _ (by omega)]
  refine ⟨?_, ?_, e2, hget, hnone.1, hnone.2, hsingle, ?_⟩
  · intro hnil
    rw [hnil] at e2
    simp only [List.length_nil] at e2
    omega
  · intro x hx
    obtain ⟨i, hi, hxi⟩ := List.getElem_of_mem hx
    have := hget i hi
    rw [List.getD_eq_getElem _ _ hi, hxi] at this
    rw [this]
    exact expectedDash_pos _ _
  · intro m hm
    exact dashValues_fuel self m dashList [] hm (dashList.length + 1) (by omega)

/-- C36 at the text `5 0 -1, 3 0` on the rational numbers: the lengths read are 5, 0, -1, 3
and 0, and the lengths set are 4.999, 0.001, 0.001, 2.999 and 0.001; they are above
zero. -/
theorem parseDashArray_lengths_witness :
    fieldState.parseDashArray (fieldMath ℚ exactFunctions) "5 0 -1, 3 0".toList
        = some [(4999 / 1000 : ℚ), 1 / 1000, 1 / 1000, 2999 / 1000, 1 / 1000]
      ∧ fieldState.dashLengthsRead "5 0 -1, 3 0".toList = [(5 : ℚ), 0, -1, 3, 0]
      ∧ ∀ x ∈ [(4999 / 1000 : ℚ), 1 / 1000, 1 / 1000, 2999 / 1000, 1 / 1000], 0 < x := by
  have h : fieldState.parseDashArray (fieldMath ℚ exactFunctions) "5 0 -1, 3 0".toList
      = some [(4999 / 1000 : ℚ), 1 / 1000, 1 / 1000, 2999 / 1000, 1 / 1000] := by
    with_unfolding_all rfl
  exact ⟨h, by with_unfolding_all rfl,
    (parseDashArray_lengths exactFunctions fieldState "5 0 -1, 3 0".toList _ h).2.1⟩

end SVGState

end Juce
